import Mathlib

/-!
The protobuf wire codec of `models/models.pb.go`.

A shallow embedding of the generated gogo-protobuf codec for the messages
`Person` and `PhoneNumber`, and theorems about it.

Conventions of the embedding.

* A byte is a natural number; a byte slice or a Go string is a `List Nat`.
  Where the code converts to `uint8` the model reduces modulo `256`.
* A `nil` slice and an empty slice are both the empty list: the functions
  embedded here only ever take the length of `XXX_unrecognized`, copy it or
  append to it, and `bytes.Equal` does not tell the two apart.
* Go `int` is 64 bits wide.  Cursors into buffers are integers (`Int`), and
  every indexing or slicing operation checks its bounds and yields
  `Fault.panicIndex` when Go would panic.  Additions that the code guards with
  a sign test are wrapped to 64 bits (`addInt`).
* `Size` is a natural number: a record whose encoding is `2^63` bytes or more
  does not fit in memory, so the sum never wraps.
* Loops that are not structurally bounded carry a fuel argument; running out
  of fuel is the distinguished outcome `Fault.outOfFuel`, which the
  entry points are proved never to produce.
* `skipModels`, `Person.Unmarshal` and `PhoneNumber.Unmarshal` give what the
  code returns whenever it returns.  The recursion of `skipModels` for nested
  groups needs a stack frame per level and the goroutine stack is bounded;
  `skipModelsStack`, `Person.UnmarshalStack` and `PhoneNumber.UnmarshalStack`
  are the same functions with the room on the stack as an argument and the
  fatal stack overflow as an outcome (`Fault.stackOverflow`).
* `Unmarshal` is modelled as a function from the receiver and the input to the
  receiver after a successful call, or the error (`Person.Unmarshal`).  What a
  failed call leaves in the receiver is given by a second model that makes the
  receiver explicit at every `return` (`Person.UnmarshalState`); the two are
  proved to agree.
* The Go types bound what the lists and integers of the model can hold: a
  slice is shorter than `2^63` bytes, `Id` and `Type` are `int32`.  Theorems
  that need these bounds state them as hypotheses (`Person.Valid`,
  `d.length < 2 ^ 63`).
-/

namespace Models

/-! ## Outcomes -/

/-- Every way a call can end without a value: the error values of the package,
the run-time panics, the fatal error "stack overflow" with which the Go runtime
ends the program when a goroutine stack passes its limit, and fuel exhaustion
of the model. -/
inductive Fault
  | ErrIntOverflowModels
  | ErrUnexpectedEOF
  | ErrInvalidLengthModels
  | errEndGroup
  | errIllegalTag
  | errWrongWireType
  | errIllegalWireType
  | panicIndex
  | panicUnreachable
  | stackOverflow
  | outOfFuel
  deriving DecidableEq, Repr

deriving instance DecidableEq for Except

abbrev Res := Except Fault

/-! ## Machine integers -/

/-- Conversion `uint64(x)` of a signed integer. -/
def u64 (x : Int) : Nat := (x % 2 ^ 64).toNat

/-- The Go `int` (64 bit, two's complement) with the given bit pattern. -/
def toInt64 (n : Nat) : Int :=
  if n % 2 ^ 64 < 2 ^ 63 then ((n % 2 ^ 64 : Nat) : Int) else ((n % 2 ^ 64 : Nat) : Int) - 2 ^ 64

/-- The `int32` with the given bit pattern. -/
def toInt32 (n : Nat) : Int :=
  if n % 2 ^ 32 < 2 ^ 31 then ((n % 2 ^ 32 : Nat) : Int) else ((n % 2 ^ 32 : Nat) : Int) - 2 ^ 32

/-- Addition of two Go `int`s, wrapping to 64 bits. -/
def addInt (a b : Int) : Int := toInt64 (u64 (a + b))

/-! ## Slices -/

/-- Read `dAtA[i]`. -/
def getAt (dAtA : List Nat) (i : Int) : Res Nat :=
  if 0 ≤ i then
    match dAtA[i.toNat]? with
    | some b => pure b
    | none => throw Fault.panicIndex
  else throw Fault.panicIndex

/-- Assignment `dAtA[i] = b`. -/
def setAt (dAtA : List Nat) (i : Int) (b : Nat) : Res (List Nat) :=
  if 0 ≤ i ∧ i < dAtA.length then pure (dAtA.set i.toNat b) else throw Fault.panicIndex

/-- Slice expression `dAtA[i:]`. -/
def sliceFrom (dAtA : List Nat) (i : Int) : Res (List Nat) :=
  if 0 ≤ i ∧ i ≤ dAtA.length then pure (dAtA.drop i.toNat) else throw Fault.panicIndex

/-- Slice expression `dAtA[:j]`. -/
def sliceTo (dAtA : List Nat) (j : Int) : Res (List Nat) :=
  if 0 ≤ j ∧ j ≤ dAtA.length then pure (dAtA.take j.toNat) else throw Fault.panicIndex

/-- Slice expression `dAtA[i:j]`. -/
def slice (dAtA : List Nat) (i j : Int) : Res (List Nat) :=
  if 0 ≤ i ∧ i ≤ j ∧ j ≤ dAtA.length then pure ((dAtA.take j.toNat).drop i.toNat)
  else throw Fault.panicIndex

/-- Statement `copy(dAtA[i:], src)`: the result is the buffer after the copy. -/
def copyAt (dAtA : List Nat) (i : Int) (src : List Nat) : Res (List Nat) :=
  if 0 ≤ i ∧ i ≤ dAtA.length then
    let n := min (dAtA.length - i.toNat) src.length
    pure (dAtA.take i.toNat ++ src.take n ++ dAtA.drop (i.toNat + n))
  else throw Fault.panicIndex

/-! ## Records -/

/-- Message `PhoneNumber`; `Type_` is the field `Type` (an open `int32` enum). -/
structure PhoneNumber where
  Number : List Nat
  Type_ : Int
  XXX_unrecognized : List Nat
  XXX_sizecache : Int
  deriving DecidableEq, Repr

/-- Message `Person`; `Phone` is the pointer field, `none` for `nil`. -/
structure Person where
  Name : List Nat
  Id : Int
  Email : List Nat
  Phone : Option PhoneNumber
  XXX_unrecognized : List Nat
  XXX_sizecache : Int
  deriving DecidableEq, Repr

/-- The zero value `PhoneNumber{}`. -/
def PhoneNumber.zero : PhoneNumber := ⟨[], 0, [], 0⟩

/-- The zero value `Person{}`. -/
def Person.zero : Person := ⟨[], 0, [], none, [], 0⟩

/-- Method `(*PhoneNumber).Equal` on possibly-nil pointers. -/
def PhoneNumber.Equal (this that1 : Option PhoneNumber) : Bool :=
  match that1, this with
  | none, none => true
  | none, some _ => false
  | some _, none => false
  | some b, some a =>
    if a.Number ≠ b.Number then false
    else if a.Type_ ≠ b.Type_ then false
    else if a.XXX_unrecognized ≠ b.XXX_unrecognized then false
    else true

/-- Method `(*Person).Equal` on possibly-nil pointers. -/
def Person.Equal (this that1 : Option Person) : Bool :=
  match that1, this with
  | none, none => true
  | none, some _ => false
  | some _, none => false
  | some b, some a =>
    if a.Name ≠ b.Name then false
    else if a.Id ≠ b.Id then false
    else if a.Email ≠ b.Email then false
    else if !(PhoneNumber.Equal a.Phone b.Phone) then false
    else if a.XXX_unrecognized ≠ b.XXX_unrecognized then false
    else true

/-! ## Sizes -/

/-- Bit length by repeated halving, at most `fuel` bits. -/
def lenBits : Nat → Nat → Nat
  | 0, _ => 0
  | fuel + 1, x => if x = 0 then 0 else lenBits fuel (x / 2) + 1

/-- Library function `math/bits.Len64`: the number of bits needed to represent
`x`, and `0` for `x = 0`. -/
def Len64 (x : Nat) : Nat := lenBits 64 x

/-- Function `sovModels`. -/
def sovModels (x : Nat) : Nat := (Len64 (x ||| 1) + 6) / 7

/-- Method `(*PhoneNumber).Size` on a non-nil receiver. -/
def PhoneNumber.Size (m : PhoneNumber) : Nat :=
  let n := 0
  let l := m.Number.length
  let n := if l > 0 then n + (1 + l + sovModels (u64 l)) else n
  let n := if m.Type_ ≠ 0 then n + (1 + sovModels (u64 m.Type_)) else n
  let n := if m.XXX_unrecognized ≠ [] then n + m.XXX_unrecognized.length else n
  n

/-- Method `(*Person).Size` on a non-nil receiver. -/
def Person.Size (m : Person) : Nat :=
  let n := 0
  let l := m.Name.length
  let n := if l > 0 then n + (1 + l + sovModels (u64 l)) else n
  let n := if m.Id ≠ 0 then n + (1 + sovModels (u64 m.Id)) else n
  let l := m.Email.length
  let n := if l > 0 then n + (1 + l + sovModels (u64 l)) else n
  let n :=
    match m.Phone with
    | some p =>
      let l := p.Size
      n + (1 + l + sovModels (u64 l))
    | none => n
  let n := if m.XXX_unrecognized ≠ [] then n + m.XXX_unrecognized.length else n
  n

/-! ## Encoding -/

/-- The loop of `encodeVarintModels`, writing forward from `offset`. -/
def encodeVarintLoop : Nat → List Nat → Int → Nat → Res (List Nat)
  | 0, _, _, _ => throw Fault.outOfFuel
  | fuel + 1, dAtA, offset, v =>
    if v ≥ 1 <<< 7 then do
      let dAtA ← setAt dAtA offset ((v &&& 0x7f ||| 0x80) % 256)
      encodeVarintLoop fuel dAtA (offset + 1) (v >>> 7)
    else setAt dAtA offset (v % 256)

/-- Function `encodeVarintModels`: the buffer after the writes, and `base`. -/
def encodeVarintModels (dAtA : List Nat) (offset : Int) (v : Nat) : Res (List Nat × Int) := do
  let offset := offset - sovModels v
  let base := offset
  let dAtA ← encodeVarintLoop 10 dAtA offset v
  pure (dAtA, base)

/-- Method `(*PhoneNumber).MarshalToSizedBuffer`: the buffer after the writes and
the returned count `len(dAtA) - i`. -/
def PhoneNumber.MarshalToSizedBuffer (m : PhoneNumber) (dAtA : List Nat) :
    Res (List Nat × Int) := do
  let i : Int := dAtA.length
  let (dAtA, i) ←
    if m.XXX_unrecognized ≠ [] then do
      let i := i - m.XXX_unrecognized.length
      let dAtA ← copyAt dAtA i m.XXX_unrecognized
      pure (dAtA, i)
    else pure (dAtA, i)
  let (dAtA, i) ←
    if m.Type_ ≠ 0 then do
      let (dAtA, i) ← encodeVarintModels dAtA i (u64 m.Type_)
      let i := i - 1
      let dAtA ← setAt dAtA i 0x10
      pure (dAtA, i)
    else pure (dAtA, i)
  let (dAtA, i) ←
    if m.Number.length > 0 then do
      let i := i - m.Number.length
      let dAtA ← copyAt dAtA i m.Number
      let (dAtA, i) ← encodeVarintModels dAtA i (u64 m.Number.length)
      let i := i - 1
      let dAtA ← setAt dAtA i 0xa
      pure (dAtA, i)
    else pure (dAtA, i)
  pure (dAtA, (dAtA.length : Int) - i)

/-- Method `(*Person).MarshalToSizedBuffer`.  The nested call works on the
sub-slice `dAtA[:i]`, which shares its storage with `dAtA`. -/
def Person.MarshalToSizedBuffer (m : Person) (dAtA : List Nat) : Res (List Nat × Int) := do
  let i : Int := dAtA.length
  let (dAtA, i) ←
    if m.XXX_unrecognized ≠ [] then do
      let i := i - m.XXX_unrecognized.length
      let dAtA ← copyAt dAtA i m.XXX_unrecognized
      pure (dAtA, i)
    else pure (dAtA, i)
  let (dAtA, i) ←
    match m.Phone with
    | some p => do
      let sub ← sliceTo dAtA i
      let (sub, size) ← p.MarshalToSizedBuffer sub
      let dAtA := sub ++ dAtA.drop i.toNat
      let i := i - size
      let (dAtA, i) ← encodeVarintModels dAtA i (u64 size)
      let i := i - 1
      let dAtA ← setAt dAtA i 0x22
      pure (dAtA, i)
    | none => pure (dAtA, i)
  let (dAtA, i) ←
    if m.Email.length > 0 then do
      let i := i - m.Email.length
      let dAtA ← copyAt dAtA i m.Email
      let (dAtA, i) ← encodeVarintModels dAtA i (u64 m.Email.length)
      let i := i - 1
      let dAtA ← setAt dAtA i 0x1a
      pure (dAtA, i)
    else pure (dAtA, i)
  let (dAtA, i) ←
    if m.Id ≠ 0 then do
      let (dAtA, i) ← encodeVarintModels dAtA i (u64 m.Id)
      let i := i - 1
      let dAtA ← setAt dAtA i 0x10
      pure (dAtA, i)
    else pure (dAtA, i)
  let (dAtA, i) ←
    if m.Name.length > 0 then do
      let i := i - m.Name.length
      let dAtA ← copyAt dAtA i m.Name
      let (dAtA, i) ← encodeVarintModels dAtA i (u64 m.Name.length)
      let i := i - 1
      let dAtA ← setAt dAtA i 0xa
      pure (dAtA, i)
    else pure (dAtA, i)
  pure (dAtA, (dAtA.length : Int) - i)

/-- Method `(*PhoneNumber).Marshal`. -/
def PhoneNumber.Marshal (m : PhoneNumber) : Res (List Nat) := do
  let size := m.Size
  let dAtA := List.replicate size 0
  let sub ← sliceTo dAtA size
  let (dAtA, n) ← m.MarshalToSizedBuffer sub
  sliceTo dAtA n

/-- Method `(*Person).Marshal`. -/
def Person.Marshal (m : Person) : Res (List Nat) := do
  let size := m.Size
  let dAtA := List.replicate size 0
  let sub ← sliceTo dAtA size
  let (dAtA, n) ← m.MarshalToSizedBuffer sub
  sliceTo dAtA n

/-! ## The wire format, stated independently of the buffer code -/

/-- Base-128 varint: seven bits per byte, least significant group first, the
high bit set on every byte but the last; at most `fuel + 1` bytes. -/
def varintFuel : Nat → Nat → List Nat
  | 0, v => [v]
  | fuel + 1, v => if v < 128 then [v] else (v % 128 + 128) :: varintFuel fuel (v / 128)

/-- The varint encoding of an unsigned 64-bit value, which has at most ten
bytes, so that the fuel is never exhausted. -/
def varint (v : Nat) : List Nat := varintFuel 9 v

/-! ### The encoded form of each record, as a list of bytes -/

/-- A length-delimited field as the encoder writes it: tag byte, varint of
`uint64(len)`, payload. -/
def lenDelim (tag : Nat) (bs : List Nat) : List Nat := tag :: (varint (u64 bs.length) ++ bs)

/-- The bytes `PhoneNumber.MarshalToSizedBuffer` leaves at the end of its buffer. -/
def PhoneNumber.wire (m : PhoneNumber) : List Nat :=
  (if m.Number.length > 0 then lenDelim 0xa m.Number else []) ++
  ((if m.Type_ ≠ 0 then 0x10 :: varint (u64 m.Type_) else []) ++ m.XXX_unrecognized)

/-- The `Phone` field on the wire: nothing for `nil`, else tag `0x22`, the length
of the nested encoding and the nested encoding. -/
def phoneWire (ph : Option PhoneNumber) : List Nat :=
  match ph with
  | some p => lenDelim 0x22 p.wire
  | none => []

/-- The bytes `Person.MarshalToSizedBuffer` leaves at the end of its buffer. -/
def Person.wire (m : Person) : List Nat :=
  (if m.Name.length > 0 then lenDelim 0xa m.Name else []) ++
  ((if m.Id ≠ 0 then 0x10 :: varint (u64 m.Id) else []) ++
  ((if m.Email.length > 0 then lenDelim 0x1a m.Email else []) ++
  (phoneWire m.Phone ++ m.XXX_unrecognized)))

/-- The first block of both `MarshalToSizedBuffer` methods, which copies the
unrecognized bytes, as a function on the pair of buffer and cursor.  The four
`block` functions only structure the proofs: the methods are proved equal to
their composition. -/
def blockUnrecognized (u : List Nat) (s : List Nat × Int) : Res (List Nat × Int) :=
  if u ≠ [] then do
    let i := s.2 - u.length
    let dAtA ← copyAt s.1 i u
    pure (dAtA, i)
  else pure (s.1, s.2)

/-- The block of `MarshalToSizedBuffer` that writes a varint field (`Id`, `Type`). -/
def blockVarint (tag : Nat) (x : Int) (s : List Nat × Int) : Res (List Nat × Int) :=
  if x ≠ 0 then do
    let (dAtA, i) ← encodeVarintModels s.1 s.2 (u64 x)
    let i := i - 1
    let dAtA ← setAt dAtA i tag
    pure (dAtA, i)
  else pure (s.1, s.2)

/-- The block of `MarshalToSizedBuffer` that writes a string field. -/
def blockBytes (tag : Nat) (bs : List Nat) (s : List Nat × Int) : Res (List Nat × Int) :=
  if bs.length > 0 then do
    let i := s.2 - bs.length
    let dAtA ← copyAt s.1 i bs
    let (dAtA, i) ← encodeVarintModels dAtA i (u64 bs.length)
    let i := i - 1
    let dAtA ← setAt dAtA i tag
    pure (dAtA, i)
  else pure (s.1, s.2)

/-- The block of `Person.MarshalToSizedBuffer` that writes the nested `Phone`
message into the sub-slice `dAtA[:i]` and then its length and tag. -/
def blockPhone (ph : Option PhoneNumber) (s : List Nat × Int) : Res (List Nat × Int) :=
  match ph with
  | some p => do
    let sub ← sliceTo s.1 s.2
    let (sub, size) ← p.MarshalToSizedBuffer sub
    let dAtA := sub ++ s.1.drop s.2.toNat
    let i := s.2 - size
    let (dAtA, i) ← encodeVarintModels dAtA i (u64 size)
    let i := i - 1
    let dAtA ← setAt dAtA i 0x22
    pure (dAtA, i)
  | none => pure (s.1, s.2)

/-! ## Decoding -/

/-- The varint loop that the decoders inline,
`for shift := uint(0); ; shift += 7 { ... }`, with an accumulator of `w` bits
(`uint64` and `int` for `w = 64`, `int32` for `w = 32`); the accumulator is
kept as its bit pattern.  The result is the accumulator and the new `iNdEx`. -/
def varintLoop (w : Nat) : Nat → List Nat → Int → Nat → Nat → Res (Nat × Int)
  | 0, _, _, _, _ => throw Fault.outOfFuel
  | fuel + 1, dAtA, iNdEx, shift, acc =>
    if shift ≥ 64 then throw Fault.ErrIntOverflowModels
    else if iNdEx ≥ dAtA.length then throw Fault.ErrUnexpectedEOF
    else do
      let b ← getAt dAtA iNdEx
      let iNdEx := iNdEx + 1
      let acc := acc ||| ((b &&& 0x7F) <<< shift) % 2 ^ w
      if b < 0x80 then pure (acc, iNdEx)
      else varintLoop w fuel dAtA iNdEx (shift + 7) acc

/-- The varint loop of `skipModels` for wire type 0, which only advances. -/
def skipVarintLoop : Nat → List Nat → Int → Nat → Res Int
  | 0, _, _, _ => throw Fault.outOfFuel
  | fuel + 1, dAtA, iNdEx, shift =>
    if shift ≥ 64 then throw Fault.ErrIntOverflowModels
    else if iNdEx ≥ dAtA.length then throw Fault.ErrUnexpectedEOF
    else do
      let iNdEx := iNdEx + 1
      let b ← getAt dAtA (iNdEx - 1)
      if b < 0x80 then pure iNdEx
      else skipVarintLoop fuel dAtA iNdEx (shift + 7)

/-- The loop of `skipModels` for wire type 3 (start group): skip nested fields
until an end-group tag.  `skip` is the recursive call of `skipModels`. -/
def skipGroupLoop (skip : List Nat → Res Int) : Nat → List Nat → Int → Res Int
  | 0, _, _ => throw Fault.outOfFuel
  | fuel + 1, dAtA, iNdEx => do
    let start := iNdEx
    let (innerWire, iNdEx) ← varintLoop 64 11 dAtA iNdEx 0 0
    let innerWireType := innerWire &&& 0x7
    if innerWireType = 4 then pure iNdEx
    else do
      let sub ← sliceFrom dAtA start
      let next ← skip sub
      let iNdEx := addInt start next
      if iNdEx < 0 then throw Fault.ErrInvalidLengthModels
      else skipGroupLoop skip fuel dAtA iNdEx

/-- Function `skipModels`, with fuel for the depth of its recursion.  Every path
through the body of its `for iNdEx < l` loop returns, so the body runs at most
once, and an empty input reaches the final `panic("unreachable")`.  This is the
function on a stack that never runs out: what it returns whenever it returns.
For the stack that the recursion needs see `skipModelsStack`. -/
def skipModelsFuel : Nat → List Nat → Res Int
  | 0, _ => throw Fault.outOfFuel
  | fuel + 1, dAtA =>
    let l : Int := dAtA.length
    let iNdEx : Int := 0
    if iNdEx < l then do
      let (wire, iNdEx) ← varintLoop 64 11 dAtA iNdEx 0 0
      let wireType := wire &&& 0x7
      if wireType = 0 then skipVarintLoop 11 dAtA iNdEx 0
      else if wireType = 1 then pure (addInt iNdEx 8)
      else if wireType = 2 then do
        let (length, iNdEx) ← varintLoop 64 11 dAtA iNdEx 0 0
        let length := toInt64 length
        if length < 0 then throw Fault.ErrInvalidLengthModels
        else
          let iNdEx := addInt iNdEx length
          if iNdEx < 0 then throw Fault.ErrInvalidLengthModels
          else pure iNdEx
      else if wireType = 3 then
        skipGroupLoop (skipModelsFuel fuel) (dAtA.length + 1) dAtA iNdEx
      else if wireType = 4 then pure iNdEx
      else if wireType = 5 then pure (addInt iNdEx 4)
      else throw Fault.errIllegalWireType
    else throw Fault.panicUnreachable

/-- Function `skipModels`. -/
def skipModels (dAtA : List Nat) : Res Int := skipModelsFuel (dAtA.length + 1) dAtA

/-- One iteration of the loop `for iNdEx < l` of `(*PhoneNumber).Unmarshal`: the
record and `iNdEx` at the end of the iteration. -/
def PhoneNumber.unmarshalStep (dAtA : List Nat) (m : PhoneNumber) (iNdEx : Int) :
    Res (PhoneNumber × Int) := do
  let l : Int := dAtA.length
  let preIndex := iNdEx
  let (wire, iNdEx) ← varintLoop 64 11 dAtA iNdEx 0 0
  let fieldNum := toInt32 (wire >>> 3)
  let wireType := wire &&& 0x7
  if wireType = 4 then throw Fault.errEndGroup
  else if fieldNum ≤ 0 then throw Fault.errIllegalTag
  else if fieldNum = 1 then
    if wireType ≠ 2 then throw Fault.errWrongWireType
    else do
      let (stringLen, iNdEx) ← varintLoop 64 11 dAtA iNdEx 0 0
      let intStringLen := toInt64 stringLen
      if intStringLen < 0 then throw Fault.ErrInvalidLengthModels
      else
        let postIndex := addInt iNdEx intStringLen
        if postIndex < 0 then throw Fault.ErrInvalidLengthModels
        else if postIndex > l then throw Fault.ErrUnexpectedEOF
        else do
          let s ← slice dAtA iNdEx postIndex
          pure ({ m with Number := s }, postIndex)
  else if fieldNum = 2 then
    if wireType ≠ 0 then throw Fault.errWrongWireType
    else do
      let (v, iNdEx) ← varintLoop 32 11 dAtA iNdEx 0 0
      pure ({ m with Type_ := toInt32 v }, iNdEx)
  else do
    let iNdEx := preIndex
    let rest ← sliceFrom dAtA iNdEx
    let skippy ← skipModels rest
    if skippy < 0 then throw Fault.ErrInvalidLengthModels
    else if addInt iNdEx skippy < 0 then throw Fault.ErrInvalidLengthModels
    else if addInt iNdEx skippy > l then throw Fault.ErrUnexpectedEOF
    else do
      let s ← slice dAtA iNdEx (addInt iNdEx skippy)
      pure ({ m with XXX_unrecognized := m.XXX_unrecognized ++ s }, addInt iNdEx skippy)

/-- The loop `for iNdEx < l` of `(*PhoneNumber).Unmarshal` and the test after it. -/
def PhoneNumber.unmarshalLoop : Nat → List Nat → PhoneNumber → Int → Res PhoneNumber
  | 0, _, _, _ => throw Fault.outOfFuel
  | fuel + 1, dAtA, m, iNdEx =>
    if iNdEx < dAtA.length then do
      let (m, iNdEx) ← PhoneNumber.unmarshalStep dAtA m iNdEx
      PhoneNumber.unmarshalLoop fuel dAtA m iNdEx
    else if iNdEx > dAtA.length then throw Fault.ErrUnexpectedEOF
    else pure m

/-- Method `(*PhoneNumber).Unmarshal`: the receiver after a successful call, or
the error.  For the receiver after a failed call see `PhoneNumber.UnmarshalState`. -/
def PhoneNumber.Unmarshal (m : PhoneNumber) (dAtA : List Nat) : Res PhoneNumber :=
  PhoneNumber.unmarshalLoop (dAtA.length + 1) dAtA m 0

/-- One iteration of the loop `for iNdEx < l` of `(*Person).Unmarshal`. -/
def Person.unmarshalStep (dAtA : List Nat) (m : Person) (iNdEx : Int) :
    Res (Person × Int) := do
  let l : Int := dAtA.length
  let preIndex := iNdEx
  let (wire, iNdEx) ← varintLoop 64 11 dAtA iNdEx 0 0
  let fieldNum := toInt32 (wire >>> 3)
  let wireType := wire &&& 0x7
  if wireType = 4 then throw Fault.errEndGroup
  else if fieldNum ≤ 0 then throw Fault.errIllegalTag
  else if fieldNum = 1 then
    if wireType ≠ 2 then throw Fault.errWrongWireType
    else do
      let (stringLen, iNdEx) ← varintLoop 64 11 dAtA iNdEx 0 0
      let intStringLen := toInt64 stringLen
      if intStringLen < 0 then throw Fault.ErrInvalidLengthModels
      else
        let postIndex := addInt iNdEx intStringLen
        if postIndex < 0 then throw Fault.ErrInvalidLengthModels
        else if postIndex > l then throw Fault.ErrUnexpectedEOF
        else do
          let s ← slice dAtA iNdEx postIndex
          pure ({ m with Name := s }, postIndex)
  else if fieldNum = 2 then
    if wireType ≠ 0 then throw Fault.errWrongWireType
    else do
      let (v, iNdEx) ← varintLoop 32 11 dAtA iNdEx 0 0
      pure ({ m with Id := toInt32 v }, iNdEx)
  else if fieldNum = 3 then
    if wireType ≠ 2 then throw Fault.errWrongWireType
    else do
      let (stringLen, iNdEx) ← varintLoop 64 11 dAtA iNdEx 0 0
      let intStringLen := toInt64 stringLen
      if intStringLen < 0 then throw Fault.ErrInvalidLengthModels
      else
        let postIndex := addInt iNdEx intStringLen
        if postIndex < 0 then throw Fault.ErrInvalidLengthModels
        else if postIndex > l then throw Fault.ErrUnexpectedEOF
        else do
          let s ← slice dAtA iNdEx postIndex
          pure ({ m with Email := s }, postIndex)
  else if fieldNum = 4 then
    if wireType ≠ 2 then throw Fault.errWrongWireType
    else do
      let (msglen, iNdEx) ← varintLoop 64 11 dAtA iNdEx 0 0
      let msglen := toInt64 msglen
      if msglen < 0 then throw Fault.ErrInvalidLengthModels
      else
        let postIndex := addInt iNdEx msglen
        if postIndex < 0 then throw Fault.ErrInvalidLengthModels
        else if postIndex > l then throw Fault.ErrUnexpectedEOF
        else do
          let phone :=
            match m.Phone with
            | none => PhoneNumber.zero
            | some p => p
          let sub ← slice dAtA iNdEx postIndex
          let phone ← PhoneNumber.Unmarshal phone sub
          pure ({ m with Phone := some phone }, postIndex)
  else do
    let iNdEx := preIndex
    let rest ← sliceFrom dAtA iNdEx
    let skippy ← skipModels rest
    if skippy < 0 then throw Fault.ErrInvalidLengthModels
    else if addInt iNdEx skippy < 0 then throw Fault.ErrInvalidLengthModels
    else if addInt iNdEx skippy > l then throw Fault.ErrUnexpectedEOF
    else do
      let s ← slice dAtA iNdEx (addInt iNdEx skippy)
      pure ({ m with XXX_unrecognized := m.XXX_unrecognized ++ s }, addInt iNdEx skippy)

/-- The loop `for iNdEx < l` of `(*Person).Unmarshal` and the test after it. -/
def Person.unmarshalLoop : Nat → List Nat → Person → Int → Res Person
  | 0, _, _, _ => throw Fault.outOfFuel
  | fuel + 1, dAtA, m, iNdEx =>
    if iNdEx < dAtA.length then do
      let (m, iNdEx) ← Person.unmarshalStep dAtA m iNdEx
      Person.unmarshalLoop fuel dAtA m iNdEx
    else if iNdEx > dAtA.length then throw Fault.ErrUnexpectedEOF
    else pure m

/-- Method `(*Person).Unmarshal`: the receiver after a successful call, or the
error.  For the receiver after a failed call see `Person.UnmarshalState`. -/
def Person.Unmarshal (m : Person) (dAtA : List Nat) : Res Person :=
  Person.unmarshalLoop (dAtA.length + 1) dAtA m 0

/-! ### The layout the encoder is documented to produce -/

/-- A tag byte: field number and wire type. -/
def tagByte (fieldNumber wireType : Nat) : Nat := fieldNumber <<< 3 ||| wireType

/-- The `uint64` obtained from a signed value by sign extension. -/
def signExtend64 (x : Int) : Nat := if 0 ≤ x then x.toNat else (2 ^ 64 + x).toNat

/-- The documented layout of an encoded `PhoneNumber`: the populated fields in
ascending field-number order, then the unrecognized bytes. -/
def PhoneNumber.layout (p : PhoneNumber) : List Nat :=
  (if p.Number ≠ [] then [tagByte 1 2] ++ varint p.Number.length ++ p.Number else []) ++
  (if p.Type_ ≠ 0 then [tagByte 2 0] ++ varint (signExtend64 p.Type_) else []) ++
  p.XXX_unrecognized

/-- The recognized fields of an encoded `Person` in their documented layout. -/
def Person.layoutRecognized (m : Person) : List Nat :=
  (if m.Name ≠ [] then [tagByte 1 2] ++ varint m.Name.length ++ m.Name else []) ++
  (if m.Id ≠ 0 then [tagByte 2 0] ++ varint (signExtend64 m.Id) else []) ++
  (if m.Email ≠ [] then [tagByte 3 2] ++ varint m.Email.length ++ m.Email else []) ++
  (match m.Phone with
    | some p => [tagByte 4 2] ++ varint p.layout.length ++ p.layout
    | none => [])

/-- The documented layout of an encoded `Person`. -/
def Person.layout (m : Person) : List Nat := m.layoutRecognized ++ m.XXX_unrecognized

/-- A `PhoneNumber` that a Go program can hold: `Type` is an `int32` and the
encoding is shorter than `2^63` bytes. -/
def PhoneNumber.Valid (p : PhoneNumber) : Prop :=
  -2 ^ 31 ≤ p.Type_ ∧ p.Type_ < 2 ^ 31 ∧ p.Size < 2 ^ 63

/-- A `Person` that a Go program can hold: `Id` is an `int32`, the encoding is
shorter than `2^63` bytes, and the nested record is valid. -/
def Person.Valid (m : Person) : Prop :=
  -2 ^ 31 ≤ m.Id ∧ m.Id < 2 ^ 31 ∧ m.Size < 2 ^ 63 ∧
    match m.Phone with
    | some p => p.Valid
    | none => True

/-- The record of the repository test `TestOutputData`. -/
def jaapJoosten : Person :=
  { Name := [74, 97, 97, 112, 32, 74, 111, 111, 115, 116, 101, 110]
    Id := 32
    Email := [106, 97, 97, 112, 64, 106, 111, 111, 115, 116, 101, 110]
    Phone := some
      { Number := [48, 53, 51, 50, 49, 56, 54, 50, 50, 49, 56, 57]
        Type_ := 1
        XXX_unrecognized := []
        XXX_sizecache := 0 }
    XXX_unrecognized := []
    XXX_sizecache := 0 }

/-! ### Outcomes that are not panics -/

/-- An error value returned by the package, as opposed to a run-time panic, a
stack overflow or fuel exhaustion of the model. -/
def Fault.isError : Fault → Bool
  | Fault.panicIndex => false
  | Fault.panicUnreachable => false
  | Fault.stackOverflow => false
  | Fault.outOfFuel => false
  | _ => true

/-- The call ends with a value satisfying `P` or with an error value: it does
not panic and does not run out of fuel. -/
def Safe {α : Type} (x : Res α) (P : α → Prop) : Prop :=
  match x with
  | Except.ok a => P a
  | Except.error e => e.isError = true

/-- The results `skipModels` can return on the input `dAtA`: a positive count,
or, when a fixed-width skip wraps around, a negative number. -/
def SkipResult (dAtA : List Nat) (n : Int) : Prop :=
  -2 ^ 63 ≤ n ∧ n < 2 ^ 63 ∧ (1 ≤ n ∨ n + 2 ^ 64 ≤ (dAtA.length : Int) + 8)

/-! ### Well-formed fields on the wire -/

/-- The payload of a field the schema does not declare, by wire type: a varint
(continuation bytes `cs`, then the final byte `b`), eight raw bytes, a
length-delimited byte string, or four raw bytes. -/
inductive UPayload
  | varint (cs : List Nat) (b : Nat)
  | fixed64 (bs : List Nat)
  | bytes (bs : List Nat)
  | fixed32 (bs : List Nat)
  deriving DecidableEq, Repr

/-- The wire type of a payload. -/
def UPayload.wireType : UPayload → Nat
  | UPayload.varint _ _ => 0
  | UPayload.fixed64 _ => 1
  | UPayload.bytes _ => 2
  | UPayload.fixed32 _ => 5

/-- The bytes of a payload. -/
def UPayload.encode : UPayload → List Nat
  | UPayload.varint cs b => cs ++ [b]
  | UPayload.fixed64 bs => bs
  | UPayload.bytes bs => Models.varint bs.length ++ bs
  | UPayload.fixed32 bs => bs

/-- A payload is well formed when it has the shape its wire type prescribes. -/
def UPayload.WF : UPayload → Prop
  | UPayload.varint cs b => (∀ c ∈ cs, 128 ≤ c) ∧ b < 128 ∧ cs.length ≤ 9
  | UPayload.fixed64 bs => bs.length = 8
  | UPayload.bytes _ => True
  | UPayload.fixed32 bs => bs.length = 4

/-- A field the schema does not declare: its field number and its payload. -/
structure UField where
  num : Nat
  payload : UPayload
  deriving DecidableEq, Repr

/-- The full span of an unknown field: the tag varint, then the payload. -/
def UField.encode (u : UField) : List Nat :=
  varint (u.num <<< 3 ||| u.payload.wireType) ++ u.payload.encode

/-- A well-formed unknown field with its field number between `lo` and `hi`. -/
def UField.WF (lo hi : Nat) (u : UField) : Prop :=
  lo ≤ u.num ∧ u.num ≤ hi ∧ u.payload.WF

/-- The concatenation of the spans of a list of unknown fields. -/
def UField.encodeAll : List UField → List Nat
  | [] => []
  | u :: us => u.encode ++ UField.encodeAll us

/-- A well-formed field of a `PhoneNumber` buffer: a declared field with its
declared wire type, or an unknown field. -/
inductive NField
  | number (bs : List Nat)
  | type (v : Nat)
  | unknown (u : UField)
  deriving DecidableEq, Repr

/-- The bytes of a `PhoneNumber` field. -/
def NField.encode : NField → List Nat
  | NField.number bs => tagByte 1 2 :: (varint bs.length ++ bs)
  | NField.type v => tagByte 2 0 :: varint v
  | NField.unknown u => u.encode

/-- Well-formedness of a `PhoneNumber` field: a varint value is below `2^64`, an
unknown field has a field number from 3 up to the largest protobuf field
number. -/
def NField.WF : NField → Prop
  | NField.number _ => True
  | NField.type v => v < 2 ^ 64
  | NField.unknown u => u.WF 3 (2 ^ 29 - 1)

/-- The concatenation of the bytes of a list of `PhoneNumber` fields. -/
def NField.encodeAll : List NField → List Nat
  | [] => []
  | f :: fs => f.encode ++ NField.encodeAll fs

/-- What decoding one well-formed field does to a `PhoneNumber`. -/
def PhoneNumber.applyField (p : PhoneNumber) : NField → PhoneNumber
  | NField.number bs => { p with Number := bs }
  | NField.type v => { p with Type_ := toInt32 v }
  | NField.unknown u => { p with XXX_unrecognized := p.XXX_unrecognized ++ u.encode }

/-- A well-formed field of a `Person` buffer: a declared field with its declared
wire type (the `Phone` payload being a sequence of well-formed `PhoneNumber`
fields), or an unknown field. -/
inductive PField
  | name (bs : List Nat)
  | id (v : Nat)
  | email (bs : List Nat)
  | phone (fs : List NField)
  | unknown (u : UField)
  deriving DecidableEq, Repr

/-- The bytes of a `Person` field. -/
def PField.encode : PField → List Nat
  | PField.name bs => tagByte 1 2 :: (varint bs.length ++ bs)
  | PField.id v => tagByte 2 0 :: varint v
  | PField.email bs => tagByte 3 2 :: (varint bs.length ++ bs)
  | PField.phone fs => tagByte 4 2 :: (varint (NField.encodeAll fs).length ++ NField.encodeAll fs)
  | PField.unknown u => u.encode

/-- Well-formedness of a `Person` field; an unknown field has a field number
from 5 up to the largest protobuf field number. -/
def PField.WF : PField → Prop
  | PField.name _ => True
  | PField.id v => v < 2 ^ 64
  | PField.email _ => True
  | PField.phone fs => ∀ f ∈ fs, f.WF
  | PField.unknown u => u.WF 5 (2 ^ 29 - 1)

/-- The concatenation of the bytes of a list of `Person` fields. -/
def PField.encodeAll : List PField → List Nat
  | [] => []
  | f :: fs => f.encode ++ PField.encodeAll fs

/-- What decoding one well-formed field does to a `Person`: scalars are
overwritten, a `Phone` payload is decoded into the existing nested record (or a
fresh one), unknown bytes are appended. -/
def Person.applyField (m : Person) : PField → Person
  | PField.name bs => { m with Name := bs }
  | PField.id v => { m with Id := toInt32 v }
  | PField.email bs => { m with Email := bs }
  | PField.phone fs =>
    { m with Phone := some (fs.foldl PhoneNumber.applyField
        (match m.Phone with
          | none => PhoneNumber.zero
          | some p => p)) }
  | PField.unknown u => { m with XXX_unrecognized := m.XXX_unrecognized ++ u.encode }

/-- The well-formed fields that `PhoneNumber.Marshal` emits for `q`, when its
unrecognized bytes are the spans of the unknown fields `qs`. -/
def PhoneNumber.fields (q : PhoneNumber) (qs : List UField) : List NField :=
  (if q.Number.length > 0 then [NField.number q.Number] else []) ++
  ((if q.Type_ ≠ 0 then [NField.type (u64 q.Type_)] else []) ++ qs.map NField.unknown)

/-- The well-formed fields that `Person.Marshal` emits for `p`, when its
unrecognized bytes are the spans of `us` and those of its `Phone` the spans of
`qs`. -/
def Person.fields (p : Person) (us qs : List UField) : List PField :=
  (if p.Name.length > 0 then [PField.name p.Name] else []) ++
  ((if p.Id ≠ 0 then [PField.id (u64 p.Id)] else []) ++
  ((if p.Email.length > 0 then [PField.email p.Email] else []) ++
  ((match p.Phone with
    | some q => [PField.phone (q.fields qs)]
    | none => []) ++ us.map PField.unknown)))

/-- The record a decoder starting from the zero value rebuilds from the encoding
of `p`: `p` itself with the size caches at zero. -/
def Person.decoded (p : Person) : Person :=
  { p with
    XXX_sizecache := 0
    Phone := match p.Phone with
      | some q => some { q with XXX_sizecache := 0 }
      | none => none }

/-! ### Occurrences of fields in a buffer -/

/-- The field number of the tag at offset `o`: `int32(wire >> 3)`. -/
def fieldNumAt (dAtA : List Nat) (o : Int) : Option Int :=
  match varintLoop 64 11 dAtA o 0 0 with
  | Except.ok (wire, _) => some (toInt32 (wire >>> 3))
  | Except.error _ => none

/-- The payload of the length-delimited field whose tag is at offset `o`. -/
def bytesAt (dAtA : List Nat) (o : Int) : Option (List Nat) :=
  match varintLoop 64 11 dAtA o 0 0 with
  | Except.ok (_, i1) =>
    match varintLoop 64 11 dAtA i1 0 0 with
    | Except.ok (len, i2) =>
      match slice dAtA i2 (addInt i2 (toInt64 len)) with
      | Except.ok s => some s
      | Except.error _ => none
    | Except.error _ => none
  | Except.error _ => none

/-- The `int32` value of the varint field whose tag is at offset `o`. -/
def int32At (dAtA : List Nat) (o : Int) : Option Int :=
  match varintLoop 64 11 dAtA o 0 0 with
  | Except.ok (_, i1) =>
    match varintLoop 32 11 dAtA i1 0 0 with
    | Except.ok (v, _) => some (toInt32 v)
    | Except.error _ => none
  | Except.error _ => none

/-- The `PhoneNumber` a `Phone` field at offset `o` leaves in the record when it
is decoded into `start`: the payload decoded into `start`. -/
def phoneAt (dAtA : List Nat) (start : PhoneNumber) (o : Int) : Option PhoneNumber :=
  match bytesAt dAtA o with
  | some payload =>
    match PhoneNumber.Unmarshal start payload with
    | Except.ok ph => some ph
    | Except.error _ => none
  | none => none

/-- The nested record a `Phone` field is decoded into: the existing one, or a
fresh zero value when the pointer is `nil`. -/
def Person.phoneOrZero (m : Person) : PhoneNumber :=
  match m.Phone with
  | none => PhoneNumber.zero
  | some p => p

/-- A decode loop over an arbitrary step function; both `Unmarshal` loops are
instances of it. -/
def loopWith {α : Type} (step : List Nat → α → Int → Res (α × Int)) :
    Nat → List Nat → α → Int → Res α
  | 0, _, _, _ => throw Fault.outOfFuel
  | fuel + 1, dAtA, m, iNdEx =>
    if iNdEx < dAtA.length then do
      let (m, iNdEx) ← step dAtA m iNdEx
      loopWith step fuel dAtA m iNdEx
    else if iNdEx > dAtA.length then throw Fault.ErrUnexpectedEOF
    else pure m

/-- The iterations of `loopWith`: tag offset and record before each one. -/
def traceWith {α : Type} (step : List Nat → α → Int → Res (α × Int)) :
    Nat → List Nat → α → Int → List (Int × α)
  | 0, _, _, _ => []
  | fuel + 1, dAtA, m, iNdEx =>
    if iNdEx < dAtA.length then
      (iNdEx, m) ::
        (match step dAtA m iNdEx with
          | Except.ok (m2, i2) => traceWith step fuel dAtA m2 i2
          | Except.error _ => [])
    else []

/-- The iterations of `Person.Unmarshal` on `dAtA` starting from `m`: for each
one, the offset of the tag it starts at and the record before it. -/
def Person.trace (m : Person) (dAtA : List Nat) : List (Int × Person) :=
  traceWith Person.unmarshalStep (dAtA.length + 1) dAtA m 0

/-- The iterations of `PhoneNumber.Unmarshal` on `dAtA` starting from `m`. -/
def PhoneNumber.trace (m : PhoneNumber) (dAtA : List Nat) : List (Int × PhoneNumber) :=
  traceWith PhoneNumber.unmarshalStep (dAtA.length + 1) dAtA m 0

/-! ### Decoding on a bounded stack -/

/-- Function `skipModels` on a goroutine stack with room for `stack` more of its
frames.  The body is the one of `skipModelsFuel`.  Every call takes one frame,
the call `next, err := skipModels(dAtA[start:])` for a field nested in a group
included, and nothing in the function bounds how deep these calls nest.  The
runtime limits the stack of a goroutine (1 GB by default on a 64-bit system), so
the room is finite whatever the size of a frame.  A call that finds no room ends
the program with the fatal error "stack overflow" of the Go runtime
(`Fault.stackOverflow`), which is neither a returned error nor a panic that
`recover` stops. -/
def skipModelsStack : Nat → List Nat → Res Int
  | 0, _ => throw Fault.stackOverflow
  | stack + 1, dAtA =>
    let l : Int := dAtA.length
    let iNdEx : Int := 0
    if iNdEx < l then do
      let (wire, iNdEx) ← varintLoop 64 11 dAtA iNdEx 0 0
      let wireType := wire &&& 0x7
      if wireType = 0 then skipVarintLoop 11 dAtA iNdEx 0
      else if wireType = 1 then pure (addInt iNdEx 8)
      else if wireType = 2 then do
        let (length, iNdEx) ← varintLoop 64 11 dAtA iNdEx 0 0
        let length := toInt64 length
        if length < 0 then throw Fault.ErrInvalidLengthModels
        else
          let iNdEx := addInt iNdEx length
          if iNdEx < 0 then throw Fault.ErrInvalidLengthModels
          else pure iNdEx
      else if wireType = 3 then
        skipGroupLoop (skipModelsStack stack) (dAtA.length + 1) dAtA iNdEx
      else if wireType = 4 then pure iNdEx
      else if wireType = 5 then pure (addInt iNdEx 4)
      else throw Fault.errIllegalWireType
    else throw Fault.panicUnreachable

/-- One iteration of the loop of `(*PhoneNumber).Unmarshal`, as
`PhoneNumber.unmarshalStep`, with `skipModels` running on a stack that has room
for `stack` of its frames. -/
def PhoneNumber.unmarshalStepStack (stack : Nat) (dAtA : List Nat) (m : PhoneNumber)
    (iNdEx : Int) : Res (PhoneNumber × Int) := do
  let l : Int := dAtA.length
  let preIndex := iNdEx
  let (wire, iNdEx) ← varintLoop 64 11 dAtA iNdEx 0 0
  let fieldNum := toInt32 (wire >>> 3)
  let wireType := wire &&& 0x7
  if wireType = 4 then throw Fault.errEndGroup
  else if fieldNum ≤ 0 then throw Fault.errIllegalTag
  else if fieldNum = 1 then
    if wireType ≠ 2 then throw Fault.errWrongWireType
    else do
      let (stringLen, iNdEx) ← varintLoop 64 11 dAtA iNdEx 0 0
      let intStringLen := toInt64 stringLen
      if intStringLen < 0 then throw Fault.ErrInvalidLengthModels
      else
        let postIndex := addInt iNdEx intStringLen
        if postIndex < 0 then throw Fault.ErrInvalidLengthModels
        else if postIndex > l then throw Fault.ErrUnexpectedEOF
        else do
          let s ← slice dAtA iNdEx postIndex
          pure ({ m with Number := s }, postIndex)
  else if fieldNum = 2 then
    if wireType ≠ 0 then throw Fault.errWrongWireType
    else do
      let (v, iNdEx) ← varintLoop 32 11 dAtA iNdEx 0 0
      pure ({ m with Type_ := toInt32 v }, iNdEx)
  else do
    let iNdEx := preIndex
    let rest ← sliceFrom dAtA iNdEx
    let skippy ← skipModelsStack stack rest
    if skippy < 0 then throw Fault.ErrInvalidLengthModels
    else if addInt iNdEx skippy < 0 then throw Fault.ErrInvalidLengthModels
    else if addInt iNdEx skippy > l then throw Fault.ErrUnexpectedEOF
    else do
      let s ← slice dAtA iNdEx (addInt iNdEx skippy)
      pure ({ m with XXX_unrecognized := m.XXX_unrecognized ++ s }, addInt iNdEx skippy)

/-- Method `(*PhoneNumber).Unmarshal` on a bounded stack: `stack` is the number
of frames of `skipModels` that fit on the goroutine stack above the frame of
this call. -/
def PhoneNumber.UnmarshalStack (stack : Nat) (m : PhoneNumber) (dAtA : List Nat) :
    Res PhoneNumber :=
  loopWith (PhoneNumber.unmarshalStepStack stack) (dAtA.length + 1) dAtA m 0

/-- One iteration of the loop of `(*Person).Unmarshal`, as `Person.unmarshalStep`,
with `skipModels` running on a stack that has room for `stack` of its frames
when this method calls it and for `phoneStack` of them when the nested
`(*PhoneNumber).Unmarshal` does. -/
def Person.unmarshalStepStack (stack phoneStack : Nat) (dAtA : List Nat) (m : Person)
    (iNdEx : Int) : Res (Person × Int) := do
  let l : Int := dAtA.length
  let preIndex := iNdEx
  let (wire, iNdEx) ← varintLoop 64 11 dAtA iNdEx 0 0
  let fieldNum := toInt32 (wire >>> 3)
  let wireType := wire &&& 0x7
  if wireType = 4 then throw Fault.errEndGroup
  else if fieldNum ≤ 0 then throw Fault.errIllegalTag
  else if fieldNum = 1 then
    if wireType ≠ 2 then throw Fault.errWrongWireType
    else do
      let (stringLen, iNdEx) ← varintLoop 64 11 dAtA iNdEx 0 0
      let intStringLen := toInt64 stringLen
      if intStringLen < 0 then throw Fault.ErrInvalidLengthModels
      else
        let postIndex := addInt iNdEx intStringLen
        if postIndex < 0 then throw Fault.ErrInvalidLengthModels
        else if postIndex > l then throw Fault.ErrUnexpectedEOF
        else do
          let s ← slice dAtA iNdEx postIndex
          pure ({ m with Name := s }, postIndex)
  else if fieldNum = 2 then
    if wireType ≠ 0 then throw Fault.errWrongWireType
    else do
      let (v, iNdEx) ← varintLoop 32 11 dAtA iNdEx 0 0
      pure ({ m with Id := toInt32 v }, iNdEx)
  else if fieldNum = 3 then
    if wireType ≠ 2 then throw Fault.errWrongWireType
    else do
      let (stringLen, iNdEx) ← varintLoop 64 11 dAtA iNdEx 0 0
      let intStringLen := toInt64 stringLen
      if intStringLen < 0 then throw Fault.ErrInvalidLengthModels
      else
        let postIndex := addInt iNdEx intStringLen
        if postIndex < 0 then throw Fault.ErrInvalidLengthModels
        else if postIndex > l then throw Fault.ErrUnexpectedEOF
        else do
          let s ← slice dAtA iNdEx postIndex
          pure ({ m with Email := s }, postIndex)
  else if fieldNum = 4 then
    if wireType ≠ 2 then throw Fault.errWrongWireType
    else do
      let (msglen, iNdEx) ← varintLoop 64 11 dAtA iNdEx 0 0
      let msglen := toInt64 msglen
      if msglen < 0 then throw Fault.ErrInvalidLengthModels
      else
        let postIndex := addInt iNdEx msglen
        if postIndex < 0 then throw Fault.ErrInvalidLengthModels
        else if postIndex > l then throw Fault.ErrUnexpectedEOF
        else do
          let phone :=
            match m.Phone with
            | none => PhoneNumber.zero
            | some p => p
          let sub ← slice dAtA iNdEx postIndex
          let phone ← PhoneNumber.UnmarshalStack phoneStack phone sub
          pure ({ m with Phone := some phone }, postIndex)
  else do
    let iNdEx := preIndex
    let rest ← sliceFrom dAtA iNdEx
    let skippy ← skipModelsStack stack rest
    if skippy < 0 then throw Fault.ErrInvalidLengthModels
    else if addInt iNdEx skippy < 0 then throw Fault.ErrInvalidLengthModels
    else if addInt iNdEx skippy > l then throw Fault.ErrUnexpectedEOF
    else do
      let s ← slice dAtA iNdEx (addInt iNdEx skippy)
      pure ({ m with XXX_unrecognized := m.XXX_unrecognized ++ s }, addInt iNdEx skippy)

/-- Method `(*Person).Unmarshal` on a bounded stack: `stack` is the number of
frames of `skipModels` that fit on the goroutine stack above the frame of this
call, `phoneStack` the number that fit above the frame of the nested call
`m.Phone.Unmarshal`.  The frames of the two methods themselves are taken to
fit. -/
def Person.UnmarshalStack (stack phoneStack : Nat) (m : Person) (dAtA : List Nat) :
    Res Person :=
  loopWith (Person.unmarshalStepStack stack phoneStack) (dAtA.length + 1) dAtA m 0

/-- The run `x` of a function on a bounded stack against the run `y` of the same
function on a stack that never runs out: the same outcome, or, only when `q`
holds, the stack overflow. -/
def StackRel {α : Type} (q : Prop) (x y : Res α) : Prop :=
  x = y ∨ (q ∧ x = .error Fault.stackOverflow)

/-- An input of `n` bytes `0x2B`, the start-group tag of the undeclared field 5:
groups nested `n` deep. -/
def nestedGroups (n : Nat) : List Nat := List.replicate n 0x2B

/-! ### Example records and buffers -/

/-- The record used to refute C5: a name and one unknown varint field. -/
def c5Person : Person :=
  { Name := [65], Id := 0, Email := [], Phone := none,
    XXX_unrecognized := [0x28, 1], XXX_sizecache := 0 }

/-- A record with a negative `Id` and a present, all-zero `PhoneNumber`. -/
def c1Person : Person :=
  { Name := [65, 255, 0], Id := -7, Email := [], Phone := some PhoneNumber.zero,
    XXX_unrecognized := [], XXX_sizecache := 3 }

/-- Unknown fields of each of the four wire types, as the test generator
produces them. -/
def c2Unknown : List UField :=
  [⟨5, UPayload.varint [0x96] 1⟩, ⟨104, UPayload.fixed64 [1, 2, 3, 4, 5, 6, 7, 8]⟩,
    ⟨17, UPayload.bytes [9, 9, 9]⟩, ⟨6, UPayload.fixed32 [1, 2, 3, 4]⟩]

/-- A record carrying unknown fields at both levels. -/
def c2Person : Person :=
  { Name := [74], Id := 32, Email := [106],
    Phone := some
      { Number := [48], Type_ := 2,
        XXX_unrecognized := UField.encodeAll [⟨3, UPayload.varint [] 0⟩], XXX_sizecache := 0 },
    XXX_unrecognized := UField.encodeAll c2Unknown, XXX_sizecache := 0 }

/-- A buffer with two occurrences of `Phone`: the first carries only `Type`, the
second only `Number`. -/
def c9Buf : List Nat := [0x22, 2, 0x10, 1, 0x22, 3, 0x0A, 1, 0x41]

/-- A buffer in which `Name`/`Number` (field 1) and `Id`/`Type` (field 2) each
occur twice. -/
def c10Buf : List Nat := [10, 1, 65, 16, 1, 10, 1, 66, 16, 2]

/-! ### Records that differ only in their size caches -/

/-- The record `m` with other values in the size caches of both levels. -/
def Person.withSizecache (m : Person) (c c2 : Int) : Person :=
  { m with
    XXX_sizecache := c
    Phone := match m.Phone with
      | some q => some { q with XXX_sizecache := c2 }
      | none => none }

/-! ### The varint format in the words of its description -/

/-- The number of times `v` can be shifted right by seven bits while it is
still at least `128`, counting at most `fuel` shifts. -/
def shiftCountFuel : Nat → Nat → Nat
  | 0, _ => 0
  | fuel + 1, v => if v ≥ 128 then shiftCountFuel fuel (v >>> 7) + 1 else 0

/-- The number of seven-bit shifts of an unsigned 64-bit value, which is at
most nine. -/
def shiftCount (v : Nat) : Nat := shiftCountFuel 9 v

/-- The value a sequence of varint bytes denotes: the low seven bits of byte
`i` weigh `2 ^ (7 * i)`. -/
def varintValue (bs : List Nat) : Nat :=
  ∑ i in Finset.range bs.length, (bs.getD i 0 &&& 0x7F) * 2 ^ (7 * i)

/-! ### Tags, length prefixes and runs of continuation bytes -/

/-- The wire type of the tag at offset `o`: `int(wire & 0x7)`. -/
def wireTypeAt (dAtA : List Nat) (o : Int) : Option Nat :=
  match varintLoop 64 11 dAtA o 0 0 with
  | Except.ok (wire, _) => some (wire &&& 0x7)
  | Except.error _ => none

/-- The offset just after the tag at offset `o`. -/
def tagEndAt (dAtA : List Nat) (o : Int) : Option Int :=
  match varintLoop 64 11 dAtA o 0 0 with
  | Except.ok (_, i1) => some i1
  | Except.error _ => none

/-- The length prefix of the field whose tag is at offset `o`, as the signed
integer the decoder converts it to, and the offset just after the prefix. -/
def lengthPrefixAt (dAtA : List Nat) (o : Int) : Option (Int × Int) :=
  match varintLoop 64 11 dAtA o 0 0 with
  | Except.ok (_, i1) =>
    match varintLoop 64 11 dAtA i1 0 0 with
    | Except.ok (len, i2) => some (toInt64 len, i2)
    | Except.error _ => none
  | Except.error _ => none

/-- The `n` bytes of `dAtA` from offset `p` on exist and all have the
continuation bit `0x80` set. -/
def continuationBytes (dAtA : List Nat) (p : Int) (n : Nat) : Prop :=
  0 ≤ p ∧ ∀ k, k < n → 128 ≤ dAtA.getD (p.toNat + k) 0

instance (dAtA : List Nat) (p : Int) (n : Nat) : Decidable (continuationBytes dAtA p n) :=
  inferInstanceAs (Decidable (0 ≤ p ∧ ∀ k, k < n → 128 ≤ dAtA.getD (p.toNat + k) 0))

/-- The declared fields of `Person`: field number and wire type. -/
def Person.declared : List (Int × Nat) := [(1, 2), (2, 0), (3, 2), (4, 2)]

/-- The declared fields of `PhoneNumber`: field number and wire type. -/
def PhoneNumber.declared : List (Int × Nat) := [(1, 2), (2, 0)]

/-- Offset `p` is where the iteration starting at the tag at offset `o` reads a
varint: the tag itself, or, when the tag is that of a declared field with its
declared wire type, the length prefix or value right after the tag. -/
def varintSite (declared : List (Int × Nat)) (dAtA : List Nat) (o p : Int) : Prop :=
  p = o ∨ (tagEndAt dAtA o = some p ∧
    ∃ f ∈ declared, fieldNumAt dAtA o = some f.1 ∧ wireTypeAt dAtA o = some f.2)

instance (declared : List (Int × Nat)) (dAtA : List Nat) (o p : Int) :
    Decidable (varintSite declared dAtA o p) :=
  inferInstanceAs (Decidable (p = o ∨ (tagEndAt dAtA o = some p ∧
    ∃ f ∈ declared, fieldNumAt dAtA o = some f.1 ∧ wireTypeAt dAtA o = some f.2)))

/-! ### The receiver after a failed call -/

/-- The varint loop that accumulates directly into a field of the receiver
(`m.Id |= ...`, `m.Type |= ...`): the accumulator when the loop is left, by
`break` or by `return`, and the new `iNdEx` or the error. -/
def varintLoopState (w : Nat) : Nat → List Nat → Int → Nat → Nat → Nat × Res Int
  | 0, _, _, _, acc => (acc, throw Fault.outOfFuel)
  | fuel + 1, dAtA, iNdEx, shift, acc =>
    if shift ≥ 64 then (acc, throw Fault.ErrIntOverflowModels)
    else if iNdEx ≥ dAtA.length then (acc, throw Fault.ErrUnexpectedEOF)
    else
      match getAt dAtA iNdEx with
      | Except.error e => (acc, throw e)
      | Except.ok b =>
        let iNdEx := iNdEx + 1
        let acc := acc ||| ((b &&& 0x7F) <<< shift) % 2 ^ w
        if b < 0x80 then (acc, pure iNdEx)
        else varintLoopState w fuel dAtA iNdEx (shift + 7) acc

/-- The body of a `case` that decodes a string field (`Name`, `Email`,
`Number`), with the receiver made explicit: the receiver at the end of the
iteration or at the `return`, and the new `iNdEx` or the error.  The receiver
is assigned only after all length checks have passed. -/
def stringFieldState {σ : Type} (dAtA : List Nat) (m : σ) (iNdEx : Int)
    (assign : σ → List Nat → σ) : σ × Res Int :=
  let l : Int := dAtA.length
  match varintLoop 64 11 dAtA iNdEx 0 0 with
  | Except.error e => (m, throw e)
  | Except.ok (stringLen, iNdEx) =>
    let intStringLen := toInt64 stringLen
    if intStringLen < 0 then (m, throw Fault.ErrInvalidLengthModels)
    else
      let postIndex := addInt iNdEx intStringLen
      if postIndex < 0 then (m, throw Fault.ErrInvalidLengthModels)
      else if postIndex > l then (m, throw Fault.ErrUnexpectedEOF)
      else
        match slice dAtA iNdEx postIndex with
        | Except.error e => (m, throw e)
        | Except.ok s => (assign m s, pure postIndex)

/-- The `default` case of both decoders, with the receiver made explicit: the
field is skipped, and only when every check has passed is its span appended to
the unrecognized bytes. -/
def unknownFieldState {σ : Type} (dAtA : List Nat) (m : σ) (preIndex : Int)
    (append : σ → List Nat → σ) : σ × Res Int :=
  let l : Int := dAtA.length
  let iNdEx := preIndex
  match sliceFrom dAtA iNdEx with
  | Except.error e => (m, throw e)
  | Except.ok rest =>
    match skipModels rest with
    | Except.error e => (m, throw e)
    | Except.ok skippy =>
      if skippy < 0 then (m, throw Fault.ErrInvalidLengthModels)
      else if addInt iNdEx skippy < 0 then (m, throw Fault.ErrInvalidLengthModels)
      else if addInt iNdEx skippy > l then (m, throw Fault.ErrUnexpectedEOF)
      else
        match slice dAtA iNdEx (addInt iNdEx skippy) with
        | Except.error e => (m, throw e)
        | Except.ok s => (append m s, pure (addInt iNdEx skippy))

/-- One iteration of the loop of `(*PhoneNumber).Unmarshal` with the receiver
made explicit: the receiver when the iteration ends or returns, and the new
`iNdEx` or the error returned. -/
def PhoneNumber.unmarshalStepState (dAtA : List Nat) (m : PhoneNumber) (iNdEx : Int) :
    PhoneNumber × Res Int :=
  let preIndex := iNdEx
  match varintLoop 64 11 dAtA iNdEx 0 0 with
  | Except.error e => (m, throw e)
  | Except.ok (wire, iNdEx) =>
    let fieldNum := toInt32 (wire >>> 3)
    let wireType := wire &&& 0x7
    if wireType = 4 then (m, throw Fault.errEndGroup)
    else if fieldNum ≤ 0 then (m, throw Fault.errIllegalTag)
    else if fieldNum = 1 then
      if wireType ≠ 2 then (m, throw Fault.errWrongWireType)
      else stringFieldState dAtA m iNdEx (fun m s => { m with Number := s })
    else if fieldNum = 2 then
      if wireType ≠ 0 then (m, throw Fault.errWrongWireType)
      else
        let (v, r) := varintLoopState 32 11 dAtA iNdEx 0 0
        ({ m with Type_ := toInt32 v }, r)
    else
      unknownFieldState dAtA m preIndex
        (fun m s => { m with XXX_unrecognized := m.XXX_unrecognized ++ s })

/-- The loop of `(*PhoneNumber).Unmarshal` with the receiver made explicit: the
receiver when the method returns, and the error returned (`none` for `nil`). -/
def PhoneNumber.unmarshalLoopState :
    Nat → List Nat → PhoneNumber → Int → PhoneNumber × Option Fault
  | 0, _, m, _ => (m, some Fault.outOfFuel)
  | fuel + 1, dAtA, m, iNdEx =>
    if iNdEx < dAtA.length then
      match PhoneNumber.unmarshalStepState dAtA m iNdEx with
      | (m, Except.ok iNdEx) => PhoneNumber.unmarshalLoopState fuel dAtA m iNdEx
      | (m, Except.error e) => (m, some e)
    else if iNdEx > dAtA.length then (m, some Fault.ErrUnexpectedEOF)
    else (m, none)

/-- Method `(*PhoneNumber).Unmarshal` as a state transformer: the receiver after
the call, whether it succeeded or not, and the error returned. -/
def PhoneNumber.UnmarshalState (m : PhoneNumber) (dAtA : List Nat) :
    PhoneNumber × Option Fault :=
  PhoneNumber.unmarshalLoopState (dAtA.length + 1) dAtA m 0

/-- One iteration of the loop of `(*Person).Unmarshal` with the receiver made
explicit.  In `case 4` the pointer `m.Phone` is allocated before the nested
call, and the nested call works on the record it points to, so whatever the
nested call leaves behind stays in the receiver. -/
def Person.unmarshalStepState (dAtA : List Nat) (m : Person) (iNdEx : Int) :
    Person × Res Int :=
  let l : Int := dAtA.length
  let preIndex := iNdEx
  match varintLoop 64 11 dAtA iNdEx 0 0 with
  | Except.error e => (m, throw e)
  | Except.ok (wire, iNdEx) =>
    let fieldNum := toInt32 (wire >>> 3)
    let wireType := wire &&& 0x7
    if wireType = 4 then (m, throw Fault.errEndGroup)
    else if fieldNum ≤ 0 then (m, throw Fault.errIllegalTag)
    else if fieldNum = 1 then
      if wireType ≠ 2 then (m, throw Fault.errWrongWireType)
      else stringFieldState dAtA m iNdEx (fun m s => { m with Name := s })
    else if fieldNum = 2 then
      if wireType ≠ 0 then (m, throw Fault.errWrongWireType)
      else
        let (v, r) := varintLoopState 32 11 dAtA iNdEx 0 0
        ({ m with Id := toInt32 v }, r)
    else if fieldNum = 3 then
      if wireType ≠ 2 then (m, throw Fault.errWrongWireType)
      else stringFieldState dAtA m iNdEx (fun m s => { m with Email := s })
    else if fieldNum = 4 then
      if wireType ≠ 2 then (m, throw Fault.errWrongWireType)
      else
        match varintLoop 64 11 dAtA iNdEx 0 0 with
        | Except.error e => (m, throw e)
        | Except.ok (msglen, iNdEx) =>
          let msglen := toInt64 msglen
          if msglen < 0 then (m, throw Fault.ErrInvalidLengthModels)
          else
            let postIndex := addInt iNdEx msglen
            if postIndex < 0 then (m, throw Fault.ErrInvalidLengthModels)
            else if postIndex > l then (m, throw Fault.ErrUnexpectedEOF)
            else
              let phone :=
                match m.Phone with
                | none => PhoneNumber.zero
                | some p => p
              match slice dAtA iNdEx postIndex with
              | Except.error e => ({ m with Phone := some phone }, throw e)
              | Except.ok sub =>
                match PhoneNumber.UnmarshalState phone sub with
                | (phone, some e) => ({ m with Phone := some phone }, throw e)
                | (phone, none) => ({ m with Phone := some phone }, pure postIndex)
    else
      unknownFieldState dAtA m preIndex
        (fun m s => { m with XXX_unrecognized := m.XXX_unrecognized ++ s })

/-- The loop of `(*Person).Unmarshal` with the receiver made explicit. -/
def Person.unmarshalLoopState : Nat → List Nat → Person → Int → Person × Option Fault
  | 0, _, m, _ => (m, some Fault.outOfFuel)
  | fuel + 1, dAtA, m, iNdEx =>
    if iNdEx < dAtA.length then
      match Person.unmarshalStepState dAtA m iNdEx with
      | (m, Except.ok iNdEx) => Person.unmarshalLoopState fuel dAtA m iNdEx
      | (m, Except.error e) => (m, some e)
    else if iNdEx > dAtA.length then (m, some Fault.ErrUnexpectedEOF)
    else (m, none)

/-- Method `(*Person).Unmarshal` as a state transformer: the receiver after the
call, whether it succeeded or not, and the error returned. -/
def Person.UnmarshalState (m : Person) (dAtA : List Nat) : Person × Option Fault :=
  Person.unmarshalLoopState (dAtA.length + 1) dAtA m 0

/-- The outcome of an iteration without the receiver of a failed one. -/
def forgetStep {σ : Type} (x : σ × Res Int) : Res (σ × Int) :=
  match x.2 with
  | Except.ok j => Except.ok (x.1, j)
  | Except.error e => Except.error e

/-- The outcome of a call without the receiver of a failed one. -/
def forgetCall {σ : Type} (x : σ × Option Fault) : Res σ :=
  match x.2 with
  | none => Except.ok x.1
  | some e => Except.error e

/-! ### Example records and buffers for equality, defaults and decode errors -/

/-- The 48 bytes `Marshal` produces for the record of `TestOutputData`. -/
def jaapJoostenBytes : List Nat :=
  [0x0A, 0x0C, 74, 97, 97, 112, 32, 74, 111, 111, 115, 116, 101, 110,
   0x10, 0x20,
   0x1A, 0x0C, 106, 97, 97, 112, 64, 106, 111, 111, 115, 116, 101, 110,
   0x22, 0x10,
   0x0A, 0x0C, 48, 53, 51, 50, 49, 56, 54, 50, 50, 49, 56, 57, 0x10, 0x01]

/-- A record whose unrecognized bytes are two unknown varint fields. -/
def c11First : Person :=
  { Person.zero with
    XXX_unrecognized := UField.encodeAll [⟨5, UPayload.varint [] 1⟩, ⟨6, UPayload.varint [] 2⟩] }

/-- The same record with the two unknown fields in the other order. -/
def c11Second : Person :=
  { Person.zero with
    XXX_unrecognized := UField.encodeAll [⟨6, UPayload.varint [] 2⟩, ⟨5, UPayload.varint [] 1⟩] }

/-- A `PhoneNumber` of type `MOBILE` with a number and one unknown field. -/
def c14Phone : PhoneNumber :=
  { Number := [48], Type_ := 0, XXX_unrecognized := [0x18, 1], XXX_sizecache := 0 }

/-- An `Id` field whose value has ten continuation bytes. -/
def c16Overflow : List Nat :=
  [0x10, 0x80, 0x80, 0x80, 0x80, 0x80, 0x80, 0x80, 0x80, 0x80, 0x80]

/-- A `Name` field whose length prefix is cut off after two continuation
bytes. -/
def c16Truncated : List Nat := [0x0A, 0x80, 0x80]

/-- A `Name` field followed by a tag with field number 0 and wire type 4. -/
def c17EndGroup : List Nat := [0x0A, 1, 65, 0x04]

/-- An unknown varint field followed by a tag with field number 0 and wire
type 0. -/
def c17Illegal : List Nat := [0x28, 1, 0x00]

/-- A `Name` field that announces five bytes and carries one. -/
def c18Short : List Nat := [0x0A, 0x05, 0x41]

/-- A `Name` field whose length prefix is `2^64 - 1`, which is `-1` as an
`int`. -/
def c18Negative : List Nat :=
  [0x0A, 0xFF, 0xFF, 0xFF, 0xFF, 0xFF, 0xFF, 0xFF, 0xFF, 0xFF, 0x01]

/-- A `Name` field whose length prefix is `2^63 - 1`, so that the end position
does not fit in an `int`. -/
def c18Wrap : List Nat := [0x0A, 0xFF, 0xFF, 0xFF, 0xFF, 0xFF, 0xFF, 0xFF, 0xFF, 0x7F]

/-- A buffer holding only the tag byte `0x04`: field number 0, wire type 4. -/
def c17Tag : List Nat := [0x04]

/-! ### The tag as a 64-bit value; outcomes that agree up to the kind of failure -/

/-- The tag at offset `o` as the decoder reads it, shifted right by three
bits, without the conversion to `int32`. -/
def tagNumberAt (dAtA : List Nat) (o : Int) : Option Nat :=
  match varintLoop 64 11 dAtA o 0 0 with
  | Except.ok (wire, _) => some (wire >>> 3)
  | Except.error _ => none

/-- Two outcomes agree up to `R`: both are values related by `R`, or both are
failures, not necessarily the same one. -/
def RelRes {α β : Type} (R : α → β → Prop) (x : Res α) (y : Res β) : Prop :=
  match x, y with
  | Except.ok a, Except.ok b => R a b
  | Except.error _, Except.error _ => True
  | _, _ => False

/-! ### The entry point used by the protobuf library -/

/-- A Go byte slice with the storage behind it: `data` holds the elements from
the start of the slice up to its capacity, so that `cap(b)` is `data.length`,
and `len` is `len(b)`. -/
structure ByteSlice where
  data : List Nat
  len : Nat
  deriving DecidableEq, Repr

/-- Method `(*Person).XXX_Marshal`.  The deterministic branch calls
`xxx_messageInfo_Person.Marshal`, library code outside the repository, which is
the parameter `tableMarshal`.  The other branch reslices `b` to its capacity,
lets `MarshalToSizedBuffer` fill it from the end and returns `b[:n]`. -/
def Person.XXX_Marshal (tableMarshal : ByteSlice → Person → Bool → Res (List Nat))
    (m : Person) (b : ByteSlice) (deterministic : Bool) : Res (List Nat) :=
  if deterministic then tableMarshal b m deterministic
  else do
    let b := b.data
    let (b, n) ← m.MarshalToSizedBuffer b
    sliceTo b n

/-! ### Example records and buffers for skipping, wire types, concatenation and capacity -/

/-- An unknown length-delimited field (number 5) with a two-byte payload. -/
def c21Buf : List Nat := [0x2A, 0x02, 7, 7]

/-- A declared field number with the wire type of an end group. -/
def c22EndGroup : List Nat := [0x0C]

/-- The `Id` field number with the wire type of a string. -/
def c22Wrong : List Nat := [0x0A, 1, 65, 0x12, 1, 66]

/-- A `Name` field. -/
def c23First : List Nat := [0x0A, 1, 65]

/-- An `Id` field. -/
def c23Second : List Nat := [0x10, 5]

/-- A tag whose value shifted right by three bits is `2^32 + 1`, with wire
type 2, followed by a one-byte payload. -/
def c24Buf : List Nat := [0x8A, 0x80, 0x80, 0x80, 0x80, 0x01, 0x01, 0x41]

/-- An unknown field (number 5, varint) followed by a tag with field number 0. -/
def c24Unknown : List Nat := [0x28, 0x01, 0x00]

/-- The continuation bytes of a six-byte varint with value `2^35 + 1`. -/
def c25Bytes : List Nat := [0x81, 0x80, 0x80, 0x80, 0x80]

/-- A record whose encoding has three bytes. -/
def c26Person : Person := { Person.zero with Name := [0x41] }

/-- An empty slice of capacity four over zeroed storage, `make([]byte, 0, 4)`. -/
def c26Buf : ByteSlice := ⟨[0, 0, 0, 0], 0⟩

/-! # Theorems -/

/-! ### Basic facts about outcomes and bit operations -/

@[simp] theorem pure_ok {α : Type} (a : α) : (pure a : Res α) = Except.ok a := rfl

@[simp] theorem throw_error {α : Type} (e : Fault) : (throw e : Res α) = Except.error e := rfl

@[simp] theorem ok_bind {α β : Type} (a : α) (f : α → Res β) :
    ((Except.ok a : Res α) >>= f) = f a := rfl

@[simp] theorem error_bind {α β : Type} (e : Fault) (f : α → Res β) :
    ((Except.error e : Res α) >>= f) = Except.error e := rfl

theorem and_0x7f (v : Nat) : v &&& 0x7f = v % 128 :=
  Nat.and_pow_two_sub_one_eq_mod v 7

theorem or_0x80 (x : Nat) (h : x < 128) : x ||| 0x80 = x + 128 := by
  have := Nat.mul_add_lt_is_or (i := 7) (b := x) (by simpa using h) 1
  simp at this
  rw [Nat.or_comm]; omega

theorem shr7 (v : Nat) : v >>> 7 = v / 128 := by
  rw [Nat.shiftRight_eq_div_pow]

theorem setAt_append (A B : List Nat) (x b : Nat) (i : Int) (hi : i = A.length) :
    setAt (A ++ x :: B) i b = .ok (A ++ b :: B) := by
  subst hi
  simp [setAt]

theorem encodeVarintLoop_spec (fuel : Nat) : ∀ (A H B : List Nat) (v : Nat) (i : Int),
    i = A.length → v < 128 ^ (fuel + 1) → H.length = (varintFuel fuel v).length →
    encodeVarintLoop (fuel + 1) (A ++ H ++ B) i v = .ok (A ++ varintFuel fuel v ++ B) := by
  induction fuel with
  | zero =>
    intro A H B v i hi hv hH
    simp [varintFuel] at hH hv ⊢
    obtain ⟨x, rfl⟩ := List.length_eq_one.mp hH
    have h1 : ¬ (128 ≤ v) := by omega
    have h2 : v % 256 = v := by omega
    simp [encodeVarintLoop, h1, h2, setAt_append _ _ _ _ _ hi]
  | succ n ih =>
    intro A H B v i hi hv hH
    rw [varintFuel] at hH ⊢
    by_cases h : v < 128
    · simp [h] at hH ⊢
      obtain ⟨x, rfl⟩ := List.length_eq_one.mp hH
      have h1 : ¬ (128 ≤ v) := by omega
      have h2 : v % 256 = v := by omega
      simp [encodeVarintLoop, h1, h2, setAt_append _ _ _ _ _ hi]
    · simp [h] at hH ⊢
      obtain ⟨x, T, rfl⟩ := List.exists_cons_of_length_eq_add_one hH
      have h1 : (1 <<< 7 ≤ v) := by simp; omega
      rw [encodeVarintLoop]
      simp only [ge_iff_le, h1, if_true]
      rw [and_0x7f, or_0x80 _ (Nat.mod_lt _ (by norm_num))]
      have e1 : (v % 128 + 128) % 256 = v % 128 + 128 := by omega
      rw [e1, shr7]
      simp only [List.cons_append, List.append_assoc]
      rw [setAt_append _ _ _ _ _ hi]
      have := ih (A ++ [v % 128 + 128]) T B (v / 128) (i + 1) (by simp [hi])
        (by rw [pow_succ] at hv; omega) (by simpa using hH)
      simpa using this

theorem lenBits_le (fuel : Nat) : ∀ (x k : Nat), x < 2 ^ fuel → (lenBits fuel x ≤ k ↔ x < 2 ^ k) := by
  induction fuel with
  | zero =>
    intro x k hx
    have : x = 0 := by simpa using hx
    subst this
    simp [lenBits]
  | succ n ih =>
    intro x k hx
    by_cases h0 : x = 0
    · subst h0; simp [lenBits]
    · simp only [lenBits, h0, if_false]
      cases k with
      | zero => simp; omega
      | succ k =>
        have h2 : x / 2 < 2 ^ n := by rw [pow_succ] at hx; omega
        rw [Nat.add_le_add_iff_right, ih (x / 2) k h2, pow_succ]
        omega

theorem or_one_aux (q r : Nat) (hr : r < 2) : (2 ^ 1 * q + r) ||| 1 = 2 ^ 1 * q + 1 := by
  have h1 : r ||| 1 = 1 := by interval_cases r <;> rfl
  rw [Nat.mul_add_lt_is_or (by simpa using hr), Nat.or_assoc, h1,
    ← Nat.mul_add_lt_is_or (by norm_num)]

theorem or_one (v : Nat) : v ||| 1 = 2 * (v / 2) + 1 := by
  have h := or_one_aux (v / 2) (v % 2) (Nat.mod_lt _ (by norm_num))
  have e : 2 ^ 1 * (v / 2) + v % 2 = v := by omega
  rw [e] at h
  omega

theorem or_one_lt (v m : Nat) (hm : 1 ≤ m) : v ||| 1 < 2 ^ m ↔ v < 2 ^ m := by
  constructor
  · intro h
    rw [or_one] at h
    omega
  · intro h
    exact Nat.or_lt_two_pow h (Nat.one_lt_two_pow (by omega))

theorem pow128 (k : Nat) : 128 ^ k = 2 ^ (7 * k) := by
  rw [pow_mul]; norm_num

theorem sovModels_le (v k : Nat) (hv : v < 2 ^ 64) : sovModels v ≤ k + 1 ↔ v < 128 ^ (k + 1) := by
  have h1 : v ||| 1 < 2 ^ 64 := (or_one_lt v 64 (by norm_num)).mpr hv
  have h2 := lenBits_le 64 (v ||| 1) (7 * (k + 1)) h1
  rw [or_one_lt v _ (by omega)] at h2
  rw [pow128, ← h2]
  unfold sovModels Len64
  omega

theorem sovModels_pos (v : Nat) (hv : v < 2 ^ 64) : 1 ≤ sovModels v := by
  have h1 : v ||| 1 < 2 ^ 64 := (or_one_lt v 64 (by norm_num)).mpr hv
  have h2 := lenBits_le 64 (v ||| 1) 0 h1
  have h3 : 1 ≤ v ||| 1 := by rw [or_one]; omega
  unfold sovModels Len64
  simp only [pow_zero] at h2
  omega

theorem varintFuel_length_pos (fuel v : Nat) : 1 ≤ (varintFuel fuel v).length := by
  cases fuel with
  | zero => simp [varintFuel]
  | succ n =>
    rw [varintFuel]
    split <;> simp

theorem varintFuel_length_le (fuel : Nat) : ∀ (v k : Nat), v < 128 ^ (fuel + 1) →
    ((varintFuel fuel v).length ≤ k + 1 ↔ v < 128 ^ (k + 1)) := by
  induction fuel with
  | zero =>
    intro v k hv
    simp [varintFuel]
    calc v < 128 ^ 1 := by simpa using hv
      _ ≤ 128 ^ (k + 1) := Nat.pow_le_pow_right (by norm_num) (by omega)
  | succ n ih =>
    intro v k hv
    rw [varintFuel]
    by_cases h : v < 128
    · simp [h]
      calc v < 128 ^ 1 := by simpa using h
        _ ≤ 128 ^ (k + 1) := Nat.pow_le_pow_right (by norm_num) (by omega)
    · simp only [h, if_false, List.length_cons]
      have h2 : v / 128 < 128 ^ (n + 1) := by rw [pow_succ] at hv; omega
      cases k with
      | zero =>
        have := varintFuel_length_pos n (v / 128)
        omega
      | succ k =>
        rw [Nat.add_le_add_iff_right, ih (v / 128) k h2, pow_succ _ (k + 1)]
        omega

theorem sovModels_eq_length (v : Nat) (hv : v < 2 ^ 64) : sovModels v = (varint v).length := by
  have hv9 : v < 128 ^ (9 + 1) := lt_of_lt_of_le hv (by norm_num)
  have ha := sovModels_pos v hv
  have hb := varintFuel_length_pos 9 v
  have key : ∀ k, sovModels v ≤ k + 1 ↔ (varintFuel 9 v).length ≤ k + 1 := fun k =>
    (sovModels_le v k hv).trans (varintFuel_length_le 9 v k hv9).symm
  unfold varint
  have k1 := key ((varintFuel 9 v).length - 1)
  have k2 := key (sovModels v - 1)
  omega

theorem varint_length_le (v : Nat) (hv : v < 2 ^ 64) : (varint v).length ≤ 10 := by
  have hv9 : v < 128 ^ (9 + 1) := lt_of_lt_of_le hv (by norm_num)
  exact (varintFuel_length_le 9 v 9 hv9).mpr hv9

theorem u64_lt (x : Int) : u64 x < 2 ^ 64 := by
  unfold u64
  have := Int.emod_lt_of_pos x (b := 2 ^ 64) (by norm_num)
  have := Int.emod_nonneg x (b := 2 ^ 64) (by norm_num)
  omega

/-- Writing a varint backwards from `i` fills the `sovModels v` bytes before `i`. -/
theorem encodeVarintModels_spec (X W : List Nat) (v : Nat) (i : Int) (hi : i = X.length)
    (hv : v < 2 ^ 64) (hk : sovModels v ≤ X.length) :
    encodeVarintModels (X ++ W) i v
      = .ok (X.take (X.length - sovModels v) ++ (varint v ++ W), i - sovModels v) := by
  have hlen := sovModels_eq_length v hv
  have hv9 : v < 128 ^ (9 + 1) := lt_of_lt_of_le hv (by norm_num)
  have h := encodeVarintLoop_spec 9 (X.take (X.length - sovModels v))
    (X.drop (X.length - sovModels v)) W v (i - sovModels v)
    (by simp [hi]; omega) hv9 (by rw [hlen] at hk ⊢; unfold varint at hk ⊢; simp; omega)
  rw [List.take_append_drop] at h
  unfold encodeVarintModels
  simp only [bind, Except.bind]
  rw [show (10 : Nat) = 9 + 1 from rfl, h, List.append_assoc]
  rfl

theorem copyAt_spec (X W src : List Nat) (i : Int) (hi : i = (X.length : Int) - src.length)
    (hk : src.length ≤ X.length) :
    copyAt (X ++ W) i src = .ok (X.take (X.length - src.length) ++ (src ++ W)) := by
  have h1 : i.toNat = X.length - src.length := by omega
  have h2 : 0 ≤ i ∧ i ≤ ((X ++ W).length : Int) := by
    simp only [List.length_append, Nat.cast_add]; omega
  unfold copyAt
  rw [if_pos h2, h1]
  have h3 : min ((X ++ W).length - (X.length - src.length)) src.length = src.length := by
    simp only [List.length_append]; omega
  have h4 : X.length - src.length + src.length = X.length := by omega
  simp only [h3, h4, List.take_length, pure_ok]
  rw [List.take_append_of_le_length (by omega), List.drop_append_of_le_length (le_refl _)]
  simp

theorem setAt_spec (X W : List Nat) (b : Nat) (i : Int) (hi : i = (X.length : Int) - 1)
    (hk : 1 ≤ X.length) :
    setAt (X ++ W) i b = .ok (X.take (X.length - 1) ++ b :: W) := by
  have hsplit : X = X.take (X.length - 1) ++ X.drop (X.length - 1) :=
    (List.take_append_drop _ _).symm
  have hd : (X.drop (X.length - 1)).length = 1 := by simp; omega
  obtain ⟨x, hx⟩ := List.length_eq_one.mp hd
  have h := setAt_append (X.take (X.length - 1)) W x b i (by simp [hi]; omega)
  rw [← h]
  congr 1
  rw [← List.singleton_append, ← List.append_assoc, ← hx, List.take_append_drop]

theorem take_take_sub (X : List Nat) (a b : Nat) :
    (X.take (X.length - a)).take ((X.take (X.length - a)).length - b)
      = X.take (X.length - (a + b)) := by
  rw [List.take_take, List.length_take]
  congr 1
  omega

theorem length_take_sub (X : List Nat) (a : Nat) :
    (X.take (X.length - a)).length = X.length - a := by
  rw [List.length_take]; omega

theorem PhoneNumber_MarshalToSizedBuffer_blocks (m : PhoneNumber) (dAtA : List Nat) :
    m.MarshalToSizedBuffer dAtA = (do
      let s ← blockUnrecognized m.XXX_unrecognized (dAtA, (dAtA.length : Int))
      let s ← blockVarint 0x10 m.Type_ s
      let s ← blockBytes 0xa m.Number s
      pure (s.1, (s.1.length : Int) - s.2)) := by
  unfold PhoneNumber.MarshalToSizedBuffer blockUnrecognized blockVarint blockBytes
  by_cases h1 : m.XXX_unrecognized ≠ [] <;> by_cases h2 : m.Type_ ≠ 0 <;>
    by_cases h3 : m.Number.length > 0 <;>
    simp only [ne_eq, gt_iff_lt, h1, h2, h3, not_true_eq_false, not_false_eq_true, if_true,
      if_false, bind_assoc, pure_bind]

theorem blockUnrecognized_spec (u X W : List Nat) (i : Int) (hi : i = X.length)
    (hk : u.length ≤ X.length) :
    blockUnrecognized u (X ++ W, i)
      = .ok (X.take (X.length - u.length) ++ (u ++ W), i - u.length) := by
  unfold blockUnrecognized
  by_cases h : u ≠ []
  · rw [if_pos h]
    simp only []
    rw [copyAt_spec X W u _ (by rw [hi]) hk]
    rfl
  · have hu : u = [] := by simpa using h
    subst hu
    simp

theorem blockVarint_spec (tag : Nat) (x : Int) (X W : List Nat) (i : Int) (hi : i = X.length)
    (hk : (if x ≠ 0 then tag :: varint (u64 x) else []).length ≤ X.length) :
    blockVarint tag x (X ++ W, i)
      = .ok (X.take (X.length - (if x ≠ 0 then tag :: varint (u64 x) else []).length)
          ++ ((if x ≠ 0 then tag :: varint (u64 x) else []) ++ W),
          i - (if x ≠ 0 then tag :: varint (u64 x) else []).length) := by
  unfold blockVarint
  by_cases h : x ≠ 0
  · simp only [if_pos h, List.length_cons] at hk ⊢
    have hv := u64_lt x
    have hl := sovModels_eq_length (u64 x) hv
    rw [encodeVarintModels_spec X W (u64 x) i hi hv (by omega)]
    simp only [ok_bind]
    rw [setAt_spec _ _ tag _ (by rw [length_take_sub, hi]; omega)
      (by rw [length_take_sub]; omega), take_take_sub, hl]
    simp only [ok_bind, pure_ok, List.cons_append, Nat.cast_add, Nat.cast_one]
    congr 2
    omega
  · simp only [if_neg h]
    simp

theorem blockBytes_spec (tag : Nat) (bs X W : List Nat) (i : Int) (hi : i = X.length)
    (hk : (if bs.length > 0 then lenDelim tag bs else []).length ≤ X.length) :
    blockBytes tag bs (X ++ W, i)
      = .ok (X.take (X.length - (if bs.length > 0 then lenDelim tag bs else []).length)
          ++ ((if bs.length > 0 then lenDelim tag bs else []) ++ W),
          i - (if bs.length > 0 then lenDelim tag bs else []).length) := by
  unfold blockBytes
  by_cases h : bs.length > 0
  · simp only [if_pos h, lenDelim, List.length_cons, List.length_append] at hk ⊢
    have hv := u64_lt bs.length
    have hl := sovModels_eq_length (u64 bs.length) hv
    rw [copyAt_spec X W bs _ (by rw [hi]) (by omega)]
    simp only [ok_bind]
    rw [encodeVarintModels_spec _ _ (u64 bs.length) _ (by rw [length_take_sub, hi]; omega) hv
      (by rw [length_take_sub]; omega), take_take_sub]
    simp only [ok_bind]
    rw [setAt_spec _ _ tag _ (by rw [length_take_sub, hi]; omega)
      (by rw [length_take_sub]; omega), take_take_sub, hl]
    simp only [ok_bind, pure_ok, List.cons_append, List.append_assoc, Nat.cast_add, Nat.cast_one]
    congr 2
    · congr 2
      omega
    · omega
  · simp only [if_neg h]
    simp

/-- The general form of the sizing and layout result for `PhoneNumber`: on any
buffer at least as long as the encoding, the encoding is written at the end. -/
theorem PhoneNumber_MarshalToSizedBuffer_spec (m : PhoneNumber) (X : List Nat)
    (hk : m.wire.length ≤ X.length) :
    m.MarshalToSizedBuffer X
      = .ok (X.take (X.length - m.wire.length) ++ m.wire, (m.wire.length : Int)) := by
  rw [PhoneNumber_MarshalToSizedBuffer_blocks]
  unfold PhoneNumber.wire at hk ⊢
  simp only [List.length_append] at hk
  have h0 := blockUnrecognized_spec m.XXX_unrecognized X [] X.length rfl (by omega)
  rw [List.append_nil] at h0
  rw [h0]
  simp only [ok_bind]
  rw [blockVarint_spec 0x10 m.Type_ _ _ _ (by rw [length_take_sub]; omega)
    (by rw [length_take_sub]; omega), take_take_sub]
  simp only [ok_bind]
  rw [blockBytes_spec 0xa m.Number _ _ _ (by rw [length_take_sub]; omega)
    (by rw [length_take_sub]; omega), take_take_sub]
  simp only [ok_bind, pure_ok, List.append_nil, List.length_append, length_take_sub]
  congr 2
  · congr 2
    omega
  · push_cast
    omega

theorem Person_MarshalToSizedBuffer_blocks (m : Person) (dAtA : List Nat) :
    m.MarshalToSizedBuffer dAtA = (do
      let s ← blockUnrecognized m.XXX_unrecognized (dAtA, (dAtA.length : Int))
      let s ← blockPhone m.Phone s
      let s ← blockBytes 0x1a m.Email s
      let s ← blockVarint 0x10 m.Id s
      let s ← blockBytes 0xa m.Name s
      pure (s.1, (s.1.length : Int) - s.2)) := by
  unfold Person.MarshalToSizedBuffer blockUnrecognized blockVarint blockBytes blockPhone
  by_cases h1 : m.XXX_unrecognized ≠ [] <;> by_cases h2 : m.Id ≠ 0 <;>
    by_cases h3 : m.Name.length > 0 <;> by_cases h4 : m.Email.length > 0 <;>
    cases h5 : m.Phone <;>
    simp only [ne_eq, gt_iff_lt, h1, h2, h3, h4, not_true_eq_false, not_false_eq_true, if_true,
      if_false, bind_assoc, pure_bind]

theorem sliceTo_append (X W : List Nat) (i : Int) (hi : i = X.length) :
    sliceTo (X ++ W) i = .ok X := by
  subst hi
  simp [sliceTo]

theorem blockPhone_spec (ph : Option PhoneNumber) (X W : List Nat) (i : Int) (hi : i = X.length)
    (hk : (phoneWire ph).length ≤ X.length) :
    blockPhone ph (X ++ W, i)
      = .ok (X.take (X.length - (phoneWire ph).length) ++ (phoneWire ph ++ W),
          i - (phoneWire ph).length) := by
  unfold blockPhone
  cases ph with
  | none => simp [phoneWire]
  | some p =>
    simp only [phoneWire, lenDelim, List.length_cons, List.length_append] at hk ⊢
    have hv := u64_lt p.wire.length
    have hl := sovModels_eq_length (u64 p.wire.length) hv
    rw [sliceTo_append X W i hi]
    simp only [ok_bind]
    rw [PhoneNumber_MarshalToSizedBuffer_spec p X (by omega)]
    simp only [ok_bind]
    have hd : List.drop i.toNat (X ++ W) = W := by
      subst hi
      simp
    rw [hd, List.append_assoc]
    rw [encodeVarintModels_spec _ _ (u64 p.wire.length) _ (by rw [length_take_sub, hi]; omega) hv
      (by rw [length_take_sub]; omega), take_take_sub]
    simp only [ok_bind]
    rw [setAt_spec _ _ 0x22 _ (by rw [length_take_sub, hi]; omega)
      (by rw [length_take_sub]; omega), take_take_sub, hl]
    simp only [ok_bind, pure_ok, List.cons_append, List.append_assoc, Nat.cast_add, Nat.cast_one]
    congr 2
    · congr 2
      omega
    · omega

/-- The general form of the sizing and layout result for `Person`. -/
theorem Person_MarshalToSizedBuffer_spec (m : Person) (X : List Nat)
    (hk : m.wire.length ≤ X.length) :
    m.MarshalToSizedBuffer X
      = .ok (X.take (X.length - m.wire.length) ++ m.wire, (m.wire.length : Int)) := by
  rw [Person_MarshalToSizedBuffer_blocks]
  unfold Person.wire at hk ⊢
  simp only [List.length_append] at hk
  have h0 := blockUnrecognized_spec m.XXX_unrecognized X [] X.length rfl (by omega)
  rw [List.append_nil] at h0
  rw [h0]
  simp only [ok_bind]
  rw [blockPhone_spec m.Phone _ _ _ (by rw [length_take_sub]; omega)
    (by rw [length_take_sub]; omega), take_take_sub]
  simp only [ok_bind]
  rw [blockBytes_spec 0x1a m.Email _ _ _ (by rw [length_take_sub]; omega)
    (by rw [length_take_sub]; omega), take_take_sub]
  simp only [ok_bind]
  rw [blockVarint_spec 0x10 m.Id _ _ _ (by rw [length_take_sub]; omega)
    (by rw [length_take_sub]; omega), take_take_sub]
  simp only [ok_bind]
  rw [blockBytes_spec 0xa m.Name _ _ _ (by rw [length_take_sub]; omega)
    (by rw [length_take_sub]; omega), take_take_sub]
  simp only [ok_bind, pure_ok, List.append_nil, List.length_append, length_take_sub]
  congr 2
  · congr 2
    omega
  · push_cast
    omega

theorem lenDelim_length (tag : Nat) (bs : List Nat) :
    (lenDelim tag bs).length = 1 + bs.length + sovModels (u64 bs.length) := by
  simp only [lenDelim, List.length_cons, List.length_append,
    sovModels_eq_length _ (u64_lt bs.length)]
  omega

theorem add_length_ite (n : Nat) (u : List Nat) :
    (if u ≠ [] then n + u.length else n) = n + u.length := by
  by_cases h : u = [] <;> simp [h]

theorem PhoneNumber_Size_eq (m : PhoneNumber) : m.Size = m.wire.length := by
  unfold PhoneNumber.Size PhoneNumber.wire
  simp only [List.length_append, Nat.zero_add, add_length_ite]
  by_cases h2 : m.Type_ ≠ 0 <;> by_cases h3 : m.Number.length > 0 <;>
    simp [h2, h3, lenDelim_length, sovModels_eq_length _ (u64_lt m.Type_)] <;> omega

theorem Person_Size_eq (m : Person) : m.Size = m.wire.length := by
  unfold Person.Size Person.wire
  simp only [List.length_append, Nat.zero_add, add_length_ite]
  have hid := sovModels_eq_length _ (u64_lt m.Id)
  by_cases h2 : m.Id ≠ 0 <;> by_cases h3 : m.Name.length > 0 <;>
    by_cases h4 : m.Email.length > 0 <;> cases h5 : m.Phone <;>
    simp [h2, h3, h4, phoneWire, lenDelim_length, hid, PhoneNumber_Size_eq] <;> omega

theorem PhoneNumber_Marshal_eq (m : PhoneNumber) : m.Marshal = .ok m.wire := by
  unfold PhoneNumber.Marshal
  have h1 : sliceTo (List.replicate m.Size 0) (m.Size : Int) = .ok (List.replicate m.Size 0) := by
    have := sliceTo_append (List.replicate m.Size 0) [] m.Size (by simp)
    simpa using this
  simp only [h1, ok_bind]
  rw [PhoneNumber_MarshalToSizedBuffer_spec m _ (by simp [PhoneNumber_Size_eq])]
  simp only [ok_bind, List.length_replicate, PhoneNumber_Size_eq, Nat.sub_self, List.take_zero,
    List.nil_append]
  have := sliceTo_append m.wire [] m.wire.length rfl
  simpa using this

theorem Person_Marshal_eq (m : Person) : m.Marshal = .ok m.wire := by
  unfold Person.Marshal
  have h1 : sliceTo (List.replicate m.Size 0) (m.Size : Int) = .ok (List.replicate m.Size 0) := by
    have := sliceTo_append (List.replicate m.Size 0) [] m.Size (by simp)
    simpa using this
  simp only [h1, ok_bind]
  rw [Person_MarshalToSizedBuffer_spec m _ (by simp [Person_Size_eq])]
  simp only [ok_bind, List.length_replicate, Person_Size_eq, Nat.sub_self, List.take_zero,
    List.nil_append]
  have := sliceTo_append m.wire [] m.wire.length rfl
  simpa using this

/-! ### Decoding a varint -/

theorem getAt_append (A B : List Nat) (b : Nat) (i : Int) (hi : i = A.length) :
    getAt (A ++ b :: B) i = .ok b := by
  subst hi
  have h : (A ++ b :: B)[A.length]? = some b := by
    rw [List.getElem?_append_right (le_refl _)]
    simp
  simp [getAt, h]

/-- One accumulation step `acc |= (b & 0x7F) << shift` on `w`-bit patterns adds
the group at its position, modulo `2 ^ w`. -/
theorem acc_step (w s A x : Nat) (hA : A < 2 ^ s) :
    (A % 2 ^ w) ||| ((x <<< s) % 2 ^ w) = (A + x * 2 ^ s) % 2 ^ w := by
  rw [Nat.shiftLeft_eq]
  by_cases hsw : w ≤ s
  · obtain ⟨d, rfl⟩ := Nat.exists_eq_add_of_le hsw
    have h1 : x * 2 ^ (w + d) = 2 ^ w * (x * 2 ^ d) := by rw [pow_add]; ring
    rw [h1, Nat.mul_mod_right, Nat.or_zero, Nat.add_mul_mod_self_left]
  · have hws : s < w := by omega
    obtain ⟨d, rfl⟩ := Nat.exists_eq_add_of_le (Nat.le_of_lt hws)
    have hAw : A < 2 ^ (s + d) :=
      lt_of_lt_of_le hA (Nat.pow_le_pow_right (by norm_num) (by omega))
    have h1 : x * 2 ^ s % 2 ^ (s + d) = 2 ^ s * (x % 2 ^ d) := by
      rw [pow_add, Nat.mul_comm x, Nat.mul_mod_mul_left]
    have hq : x % 2 ^ d < 2 ^ d := Nat.mod_lt _ (by positivity)
    have h2 : 2 ^ s * (x % 2 ^ d) + A < 2 ^ (s + d) := by
      rw [pow_add]
      have : 2 ^ s * (x % 2 ^ d + 1) ≤ 2 ^ s * 2 ^ d := Nat.mul_le_mul_left _ hq
      rw [Nat.mul_add, Nat.mul_one] at this
      omega
    rw [Nat.mod_eq_of_lt hAw, h1, Nat.or_comm, ← Nat.mul_add_lt_is_or hA, Nat.add_mod, h1,
      Nat.mod_eq_of_lt hAw, Nat.add_comm A, Nat.mod_eq_of_lt h2]

theorem varintLoop_varintFuel (w : Nat) (n : Nat) : ∀ (k A v fuel : Nat) (pre post : List Nat)
    (i : Int), i = pre.length → n + 1 ≤ fuel → k + n ≤ 9 → A < 2 ^ (7 * k) →
    v < 128 ^ (n + 1) →
    varintLoop w fuel (pre ++ varintFuel n v ++ post) i (7 * k) (A % 2 ^ w)
      = .ok ((A + v * 2 ^ (7 * k)) % 2 ^ w, i + (varintFuel n v).length) := by
  induction n with
  | zero =>
    intro k A v fuel pre post i hi hf hk hA hv
    obtain ⟨f, rfl⟩ : ∃ f, fuel = f + 1 := ⟨fuel - 1, by omega⟩
    have hv : v < 128 := by simpa using hv
    have hs : ¬ (7 * k ≥ 64) := by omega
    have hl : ¬ (i ≥ ((pre ++ varintFuel 0 v ++ post).length : Int)) := by
      simp [varintFuel, hi]
    rw [varintLoop, if_neg hs, if_neg hl]
    simp only [varintFuel, List.append_assoc, List.singleton_append, List.length_singleton]
    rw [getAt_append _ _ _ _ hi]
    simp only [ok_bind, and_0x7f, Nat.mod_eq_of_lt hv, acc_step w (7 * k) A v hA]
    rw [if_pos (by simpa using hv)]
    rfl
  | succ n ih =>
    intro k A v fuel pre post i hi hf hk hA hv
    obtain ⟨f, rfl⟩ : ∃ f, fuel = f + 1 := ⟨fuel - 1, by omega⟩
    have hs : ¬ (7 * k ≥ 64) := by omega
    have hl : ¬ (i ≥ ((pre ++ varintFuel (n + 1) v ++ post).length : Int)) := by
      have := varintFuel_length_pos (n + 1) v
      simp only [List.length_append, Nat.cast_add, hi]
      omega
    rw [varintLoop, if_neg hs, if_neg hl]
    rw [varintFuel]
    by_cases h : v < 128
    · simp only [if_pos h, List.append_assoc, List.singleton_append, List.length_singleton]
      rw [getAt_append _ _ _ _ hi]
      simp only [ok_bind, and_0x7f, Nat.mod_eq_of_lt h, acc_step w (7 * k) A v hA]
      rw [if_pos (by simpa using h)]
      rfl
    · simp only [if_neg h, List.append_assoc, List.cons_append, List.length_cons]
      rw [getAt_append _ _ _ _ hi]
      have hb : (v % 128 + 128) % 128 = v % 128 := by omega
      have hnb : ¬ (v % 128 + 128 < 0x80) := by omega
      simp only [ok_bind, and_0x7f, hb, acc_step w (7 * k) A (v % 128) hA]
      rw [if_neg hnb]
      have hA2 : A + v % 128 * 2 ^ (7 * k) < 2 ^ (7 * (k + 1)) := by
        have e : 2 ^ (7 * (k + 1)) = 128 * 2 ^ (7 * k) := by
          rw [Nat.mul_add, pow_add]; norm_num; ring
        have : v % 128 * 2 ^ (7 * k) ≤ 127 * 2 ^ (7 * k) :=
          Nat.mul_le_mul_right _ (by omega)
        omega
      have hv2 : v / 128 < 128 ^ (n + 1) := by rw [pow_succ] at hv; omega
      have := ih (k + 1) (A + v % 128 * 2 ^ (7 * k)) (v / 128) f (pre ++ [v % 128 + 128]) post
        (i + 1) (by simp [hi]) (by omega) (by omega) hA2 hv2
      simp only [List.append_assoc, List.singleton_append, List.cons_append,
        List.nil_append] at this
      rw [show 7 * k + 7 = 7 * (k + 1) by ring, this]
      congr 2
      · congr 1
        have e : 2 ^ (7 * (k + 1)) = 128 * 2 ^ (7 * k) := by
          rw [Nat.mul_add, pow_add]; norm_num; ring
        rw [e]
        have hv3 : v = v % 128 + 128 * (v / 128) := by omega
        conv_rhs => rw [hv3]
        ring
      · push_cast
        ring

/-- Decoding the canonical varint of `v` at offset `|pre|` yields `v` truncated
to the accumulator width and advances past it. -/
theorem varintLoop_varint (w v : Nat) (pre post : List Nat) (i : Int) (hi : i = pre.length)
    (hv : v < 2 ^ 64) :
    varintLoop w 11 (pre ++ varint v ++ post) i 0 0
      = .ok (v % 2 ^ w, i + (varint v).length) := by
  have hv9 : v < 128 ^ (9 + 1) := lt_of_lt_of_le hv (by norm_num)
  have := varintLoop_varintFuel w 9 0 0 v 11 pre post i hi (by norm_num) (by norm_num)
    (by norm_num) hv9
  simpa [varint] using this

theorem u64_natCast (n : Nat) (h : n < 2 ^ 64) : u64 (n : Int) = n := by
  unfold u64
  have : ((n : Int) % 2 ^ 64) = n := Int.emod_eq_of_lt (by omega) (by omega)
  rw [this]
  simp

theorem u64_eq_signExtend64 (x : Int) (h1 : -2 ^ 31 ≤ x) (h2 : x < 2 ^ 31) :
    u64 x = signExtend64 x := by
  unfold u64 signExtend64
  by_cases h : 0 ≤ x
  · rw [if_pos h, Int.emod_eq_of_lt h (by omega)]
  · rw [if_neg h]
    have : x % 2 ^ 64 = 2 ^ 64 + x := by
      rw [← Int.add_mul_emod_self_left x (2 ^ 64) 1]
      rw [Int.emod_eq_of_lt (by omega) (by omega)]
      ring
    rw [this]

theorem length_pos_iff_ne_nil (l : List Nat) : l.length > 0 ↔ l ≠ [] := by
  cases l <;> simp

theorem PhoneNumber_wire_eq_layout (p : PhoneNumber) (h : p.Valid) : p.wire = p.layout := by
  obtain ⟨h1, h2, h3⟩ := h
  rw [PhoneNumber_Size_eq] at h3
  unfold PhoneNumber.layout
  unfold PhoneNumber.wire at h3 ⊢
  simp only [length_pos_iff_ne_nil, tagByte] at h3 ⊢
  rw [← u64_eq_signExtend64 _ h1 h2]
  by_cases hn : p.Number ≠ []
  · simp only [if_pos hn, lenDelim, List.length_append, List.length_cons] at h3 ⊢
    rw [u64_natCast _ (by omega)]
    simp
  · simp only [if_neg hn]
    simp

theorem Person_wire_eq_layout (m : Person) (h : m.Valid) : m.wire = m.layout := by
  obtain ⟨h1, h2, h3, h4⟩ := h
  rw [Person_Size_eq] at h3
  unfold Person.layout Person.layoutRecognized
  unfold Person.wire at h3 ⊢
  simp only [length_pos_iff_ne_nil, tagByte, List.length_append] at h3 ⊢
  rw [← u64_eq_signExtend64 _ h1 h2]
  have hname : (if m.Name ≠ [] then lenDelim 0xa m.Name else [])
      = (if m.Name ≠ [] then [1 <<< 3 ||| 2] ++ varint m.Name.length ++ m.Name else []) := by
    by_cases hn : m.Name ≠ []
    · simp only [if_pos hn, lenDelim, List.length_cons, List.length_append] at h3 ⊢
      rw [u64_natCast _ (by omega)]
      simp
    · simp only [if_neg hn]
  have hemail : (if m.Email ≠ [] then lenDelim 0x1a m.Email else [])
      = (if m.Email ≠ [] then [3 <<< 3 ||| 2] ++ varint m.Email.length ++ m.Email else []) := by
    by_cases hn : m.Email ≠ []
    · simp only [if_pos hn, lenDelim, List.length_cons, List.length_append] at h3 ⊢
      rw [u64_natCast _ (by omega)]
      simp
    · simp only [if_neg hn]
  have hphone : phoneWire m.Phone = (match m.Phone with
      | some p => [4 <<< 3 ||| 2] ++ varint p.layout.length ++ p.layout
      | none => []) := by
    cases hp : m.Phone with
    | none => rfl
    | some p =>
      rw [hp] at h4 h3
      simp only [phoneWire, lenDelim, List.length_cons, List.length_append] at h3 ⊢
      rw [u64_natCast _ (by omega), PhoneNumber_wire_eq_layout p h4]
      simp
  rw [hname, hemail, hphone]
  simp only [List.append_assoc]
  rfl

/-- C3 (exact sizing).  For every `Person` and every `PhoneNumber`, `Marshal`
returns without error a byte sequence of exactly `Size()` bytes, and
`MarshalToSizedBuffer` on any buffer of `Size()` bytes stays inside the buffer
and returns `n = Size()`, which is the length of the buffer: the cursor
`i = len(dAtA) - n` has reached index 0. -/
theorem C3_exact_sizing (m : Person) (p : PhoneNumber) (buf bufp : List Nat)
    (hbuf : buf.length = m.Size) (hbufp : bufp.length = p.Size) :
    (∃ bs, m.Marshal = .ok bs ∧ bs.length = m.Size) ∧
    (∃ bs, p.Marshal = .ok bs ∧ bs.length = p.Size) ∧
    (∃ out, m.MarshalToSizedBuffer buf = .ok (out, (m.Size : Int)) ∧ out.length = buf.length) ∧
    (∃ out, p.MarshalToSizedBuffer bufp = .ok (out, (p.Size : Int)) ∧
      out.length = bufp.length) := by
  refine ⟨⟨m.wire, Person_Marshal_eq m, (Person_Size_eq m).symm⟩,
    ⟨p.wire, PhoneNumber_Marshal_eq p, (PhoneNumber_Size_eq p).symm⟩, ?_, ?_⟩
  · rw [Person_MarshalToSizedBuffer_spec m buf (by rw [hbuf, Person_Size_eq]), hbuf,
      Person_Size_eq]
    exact ⟨_, rfl, by simp⟩
  · rw [PhoneNumber_MarshalToSizedBuffer_spec p bufp (by rw [hbufp, PhoneNumber_Size_eq]), hbufp,
      PhoneNumber_Size_eq]
    exact ⟨_, rfl, by simp⟩

theorem C3_exact_sizing_witness :
    (∃ bs, jaapJoosten.Marshal = .ok bs ∧ bs.length = jaapJoosten.Size) ∧
    (∃ bs, PhoneNumber.zero.Marshal = .ok bs ∧ bs.length = PhoneNumber.zero.Size) ∧
    (∃ out, jaapJoosten.MarshalToSizedBuffer (List.replicate 48 7)
        = .ok (out, (jaapJoosten.Size : Int)) ∧ out.length = (List.replicate 48 7).length) ∧
    (∃ out, PhoneNumber.zero.MarshalToSizedBuffer [] = .ok (out, (PhoneNumber.zero.Size : Int)) ∧
      out.length = ([] : List Nat).length) :=
  C3_exact_sizing jaapJoosten PhoneNumber.zero (List.replicate 48 7) [] (by decide) (by decide)

/-- C4 (encoded layout).  For every valid `Person`, `Marshal` returns the
recognized fields in ascending field-number order, each present exactly when
populated and introduced by the tag byte `fieldNumber << 3 | wireType`, followed
by the unrecognized bytes verbatim; the payload of the `Phone` field is the
output of `Phone.Marshal()`, which has the corresponding layout. -/
theorem C4_encoded_layout (m : Person) (hm : m.Valid) :
    m.Marshal = .ok m.layout ∧
    (∀ p, m.Phone = some p → p.Marshal = .ok p.layout) ∧
    tagByte 1 2 = 0x0A ∧ tagByte 2 0 = 0x10 ∧ tagByte 3 2 = 0x1A ∧ tagByte 4 2 = 0x22 := by
  refine ⟨?_, ?_, by decide, by decide, by decide, by decide⟩
  · rw [Person_Marshal_eq, Person_wire_eq_layout m hm]
  · intro p hp
    have h4 := hm.2.2.2
    rw [hp] at h4
    rw [PhoneNumber_Marshal_eq, PhoneNumber_wire_eq_layout p h4]

theorem C4_encoded_layout_witness :
    jaapJoosten.Marshal = .ok jaapJoosten.layout ∧
    (∀ p, jaapJoosten.Phone = some p → p.Marshal = .ok p.layout) ∧
    tagByte 1 2 = 0x0A ∧ tagByte 2 0 = 0x10 ∧ tagByte 3 2 = 0x1A ∧ tagByte 4 2 = 0x22 :=
  C4_encoded_layout jaapJoosten
    ⟨by decide, by decide, by decide, by decide, by decide, by decide⟩

/-! ### Claims C5 and C6 -/

/-- C5 as stated fails: the record has a populated field and unrecognized
bytes, and its encoding does not start with the unrecognized bytes. -/
theorem C5_counterexample :
    c5Person.XXX_unrecognized ≠ [] ∧ c5Person.Name ≠ [] ∧
    ∃ bs, c5Person.Marshal = .ok bs ∧
      bs.take c5Person.XXX_unrecognized.length ≠ c5Person.XXX_unrecognized :=
  ⟨by decide, by decide, [10, 1, 65, 40, 1], by decide, by decide⟩

/-- C5, amended.  For every `Person` with unrecognized bytes and at least one
populated recognized field, the output of `Marshal` is the non-empty encoding of
the recognized fields (the encoding of the record without its unrecognized
bytes) followed by the unrecognized bytes: they are placed after all recognized
fields. -/
theorem C5_unrecognized_after_recognized (m : Person) (_hu : m.XXX_unrecognized ≠ [])
    (hr : m.Name ≠ [] ∨ m.Id ≠ 0 ∨ m.Email ≠ [] ∨ m.Phone ≠ none) :
    ∃ known, { m with XXX_unrecognized := [] }.Marshal = .ok known ∧ known ≠ [] ∧
      m.Marshal = .ok (known ++ m.XXX_unrecognized) := by
  refine ⟨({ m with XXX_unrecognized := [] } : Person).wire, Person_Marshal_eq _, ?_, ?_⟩
  · unfold Person.wire
    simp only [List.append_nil, length_pos_iff_ne_nil]
    intro h
    simp only [List.append_eq_nil] at h
    obtain ⟨h1, h2, h3, h4⟩ := h
    rcases hr with hr | hr | hr | hr
    · simp [if_pos hr, lenDelim] at h1
    · simp [if_pos hr] at h2
    · simp [if_pos hr, lenDelim] at h3
    · cases hp : m.Phone with
      | none => exact hr hp
      | some p => simp [hp, phoneWire, lenDelim] at h4
  · rw [Person_Marshal_eq]
    unfold Person.wire
    simp only [List.append_nil, List.append_assoc]

theorem C5_unrecognized_after_recognized_witness :
    ∃ known, { c5Person with XXX_unrecognized := [] }.Marshal = .ok known ∧ known ≠ [] ∧
      c5Person.Marshal = .ok (known ++ c5Person.XXX_unrecognized) :=
  C5_unrecognized_after_recognized c5Person (by decide) (Or.inl (by decide))

/-- C6 (varint symmetry).  For every unsigned 64-bit `v`, `encodeVarintModels`
fills a buffer of `sovModels v` bytes, and the varint loop of `Unmarshal` run on
exactly those bytes succeeds, returns `v` and stops at the end of the buffer. -/
theorem C6_varint_symmetry (v : Nat) (hv : v < 2 ^ 64) (buf : List Nat)
    (hbuf : buf.length = sovModels v) :
    ∃ bs, encodeVarintModels buf (sovModels v) v = .ok (bs, 0) ∧
      bs.length = sovModels v ∧
      varintLoop 64 11 bs 0 0 0 = .ok (v, (sovModels v : Int)) := by
  have h1 := encodeVarintModels_spec buf [] v (sovModels v) (by rw [hbuf]) hv (by omega)
  have h2 := varintLoop_varint 64 v [] [] 0 rfl hv
  simp only [List.append_nil, hbuf, Nat.sub_self, List.take_zero, List.nil_append,
    sub_self] at h1
  simp only [List.append_nil, List.nil_append, zero_add, Nat.mod_eq_of_lt hv] at h2
  exact ⟨varint v, h1, (sovModels_eq_length v hv).symm, by rw [h2, sovModels_eq_length v hv]⟩

theorem C6_varint_symmetry_witness :
    ∃ bs, encodeVarintModels [0, 0] (sovModels 300) 300 = .ok (bs, 0) ∧
      bs.length = sovModels 300 ∧
      varintLoop 64 11 bs 0 0 0 = .ok (300, (sovModels 300 : Int)) :=
  C6_varint_symmetry 300 (by decide) [0, 0] (by decide)

/-! ### Totality of the decoders -/

theorem Safe.bind {α β : Type} {x : Res α} {f : α → Res β} {P : α → Prop} {Q : β → Prop}
    (hx : Safe x P) (hf : ∀ a, P a → Safe (f a) Q) : Safe (x >>= f) Q := by
  cases x with
  | error e => exact hx
  | ok a => exact hf a hx

theorem Safe.pure {α : Type} {a : α} {P : α → Prop} (h : P a) : Safe (Pure.pure a : Res α) P := h

theorem Safe.throw {α : Type} {e : Fault} {P : α → Prop} (h : e.isError = true) :
    Safe (throw e : Res α) P := h

theorem Safe.ite {α : Type} {c : Prop} [Decidable c] {x y : Res α} {P : α → Prop}
    (hx : c → Safe x P) (hy : ¬ c → Safe y P) : Safe (if c then x else y) P := by
  by_cases h : c
  · rw [if_pos h]; exact hx h
  · rw [if_neg h]; exact hy h

theorem Safe.mono {α : Type} {x : Res α} {P Q : α → Prop} (hx : Safe x P)
    (h : ∀ a, P a → Q a) : Safe x Q := by
  cases x with
  | error e => exact hx
  | ok a => exact h a hx

theorem getAt_safe (dAtA : List Nat) (i : Int) (h0 : 0 ≤ i) (h1 : i < dAtA.length) :
    Safe (getAt dAtA i) (fun _ => True) := by
  unfold getAt
  rw [if_pos h0]
  have : i.toNat < dAtA.length := by omega
  rw [List.getElem?_eq_getElem this]
  trivial

theorem sliceFrom_safe (dAtA : List Nat) (i : Int) (h0 : 0 ≤ i) (h1 : i ≤ dAtA.length) :
    Safe (sliceFrom dAtA i) (fun s => s = dAtA.drop i.toNat) := by
  unfold sliceFrom
  rw [if_pos ⟨h0, h1⟩]
  rfl

theorem slice_safe (dAtA : List Nat) (i j : Int) (h0 : 0 ≤ i) (h1 : i ≤ j)
    (h2 : j ≤ dAtA.length) : Safe (slice dAtA i j) (fun _ => True) := by
  unfold slice
  rw [if_pos ⟨h0, h1, h2⟩]
  trivial

theorem toInt64_lt (n : Nat) : toInt64 n < 2 ^ 63 := by
  unfold toInt64
  have := Nat.mod_lt n (show 0 < 2 ^ 64 by norm_num)
  split <;> omega

theorem addInt_lt (a b : Int) : addInt a b < 2 ^ 63 := toInt64_lt _

theorem toInt64_ge (n : Nat) : -2 ^ 63 ≤ toInt64 n := by
  unfold toInt64
  have := Nat.mod_lt n (show 0 < 2 ^ 64 by norm_num)
  split <;> omega

theorem addInt_ge (a b : Int) : -2 ^ 63 ≤ addInt a b := toInt64_ge _

theorem addInt_eq (a b : Int) (h1 : -2 ^ 63 ≤ a + b) (h2 : a + b < 2 ^ 63) :
    addInt a b = a + b := by
  unfold addInt toInt64 u64
  by_cases hs : 0 ≤ a + b
  · have e : (a + b) % 2 ^ 64 = a + b := Int.emod_eq_of_lt hs (by omega)
    rw [e]
    have e2 : ((a + b).toNat % 2 ^ 64 : Nat) = (a + b).toNat := Nat.mod_eq_of_lt (by omega)
    rw [e2]
    split <;> omega
  · have e : (a + b) % 2 ^ 64 = a + b + 2 ^ 64 := by
      rw [← Int.add_mul_emod_self_left (a + b) (2 ^ 64) 1]
      rw [Int.emod_eq_of_lt (by omega) (by omega)]
      ring
    rw [e]
    have e2 : ((a + b + 2 ^ 64).toNat % 2 ^ 64 : Nat) = (a + b + 2 ^ 64).toNat :=
      Nat.mod_eq_of_lt (by omega)
    rw [e2]
    split <;> omega

theorem addInt_wrap (a b : Int) (h1 : 2 ^ 63 ≤ a + b) (h2 : a + b < 2 ^ 64) :
    addInt a b = a + b - 2 ^ 64 := by
  unfold addInt toInt64 u64
  have e : (a + b) % 2 ^ 64 = a + b := Int.emod_eq_of_lt (by omega) (by omega)
  rw [e]
  have e2 : ((a + b).toNat % 2 ^ 64 : Nat) = (a + b).toNat := Nat.mod_eq_of_lt (by omega)
  rw [e2]
  split <;> omega

theorem addInt_of_nonneg (a b : Int) (ha : 0 ≤ a) (ha2 : a < 2 ^ 63) (hb : 0 ≤ b)
    (hb2 : b < 2 ^ 63) (h : 0 ≤ addInt a b) : addInt a b = a + b := by
  by_cases hs : a + b < 2 ^ 63
  · exact addInt_eq a b (by omega) hs
  · have := addInt_wrap a b (by omega) (by omega)
    omega

theorem addInt_small (dAtA : List Nat) (hlen : dAtA.length < 2 ^ 63) (i k : Int) (h0 : 1 ≤ i)
    (h1 : i ≤ dAtA.length) (hk0 : 0 ≤ k) (hk : k ≤ 8) : SkipResult dAtA (addInt i k) := by
  refine ⟨addInt_ge _ _, addInt_lt _ _, ?_⟩
  by_cases hs : i + k < 2 ^ 63
  · rw [addInt_eq i k (by omega) hs]; omega
  · rw [addInt_wrap i k (by omega) (by omega)]; omega

theorem varintLoop_safe (w : Nat) (dAtA : List Nat) (fuel : Nat) :
    ∀ (iNdEx : Int) (shift acc : Nat), 0 ≤ iNdEx → 1 ≤ fuel → 71 ≤ shift + 7 * fuel →
    Safe (varintLoop w fuel dAtA iNdEx shift acc)
      (fun r => iNdEx < r.2 ∧ r.2 ≤ dAtA.length) := by
  induction fuel with
  | zero => intro _ _ _ _ h; omega
  | succ n ih =>
    intro iNdEx shift acc h0 _ hf
    rw [varintLoop]
    refine Safe.ite (fun _ => Safe.throw rfl) (fun hs => ?_)
    refine Safe.ite (fun _ => Safe.throw rfl) (fun hl => ?_)
    refine Safe.bind (getAt_safe dAtA iNdEx h0 (by omega)) (fun b _ => ?_)
    refine Safe.ite (fun _ => Safe.pure ⟨by simp, by simp; omega⟩) (fun _ => ?_)
    refine Safe.mono (ih (iNdEx + 1) (shift + 7) _ (by omega) (by omega) (by omega)) ?_
    intro r hr
    exact ⟨by omega, hr.2⟩

theorem skipVarintLoop_safe (dAtA : List Nat) (fuel : Nat) :
    ∀ (iNdEx : Int) (shift : Nat), 0 ≤ iNdEx → 1 ≤ fuel → 71 ≤ shift + 7 * fuel →
    Safe (skipVarintLoop fuel dAtA iNdEx shift)
      (fun r => iNdEx < r ∧ r ≤ dAtA.length) := by
  induction fuel with
  | zero => intro _ _ _ h; omega
  | succ n ih =>
    intro iNdEx shift h0 _ hf
    rw [skipVarintLoop]
    refine Safe.ite (fun _ => Safe.throw rfl) (fun hs => ?_)
    refine Safe.ite (fun _ => Safe.throw rfl) (fun hl => ?_)
    refine Safe.bind (getAt_safe dAtA (iNdEx + 1 - 1) (by omega) (by omega)) (fun b _ => ?_)
    refine Safe.ite (fun _ => Safe.pure ⟨by omega, by omega⟩) (fun _ => ?_)
    refine Safe.mono (ih (iNdEx + 1) (shift + 7) (by omega) (by omega) (by omega)) ?_
    intro r hr
    exact ⟨by omega, hr.2⟩

theorem skipGroupLoop_safe (skip : List Nat → Res Int) (dAtA : List Nat)
    (hlen : dAtA.length < 2 ^ 63)
    (hskip : ∀ sub : List Nat, 1 ≤ sub.length → sub.length < dAtA.length →
      Safe (skip sub) (SkipResult sub))
    (fuel : Nat) : ∀ (iNdEx : Int), 1 ≤ iNdEx → 1 ≤ fuel →
      (dAtA.length : Int) + 1 ≤ fuel + iNdEx →
    Safe (skipGroupLoop skip fuel dAtA iNdEx) (SkipResult dAtA) := by
  induction fuel with
  | zero => intro _ _ h; omega
  | succ n ih =>
    intro iNdEx h1 _ hf
    rw [skipGroupLoop]
    refine Safe.bind (varintLoop_safe 64 dAtA 11 iNdEx 0 0 (by omega) (by omega) (by omega))
      (fun r hr => ?_)
    obtain ⟨innerWire, i1⟩ := r
    simp only at hr ⊢
    refine Safe.ite (fun _ => Safe.pure ⟨by omega, by omega, by omega⟩) (fun _ => ?_)
    refine Safe.bind (sliceFrom_safe dAtA iNdEx (by omega) (by omega)) (fun sub hsub => ?_)
    have hsl : sub.length = dAtA.length - iNdEx.toNat := by rw [hsub]; simp
    refine Safe.bind (hskip sub (by omega) (by omega)) (fun next hnext => ?_)
    obtain ⟨hn1, hn2, hn3⟩ := hnext
    refine Safe.ite (fun _ => Safe.throw rfl) (fun hneg => ?_)
    by_cases hs : iNdEx + next < 2 ^ 63
    · have e := addInt_eq iNdEx next (by omega) hs
      exact ih _ (by omega) (by omega) (by omega)
    · have e := addInt_wrap iNdEx next (by omega) (by omega)
      omega

theorem skipModelsFuel_safe (fuel : Nat) : ∀ (dAtA : List Nat), 1 ≤ dAtA.length →
    dAtA.length < 2 ^ 63 → dAtA.length ≤ fuel →
    Safe (skipModelsFuel fuel dAtA) (SkipResult dAtA) := by
  induction fuel with
  | zero => intro _ h1 _ h2; omega
  | succ n ih =>
    intro dAtA h1 hlen hf
    rw [skipModelsFuel]
    simp only
    refine Safe.ite (fun _ => ?_) (fun h => by omega)
    refine Safe.bind (varintLoop_safe 64 dAtA 11 0 0 0 (by omega) (by omega) (by omega))
      (fun r hr => ?_)
    obtain ⟨wire, i1⟩ := r
    simp only at hr ⊢
    refine Safe.ite (fun _ => ?_) (fun _ => ?_)
    · exact Safe.mono (skipVarintLoop_safe dAtA 11 i1 0 (by omega) (by omega) (by omega))
        (fun r hr2 => ⟨by omega, by omega, by omega⟩)
    refine Safe.ite (fun _ => ?_) (fun _ => ?_)
    · exact Safe.pure (addInt_small dAtA hlen i1 8 (by omega) hr.2 (by omega) (by omega))
    refine Safe.ite (fun _ => ?_) (fun _ => ?_)
    · refine Safe.bind (varintLoop_safe 64 dAtA 11 i1 0 0 (by omega) (by omega) (by omega))
        (fun r2 hr2 => ?_)
      obtain ⟨length, i2⟩ := r2
      simp only at hr2 ⊢
      refine Safe.ite (fun _ => Safe.throw rfl) (fun hl0 => ?_)
      refine Safe.ite (fun _ => Safe.throw rfl) (fun hl1 => ?_)
      have e := addInt_of_nonneg i2 (toInt64 length) (by omega) (by omega) (by omega)
        (toInt64_lt _) (by omega)
      exact Safe.pure ⟨addInt_ge _ _, addInt_lt _ _, by omega⟩
    refine Safe.ite (fun _ => ?_) (fun _ => ?_)
    · exact skipGroupLoop_safe _ dAtA hlen
        (fun sub hs1 hs2 => ih sub hs1 (by omega) (by omega)) _ i1 (by omega) (by omega)
        (by push_cast; omega)
    refine Safe.ite (fun _ => Safe.pure ⟨by omega, by omega, by omega⟩) (fun _ => ?_)
    refine Safe.ite (fun _ => ?_) (fun _ => Safe.throw rfl)
    exact Safe.pure (addInt_small dAtA hlen i1 4 (by omega) hr.2 (by omega) (by omega))

theorem skipModels_safe (dAtA : List Nat) (h1 : 1 ≤ dAtA.length) (hlen : dAtA.length < 2 ^ 63) :
    Safe (skipModels dAtA) (SkipResult dAtA) :=
  skipModelsFuel_safe _ dAtA h1 hlen (by omega)

/-- The tail of a decoding step for an unknown field: skip it and append its
bytes; shared by both messages. -/
theorem skip_branch_safe {α : Type} (dAtA : List Nat) (hlen : dAtA.length < 2 ^ 63) (iNdEx : Int)
    (h0 : 0 ≤ iNdEx) (h1 : iNdEx < dAtA.length) (k : List Nat → Int → α) :
    Safe (do
      let rest ← sliceFrom dAtA iNdEx
      let skippy ← skipModels rest
      if skippy < 0 then throw Fault.ErrInvalidLengthModels
      else if addInt iNdEx skippy < 0 then throw Fault.ErrInvalidLengthModels
      else if addInt iNdEx skippy > (dAtA.length : Int) then throw Fault.ErrUnexpectedEOF
      else do
        let s ← slice dAtA iNdEx (addInt iNdEx skippy)
        pure (k s (addInt iNdEx skippy), addInt iNdEx skippy))
      (fun r => iNdEx < r.2 ∧ r.2 ≤ dAtA.length) := by
  refine Safe.bind (sliceFrom_safe dAtA iNdEx h0 (by omega)) (fun rest hrest => ?_)
  have hrl : rest.length = dAtA.length - iNdEx.toNat := by rw [hrest]; simp
  refine Safe.bind (skipModels_safe rest (by omega) (by omega)) (fun skippy hs => ?_)
  obtain ⟨hs1, hs2, hs3⟩ := hs
  refine Safe.ite (fun _ => Safe.throw rfl) (fun hneg => ?_)
  refine Safe.ite (fun _ => Safe.throw rfl) (fun hneg2 => ?_)
  refine Safe.ite (fun _ => Safe.throw rfl) (fun hle => ?_)
  have e := addInt_of_nonneg iNdEx skippy h0 (by omega) (by omega) hs2 (by omega)
  refine Safe.bind (slice_safe dAtA iNdEx _ h0 (by omega) (by omega)) (fun s _ => ?_)
  exact Safe.pure ⟨by simp only; omega, by simp only; omega⟩

/-- The tail of a decoding step for a length-delimited field. -/
theorem bytes_branch_safe {α : Type} (dAtA : List Nat) (hlen : dAtA.length < 2 ^ 63)
    (iNdEx : Int) (h0 : 0 ≤ iNdEx) (k : List Nat → α) :
    Safe (do
      let (stringLen, iNdEx) ← varintLoop 64 11 dAtA iNdEx 0 0
      let intStringLen := toInt64 stringLen
      if intStringLen < 0 then throw Fault.ErrInvalidLengthModels
      else
        let postIndex := addInt iNdEx intStringLen
        if postIndex < 0 then throw Fault.ErrInvalidLengthModels
        else if postIndex > (dAtA.length : Int) then throw Fault.ErrUnexpectedEOF
        else do
          let s ← slice dAtA iNdEx postIndex
          pure (k s, postIndex))
      (fun r => iNdEx < r.2 ∧ r.2 ≤ dAtA.length) := by
  refine Safe.bind (varintLoop_safe 64 dAtA 11 iNdEx 0 0 h0 (by omega) (by omega))
    (fun r hr => ?_)
  obtain ⟨stringLen, i1⟩ := r
  simp only at hr ⊢
  refine Safe.ite (fun _ => Safe.throw rfl) (fun hneg => ?_)
  refine Safe.ite (fun _ => Safe.throw rfl) (fun hneg2 => ?_)
  refine Safe.ite (fun _ => Safe.throw rfl) (fun hle => ?_)
  have e := addInt_of_nonneg i1 (toInt64 stringLen) (by omega) (by omega) (by omega)
    (toInt64_lt _) (by omega)
  refine Safe.bind (slice_safe dAtA i1 _ (by omega) (by omega) (by omega)) (fun s _ => ?_)
  exact Safe.pure ⟨by simp only; omega, by simp only; omega⟩

/-- The tail of a decoding step for an `int32` varint field. -/
theorem int32_branch_safe {α : Type} (dAtA : List Nat) (iNdEx : Int) (h0 : 0 ≤ iNdEx)
    (k : Nat → α) :
    Safe (do
      let (v, iNdEx) ← varintLoop 32 11 dAtA iNdEx 0 0
      pure (k v, iNdEx))
      (fun r => iNdEx < r.2 ∧ r.2 ≤ dAtA.length) := by
  refine Safe.bind (varintLoop_safe 32 dAtA 11 iNdEx 0 0 h0 (by omega) (by omega))
    (fun r hr => ?_)
  obtain ⟨v, i1⟩ := r
  exact Safe.pure hr

/-- Every iteration of the `PhoneNumber` loop either fails with an error value
or consumes at least one byte and stays inside the input. -/
theorem PhoneNumber_unmarshalStep_safe (dAtA : List Nat) (hlen : dAtA.length < 2 ^ 63)
    (m : PhoneNumber) (iNdEx : Int) (h0 : 0 ≤ iNdEx) (h1 : iNdEx < dAtA.length) :
    Safe (PhoneNumber.unmarshalStep dAtA m iNdEx)
      (fun r => iNdEx < r.2 ∧ r.2 ≤ dAtA.length) := by
  unfold PhoneNumber.unmarshalStep
  refine Safe.bind (varintLoop_safe 64 dAtA 11 iNdEx 0 0 h0 (by omega) (by omega))
    (fun r hr => ?_)
  obtain ⟨wire, i1⟩ := r
  simp only at hr ⊢
  refine Safe.ite (fun _ => Safe.throw rfl) (fun _ => ?_)
  refine Safe.ite (fun _ => Safe.throw rfl) (fun _ => ?_)
  refine Safe.ite (fun _ => ?_) (fun _ => ?_)
  · refine Safe.ite (fun _ => Safe.throw rfl) (fun _ => ?_)
    exact Safe.mono (bytes_branch_safe dAtA hlen i1 (by omega) (fun s => { m with Number := s }))
      (fun r hr2 => ⟨by omega, hr2.2⟩)
  refine Safe.ite (fun _ => ?_) (fun _ => ?_)
  · refine Safe.ite (fun _ => Safe.throw rfl) (fun _ => ?_)
    exact Safe.mono
      (int32_branch_safe dAtA i1 (by omega) (fun v => { m with Type_ := toInt32 v }))
      (fun r hr2 => ⟨by omega, hr2.2⟩)
  exact skip_branch_safe dAtA hlen iNdEx h0 h1
    (fun s _ => { m with XXX_unrecognized := m.XXX_unrecognized ++ s })

theorem PhoneNumber_unmarshalLoop_safe (dAtA : List Nat) (hlen : dAtA.length < 2 ^ 63)
    (fuel : Nat) : ∀ (m : PhoneNumber) (iNdEx : Int), 0 ≤ iNdEx → iNdEx ≤ dAtA.length →
    (dAtA.length : Int) + 1 ≤ fuel + iNdEx →
    Safe (PhoneNumber.unmarshalLoop fuel dAtA m iNdEx) (fun _ => True) := by
  induction fuel with
  | zero => intro _ _ _ _ h; omega
  | succ n ih =>
    intro m iNdEx h0 h1 hf
    rw [PhoneNumber.unmarshalLoop]
    refine Safe.ite (fun hlt => ?_) (fun _ => ?_)
    · refine Safe.bind (PhoneNumber_unmarshalStep_safe dAtA hlen m iNdEx h0 hlt) (fun r hr => ?_)
      obtain ⟨m2, i2⟩ := r
      exact ih m2 i2 (by simp only at hr; omega) hr.2 (by simp only at hr; omega)
    · exact Safe.ite (fun _ => Safe.throw rfl) (fun _ => Safe.pure trivial)

/-- On a stack that never runs out `PhoneNumber.Unmarshal` is total: a record or
an error value. -/
theorem PhoneNumber_Unmarshal_safe (m : PhoneNumber) (dAtA : List Nat)
    (hlen : dAtA.length < 2 ^ 63) : Safe (PhoneNumber.Unmarshal m dAtA) (fun _ => True) :=
  PhoneNumber_unmarshalLoop_safe dAtA hlen _ m 0 (le_refl _) (by omega) (by push_cast; omega)

theorem slice_length (dAtA : List Nat) (i j : Int) (s : List Nat)
    (h : slice dAtA i j = .ok s) : s.length ≤ dAtA.length := by
  unfold slice at h
  split at h
  · cases h
    simp
  · cases h

/-- Every iteration of the `Person` loop either fails with an error value or
consumes at least one byte and stays inside the input. -/
theorem Person_unmarshalStep_safe (dAtA : List Nat) (hlen : dAtA.length < 2 ^ 63)
    (m : Person) (iNdEx : Int) (h0 : 0 ≤ iNdEx) (h1 : iNdEx < dAtA.length) :
    Safe (Person.unmarshalStep dAtA m iNdEx)
      (fun r => iNdEx < r.2 ∧ r.2 ≤ dAtA.length) := by
  unfold Person.unmarshalStep
  refine Safe.bind (varintLoop_safe 64 dAtA 11 iNdEx 0 0 h0 (by omega) (by omega))
    (fun r hr => ?_)
  obtain ⟨wire, i1⟩ := r
  simp only at hr ⊢
  refine Safe.ite (fun _ => Safe.throw rfl) (fun _ => ?_)
  refine Safe.ite (fun _ => Safe.throw rfl) (fun _ => ?_)
  refine Safe.ite (fun _ => ?_) (fun _ => ?_)
  · refine Safe.ite (fun _ => Safe.throw rfl) (fun _ => ?_)
    exact Safe.mono (bytes_branch_safe dAtA hlen i1 (by omega) (fun s => { m with Name := s }))
      (fun r hr2 => ⟨by omega, hr2.2⟩)
  refine Safe.ite (fun _ => ?_) (fun _ => ?_)
  · refine Safe.ite (fun _ => Safe.throw rfl) (fun _ => ?_)
    exact Safe.mono
      (int32_branch_safe dAtA i1 (by omega) (fun v => { m with Id := toInt32 v }))
      (fun r hr2 => ⟨by omega, hr2.2⟩)
  refine Safe.ite (fun _ => ?_) (fun _ => ?_)
  · refine Safe.ite (fun _ => Safe.throw rfl) (fun _ => ?_)
    exact Safe.mono (bytes_branch_safe dAtA hlen i1 (by omega) (fun s => { m with Email := s }))
      (fun r hr2 => ⟨by omega, hr2.2⟩)
  refine Safe.ite (fun _ => ?_) (fun _ => ?_)
  · refine Safe.ite (fun _ => Safe.throw rfl) (fun _ => ?_)
    refine Safe.bind (varintLoop_safe 64 dAtA 11 i1 0 0 (by omega) (by omega) (by omega))
      (fun r2 hr2 => ?_)
    obtain ⟨msglen, i2⟩ := r2
    simp only at hr2 ⊢
    refine Safe.ite (fun _ => Safe.throw rfl) (fun hneg => ?_)
    refine Safe.ite (fun _ => Safe.throw rfl) (fun hneg2 => ?_)
    refine Safe.ite (fun _ => Safe.throw rfl) (fun hle => ?_)
    have e := addInt_of_nonneg i2 (toInt64 msglen) (by omega) (by omega) (by omega)
      (toInt64_lt _) (by omega)
    cases hsl : slice dAtA i2 (addInt i2 (toInt64 msglen)) with
    | error e2 =>
      have := slice_safe dAtA i2 (addInt i2 (toInt64 msglen)) (by omega) (by omega) (by omega)
      rw [hsl] at this
      exact this
    | ok sub =>
      have hsub := slice_length dAtA _ _ sub hsl
      simp only [ok_bind]
      refine Safe.bind (PhoneNumber_Unmarshal_safe _ sub (by omega)) (fun ph _ => ?_)
      exact Safe.pure ⟨by simp only; omega, by simp only; omega⟩
  exact skip_branch_safe dAtA hlen iNdEx h0 h1
    (fun s _ => { m with XXX_unrecognized := m.XXX_unrecognized ++ s })

theorem Person_unmarshalLoop_safe (dAtA : List Nat) (hlen : dAtA.length < 2 ^ 63)
    (fuel : Nat) : ∀ (m : Person) (iNdEx : Int), 0 ≤ iNdEx → iNdEx ≤ dAtA.length →
    (dAtA.length : Int) + 1 ≤ fuel + iNdEx →
    Safe (Person.unmarshalLoop fuel dAtA m iNdEx) (fun _ => True) := by
  induction fuel with
  | zero => intro _ _ _ _ h; omega
  | succ n ih =>
    intro m iNdEx h0 h1 hf
    rw [Person.unmarshalLoop]
    refine Safe.ite (fun hlt => ?_) (fun _ => ?_)
    · refine Safe.bind (Person_unmarshalStep_safe dAtA hlen m iNdEx h0 hlt) (fun r hr => ?_)
      obtain ⟨m2, i2⟩ := r
      exact ih m2 i2 (by simp only at hr; omega) hr.2 (by simp only at hr; omega)
    · exact Safe.ite (fun _ => Safe.throw rfl) (fun _ => Safe.pure trivial)

/-- On a stack that never runs out `Person.Unmarshal` is total: a record or an
error value. -/
theorem Person_Unmarshal_safe (m : Person) (dAtA : List Nat)
    (hlen : dAtA.length < 2 ^ 63) : Safe (Person.Unmarshal m dAtA) (fun _ => True) :=
  Person_unmarshalLoop_safe dAtA hlen _ m 0 (le_refl _) (by omega) (by push_cast; omega)

theorem Safe.cases {α : Type} {x : Res α} {P : α → Prop} (h : Safe x P) :
    (∃ a, x = .ok a ∧ P a) ∨ (∃ e, x = .error e ∧ e.isError = true) := by
  cases x with
  | error e => exact Or.inr ⟨e, rfl, h⟩
  | ok a => exact Or.inl ⟨a, rfl, h⟩

/-- On a stack that never runs out, decoding is total and panic free.  For every
byte sequence and every starting record, `Person.Unmarshal` and
`PhoneNumber.Unmarshal` end with a record or with one of the error values of the
package: never with an index or slice bound out of range, never in the
`panic("unreachable")` that `skipModels` reaches on an empty slice, and never
out of fuel.  Every iteration of either decode loop that does not fail moves
`iNdEx` forward by at least one byte and not past the end; so does every
successful run of an inlined varint loop; and `skipModels` on a non-empty slice
never returns zero.  The stack that the recursion of `skipModels` needs is not
part of these functions: see `Person.UnmarshalStack`. -/
theorem Unmarshal_total_unbounded_stack (d : List Nat) (hd : d.length < 2 ^ 63) (m : Person)
    (p : PhoneNumber) :
    ((∃ r, Person.Unmarshal m d = .ok r) ∨
      (∃ e, Person.Unmarshal m d = .error e ∧ e.isError = true)) ∧
    ((∃ r, PhoneNumber.Unmarshal p d = .ok r) ∨
      (∃ e, PhoneNumber.Unmarshal p d = .error e ∧ e.isError = true)) ∧
    skipModels [] = .error Fault.panicUnreachable ∧
    (∀ (m1 m2 : Person) (i j : Int), 0 ≤ i → i < d.length →
      Person.unmarshalStep d m1 i = .ok (m2, j) → i < j ∧ j ≤ d.length) ∧
    (∀ (p1 p2 : PhoneNumber) (i j : Int), 0 ≤ i → i < d.length →
      PhoneNumber.unmarshalStep d p1 i = .ok (p2, j) → i < j ∧ j ≤ d.length) ∧
    (∀ (w acc v : Nat) (i j : Int), 0 ≤ i →
      varintLoop w 11 d i 0 acc = .ok (v, j) → i < j ∧ j ≤ d.length) ∧
    (∀ n : Int, skipModels d = .ok n → 1 ≤ n ∨ n < 0) := by
  refine ⟨?_, ?_, rfl, ?_, ?_, ?_, ?_⟩
  · rcases (Person_Unmarshal_safe m d hd).cases with ⟨a, ha, _⟩ | h
    · exact Or.inl ⟨a, ha⟩
    · exact Or.inr h
  · rcases (PhoneNumber_Unmarshal_safe p d hd).cases with ⟨a, ha, _⟩ | h
    · exact Or.inl ⟨a, ha⟩
    · exact Or.inr h
  · intro m1 m2 i j h0 h1 h
    have := Person_unmarshalStep_safe d hd m1 i h0 h1
    rw [h] at this
    exact this
  · intro p1 p2 i j h0 h1 h
    have := PhoneNumber_unmarshalStep_safe d hd p1 i h0 h1
    rw [h] at this
    exact this
  · intro w acc v i j h0 h
    have := varintLoop_safe w d 11 i 0 acc h0 (by omega) (by omega)
    rw [h] at this
    exact this
  · intro n h
    cases hl : d with
    | nil => rw [hl] at h; cases h
    | cons a t =>
      have := skipModels_safe d (by rw [hl]; simp) hd
      rw [h] at this
      obtain ⟨_, _, h3⟩ := this
      rcases h3 with h3 | h3
      · exact Or.inl h3
      · right
        omega

/-! ### Decoding well-formed fields -/

theorem tag_eq (num wt : Nat) (hwt : wt < 8) : num <<< 3 ||| wt = 8 * num + wt := by
  rw [Nat.shiftLeft_eq, Nat.mul_comm]
  exact (Nat.mul_add_lt_is_or (i := 3) (by simpa using hwt) num).symm

theorem and_7 (v : Nat) : v &&& 0x7 = v % 8 :=
  Nat.and_pow_two_sub_one_eq_mod v 3

theorem toInt32_small (n : Nat) (h : n < 2 ^ 31) : toInt32 n = n := by
  unfold toInt32
  have e : n % 2 ^ 32 = n := Nat.mod_eq_of_lt (by omega)
  rw [e, if_pos h]

theorem toInt64_small (n : Nat) (h : n < 2 ^ 63) : toInt64 n = n := by
  unfold toInt64
  have e : n % 2 ^ 64 = n := Nat.mod_eq_of_lt (by omega)
  rw [e, if_pos h]

theorem varint_tag_aux (t : Nat) (h : t < 128) : varint t = [t] := by
  unfold varint
  rw [varintFuel, if_pos h]

/-- Reading the canonical varint of a 64-bit value as a `uint64`. -/
theorem varintLoop_read (v : Nat) (pre post : List Nat) (i : Int) (hi : i = pre.length)
    (hv : v < 2 ^ 64) :
    varintLoop 64 11 (pre ++ (varint v ++ post)) i 0 0 = .ok (v, i + (varint v).length) := by
  have := varintLoop_varint 64 v pre post i hi hv
  rw [Nat.mod_eq_of_lt hv, List.append_assoc] at this
  exact this

theorem skipVarintLoop_bytes (cs : List Nat) : ∀ (b shift fuel : Nat) (pre post : List Nat)
    (i : Int), i = pre.length → (∀ c ∈ cs, 128 ≤ c) → b < 128 →
    shift + 7 * cs.length < 64 → cs.length + 1 ≤ fuel →
    skipVarintLoop fuel (pre ++ (cs ++ b :: post)) i shift = .ok (i + cs.length + 1) := by
  induction cs with
  | nil =>
    intro b shift fuel pre post i hi _ hb hs hf
    obtain ⟨f, rfl⟩ : ∃ f, fuel = f + 1 := ⟨fuel - 1, by omega⟩
    have h1 : ¬ (shift ≥ 64) := by simp at hs; omega
    have h2 : ¬ (i ≥ ((pre ++ ([] ++ b :: post)).length : Int)) := by simp [hi]
    rw [skipVarintLoop, if_neg h1, if_neg h2]
    simp only [List.nil_append, add_sub_cancel_right]
    rw [getAt_append _ _ _ _ hi]
    simp only [ok_bind]
    rw [if_pos (by simpa using hb)]
    simp
  | cons c cs ih =>
    intro b shift fuel pre post i hi hc hb hs hf
    obtain ⟨f, rfl⟩ : ∃ f, fuel = f + 1 := ⟨fuel - 1, by omega⟩
    simp only [List.length_cons] at hs hf
    have h1 : ¬ (shift ≥ 64) := by omega
    have h2 : ¬ (i ≥ ((pre ++ (c :: cs ++ b :: post)).length : Int)) := by
      simp [hi]; omega
    rw [skipVarintLoop, if_neg h1, if_neg h2]
    simp only [List.cons_append, add_sub_cancel_right]
    rw [getAt_append _ _ _ _ hi]
    simp only [ok_bind]
    have hc1 : ¬ (c < 0x80) := by
      have := hc c (List.mem_cons_self _ _)
      omega
    rw [if_neg hc1]
    have := ih b (shift + 7) f (pre ++ [c]) post (i + 1) (by simp [hi])
      (fun x hx => hc x (List.mem_cons_of_mem _ hx)) hb (by omega) (by omega)
    simp only [List.append_assoc, List.singleton_append] at this
    rw [this]
    simp only [List.length_cons, Nat.cast_add, Nat.cast_one]
    congr 1
    ring

theorem UField_encode_pos (u : UField) : 1 ≤ u.encode.length := by
  unfold UField.encode
  have := varintFuel_length_pos 9 (u.num <<< 3 ||| u.payload.wireType)
  simp only [List.length_append, varint]
  omega

theorem UPayload.wireType_lt (p : UPayload) : p.wireType < 8 := by
  cases p <;> simp [UPayload.wireType]

/-- On the span of a well-formed unknown field, followed by anything,
`skipModels` returns the length of the span. -/
theorem skipModels_ufield (u : UField) (post : List Nat) (hnum : u.num < 2 ^ 29)
    (hwf : u.payload.WF) (hlen : (u.encode ++ post).length < 2 ^ 63) :
    skipModels (u.encode ++ post) = .ok (u.encode.length : Int) := by
  have hpos := UField_encode_pos u
  have hwt := UPayload.wireType_lt u.payload
  have htag : 8 * u.num + u.payload.wireType < 2 ^ 64 := by omega
  unfold skipModels
  rw [skipModelsFuel]
  simp only
  rw [if_pos (by simp only [List.length_append, Nat.cast_add]; omega)]
  unfold UField.encode at hlen ⊢
  rw [tag_eq _ _ hwt] at hlen ⊢
  have hread := varintLoop_read (8 * u.num + u.payload.wireType) [] (u.payload.encode ++ post)
    0 rfl htag
  simp only [List.nil_append, zero_add] at hread
  rw [List.append_assoc, hread]
  simp only [ok_bind, and_7]
  have hmod : (8 * u.num + u.payload.wireType) % 8 = u.payload.wireType := by omega
  rw [hmod]
  simp only [List.length_append, Nat.cast_add] at hlen ⊢
  generalize varint (8 * u.num + u.payload.wireType) = T at *
  cases hp : u.payload with
  | varint cs b =>
    rw [hp] at hwf hlen
    obtain ⟨hc, hb, hcl⟩ := hwf
    simp only [UPayload.wireType, UPayload.encode, if_true, List.length_append,
      List.length_singleton, List.append_assoc, List.singleton_append] at hlen ⊢
    rw [skipVarintLoop_bytes cs b 0 11 T post _ rfl hc hb (by omega) (by omega)]
    congr 1
  | fixed64 bs =>
    rw [hp] at hwf hlen
    simp only [UPayload.WF] at hwf
    simp only [UPayload.wireType, UPayload.encode, hwf] at hlen ⊢
    rw [if_neg (by decide), if_pos (by decide), addInt_eq _ _ (by omega) (by omega)]
    rfl
  | bytes bs =>
    rw [hp] at hwf hlen
    simp only [UPayload.wireType, UPayload.encode, List.length_append] at hlen ⊢
    rw [if_neg (by decide), if_neg (by decide), if_pos (by decide)]
    have hread2 := varintLoop_read bs.length T (bs ++ post) T.length rfl (by omega)
    rw [List.append_assoc, hread2]
    simp only [ok_bind, toInt64_small _ (show bs.length < 2 ^ 63 by omega)]
    rw [if_neg (by omega), addInt_eq _ _ (by omega) (by omega), if_neg (by omega)]
    simp only [pure_ok, Nat.cast_add]
    congr 1
    ring
  | fixed32 bs =>
    rw [hp] at hwf hlen
    simp only [UPayload.WF] at hwf
    simp only [UPayload.wireType, UPayload.encode, hwf] at hlen ⊢
    rw [if_neg (by decide), if_neg (by decide), if_neg (by decide), if_neg (by decide),
      if_neg (by decide), if_pos (by decide), addInt_eq _ _ (by omega) (by omega)]
    rfl

theorem sliceFrom_append (A B : List Nat) (i : Int) (hi : i = A.length) :
    sliceFrom (A ++ B) i = .ok B := by
  subst hi
  simp [sliceFrom]

theorem slice_append (A B C : List Nat) (i j : Int) (hi : i = A.length)
    (hj : j = i + B.length) : slice (A ++ (B ++ C)) i j = .ok B := by
  subst hi
  subst hj
  have h : (0 : Int) ≤ A.length ∧ (A.length : Int) ≤ A.length + B.length ∧
      (A.length : Int) + B.length ≤ ((A ++ (B ++ C)).length : Int) := by
    simp only [List.length_append, Nat.cast_add]
    omega
  unfold slice
  rw [if_pos h]
  have e1 : ((A.length : Int) + B.length).toNat = A.length + B.length := by omega
  have e2 : ((A.length : Int)).toNat = A.length := by omega
  rw [e1, e2, ← List.append_assoc, List.take_append_of_le_length (by simp)]
  rw [List.take_of_length_le (by simp), List.drop_append_of_le_length (le_refl _)]
  simp

/-- Reading a one-byte tag. -/
theorem varintLoop_tag (t : Nat) (ht : t < 128) (d pre rest : List Nat) (i : Int)
    (hd : d = pre ++ (t :: rest)) (hi : i = pre.length) :
    varintLoop 64 11 d i 0 0 = .ok (t, i + 1) := by
  have := varintLoop_read t pre rest i hi (by omega)
  rw [varint_tag_aux t ht] at this
  subst hd
  simpa using this

/-- The unknown-field branch of a decoding step on a well-formed unknown field. -/
theorem skip_branch_eq {α : Type} (u : UField) (d pre post : List Nat) (i : Int)
    (hd : d = pre ++ (u.encode ++ post))
    (hi : i = pre.length) (hnum : u.num < 2 ^ 29) (hwf : u.payload.WF)
    (hlen : d.length < 2 ^ 63) (k : List Nat → Int → α) :
    (do
      let rest ← sliceFrom d i
      let skippy ← skipModels rest
      if skippy < 0 then throw Fault.ErrInvalidLengthModels
      else if addInt i skippy < 0 then throw Fault.ErrInvalidLengthModels
      else if addInt i skippy > (d.length : Int) then
        throw Fault.ErrUnexpectedEOF
      else do
        let s ← slice d i (addInt i skippy)
        pure (k s (addInt i skippy), addInt i skippy))
      = (.ok (k u.encode (i + u.encode.length), i + u.encode.length) : Res (α × Int)) := by
  subst hd
  simp only [List.length_append, Nat.cast_add] at hlen
  rw [sliceFrom_append _ _ _ hi]
  simp only [ok_bind]
  rw [skipModels_ufield u post hnum hwf (by simp only [List.length_append]; omega)]
  simp only [ok_bind]
  have e := addInt_eq i u.encode.length (by omega) (by omega)
  rw [e, if_neg (by omega), if_neg (by omega),
    if_neg (by simp only [List.length_append, Nat.cast_add]; omega),
    slice_append pre u.encode post i _ hi rfl]
  rfl

/-- The length-delimited branch of a decoding step on a length prefix and its
payload. -/
theorem bytes_branch_eq {α : Type} (bs d pre post : List Nat) (i : Int)
    (hd : d = pre ++ (varint bs.length ++ (bs ++ post))) (hi : i = pre.length)
    (hlen : d.length < 2 ^ 63) (k : List Nat → α) :
    (do
      let (stringLen, iNdEx) ← varintLoop 64 11 d i 0 0
      let intStringLen := toInt64 stringLen
      if intStringLen < 0 then throw Fault.ErrInvalidLengthModels
      else
        let postIndex := addInt iNdEx intStringLen
        if postIndex < 0 then throw Fault.ErrInvalidLengthModels
        else if postIndex > (d.length : Int) then
          throw Fault.ErrUnexpectedEOF
        else do
          let s ← slice d iNdEx postIndex
          pure (k s, postIndex))
      = (.ok (k bs, i + (varint bs.length).length + bs.length) : Res (α × Int)) := by
  subst hd
  simp only [List.length_append, Nat.cast_add] at hlen
  rw [varintLoop_read bs.length pre (bs ++ post) i hi (by omega)]
  simp only [ok_bind, toInt64_small _ (show bs.length < 2 ^ 63 by omega)]
  have e := addInt_eq (i + (varint bs.length).length) bs.length (by omega) (by omega)
  rw [e, if_neg (by omega), if_neg (by omega),
    if_neg (by simp only [List.length_append, Nat.cast_add]; omega)]
  have hs := slice_append (pre ++ varint bs.length) bs post (i + (varint bs.length).length)
    (i + (varint bs.length).length + bs.length) (by simp [hi]) rfl
  rw [List.append_assoc] at hs
  rw [hs]
  rfl

/-- The `int32` varint branch of a decoding step on a canonical varint. -/
theorem int32_branch_eq {α : Type} (v : Nat) (d pre post : List Nat) (i : Int)
    (hd : d = pre ++ (varint v ++ post))
    (hi : i = pre.length) (hv : v < 2 ^ 64) (k : Nat → α) :
    (do
      let (v, iNdEx) ← varintLoop 32 11 d i 0 0
      pure (k v, iNdEx))
      = (.ok (k (v % 2 ^ 32), i + (varint v).length) : Res (α × Int)) := by
  subst hd
  have := varintLoop_varint 32 v pre post i hi hv
  rw [List.append_assoc] at this
  rw [this]
  rfl

theorem toInt32_mod (v : Nat) : toInt32 (v % 2 ^ 32) = toInt32 v := by
  unfold toInt32
  rw [Nat.mod_mod]

theorem NField_encode_pos (f : NField) : 1 ≤ f.encode.length := by
  cases f with
  | number bs => simp [NField.encode]
  | type v => simp [NField.encode]
  | unknown u => exact UField_encode_pos u

/-- One iteration of the `PhoneNumber` loop on a well-formed field. -/
theorem PhoneNumber_unmarshalStep_field (f : NField) (hf : f.WF) (d pre post : List Nat)
    (p : PhoneNumber) (i : Int) (hd : d = pre ++ (f.encode ++ post)) (hi : i = pre.length)
    (hlen : d.length < 2 ^ 63) :
    PhoneNumber.unmarshalStep d p i = .ok (p.applyField f, i + f.encode.length) := by
  unfold PhoneNumber.unmarshalStep
  cases f with
  | number bs =>
    have hd1 : d = pre ++ (10 :: (varint bs.length ++ (bs ++ post))) := by
      rw [hd]; simp [NField.encode, tagByte]
    rw [varintLoop_tag 10 (by norm_num) d pre _ i hd1 hi]
    simp only [ok_bind]
    rw [if_neg (by decide), if_neg (by decide), if_pos (by decide), if_neg (by decide)]
    rw [bytes_branch_eq bs d (pre ++ [10]) post (i + 1) (by rw [hd1]; simp) (by simp [hi]) hlen
      (fun s => ({ p with Number := s } : PhoneNumber))]
    simp only [PhoneNumber.applyField, NField.encode, List.length_cons, List.length_append,
      Nat.cast_add, Nat.cast_one]
    congr 2
    ring
  | type v =>
    simp only [NField.WF] at hf
    have hd1 : d = pre ++ (16 :: (varint v ++ post)) := by
      rw [hd]; simp [NField.encode, tagByte]
    rw [varintLoop_tag 16 (by norm_num) d pre _ i hd1 hi]
    simp only [ok_bind]
    rw [if_neg (by decide), if_neg (by decide), if_neg (by decide), if_pos (by decide),
      if_neg (by decide)]
    rw [int32_branch_eq v d (pre ++ [16]) post (i + 1) (by rw [hd1]; simp) (by simp [hi]) hf
      (fun x => ({ p with Type_ := toInt32 x } : PhoneNumber))]
    simp only [PhoneNumber.applyField, NField.encode, toInt32_mod, List.length_cons,
      Nat.cast_add, Nat.cast_one]
    congr 2
    ring
  | unknown u =>
    obtain ⟨h1, h2, h3⟩ := hf
    have hwt := UPayload.wireType_lt u.payload
    have hd1 : d = pre ++ (varint (8 * u.num + u.payload.wireType) ++ (u.payload.encode ++ post))
        := by
      rw [hd]; simp [NField.encode, UField.encode, tag_eq _ _ hwt]
    have hread := varintLoop_read (8 * u.num + u.payload.wireType) pre (u.payload.encode ++ post)
      i hi (by omega)
    rw [← hd1] at hread
    rw [hread]
    simp only [ok_bind, and_7, Nat.shiftRight_eq_div_pow]
    have e1 : (8 * u.num + u.payload.wireType) % 8 = u.payload.wireType := by omega
    have e2 : (8 * u.num + u.payload.wireType) / 2 ^ 3 = u.num := by omega
    rw [e1, e2, toInt32_small _ (by omega)]
    have hw4 : ¬ (u.payload.wireType = 4) := by
      cases u.payload <;> simp [UPayload.wireType]
    rw [if_neg hw4, if_neg (by omega), if_neg (by omega), if_neg (by omega)]
    rw [skip_branch_eq u d pre post i hd hi (by omega) h3 hlen
      (fun s _ => ({ p with XXX_unrecognized := p.XXX_unrecognized ++ s } : PhoneNumber))]
    rfl

/-- The `PhoneNumber` loop on a sequence of well-formed fields applies them in
order. -/
theorem PhoneNumber_unmarshalLoop_fields (fs : List NField) : ∀ (pre : List Nat)
    (p : PhoneNumber) (fuel : Nat) (i : Int), (∀ f ∈ fs, f.WF) → i = pre.length →
    (pre ++ NField.encodeAll fs).length < 2 ^ 63 → fs.length + 1 ≤ fuel →
    PhoneNumber.unmarshalLoop fuel (pre ++ NField.encodeAll fs) p i
      = .ok (fs.foldl PhoneNumber.applyField p) := by
  induction fs with
  | nil =>
    intro pre p fuel i _ hi _ hfuel
    obtain ⟨n, rfl⟩ : ∃ n, fuel = n + 1 := ⟨fuel - 1, by omega⟩
    rw [PhoneNumber.unmarshalLoop]
    simp only [NField.encodeAll, List.append_nil, List.foldl_nil]
    rw [if_neg (by omega), if_neg (by omega)]
    rfl
  | cons f fs ih =>
    intro pre p fuel i hwf hi hlen hfuel
    obtain ⟨n, rfl⟩ : ∃ n, fuel = n + 1 := ⟨fuel - 1, by omega⟩
    have hpos := NField_encode_pos f
    simp only [List.length_cons] at hfuel
    rw [PhoneNumber.unmarshalLoop]
    rw [if_pos (by simp only [NField.encodeAll, List.length_append, Nat.cast_add]; omega)]
    rw [PhoneNumber_unmarshalStep_field f (hwf f (List.mem_cons_self _ _))
      (pre ++ NField.encodeAll (f :: fs)) pre (NField.encodeAll fs) p i rfl hi hlen]
    simp only [ok_bind, NField.encodeAll, List.foldl_cons]
    have := ih (pre ++ f.encode) (p.applyField f) n (i + f.encode.length)
      (fun g hg => hwf g (List.mem_cons_of_mem _ hg)) (by simp [hi])
      (by simpa [NField.encodeAll, List.append_assoc] using hlen) (by omega)
    rw [List.append_assoc] at this
    exact this

theorem NField_length_le_encodeAll (fs : List NField) :
    fs.length ≤ (NField.encodeAll fs).length := by
  induction fs with
  | nil => simp
  | cons f fs ih =>
    have := NField_encode_pos f
    simp only [NField.encodeAll, List.length_cons, List.length_append]
    omega

/-- `PhoneNumber.Unmarshal` on a sequence of well-formed fields applies them in
order to the receiver. -/
theorem PhoneNumber_Unmarshal_fields (fs : List NField) (p : PhoneNumber)
    (hwf : ∀ f ∈ fs, f.WF) (hlen : (NField.encodeAll fs).length < 2 ^ 63) :
    PhoneNumber.Unmarshal p (NField.encodeAll fs) = .ok (fs.foldl PhoneNumber.applyField p) := by
  have := PhoneNumber_unmarshalLoop_fields fs [] p ((NField.encodeAll fs).length + 1) 0 hwf rfl
    (by simpa using hlen) (by have := NField_length_le_encodeAll fs; omega)
  simpa [PhoneNumber.Unmarshal] using this

theorem PField_encode_pos (f : PField) : 1 ≤ f.encode.length := by
  cases f with
  | name bs => simp [PField.encode]
  | id v => simp [PField.encode]
  | email bs => simp [PField.encode]
  | phone fs => simp [PField.encode]
  | unknown u => exact UField_encode_pos u

/-- One iteration of the `Person` loop on a well-formed field. -/
theorem Person_unmarshalStep_field (f : PField) (hf : f.WF) (d pre post : List Nat)
    (m : Person) (i : Int) (hd : d = pre ++ (f.encode ++ post)) (hi : i = pre.length)
    (hlen : d.length < 2 ^ 63) :
    Person.unmarshalStep d m i = .ok (m.applyField f, i + f.encode.length) := by
  unfold Person.unmarshalStep
  cases f with
  | name bs =>
    have hd1 : d = pre ++ (10 :: (varint bs.length ++ (bs ++ post))) := by
      rw [hd]; simp [PField.encode, tagByte]
    rw [varintLoop_tag 10 (by norm_num) d pre _ i hd1 hi]
    simp only [ok_bind]
    rw [if_neg (by decide), if_neg (by decide), if_pos (by decide), if_neg (by decide)]
    rw [bytes_branch_eq bs d (pre ++ [10]) post (i + 1) (by rw [hd1]; simp) (by simp [hi]) hlen
      (fun s => ({ m with Name := s } : Person))]
    simp only [Person.applyField, PField.encode, List.length_cons, List.length_append,
      Nat.cast_add, Nat.cast_one]
    congr 2
    ring
  | id v =>
    simp only [PField.WF] at hf
    have hd1 : d = pre ++ (16 :: (varint v ++ post)) := by
      rw [hd]; simp [PField.encode, tagByte]
    rw [varintLoop_tag 16 (by norm_num) d pre _ i hd1 hi]
    simp only [ok_bind]
    rw [if_neg (by decide), if_neg (by decide), if_neg (by decide), if_pos (by decide),
      if_neg (by decide)]
    rw [int32_branch_eq v d (pre ++ [16]) post (i + 1) (by rw [hd1]; simp) (by simp [hi]) hf
      (fun x => ({ m with Id := toInt32 x } : Person))]
    simp only [Person.applyField, PField.encode, toInt32_mod, List.length_cons,
      Nat.cast_add, Nat.cast_one]
    congr 2
    ring
  | email bs =>
    have hd1 : d = pre ++ (26 :: (varint bs.length ++ (bs ++ post))) := by
      rw [hd]; simp [PField.encode, tagByte]
    rw [varintLoop_tag 26 (by norm_num) d pre _ i hd1 hi]
    simp only [ok_bind]
    rw [if_neg (by decide), if_neg (by decide), if_neg (by decide), if_neg (by decide),
      if_pos (by decide), if_neg (by decide)]
    rw [bytes_branch_eq bs d (pre ++ [26]) post (i + 1) (by rw [hd1]; simp) (by simp [hi]) hlen
      (fun s => ({ m with Email := s } : Person))]
    simp only [Person.applyField, PField.encode, List.length_cons, List.length_append,
      Nat.cast_add, Nat.cast_one]
    congr 2
    ring
  | phone fs =>
    simp only [PField.WF] at hf
    have hd1 : d = pre ++ (34 :: (varint (NField.encodeAll fs).length ++
        (NField.encodeAll fs ++ post))) := by
      rw [hd]; simp [PField.encode, tagByte]
    have hl2 : (NField.encodeAll fs).length < 2 ^ 63 := by
      rw [hd1] at hlen
      simp only [List.length_append, List.length_cons] at hlen
      omega
    rw [varintLoop_tag 34 (by norm_num) d pre _ i hd1 hi]
    simp only [ok_bind]
    rw [if_neg (by decide), if_neg (by decide), if_neg (by decide), if_neg (by decide),
      if_neg (by decide), if_pos (by decide), if_neg (by decide)]
    have hd2 : d = (pre ++ [34]) ++ (varint (NField.encodeAll fs).length ++
        (NField.encodeAll fs ++ post)) := by rw [hd1]; simp
    have hread := varintLoop_read (NField.encodeAll fs).length (pre ++ [34])
      (NField.encodeAll fs ++ post) (i + 1) (by simp [hi]) (by omega)
    rw [← hd2] at hread
    rw [hread]
    simp only [ok_bind, toInt64_small _ hl2]
    have hdl : (d.length : Int) = pre.length + 1 + (varint (NField.encodeAll fs).length).length
        + (NField.encodeAll fs).length + post.length := by
      rw [hd1]
      simp only [List.length_append, List.length_cons, Nat.cast_add, Nat.cast_one]
      ring
    have e := addInt_eq (i + 1 + (varint (NField.encodeAll fs).length).length)
      (NField.encodeAll fs).length (by omega) (by omega)
    rw [e, if_neg (by omega), if_neg (by omega), if_neg (by omega)]
    have hs := slice_append (pre ++ [34] ++ varint (NField.encodeAll fs).length)
      (NField.encodeAll fs) post (i + 1 + (varint (NField.encodeAll fs).length).length)
      (i + 1 + (varint (NField.encodeAll fs).length).length + (NField.encodeAll fs).length)
      (by simp [hi]; ring) rfl
    rw [List.append_assoc, ← hd2] at hs
    rw [hs]
    simp only [ok_bind]
    rw [PhoneNumber_Unmarshal_fields fs _ hf hl2]
    simp only [ok_bind, pure_ok, Person.applyField, PField.encode, List.length_cons,
      List.length_append, Nat.cast_add, Nat.cast_one]
    congr 2
    ring
  | unknown u =>
    obtain ⟨h1, h2, h3⟩ := hf
    have hwt := UPayload.wireType_lt u.payload
    have hd1 : d = pre ++ (varint (8 * u.num + u.payload.wireType) ++ (u.payload.encode ++ post))
        := by
      rw [hd]; simp [PField.encode, UField.encode, tag_eq _ _ hwt]
    have hread := varintLoop_read (8 * u.num + u.payload.wireType) pre (u.payload.encode ++ post)
      i hi (by omega)
    rw [← hd1] at hread
    rw [hread]
    simp only [ok_bind, and_7, Nat.shiftRight_eq_div_pow]
    have e1 : (8 * u.num + u.payload.wireType) % 8 = u.payload.wireType := by omega
    have e2 : (8 * u.num + u.payload.wireType) / 2 ^ 3 = u.num := by omega
    rw [e1, e2, toInt32_small _ (by omega)]
    have hw4 : ¬ (u.payload.wireType = 4) := by
      cases u.payload <;> simp [UPayload.wireType]
    rw [if_neg hw4, if_neg (by omega), if_neg (by omega), if_neg (by omega), if_neg (by omega),
      if_neg (by omega)]
    rw [skip_branch_eq u d pre post i hd hi (by omega) h3 hlen
      (fun s _ => ({ m with XXX_unrecognized := m.XXX_unrecognized ++ s } : Person))]
    rfl

/-- The `Person` loop on a sequence of well-formed fields applies them in order. -/
theorem Person_unmarshalLoop_fields (fs : List PField) : ∀ (pre : List Nat)
    (m : Person) (fuel : Nat) (i : Int), (∀ f ∈ fs, f.WF) → i = pre.length →
    (pre ++ PField.encodeAll fs).length < 2 ^ 63 → fs.length + 1 ≤ fuel →
    Person.unmarshalLoop fuel (pre ++ PField.encodeAll fs) m i
      = .ok (fs.foldl Person.applyField m) := by
  induction fs with
  | nil =>
    intro pre m fuel i _ hi _ hfuel
    obtain ⟨n, rfl⟩ : ∃ n, fuel = n + 1 := ⟨fuel - 1, by omega⟩
    rw [Person.unmarshalLoop]
    simp only [PField.encodeAll, List.append_nil, List.foldl_nil]
    rw [if_neg (by omega), if_neg (by omega)]
    rfl
  | cons f fs ih =>
    intro pre m fuel i hwf hi hlen hfuel
    obtain ⟨n, rfl⟩ : ∃ n, fuel = n + 1 := ⟨fuel - 1, by omega⟩
    have hpos := PField_encode_pos f
    simp only [List.length_cons] at hfuel
    rw [Person.unmarshalLoop]
    rw [if_pos (by simp only [PField.encodeAll, List.length_append, Nat.cast_add]; omega)]
    rw [Person_unmarshalStep_field f (hwf f (List.mem_cons_self _ _))
      (pre ++ PField.encodeAll (f :: fs)) pre (PField.encodeAll fs) m i rfl hi hlen]
    simp only [ok_bind, PField.encodeAll, List.foldl_cons]
    have := ih (pre ++ f.encode) (m.applyField f) n (i + f.encode.length)
      (fun g hg => hwf g (List.mem_cons_of_mem _ hg)) (by simp [hi])
      (by simpa [PField.encodeAll, List.append_assoc] using hlen) (by omega)
    rw [List.append_assoc] at this
    exact this

theorem PField_length_le_encodeAll (fs : List PField) :
    fs.length ≤ (PField.encodeAll fs).length := by
  induction fs with
  | nil => simp
  | cons f fs ih =>
    have := PField_encode_pos f
    simp only [PField.encodeAll, List.length_cons, List.length_append]
    omega

/-- `Person.Unmarshal` on a sequence of well-formed fields applies them in order
to the receiver. -/
theorem Person_Unmarshal_fields (fs : List PField) (m : Person)
    (hwf : ∀ f ∈ fs, f.WF) (hlen : (PField.encodeAll fs).length < 2 ^ 63) :
    Person.Unmarshal m (PField.encodeAll fs) = .ok (fs.foldl Person.applyField m) := by
  have := Person_unmarshalLoop_fields fs [] m ((PField.encodeAll fs).length + 1) 0 hwf rfl
    (by simpa using hlen) (by have := PField_length_le_encodeAll fs; omega)
  simpa [Person.Unmarshal] using this

/-! ### Round trip -/

theorem NField_encodeAll_append (a b : List NField) :
    NField.encodeAll (a ++ b) = NField.encodeAll a ++ NField.encodeAll b := by
  induction a with
  | nil => rfl
  | cons f fs ih => simp [NField.encodeAll, ih]

theorem PField_encodeAll_append (a b : List PField) :
    PField.encodeAll (a ++ b) = PField.encodeAll a ++ PField.encodeAll b := by
  induction a with
  | nil => rfl
  | cons f fs ih => simp [PField.encodeAll, ih]

theorem NField_encodeAll_unknown (qs : List UField) :
    NField.encodeAll (qs.map NField.unknown) = UField.encodeAll qs := by
  induction qs with
  | nil => rfl
  | cons u us ih => simp [NField.encodeAll, UField.encodeAll, NField.encode, ih]

theorem PField_encodeAll_unknown (us : List UField) :
    PField.encodeAll (us.map PField.unknown) = UField.encodeAll us := by
  induction us with
  | nil => rfl
  | cons u us ih => simp [PField.encodeAll, UField.encodeAll, PField.encode, ih]

theorem PhoneNumber_foldl_unknown (qs : List UField) : ∀ (q : PhoneNumber),
    (qs.map NField.unknown).foldl PhoneNumber.applyField q
      = { q with XXX_unrecognized := q.XXX_unrecognized ++ UField.encodeAll qs } := by
  induction qs with
  | nil => intro q; simp [UField.encodeAll]
  | cons u us ih =>
    intro q
    simp [ih, PhoneNumber.applyField, UField.encodeAll]

theorem Person_foldl_unknown (us : List UField) : ∀ (m : Person),
    (us.map PField.unknown).foldl Person.applyField m
      = { m with XXX_unrecognized := m.XXX_unrecognized ++ UField.encodeAll us } := by
  induction us with
  | nil => intro m; simp [UField.encodeAll]
  | cons u us ih =>
    intro m
    simp [ih, Person.applyField, UField.encodeAll]

theorem toInt32_u64 (x : Int) (h1 : -2 ^ 31 ≤ x) (h2 : x < 2 ^ 31) : toInt32 (u64 x) = x := by
  unfold toInt32 u64
  by_cases h : 0 ≤ x
  · rw [Int.emod_eq_of_lt h (by omega)]
    have e : x.toNat % 2 ^ 32 = x.toNat := Nat.mod_eq_of_lt (by omega)
    rw [e]
    split <;> omega
  · have e0 : x % 2 ^ 64 = 2 ^ 64 + x := by
      rw [← Int.add_mul_emod_self_left x (2 ^ 64) 1]
      rw [Int.emod_eq_of_lt (by omega) (by omega)]
      ring
    rw [e0]
    have e : (2 ^ 64 + x).toNat % 2 ^ 32 = (2 ^ 32 + x).toNat := by omega
    rw [e]
    split <;> omega

/-- The encoding of a valid `PhoneNumber` is the concatenation of its fields. -/
theorem PhoneNumber_encodeAll_fields (q : PhoneNumber) (qs : List UField) (hq : q.Valid)
    (hu : q.XXX_unrecognized = UField.encodeAll qs) :
    NField.encodeAll (q.fields qs) = q.wire := by
  obtain ⟨_, _, h3⟩ := hq
  rw [PhoneNumber_Size_eq] at h3
  unfold PhoneNumber.wire at h3 ⊢
  unfold PhoneNumber.fields
  rw [NField_encodeAll_append, NField_encodeAll_append, NField_encodeAll_unknown, ← hu]
  congr 1
  · by_cases hn : q.Number.length > 0
    · simp only [if_pos hn, lenDelim, List.length_append, List.length_cons] at h3 ⊢
      rw [u64_natCast _ (by omega)]
      simp [NField.encodeAll, NField.encode, tagByte]
    · simp only [if_neg hn]
      rfl
  · congr 1
    by_cases ht : q.Type_ ≠ 0
    · simp only [if_pos ht]
      simp [NField.encodeAll, NField.encode, tagByte]
    · simp only [if_neg ht]
      rfl

theorem PhoneNumber_fields_WF (q : PhoneNumber) (qs : List UField)
    (hqs : ∀ u ∈ qs, u.WF 3 (2 ^ 29 - 1)) : ∀ f ∈ q.fields qs, f.WF := by
  intro f hf
  unfold PhoneNumber.fields at hf
  simp only [List.mem_append, List.mem_map] at hf
  rcases hf with hf | hf | ⟨u, hu, rfl⟩
  · split at hf
    · simp only [List.mem_singleton] at hf
      subst hf
      trivial
    · simp at hf
  · split at hf
    · simp only [List.mem_singleton] at hf
      subst hf
      exact u64_lt _
    · simp at hf
  · exact hqs u hu

/-- Applying the fields of a valid `PhoneNumber` to the zero value rebuilds it. -/
theorem PhoneNumber_foldl_fields (q : PhoneNumber) (qs : List UField) (hq : q.Valid)
    (hu : q.XXX_unrecognized = UField.encodeAll qs) :
    (q.fields qs).foldl PhoneNumber.applyField PhoneNumber.zero
      = { q with XXX_sizecache := 0 } := by
  obtain ⟨h1, h2, _⟩ := hq
  unfold PhoneNumber.fields
  rw [List.foldl_append, List.foldl_append, PhoneNumber_foldl_unknown]
  by_cases hn : q.Number.length > 0 <;> by_cases ht : q.Type_ ≠ 0
  · simp [hn, ht, PhoneNumber.applyField, PhoneNumber.zero, toInt32_u64 _ h1 h2, hu]
  · have ht0 : q.Type_ = 0 := by simpa using ht
    simp [hn, ht0, PhoneNumber.applyField, PhoneNumber.zero, hu]
  · have hn0 : q.Number = [] := by
      cases hq : q.Number with
      | nil => rfl
      | cons a b => rw [hq] at hn; simp at hn
    simp [hn0, ht, PhoneNumber.applyField, PhoneNumber.zero, toInt32_u64 _ h1 h2, hu]
  · have ht0 : q.Type_ = 0 := by simpa using ht
    have hn0 : q.Number = [] := by
      cases hq : q.Number with
      | nil => rfl
      | cons a b => rw [hq] at hn; simp at hn
    simp [hn0, ht0, PhoneNumber.applyField, PhoneNumber.zero, hu]

theorem phoneWire_length_le (p : Person) : (phoneWire p.Phone).length ≤ p.wire.length := by
  unfold Person.wire
  simp only [List.length_append]
  omega

/-- The encoding of a valid `Person` is the concatenation of its fields. -/
theorem Person_encodeAll_fields (p : Person) (us qs : List UField) (hp : p.Valid)
    (hu : p.XXX_unrecognized = UField.encodeAll us)
    (hq : ∀ q, p.Phone = some q → q.XXX_unrecognized = UField.encodeAll qs) :
    PField.encodeAll (p.fields us qs) = p.wire := by
  obtain ⟨_, _, h3, h4⟩ := hp
  rw [Person_Size_eq] at h3
  have hph := phoneWire_length_le p
  unfold Person.wire at h3 ⊢
  unfold Person.fields
  rw [PField_encodeAll_append, PField_encodeAll_append, PField_encodeAll_append,
    PField_encodeAll_append, PField_encodeAll_unknown, ← hu]
  simp only [List.length_append] at h3
  congr 1
  · by_cases hn : p.Name.length > 0
    · simp only [if_pos hn, lenDelim, List.length_append, List.length_cons] at h3 ⊢
      rw [u64_natCast _ (by omega)]
      simp [PField.encodeAll, PField.encode, tagByte]
    · simp only [if_neg hn]
      rfl
  congr 1
  · by_cases ht : p.Id ≠ 0
    · simp only [if_pos ht]
      simp [PField.encodeAll, PField.encode, tagByte]
    · simp only [if_neg ht]
      rfl
  congr 1
  · by_cases hn : p.Email.length > 0
    · simp only [if_pos hn, lenDelim, List.length_append, List.length_cons] at h3 ⊢
      rw [u64_natCast _ (by omega)]
      simp [PField.encodeAll, PField.encode, tagByte]
    · simp only [if_neg hn]
      rfl
  congr 1
  cases hph2 : p.Phone with
  | none => rfl
  | some q =>
    rw [hph2] at h4 h3
    simp only [phoneWire, lenDelim, List.length_cons, List.length_append] at h3 ⊢
    simp only [PField.encodeAll, PField.encode, tagByte, List.append_nil]
    rw [PhoneNumber_encodeAll_fields q qs h4 (hq q hph2), u64_natCast _ (by omega)]
    rfl

theorem UField.WF_mono {lo hi : Nat} (u : UField) (hi2 : Nat) (h : u.WF lo hi) (hle : hi ≤ hi2) :
    u.WF lo hi2 :=
  ⟨h.1, le_trans h.2.1 hle, h.2.2⟩

theorem Person_fields_WF (p : Person) (us qs : List UField)
    (hus : ∀ u ∈ us, u.WF 5 (2 ^ 29 - 1)) (hqs : ∀ u ∈ qs, u.WF 3 (2 ^ 29 - 1)) :
    ∀ f ∈ p.fields us qs, f.WF := by
  intro f hf
  unfold Person.fields at hf
  simp only [List.mem_append, List.mem_map] at hf
  rcases hf with hf | hf | hf | hf | ⟨u, hu, rfl⟩
  · split at hf
    · simp only [List.mem_singleton] at hf
      subst hf
      trivial
    · simp at hf
  · split at hf
    · simp only [List.mem_singleton] at hf
      subst hf
      exact u64_lt _
    · simp at hf
  · split at hf
    · simp only [List.mem_singleton] at hf
      subst hf
      trivial
    · simp at hf
  · cases hph : p.Phone with
    | none => rw [hph] at hf; simp at hf
    | some q =>
      rw [hph] at hf
      simp only [List.mem_singleton] at hf
      subst hf
      exact PhoneNumber_fields_WF q qs hqs
  · exact hus u hu

theorem length_zero_of_not_pos (l : List Nat) (h : ¬ l.length > 0) : l = [] := by
  cases l with
  | nil => rfl
  | cons a b => simp at h

/-- Applying the fields of a valid `Person` to the zero value rebuilds it. -/
theorem Person_foldl_fields (p : Person) (us qs : List UField) (hp : p.Valid)
    (hu : p.XXX_unrecognized = UField.encodeAll us)
    (hq : ∀ q, p.Phone = some q → q.XXX_unrecognized = UField.encodeAll qs) :
    (p.fields us qs).foldl Person.applyField Person.zero = p.decoded := by
  obtain ⟨h1, h2, _, h4⟩ := hp
  unfold Person.fields
  rw [List.foldl_append, List.foldl_append, List.foldl_append, List.foldl_append,
    Person_foldl_unknown]
  have hname : (if p.Name.length > 0 then [PField.name p.Name] else []).foldl Person.applyField
      Person.zero = { Person.zero with Name := p.Name } := by
    by_cases hn : p.Name.length > 0
    · simp [hn, Person.applyField]
    · simp [hn, length_zero_of_not_pos _ hn, Person.zero]
  have hid : ∀ m : Person, (if p.Id ≠ 0 then [PField.id (u64 p.Id)] else []).foldl
      Person.applyField m = if p.Id ≠ 0 then { m with Id := p.Id } else m := by
    intro m
    by_cases hn : p.Id ≠ 0
    · simp [hn, Person.applyField, toInt32_u64 _ h1 h2]
    · simp [hn]
  have hemail : ∀ m : Person, (if p.Email.length > 0 then [PField.email p.Email] else []).foldl
      Person.applyField m = if p.Email.length > 0 then { m with Email := p.Email } else m := by
    intro m
    by_cases hn : p.Email.length > 0
    · simp [hn, Person.applyField]
    · simp [hn]
  rw [hname, hid, hemail]
  unfold Person.decoded
  cases hph : p.Phone with
  | none =>
    by_cases hi : p.Id ≠ 0 <;> by_cases he : p.Email.length > 0
    · simp [hi, he, Person.zero, ← hu]
    · simp [hi, he, Person.zero, ← hu, length_zero_of_not_pos _ he]
    · have hi0 : p.Id = 0 := by simpa using hi
      simp [hi0, he, Person.zero, ← hu]
    · have hi0 : p.Id = 0 := by simpa using hi
      simp [hi0, he, Person.zero, ← hu, length_zero_of_not_pos _ he]
  | some q =>
    rw [hph] at h4
    have hfq := PhoneNumber_foldl_fields q qs h4 (hq q hph)
    by_cases hi : p.Id ≠ 0 <;> by_cases he : p.Email.length > 0
    · simp [hi, he, Person.zero, ← hu, Person.applyField, hfq]
    · simp [hi, he, Person.zero, ← hu, length_zero_of_not_pos _ he, Person.applyField, hfq]
    · have hi0 : p.Id = 0 := by simpa using hi
      simp [hi0, he, Person.zero, ← hu, Person.applyField, hfq]
    · have hi0 : p.Id = 0 := by simpa using hi
      simp [hi0, he, Person.zero, ← hu, length_zero_of_not_pos _ he, Person.applyField, hfq]

theorem PhoneNumber.Equal_sizecache (q : PhoneNumber) :
    PhoneNumber.Equal (some { q with XXX_sizecache := 0 }) (some q) = true := by
  simp [PhoneNumber.Equal]

theorem Person.Equal_decoded (p : Person) : Person.Equal (some p.decoded) (some p) = true := by
  unfold Person.decoded
  cases hph : p.Phone with
  | none => simp [Person.Equal, PhoneNumber.Equal, hph]
  | some q => simp [Person.Equal, PhoneNumber.Equal, hph]

/-- The round trip in its general form: decoding the output of `Marshal` into
the zero value rebuilds the record, up to the size caches. -/
theorem Person.roundtrip (p : Person) (us qs : List UField) (hp : p.Valid)
    (hus : ∀ u ∈ us, u.WF 5 (2 ^ 29 - 1)) (hqs : ∀ u ∈ qs, u.WF 3 (2 ^ 29 - 1))
    (hu : p.XXX_unrecognized = UField.encodeAll us)
    (hq : ∀ q, p.Phone = some q → q.XXX_unrecognized = UField.encodeAll qs) :
    p.Marshal = .ok p.wire ∧ Person.Unmarshal Person.zero p.wire = .ok p.decoded := by
  refine ⟨Person_Marshal_eq p, ?_⟩
  have hlen : p.wire.length < 2 ^ 63 := by
    have := hp.2.2.1
    rwa [Person_Size_eq] at this
  rw [← Person_encodeAll_fields p us qs hp hu hq] at hlen ⊢
  rw [Person_Unmarshal_fields _ Person.zero (Person_fields_WF p us qs hus hqs) hlen,
    Person_foldl_fields p us qs hp hu hq]

/-! ### Claims C1, C2 and C8 -/

/-- C1 (round trip without unknown data).  For every valid `Person` whose
unrecognized-field buffer is empty, and whose nested `PhoneNumber`, if present,
also has an empty unrecognized-field buffer, `Unmarshal` applied to a
zero-valued `Person` on the bytes returned by `Marshal` succeeds and yields a
record that `Equal` reports equal to the original. -/
theorem C1_roundtrip_known (p : Person) (hp : p.Valid) (hu : p.XXX_unrecognized = [])
    (hq : ∀ q, p.Phone = some q → q.XXX_unrecognized = []) :
    ∃ bs r, p.Marshal = .ok bs ∧ Person.Unmarshal Person.zero bs = .ok r ∧
      Person.Equal (some r) (some p) = true := by
  have h := Person.roundtrip p [] [] hp (by simp) (by simp) (by simpa [UField.encodeAll] using hu)
    (by simpa [UField.encodeAll] using hq)
  exact ⟨p.wire, p.decoded, h.1, h.2, Person.Equal_decoded p⟩

theorem C1_roundtrip_known_witness :
    ∃ bs r, c1Person.Marshal = .ok bs ∧ Person.Unmarshal Person.zero bs = .ok r ∧
      Person.Equal (some r) (some c1Person) = true :=
  C1_roundtrip_known c1Person
    ⟨by decide, by decide, by decide, by decide, by decide, by decide⟩ rfl
    (fun q hq => by cases hq; rfl)

/-- C2 (round trip with unknown data).  For every valid `Person` whose
unrecognized-field buffer is a concatenation of well-formed fields with field
numbers in 5..104 and whose nested `PhoneNumber`, if present, carries one with
field numbers in 3..102, decoding the output of `Marshal` into a zero-valued
`Person` succeeds and yields a record that `Equal` reports equal to the
original; its unrecognized-field buffer is byte-identical to the original. -/
theorem C2_roundtrip_unknown (p : Person) (hp : p.Valid) (us qs : List UField)
    (hus : ∀ u ∈ us, u.WF 5 104) (hqs : ∀ u ∈ qs, u.WF 3 102)
    (hu : p.XXX_unrecognized = UField.encodeAll us)
    (hq : ∀ q, p.Phone = some q → q.XXX_unrecognized = UField.encodeAll qs) :
    ∃ bs r, p.Marshal = .ok bs ∧ Person.Unmarshal Person.zero bs = .ok r ∧
      Person.Equal (some r) (some p) = true ∧
      r.XXX_unrecognized = p.XXX_unrecognized := by
  have h := Person.roundtrip p us qs hp
    (fun u hu => UField.WF_mono u _ (hus u hu) (by norm_num))
    (fun u hu => UField.WF_mono u _ (hqs u hu) (by norm_num)) hu hq
  exact ⟨p.wire, p.decoded, h.1, h.2, Person.Equal_decoded p, rfl⟩

theorem C2_roundtrip_unknown_witness :
    ∃ bs r, c2Person.Marshal = .ok bs ∧ Person.Unmarshal Person.zero bs = .ok r ∧
      Person.Equal (some r) (some c2Person) = true ∧
      r.XXX_unrecognized = c2Person.XXX_unrecognized :=
  C2_roundtrip_unknown c2Person
    ⟨by decide, by decide, by decide, by decide, by decide, by decide⟩
    c2Unknown [⟨3, UPayload.varint [] 0⟩]
    (by
      intro u hu
      simp only [c2Unknown, List.mem_cons, List.mem_singleton, List.not_mem_nil, or_false] at hu
      rcases hu with rfl | rfl | rfl | rfl <;> simp [UField.WF, UPayload.WF])
    (by
      intro u hu
      simp only [List.mem_singleton] at hu
      subst hu
      simp [UField.WF, UPayload.WF])
    rfl (fun q hq => by cases hq; rfl)

theorem bind_ok_inv {α β : Type} {x : Res α} {f : α → Res β} {b : β}
    (h : (x >>= f) = .ok b) : ∃ a, x = .ok a ∧ f a = .ok b := by
  cases x with
  | error e => cases h
  | ok a => exact ⟨a, rfl, h⟩

/-- Inversion of the length-delimited branch of a decoding step. -/
theorem bytes_branch_inv {α : Type} (d : List Nat) (i1 : Int) (k : List Nat → α) (x : α)
    (j : Int)
    (h : (do
      let (stringLen, iNdEx) ← varintLoop 64 11 d i1 0 0
      let intStringLen := toInt64 stringLen
      if intStringLen < 0 then throw Fault.ErrInvalidLengthModels
      else
        let postIndex := addInt iNdEx intStringLen
        if postIndex < 0 then throw Fault.ErrInvalidLengthModels
        else if postIndex > (d.length : Int) then throw Fault.ErrUnexpectedEOF
        else do
          let s ← slice d iNdEx postIndex
          pure (k s, postIndex)) = (.ok (x, j) : Res (α × Int))) :
    ∃ len i2 s, varintLoop 64 11 d i1 0 0 = .ok (len, i2) ∧
      slice d i2 (addInt i2 (toInt64 len)) = .ok s ∧ x = k s := by
  obtain ⟨⟨len, i2⟩, h1, h2⟩ := bind_ok_inv h
  dsimp only at h2
  split at h2
  · cases h2
  split at h2
  · cases h2
  split at h2
  · cases h2
  obtain ⟨s, h3, h4⟩ := bind_ok_inv h2
  have h5 := Except.ok.inj h4
  rw [Prod.mk.injEq] at h5
  exact ⟨len, i2, s, h1, h3, h5.1.symm⟩

/-- Inversion of the `int32` branch of a decoding step. -/
theorem int32_branch_inv {α : Type} (d : List Nat) (i1 : Int) (k : Nat → α) (x : α) (j : Int)
    (h : (do
      let (v, iNdEx) ← varintLoop 32 11 d i1 0 0
      pure (k v, iNdEx)) = (.ok (x, j) : Res (α × Int))) :
    ∃ v i2, varintLoop 32 11 d i1 0 0 = .ok (v, i2) ∧ x = k v := by
  obtain ⟨⟨v, i2⟩, h1, h2⟩ := bind_ok_inv h
  have h5 := Except.ok.inj h2
  rw [Prod.mk.injEq] at h5
  exact ⟨v, i2, h1, h5.1.symm⟩

/-- Inversion of the unknown-field branch of a decoding step. -/
theorem skip_branch_inv {α : Type} (d : List Nat) (i : Int) (k : List Nat → Int → α) (x : α)
    (j : Int)
    (h : (do
      let rest ← sliceFrom d i
      let skippy ← skipModels rest
      if skippy < 0 then throw Fault.ErrInvalidLengthModels
      else if addInt i skippy < 0 then throw Fault.ErrInvalidLengthModels
      else if addInt i skippy > (d.length : Int) then throw Fault.ErrUnexpectedEOF
      else do
        let s ← slice d i (addInt i skippy)
        pure (k s (addInt i skippy), addInt i skippy)) = (.ok (x, j) : Res (α × Int))) :
    ∃ s, slice d i j = .ok s ∧ x = k s j := by
  obtain ⟨rest, _, h2⟩ := bind_ok_inv h
  obtain ⟨skippy, _, h3⟩ := bind_ok_inv h2
  split at h3
  · cases h3
  split at h3
  · cases h3
  split at h3
  · cases h3
  obtain ⟨s, h4, h5⟩ := bind_ok_inv h3
  have h6 := Except.ok.inj h5
  rw [Prod.mk.injEq] at h6
  rw [h6.2] at h4 h6
  exact ⟨s, h4, h6.1.symm⟩

/-- What a successful iteration of the `Person` loop does, by the field number
of the tag it starts at. -/
theorem Person_unmarshalStep_inv (d : List Nat) (m m2 : Person) (i j : Int)
    (h : Person.unmarshalStep d m i = .ok (m2, j)) :
    ∃ fn, fieldNumAt d i = some fn ∧
      ((fn = 1 ∧ ∃ s, bytesAt d i = some s ∧ m2 = { m with Name := s }) ∨
      (fn = 2 ∧ ∃ v, int32At d i = some v ∧ m2 = { m with Id := v }) ∨
      (fn = 3 ∧ ∃ s, bytesAt d i = some s ∧ m2 = { m with Email := s }) ∨
      (fn = 4 ∧ ∃ ph, phoneAt d m.phoneOrZero i = some ph ∧ m2 = { m with Phone := some ph }) ∨
      (fn ≠ 1 ∧ fn ≠ 2 ∧ fn ≠ 3 ∧ fn ≠ 4 ∧
        ∃ s, slice d i j = .ok s ∧
          m2 = { m with XXX_unrecognized := m.XXX_unrecognized ++ s })) := by
  unfold Person.unmarshalStep at h
  obtain ⟨⟨wire, i1⟩, hr, h2⟩ := bind_ok_inv h
  refine ⟨toInt32 (wire >>> 3), by simp [fieldNumAt, hr], ?_⟩
  dsimp only at h2
  by_cases c1 : wire &&& 0x7 = 4
  · rw [if_pos c1] at h2; cases h2
  rw [if_neg c1] at h2
  by_cases c2 : toInt32 (wire >>> 3) ≤ 0
  · rw [if_pos c2] at h2; cases h2
  rw [if_neg c2] at h2
  by_cases f1 : toInt32 (wire >>> 3) = 1
  · rw [if_pos f1] at h2
    by_cases w : wire &&& 0x7 ≠ 2
    · rw [if_pos w] at h2; cases h2
    rw [if_neg w] at h2
    obtain ⟨len, i2, s, h3, h4, h5⟩ :=
      bytes_branch_inv d i1 (fun s => ({ m with Name := s } : Person)) m2 j h2
    exact Or.inl ⟨f1, s, by simp [bytesAt, hr, h3, h4], h5⟩
  rw [if_neg f1] at h2
  by_cases f2 : toInt32 (wire >>> 3) = 2
  · rw [if_pos f2] at h2
    by_cases w : wire &&& 0x7 ≠ 0
    · rw [if_pos w] at h2; cases h2
    rw [if_neg w] at h2
    obtain ⟨v, i2, h3, h5⟩ :=
      int32_branch_inv d i1 (fun v => ({ m with Id := toInt32 v } : Person)) m2 j h2
    exact Or.inr (Or.inl ⟨f2, toInt32 v, by simp [int32At, hr, h3], h5⟩)
  rw [if_neg f2] at h2
  by_cases f3 : toInt32 (wire >>> 3) = 3
  · rw [if_pos f3] at h2
    by_cases w : wire &&& 0x7 ≠ 2
    · rw [if_pos w] at h2; cases h2
    rw [if_neg w] at h2
    obtain ⟨len, i2, s, h3, h4, h5⟩ :=
      bytes_branch_inv d i1 (fun s => ({ m with Email := s } : Person)) m2 j h2
    exact Or.inr (Or.inr (Or.inl ⟨f3, s, by simp [bytesAt, hr, h3, h4], h5⟩))
  rw [if_neg f3] at h2
  by_cases f4 : toInt32 (wire >>> 3) = 4
  · rw [if_pos f4] at h2
    by_cases w : wire &&& 0x7 ≠ 2
    · rw [if_pos w] at h2; cases h2
    rw [if_neg w] at h2
    obtain ⟨⟨len, i2⟩, h3, h4⟩ := bind_ok_inv h2
    dsimp only at h4
    by_cases g1 : toInt64 len < 0
    · rw [if_pos g1] at h4; cases h4
    rw [if_neg g1] at h4
    by_cases g2 : addInt i2 (toInt64 len) < 0
    · rw [if_pos g2] at h4; cases h4
    rw [if_neg g2] at h4
    by_cases g3 : addInt i2 (toInt64 len) > (d.length : Int)
    · rw [if_pos g3] at h4; cases h4
    rw [if_neg g3] at h4
    obtain ⟨s, h5, h6⟩ := bind_ok_inv h4
    obtain ⟨ph, h7, h8⟩ := bind_ok_inv h6
    have h9 := Except.ok.inj h8
    rw [Prod.mk.injEq] at h9
    have h7b : PhoneNumber.Unmarshal m.phoneOrZero s = .ok ph := h7
    refine Or.inr (Or.inr (Or.inr (Or.inl ⟨f4, ph, ?_, h9.1.symm⟩)))
    simp only [phoneAt, bytesAt, hr, h3, h5, h7b]
  rw [if_neg f4] at h2
  obtain ⟨s, h5, h6⟩ := skip_branch_inv d i
    (fun s _ => ({ m with XXX_unrecognized := m.XXX_unrecognized ++ s } : Person)) m2 j h2
  exact Or.inr (Or.inr (Or.inr (Or.inr ⟨f1, f2, f3, f4, s, h5, h6⟩)))

/-- What a successful iteration of the `PhoneNumber` loop does. -/
theorem PhoneNumber_unmarshalStep_inv (d : List Nat) (m m2 : PhoneNumber) (i j : Int)
    (h : PhoneNumber.unmarshalStep d m i = .ok (m2, j)) :
    ∃ fn, fieldNumAt d i = some fn ∧
      ((fn = 1 ∧ ∃ s, bytesAt d i = some s ∧ m2 = { m with Number := s }) ∨
      (fn = 2 ∧ ∃ v, int32At d i = some v ∧ m2 = { m with Type_ := v }) ∨
      (fn ≠ 1 ∧ fn ≠ 2 ∧
        ∃ s, slice d i j = .ok s ∧
          m2 = { m with XXX_unrecognized := m.XXX_unrecognized ++ s })) := by
  unfold PhoneNumber.unmarshalStep at h
  obtain ⟨⟨wire, i1⟩, hr, h2⟩ := bind_ok_inv h
  refine ⟨toInt32 (wire >>> 3), by simp [fieldNumAt, hr], ?_⟩
  dsimp only at h2
  by_cases c1 : wire &&& 0x7 = 4
  · rw [if_pos c1] at h2; cases h2
  rw [if_neg c1] at h2
  by_cases c2 : toInt32 (wire >>> 3) ≤ 0
  · rw [if_pos c2] at h2; cases h2
  rw [if_neg c2] at h2
  by_cases f1 : toInt32 (wire >>> 3) = 1
  · rw [if_pos f1] at h2
    by_cases w : wire &&& 0x7 ≠ 2
    · rw [if_pos w] at h2; cases h2
    rw [if_neg w] at h2
    obtain ⟨len, i2, s, h3, h4, h5⟩ :=
      bytes_branch_inv d i1 (fun s => ({ m with Number := s } : PhoneNumber)) m2 j h2
    exact Or.inl ⟨f1, s, by simp [bytesAt, hr, h3, h4], h5⟩
  rw [if_neg f1] at h2
  by_cases f2 : toInt32 (wire >>> 3) = 2
  · rw [if_pos f2] at h2
    by_cases w : wire &&& 0x7 ≠ 0
    · rw [if_pos w] at h2; cases h2
    rw [if_neg w] at h2
    obtain ⟨v, i2, h3, h5⟩ :=
      int32_branch_inv d i1 (fun v => ({ m with Type_ := toInt32 v } : PhoneNumber)) m2 j h2
    exact Or.inr (Or.inl ⟨f2, toInt32 v, by simp [int32At, hr, h3], h5⟩)
  rw [if_neg f2] at h2
  obtain ⟨s, h5, h6⟩ := skip_branch_inv d i
    (fun s _ => ({ m with XXX_unrecognized := m.XXX_unrecognized ++ s } : PhoneNumber)) m2 j h2
  exact Or.inr (Or.inr ⟨f1, f2, s, h5, h6⟩)

/-! ### Repeated fields -/

theorem Person_unmarshalLoop_eq (fuel : Nat) : ∀ (d : List Nat) (m : Person) (i : Int),
    Person.unmarshalLoop fuel d m i = loopWith Person.unmarshalStep fuel d m i := by
  induction fuel with
  | zero => intro d m i; rfl
  | succ n ih =>
    intro d m i
    rw [Person.unmarshalLoop, loopWith]
    simp only [ih]

theorem PhoneNumber_unmarshalLoop_eq (fuel : Nat) : ∀ (d : List Nat) (m : PhoneNumber) (i : Int),
    PhoneNumber.unmarshalLoop fuel d m i = loopWith PhoneNumber.unmarshalStep fuel d m i := by
  induction fuel with
  | zero => intro d m i; rfl
  | succ n ih =>
    intro d m i
    rw [PhoneNumber.unmarshalLoop, loopWith]
    simp only [ih]

/-- Unfolding one successful iteration of a loop and of its trace. -/
theorem loopWith_succ_inv {α : Type} (step : List Nat → α → Int → Res (α × Int)) (n : Nat)
    (d : List Nat) (m : α) (i : Int) (r : α) (hlt : i < d.length)
    (h : loopWith step (n + 1) d m i = .ok r) :
    ∃ m2 j, step d m i = .ok (m2, j) ∧ loopWith step n d m2 j = .ok r ∧
      traceWith step (n + 1) d m i = (i, m) :: traceWith step n d m2 j := by
  rw [loopWith, if_pos hlt] at h
  obtain ⟨⟨m2, j⟩, h1, h2⟩ := bind_ok_inv h
  refine ⟨m2, j, h1, h2, ?_⟩
  rw [traceWith, if_pos hlt, h1]

theorem traceWith_ge {α : Type} (step : List Nat → α → Int → Res (α × Int)) (d : List Nat)
    (hprog : ∀ (m : α) (i : Int) (m2 : α) (j : Int), 0 ≤ i → i < d.length →
      step d m i = .ok (m2, j) → i < j)
    (fuel : Nat) : ∀ (m : α) (i : Int), 0 ≤ i →
    ∀ o mo, (o, mo) ∈ traceWith step fuel d m i → i ≤ o := by
  induction fuel with
  | zero => intro m i _ o mo h; simp [traceWith] at h
  | succ n ih =>
    intro m i h0 o mo h
    rw [traceWith] at h
    by_cases hlt : i < d.length
    · rw [if_pos hlt] at h
      rcases List.mem_cons.mp h with h | h
      · cases h; exact le_refl _
      · cases hs : step d m i with
        | error e => rw [hs] at h; simp at h
        | ok r =>
          obtain ⟨m2, j⟩ := r
          rw [hs] at h
          have := hprog m i m2 j h0 hlt hs
          have := ih m2 j (by omega) o mo h
          omega
    · rw [if_neg hlt] at h
      simp at h

/-- If no iteration of the loop starts at a selected tag, the observed part of
the record is unchanged. -/
theorem loopWith_frame {α β : Type} (step : List Nat → α → Int → Res (α × Int)) (d : List Nat)
    (get : α → β) (sel : Int → Prop)
    (hframe : ∀ (m : α) (i : Int) (m2 : α) (j : Int), step d m i = .ok (m2, j) → ¬ sel i →
      get m2 = get m)
    (fuel : Nat) : ∀ (m : α) (i : Int) (r : α), loopWith step fuel d m i = .ok r →
    (∀ o mo, (o, mo) ∈ traceWith step fuel d m i → ¬ sel o) → get r = get m := by
  induction fuel with
  | zero => intro m i r h; cases h
  | succ n ih =>
    intro m i r h hall
    by_cases hlt : i < d.length
    · obtain ⟨m2, j, h1, h2, h3⟩ := loopWith_succ_inv step n d m i r hlt h
      rw [h3] at hall
      have e1 := ih m2 j r h2 (fun o mo ho => hall o mo (List.mem_cons_of_mem _ ho))
      have e2 := hframe m i m2 j h1 (hall i m (List.mem_cons_self _ _))
      rw [e1, e2]
    · rw [loopWith, if_neg hlt] at h
      by_cases hgt : i > d.length
      · rw [if_pos hgt] at h; cases h
      · rw [if_neg hgt] at h
        cases h
        rfl

/-- The last iteration that starts at a selected tag determines the observed
part of the decoded record. -/
theorem loopWith_last {α β : Type} (step : List Nat → α → Int → Res (α × Int)) (d : List Nat)
    (get : α → β) (sel : Int → Prop) (val : α → Int → Option β)
    (hprog : ∀ (m : α) (i : Int) (m2 : α) (j : Int), 0 ≤ i → i < d.length →
      step d m i = .ok (m2, j) → i < j)
    (hset : ∀ (m : α) (i : Int) (m2 : α) (j : Int), step d m i = .ok (m2, j) → sel i →
      some (get m2) = val m i)
    (hframe : ∀ (m : α) (i : Int) (m2 : α) (j : Int), step d m i = .ok (m2, j) → ¬ sel i →
      get m2 = get m)
    (fuel : Nat) : ∀ (m : α) (i : Int) (r : α), 0 ≤ i → loopWith step fuel d m i = .ok r →
    ∀ o mo, (o, mo) ∈ traceWith step fuel d m i → sel o →
      (∀ o2 m2, (o2, m2) ∈ traceWith step fuel d m i → o < o2 → ¬ sel o2) →
      some (get r) = val mo o := by
  induction fuel with
  | zero => intro m i r _ h; cases h
  | succ n ih =>
    intro m i r h0 h o mo ho hsel hlast
    by_cases hlt : i < d.length
    · obtain ⟨m2, j, h1, h2, h3⟩ := loopWith_succ_inv step n d m i r hlt h
      rw [h3] at ho hlast
      have hj := hprog m i m2 j h0 hlt h1
      rcases List.mem_cons.mp ho with ho | ho
      · obtain ⟨eo, em⟩ := Prod.mk.inj ho
        have e1 := loopWith_frame step d get sel hframe n m2 j r h2 (fun o2 mo2 ho2 => by
          have := traceWith_ge step d hprog n m2 j (by omega) o2 mo2 ho2
          exact hlast o2 mo2 (List.mem_cons_of_mem _ ho2) (by omega))
        rw [e1, eo, em]
        rw [eo] at hsel
        exact hset m i m2 j h1 hsel
      · exact ih m2 j r (by omega) h2 o mo ho hsel
          (fun o2 mo2 ho2 => hlast o2 mo2 (List.mem_cons_of_mem _ ho2))
    · rw [traceWith, if_neg hlt] at ho
      simp at ho

theorem Person_step_progress (d : List Nat) (hd : d.length < 2 ^ 63) (m : Person) (i : Int)
    (m2 : Person) (j : Int) (h0 : 0 ≤ i) (h1 : i < d.length)
    (h : Person.unmarshalStep d m i = .ok (m2, j)) : i < j := by
  have := Person_unmarshalStep_safe d hd m i h0 h1
  rw [h] at this
  exact this.1

theorem PhoneNumber_step_progress (d : List Nat) (hd : d.length < 2 ^ 63) (m : PhoneNumber)
    (i : Int) (m2 : PhoneNumber) (j : Int) (h0 : 0 ≤ i) (h1 : i < d.length)
    (h : PhoneNumber.unmarshalStep d m i = .ok (m2, j)) : i < j := by
  have := PhoneNumber_unmarshalStep_safe d hd m i h0 h1
  rw [h] at this
  exact this.1

theorem mem_map_fst {α : Type} (l : List (Int × α)) (o : Int) :
    o ∈ l.map Prod.fst ↔ ∃ mo, (o, mo) ∈ l := by
  simp

/-- Last-wins for the declared fields of `Person`, over the iterations of the
loop. -/
theorem Person_last_wins (d : List Nat) (hd : d.length < 2 ^ 63) (m0 r : Person) (o : Int)
    (mo : Person) (k : Int) (h : Person.Unmarshal m0 d = .ok r)
    (ho : (o, mo) ∈ Person.trace m0 d) (hk : fieldNumAt d o = some k)
    (hlast : ∀ o2 m2, (o2, m2) ∈ Person.trace m0 d → o < o2 → fieldNumAt d o2 ≠ some k) :
    (k = 1 → some r.Name = bytesAt d o) ∧ (k = 2 → some r.Id = int32At d o) ∧
    (k = 3 → some r.Email = bytesAt d o) ∧
    (k = 4 → some r.Phone = (phoneAt d mo.phoneOrZero o).map some) := by
  unfold Person.Unmarshal at h
  rw [Person_unmarshalLoop_eq] at h
  unfold Person.trace at ho hlast
  have hprog := fun m i m2 j => Person_step_progress d hd m i m2 j
  refine ⟨?_, ?_, ?_, ?_⟩
  · intro hk1
    rw [hk1] at hk hlast
    refine loopWith_last Person.unmarshalStep d Person.Name (fun i => fieldNumAt d i = some 1)
      (fun _ i => bytesAt d i) hprog ?_ ?_ _ m0 0 r (le_refl _) h o mo ho hk hlast
    · intro m i m2 j hs hsel
      obtain ⟨fn, hfn, hc⟩ := Person_unmarshalStep_inv d m m2 i j hs
      rw [hsel] at hfn
      cases hfn
      rcases hc with ⟨_, s, hb, hm⟩ | ⟨c, _⟩ | ⟨c, _⟩ | ⟨c, _⟩ | ⟨c, _⟩
      · simp only [hb, hm]
      all_goals simp at c
    · intro m i m2 j hs hsel
      obtain ⟨fn, hfn, hc⟩ := Person_unmarshalStep_inv d m m2 i j hs
      rcases hc with ⟨c, _⟩ | ⟨_, _, _, hm⟩ | ⟨_, _, _, hm⟩ | ⟨_, _, _, hm⟩ | ⟨_, _, _, _, _, _, hm⟩
      · rw [c] at hfn; exact absurd hfn hsel
      all_goals rw [hm]
  · intro hk1
    rw [hk1] at hk hlast
    refine loopWith_last Person.unmarshalStep d Person.Id (fun i => fieldNumAt d i = some 2)
      (fun _ i => int32At d i) hprog ?_ ?_ _ m0 0 r (le_refl _) h o mo ho hk hlast
    · intro m i m2 j hs hsel
      obtain ⟨fn, hfn, hc⟩ := Person_unmarshalStep_inv d m m2 i j hs
      rw [hsel] at hfn
      cases hfn
      rcases hc with ⟨c, _⟩ | ⟨_, s, hb, hm⟩ | ⟨c, _⟩ | ⟨c, _⟩ | ⟨_, c, _⟩
      · simp at c
      · simp only [hb, hm]
      all_goals simp at c
    · intro m i m2 j hs hsel
      obtain ⟨fn, hfn, hc⟩ := Person_unmarshalStep_inv d m m2 i j hs
      rcases hc with ⟨_, _, _, hm⟩ | ⟨c, _⟩ | ⟨_, _, _, hm⟩ | ⟨_, _, _, hm⟩ | ⟨_, _, _, _, _, _, hm⟩
      · rw [hm]
      · rw [c] at hfn; exact absurd hfn hsel
      all_goals rw [hm]
  · intro hk1
    rw [hk1] at hk hlast
    refine loopWith_last Person.unmarshalStep d Person.Email (fun i => fieldNumAt d i = some 3)
      (fun _ i => bytesAt d i) hprog ?_ ?_ _ m0 0 r (le_refl _) h o mo ho hk hlast
    · intro m i m2 j hs hsel
      obtain ⟨fn, hfn, hc⟩ := Person_unmarshalStep_inv d m m2 i j hs
      rw [hsel] at hfn
      cases hfn
      rcases hc with ⟨c, _⟩ | ⟨c, _⟩ | ⟨_, s, hb, hm⟩ | ⟨c, _⟩ | ⟨_, _, c, _⟩
      · simp at c
      · simp at c
      · simp only [hb, hm]
      all_goals simp at c
    · intro m i m2 j hs hsel
      obtain ⟨fn, hfn, hc⟩ := Person_unmarshalStep_inv d m m2 i j hs
      rcases hc with ⟨_, _, _, hm⟩ | ⟨_, _, _, hm⟩ | ⟨c, _⟩ | ⟨_, _, _, hm⟩ | ⟨_, _, _, _, _, _, hm⟩
      · rw [hm]
      · rw [hm]
      · rw [c] at hfn; exact absurd hfn hsel
      all_goals rw [hm]
  · intro hk1
    rw [hk1] at hk hlast
    refine loopWith_last Person.unmarshalStep d Person.Phone (fun i => fieldNumAt d i = some 4)
      (fun m i => (phoneAt d m.phoneOrZero i).map some) hprog ?_ ?_ _ m0 0 r (le_refl _) h o mo
      ho hk hlast
    · intro m i m2 j hs hsel
      obtain ⟨fn, hfn, hc⟩ := Person_unmarshalStep_inv d m m2 i j hs
      rw [hsel] at hfn
      cases hfn
      rcases hc with ⟨c, _⟩ | ⟨c, _⟩ | ⟨c, _⟩ | ⟨_, s, hb, hm⟩ | ⟨_, _, _, c, _⟩
      · simp at c
      · simp at c
      · simp at c
      · simp only [hb, hm, Option.map_some']
      · simp at c
    · intro m i m2 j hs hsel
      obtain ⟨fn, hfn, hc⟩ := Person_unmarshalStep_inv d m m2 i j hs
      rcases hc with ⟨_, _, _, hm⟩ | ⟨_, _, _, hm⟩ | ⟨_, _, _, hm⟩ | ⟨c, _⟩ | ⟨_, _, _, _, _, _, hm⟩
      · rw [hm]
      · rw [hm]
      · rw [hm]
      · rw [c] at hfn; exact absurd hfn hsel
      · rw [hm]

/-- Last-wins for the declared fields of `PhoneNumber`. -/
theorem PhoneNumber_last_wins (d : List Nat) (hd : d.length < 2 ^ 63) (m0 r : PhoneNumber)
    (o : Int) (mo : PhoneNumber) (k : Int) (h : PhoneNumber.Unmarshal m0 d = .ok r)
    (ho : (o, mo) ∈ PhoneNumber.trace m0 d) (hk : fieldNumAt d o = some k)
    (hlast : ∀ o2 m2, (o2, m2) ∈ PhoneNumber.trace m0 d → o < o2 → fieldNumAt d o2 ≠ some k) :
    (k = 1 → some r.Number = bytesAt d o) ∧ (k = 2 → some r.Type_ = int32At d o) := by
  unfold PhoneNumber.Unmarshal at h
  rw [PhoneNumber_unmarshalLoop_eq] at h
  unfold PhoneNumber.trace at ho hlast
  have hprog := fun m i m2 j => PhoneNumber_step_progress d hd m i m2 j
  refine ⟨?_, ?_⟩
  · intro hk1
    rw [hk1] at hk hlast
    refine loopWith_last PhoneNumber.unmarshalStep d PhoneNumber.Number
      (fun i => fieldNumAt d i = some 1)
      (fun _ i => bytesAt d i) hprog ?_ ?_ _ m0 0 r (le_refl _) h o mo ho hk hlast
    · intro m i m2 j hs hsel
      obtain ⟨fn, hfn, hc⟩ := PhoneNumber_unmarshalStep_inv d m m2 i j hs
      rw [hsel] at hfn
      cases hfn
      rcases hc with ⟨_, s, hb, hm⟩ | ⟨c, _⟩ | ⟨c, _⟩
      · simp only [hb, hm]
      all_goals simp at c
    · intro m i m2 j hs hsel
      obtain ⟨fn, hfn, hc⟩ := PhoneNumber_unmarshalStep_inv d m m2 i j hs
      rcases hc with ⟨c, _⟩ | ⟨_, _, _, hm⟩ | ⟨_, _, _, _, hm⟩
      · rw [c] at hfn; exact absurd hfn hsel
      all_goals rw [hm]
  · intro hk1
    rw [hk1] at hk hlast
    refine loopWith_last PhoneNumber.unmarshalStep d PhoneNumber.Type_
      (fun i => fieldNumAt d i = some 2)
      (fun _ i => int32At d i) hprog ?_ ?_ _ m0 0 r (le_refl _) h o mo ho hk hlast
    · intro m i m2 j hs hsel
      obtain ⟨fn, hfn, hc⟩ := PhoneNumber_unmarshalStep_inv d m m2 i j hs
      rw [hsel] at hfn
      cases hfn
      rcases hc with ⟨c, _⟩ | ⟨_, s, hb, hm⟩ | ⟨_, c, _⟩
      · simp at c
      · simp only [hb, hm]
      · simp at c
    · intro m i m2 j hs hsel
      obtain ⟨fn, hfn, hc⟩ := PhoneNumber_unmarshalStep_inv d m m2 i j hs
      rcases hc with ⟨_, _, _, hm⟩ | ⟨c, _⟩ | ⟨_, _, _, _, hm⟩
      · rw [hm]
      · rw [c] at hfn; exact absurd hfn hsel
      · rw [hm]

/-- Once the record holds a `Phone`, and after every `Phone` field, every later
iteration starts from a record that holds a `Phone`. -/
theorem Person_trace_phone (d : List Nat) (hd : d.length < 2 ^ 63) (fuel : Nat) :
    ∀ (m : Person) (i : Int), 0 ≤ i →
    ∀ o mo, (o, mo) ∈ traceWith Person.unmarshalStep fuel d m i →
      (m.Phone ≠ none ∨ ∃ o1 m1, (o1, m1) ∈ traceWith Person.unmarshalStep fuel d m i ∧
        o1 < o ∧ fieldNumAt d o1 = some 4) →
      mo.Phone ≠ none := by
  have hprog := fun m i m2 j => Person_step_progress d hd m i m2 j
  induction fuel with
  | zero => intro m i _ o mo h; simp [traceWith] at h
  | succ n ih =>
    intro m i h0 o mo ho hyp
    rw [traceWith] at ho hyp
    by_cases hlt : i < d.length
    · rw [if_pos hlt] at ho hyp
      cases hs : Person.unmarshalStep d m i with
      | error e =>
        rw [hs] at ho hyp
        simp only [List.mem_singleton] at ho hyp
        obtain ⟨eo, em⟩ := Prod.mk.inj ho
        rcases hyp with hyp | ⟨o1, m1, h1, h2, _⟩
        · rw [em]; exact hyp
        · obtain ⟨e1, _⟩ := Prod.mk.inj h1
          omega
      | ok res =>
        obtain ⟨m2, j⟩ := res
        rw [hs] at ho hyp
        have hj := hprog m i m2 j h0 hlt hs
        obtain ⟨fn, hfn, hc⟩ := Person_unmarshalStep_inv d m m2 i j hs
        rcases List.mem_cons.mp ho with ho | ho
        · obtain ⟨eo, em⟩ := Prod.mk.inj ho
          rcases hyp with hyp | ⟨o1, m1, h1, h2, _⟩
          · rw [em]; exact hyp
          · rcases List.mem_cons.mp h1 with h1 | h1
            · obtain ⟨e1, _⟩ := Prod.mk.inj h1
              omega
            · have := traceWith_ge Person.unmarshalStep d hprog n m2 j (by omega) o1 m1 h1
              omega
        · refine ih m2 j (by omega) o mo ho ?_
          rcases hyp with hyp | ⟨o1, m1, h1, h2, h3⟩
          · left
            rcases hc with ⟨_, _, _, hm⟩ | ⟨_, _, _, hm⟩ | ⟨_, _, _, hm⟩ | ⟨_, _, _, hm⟩ |
              ⟨_, _, _, _, _, _, hm⟩
            all_goals rw [hm]
            all_goals first | exact hyp | simp
          · rcases List.mem_cons.mp h1 with h1 | h1
            · obtain ⟨e1, _⟩ := Prod.mk.inj h1
              rw [e1, hfn] at h3
              cases h3
              left
              rcases hc with ⟨c, _⟩ | ⟨c, _⟩ | ⟨c, _⟩ | ⟨_, _, _, hm⟩ | ⟨_, _, _, c, _⟩
              · simp at c
              · simp at c
              · simp at c
              · rw [hm]; simp
              · simp at c
            · exact Or.inr ⟨o1, m1, h1, h2, h3⟩
    · rw [if_neg hlt] at ho
      simp at ho

/-! ### Claims C9 and C10 -/

/-- C9 as stated fails.  The buffer has two occurrences of `Phone`, at offsets 0
and 4; the last one carries only `Number`.  The decoded `Phone` is not what the
last payload decodes to on its own: the `Type` set by the first occurrence
survives. -/
theorem C9_counterexample :
    ∃ r last, Person.Unmarshal Person.zero c9Buf = .ok r ∧
      (Person.trace Person.zero c9Buf).map Prod.fst = [0, 4] ∧
      fieldNumAt c9Buf 0 = some 4 ∧ fieldNumAt c9Buf 4 = some 4 ∧
      bytesAt c9Buf 4 = some [0x0A, 1, 0x41] ∧
      PhoneNumber.Unmarshal PhoneNumber.zero [0x0A, 1, 0x41] = .ok last ∧
      r.Phone ≠ some last ∧
      last.Type_ = 0 ∧ r.Phone = some { last with Type_ := 1 } :=
  ⟨{ Person.zero with Phone := some { PhoneNumber.zero with Number := [0x41], Type_ := 1 } },
    { PhoneNumber.zero with Number := [0x41] },
    by decide, by decide, by decide, by decide, by decide, by decide, by decide, by decide,
    by decide⟩

/-- C9, amended.  For every `Person` buffer that decodes successfully, the
decoded `Phone` is the result of decoding the payload of the last occurrence of
field 4 into the nested record the receiver holds when that occurrence is
reached (a zero value only if it holds none); when an earlier occurrence of
field 4 exists the receiver does hold one, so the occurrences are merged: the
last payload overwrites the scalars it carries and appends its unknown bytes,
and everything else set earlier survives. -/
theorem C9_phone_merged (d : List Nat) (hd : d.length < 2 ^ 63) (m0 r : Person) (o : Int)
    (mo : Person) (h : Person.Unmarshal m0 d = .ok r) (ho : (o, mo) ∈ Person.trace m0 d)
    (h4 : fieldNumAt d o = some 4)
    (hlast : ∀ o2 m2, (o2, m2) ∈ Person.trace m0 d → o < o2 → fieldNumAt d o2 ≠ some 4) :
    (∃ ph, phoneAt d mo.phoneOrZero o = some ph ∧ r.Phone = some ph) ∧
    (∀ o1 m1, (o1, m1) ∈ Person.trace m0 d → o1 < o → fieldNumAt d o1 = some 4 →
      ∃ q, mo.Phone = some q ∧ mo.phoneOrZero = q) := by
  constructor
  · have h1 := (Person_last_wins d hd m0 r o mo 4 h ho h4 hlast).2.2.2 rfl
    cases hp : phoneAt d mo.phoneOrZero o with
    | none => rw [hp] at h1; simp at h1
    | some ph =>
      rw [hp] at h1
      simp only [Option.map_some', Option.some.injEq] at h1
      exact ⟨ph, rfl, h1⟩
  · intro o1 m1 h1 h2 h3
    have hne := Person_trace_phone d hd _ m0 0 (le_refl _) o mo ho
      (Or.inr ⟨o1, m1, h1, h2, h3⟩)
    cases hq : mo.Phone with
    | none => exact absurd hq hne
    | some q => exact ⟨q, rfl, by simp [Person.phoneOrZero, hq]⟩

theorem C9_phone_merged_witness :
    (∃ ph, phoneAt c9Buf
        (Person.phoneOrZero { Person.zero with Phone := some { PhoneNumber.zero with Type_ := 1 } })
        4 = some ph ∧
      (Person.mk [] 0 [] (some { PhoneNumber.zero with Number := [0x41], Type_ := 1 }) [] 0).Phone
        = some ph) ∧
    (∀ o1 m1, (o1, m1) ∈ Person.trace Person.zero c9Buf → o1 < 4 →
      fieldNumAt c9Buf o1 = some 4 →
      ∃ q, (Person.mk [] 0 [] (some { PhoneNumber.zero with Type_ := 1 }) [] 0).Phone = some q ∧
        Person.phoneOrZero { Person.zero with Phone := some { PhoneNumber.zero with Type_ := 1 } }
          = q) :=
  C9_phone_merged c9Buf (by decide) Person.zero
    (Person.mk [] 0 [] (some { PhoneNumber.zero with Number := [0x41], Type_ := 1 }) [] 0) 4
    { Person.zero with Phone := some { PhoneNumber.zero with Type_ := 1 } }
    (by decide) (by decide) (by decide)
    (by
      intro o2 m2 h2 hlt
      have : (Person.trace Person.zero c9Buf).map Prod.fst = [0, 4] := by decide
      have hmem : o2 ∈ (Person.trace Person.zero c9Buf).map Prod.fst :=
        List.mem_map_of_mem Prod.fst h2
      rw [this] at hmem
      simp only [List.mem_cons, List.mem_singleton, List.not_mem_nil, or_false] at hmem
      omega)

/-- C10 (scalar last-wins).  For every buffer that decodes successfully, and
every offset `o` at which an iteration of the decode loop starts and after which
no iteration starts at a tag with the same field number (the last occurrence of
that field), the decoded value of the scalar field `Name`, `Id` or `Email` of
`Person` (1, 2, 3), or `Number` or `Type` of `PhoneNumber` (1, 2), is the value
carried by that occurrence: a function of the buffer and the offset alone,
independent of earlier occurrences and of the starting record. -/
theorem C10_scalar_last_wins (d : List Nat) (hd : d.length < 2 ^ 63) (o k : Int)
    (m0 r : Person) (p0 q : PhoneNumber) (hk : fieldNumAt d o = some k) :
    (Person.Unmarshal m0 d = .ok r → o ∈ (Person.trace m0 d).map Prod.fst →
      (∀ o2 ∈ (Person.trace m0 d).map Prod.fst, o < o2 → fieldNumAt d o2 ≠ some k) →
      (k = 1 → some r.Name = bytesAt d o) ∧ (k = 2 → some r.Id = int32At d o) ∧
      (k = 3 → some r.Email = bytesAt d o)) ∧
    (PhoneNumber.Unmarshal p0 d = .ok q → o ∈ (PhoneNumber.trace p0 d).map Prod.fst →
      (∀ o2 ∈ (PhoneNumber.trace p0 d).map Prod.fst, o < o2 → fieldNumAt d o2 ≠ some k) →
      (k = 1 → some q.Number = bytesAt d o) ∧ (k = 2 → some q.Type_ = int32At d o)) := by
  constructor
  · intro h ho hlast
    obtain ⟨mo, ho⟩ := (mem_map_fst _ o).mp ho
    have := Person_last_wins d hd m0 r o mo k h ho hk
      (fun o2 m2 h2 => hlast o2 ((mem_map_fst _ o2).mpr ⟨m2, h2⟩))
    exact ⟨this.1, this.2.1, this.2.2.1⟩
  · intro h ho hlast
    obtain ⟨mo, ho⟩ := (mem_map_fst _ o).mp ho
    exact PhoneNumber_last_wins d hd p0 q o mo k h ho hk
      (fun o2 m2 h2 => hlast o2 ((mem_map_fst _ o2).mpr ⟨m2, h2⟩))

theorem C10_scalar_last_wins_witness :
    int32At c10Buf 8 = some 2 ∧
    some (Person.mk [66] 2 [] none [] 0).Id = int32At c10Buf 8 ∧
    some (PhoneNumber.mk [66] 2 [] 0).Type_ = int32At c10Buf 8 :=
  ⟨by decide,
    ((C10_scalar_last_wins c10Buf (by decide) 8 2 { Person.zero with Name := [1], Id := 77 }
      (Person.mk [66] 2 [] none [] 0) PhoneNumber.zero (PhoneNumber.mk [66] 2 [] 0)
      (by decide)).1 (by decide) (by decide) (by decide)).2.1 rfl,
    ((C10_scalar_last_wins c10Buf (by decide) 8 2 { Person.zero with Name := [1], Id := 77 }
      (Person.mk [66] 2 [] none [] 0) PhoneNumber.zero (PhoneNumber.mk [66] 2 [] 0)
      (by decide)).2 (by decide) (by decide) (by decide)).2 rfl⟩

/-! ### Claim C11: equality -/

theorem Person_Equal_iff (a b : Person) :
    Person.Equal (some a) (some b) = true ↔
      a.Name = b.Name ∧ a.Id = b.Id ∧ a.Email = b.Email ∧
      ((a.Phone = none ∧ b.Phone = none) ∨
        ∃ p q, a.Phone = some p ∧ b.Phone = some q ∧ p.Number = q.Number ∧
          p.Type_ = q.Type_ ∧ p.XXX_unrecognized = q.XXX_unrecognized) ∧
      a.XXX_unrecognized = b.XXX_unrecognized := by
  unfold Person.Equal
  cases ha : a.Phone <;> cases hb : b.Phone <;> simp [PhoneNumber.Equal, ha, hb]

theorem Person_Equal_withSizecache (a b : Person) (s s2 t t2 : Int) :
    Person.Equal (some (a.withSizecache s s2)) (some (b.withSizecache t t2))
      = Person.Equal (some a) (some b) := by
  unfold Person.Equal Person.withSizecache
  cases ha : a.Phone <;> cases hb : b.Phone <;> simp [PhoneNumber.Equal, ha, hb]

/-- Two well-formed unknown fields with the same bytes are the same field. -/
theorem UField_encode_inj (u v : UField) (hu : u.WF 1 (2 ^ 29 - 1)) (hv : v.WF 1 (2 ^ 29 - 1))
    (hlen : u.encode.length < 2 ^ 63) (h : u.encode = v.encode) : u = v := by
  obtain ⟨n1, p1⟩ := u
  obtain ⟨n2, p2⟩ := v
  have w1 := UPayload.wireType_lt p1
  have w2 := UPayload.wireType_lt p2
  have b1 : n1 ≤ 2 ^ 29 - 1 := hu.2.1
  have b2 : n2 ≤ 2 ^ 29 - 1 := hv.2.1
  have t1 : n1 <<< 3 ||| p1.wireType < 2 ^ 64 := by rw [tag_eq _ _ w1]; omega
  have t2 : n2 <<< 3 ||| p2.wireType < 2 ^ 64 := by rw [tag_eq _ _ w2]; omega
  have r1 := varintLoop_read (n1 <<< 3 ||| p1.wireType) [] p1.encode 0 rfl t1
  have r2 := varintLoop_read (n2 <<< 3 ||| p2.wireType) [] p2.encode 0 rfl t2
  simp only [UField.encode] at h hlen
  simp only [List.nil_append] at r1 r2
  rw [h, r2] at r1
  have e := Except.ok.inj r1
  rw [Prod.mk.injEq] at e
  have etag := e.1
  rw [tag_eq _ _ w1, tag_eq _ _ w2] at etag
  have en : n1 = n2 := by omega
  have ew : p1.wireType = p2.wireType := by omega
  rw [← e.1] at h
  have ep := List.append_cancel_left h
  subst en
  congr 1
  cases p1 with
  | varint cs b =>
    cases p2 with
    | varint cs2 b2 =>
      simp only [UPayload.encode] at ep
      have := List.append_inj' ep rfl
      simp at this
      rw [this.1, this.2]
    | _ => simp [UPayload.wireType] at ew
  | fixed64 bs =>
    cases p2 with
    | fixed64 bs2 => simp only [UPayload.encode] at ep; rw [ep]
    | _ => simp [UPayload.wireType] at ew
  | bytes bs =>
    cases p2 with
    | bytes bs2 =>
      simp only [UPayload.encode] at ep hlen
      have l1 : bs.length < 2 ^ 64 := by simp at hlen; omega
      have l2 : bs2.length < 2 ^ 64 := by
        have := congrArg List.length ep
        simp at this hlen; omega
      have q1 := varintLoop_read bs.length [] bs 0 rfl l1
      have q2 := varintLoop_read bs2.length [] bs2 0 rfl l2
      simp only [List.nil_append] at q1 q2
      rw [ep, q2] at q1
      have e3 := Except.ok.inj q1
      rw [Prod.mk.injEq] at e3
      have e4 : bs2.length = bs.length := e3.1
      rw [e4] at ep
      rw [List.append_cancel_left ep]
    | _ => simp [UPayload.wireType] at ew
  | fixed32 bs =>
    cases p2 with
    | fixed32 bs2 => simp only [UPayload.encode] at ep; rw [ep]
    | _ => simp [UPayload.wireType] at ew

/-- The bytes of a sequence of well-formed unknown fields determine the
sequence. -/
theorem UField_encodeAll_inj : ∀ (us vs : List UField), (∀ u ∈ us, u.WF 1 (2 ^ 29 - 1)) →
    (∀ u ∈ vs, u.WF 1 (2 ^ 29 - 1)) → (UField.encodeAll us).length < 2 ^ 63 →
    UField.encodeAll us = UField.encodeAll vs → us = vs := by
  intro us
  induction us with
  | nil =>
    intro vs _ _ _ h
    cases vs with
    | nil => rfl
    | cons v vs =>
      have := UField_encode_pos v
      have h2 := congrArg List.length h
      rw [UField.encodeAll, UField.encodeAll, List.length_append, List.length_nil] at h2
      omega
  | cons u us ih =>
    intro vs hu hv hlen h
    cases vs with
    | nil =>
      have := UField_encode_pos u
      have h2 := congrArg List.length h
      rw [UField.encodeAll, UField.encodeAll, List.length_append, List.length_nil] at h2
      omega
    | cons v vs =>
      simp only [UField.encodeAll] at h hlen
      have wu := hu u (List.mem_cons_self _ _)
      have wv := hv v (List.mem_cons_self _ _)
      have s1 := skipModels_ufield u (UField.encodeAll us) (by have := wu.2.1; omega) wu.2.2 hlen
      have s2 := skipModels_ufield v (UField.encodeAll vs) (by have := wv.2.1; omega) wv.2.2
        (by rw [← h]; exact hlen)
      rw [h, s2] at s1
      have e := Except.ok.inj s1
      have e2 : v.encode.length = u.encode.length := by exact_mod_cast e
      obtain ⟨h1, h2⟩ := List.append_inj h e2.symm
      have := UField_encode_inj u v wu wv (by simp at hlen; omega) h1
      subst this
      rw [ih vs (fun x hx => hu x (List.mem_cons_of_mem _ hx))
        (fun x hx => hv x (List.mem_cons_of_mem _ hx)) (by simp at hlen; omega) h2]

/-- C11 (structural equality).  For all non-nil `Person` records `a` and `b`,
`a.Equal(b)` is true exactly when `Name`, `Id` and `Email` are equal, `Phone` is
`nil` in both or non-nil in both with equal `Number`, `Type` and byte-identical
unrecognized buffers, and `XXX_unrecognized` is byte-identical.  The size
caches of either level play no role.  Two records whose unknown bytes are
different sequences of well-formed unknown fields, in particular the same fields
in a different order, are not equal. -/
theorem C11_structural_equality (a b : Person) :
    (Person.Equal (some a) (some b) = true ↔
      a.Name = b.Name ∧ a.Id = b.Id ∧ a.Email = b.Email ∧
      ((a.Phone = none ∧ b.Phone = none) ∨
        ∃ p q, a.Phone = some p ∧ b.Phone = some q ∧ p.Number = q.Number ∧
          p.Type_ = q.Type_ ∧ p.XXX_unrecognized = q.XXX_unrecognized) ∧
      a.XXX_unrecognized = b.XXX_unrecognized) ∧
    (∀ s s2 t t2 : Int,
      Person.Equal (some (a.withSizecache s s2)) (some (b.withSizecache t t2))
        = Person.Equal (some a) (some b)) ∧
    (∀ us vs : List UField, (∀ u ∈ us, u.WF 1 (2 ^ 29 - 1)) → (∀ u ∈ vs, u.WF 1 (2 ^ 29 - 1)) →
      (UField.encodeAll us).length < 2 ^ 63 → us ≠ vs →
      a.XXX_unrecognized = UField.encodeAll us → b.XXX_unrecognized = UField.encodeAll vs →
      Person.Equal (some a) (some b) = false) := by
  refine ⟨Person_Equal_iff a b, Person_Equal_withSizecache a b, ?_⟩
  intro us vs hu hv hlen hne ha hb
  cases h : Person.Equal (some a) (some b) with
  | false => rfl
  | true =>
    exfalso
    have := ((Person_Equal_iff a b).mp h).2.2.2.2
    rw [ha, hb] at this
    exact hne (UField_encodeAll_inj us vs hu hv hlen this)

theorem C11_structural_equality_witness :
    Person.Equal (some c11First) (some c11Second) = false :=
  (C11_structural_equality c11First c11Second).2.2
    [⟨5, UPayload.varint [] 1⟩, ⟨6, UPayload.varint [] 2⟩]
    [⟨6, UPayload.varint [] 2⟩, ⟨5, UPayload.varint [] 1⟩]
    (by
      intro u hu
      simp only [List.mem_cons, List.mem_singleton, List.not_mem_nil, or_false] at hu
      rcases hu with rfl | rfl <;> simp [UField.WF, UPayload.WF])
    (by
      intro u hu
      simp only [List.mem_cons, List.mem_singleton, List.not_mem_nil, or_false] at hu
      rcases hu with rfl | rfl <;> simp [UField.WF, UPayload.WF])
    (by decide) (by decide) rfl rfl

/-! ### Claims C12 and C13: the zero record and the record of the test -/

/-- C12 (default omission).  The `Person` with empty strings, `Id` 0, no `Phone`
and no unrecognized bytes has `Size() = 0` and `Marshal` returns a zero-length
byte sequence, whatever its size cache holds; likewise the `PhoneNumber` with an
empty `Number`, `Type` 0 and no unrecognized bytes.  `Unmarshal` of a zero-length
buffer into such a record succeeds and yields a record `Equal` to the zero
record. -/
theorem C12_default_omission (c : Int) :
    (Person.mk [] 0 [] none [] c).Size = 0 ∧
    (Person.mk [] 0 [] none [] c).Marshal = .ok [] ∧
    (PhoneNumber.mk [] 0 [] c).Size = 0 ∧
    (PhoneNumber.mk [] 0 [] c).Marshal = .ok [] ∧
    (∃ r, Person.Unmarshal (Person.mk [] 0 [] none [] c) [] = .ok r ∧
      Person.Equal (some r) (some Person.zero) = true) ∧
    (∃ r, PhoneNumber.Unmarshal (PhoneNumber.mk [] 0 [] c) [] = .ok r ∧
      PhoneNumber.Equal (some r) (some PhoneNumber.zero) = true) :=
  ⟨rfl, rfl, rfl, rfl, ⟨_, rfl, rfl⟩, ⟨_, rfl, rfl⟩⟩

set_option maxRecDepth 100000 in

/-- C13 (concrete scenario).  The record of `TestOutputData` (name
"Jaap Joosten", id 32, email "jaap@joosten", phone "053218622189" of type
`HOME`) has `Size() = 48`; `Marshal` returns exactly 48 bytes, which begin with
`0A 0C` "Jaap Joosten" `10 20 1A 0C` "jaap@joosten" `22 10` and end with
`10 01`; and `Unmarshal` of those bytes into a zero `Person` yields a record
`Equal` to the original. -/
theorem C13_concrete_scenario :
    jaapJoosten.Size = 48 ∧ jaapJoosten.Marshal = .ok jaapJoostenBytes ∧
    jaapJoostenBytes.length = 48 ∧
    jaapJoostenBytes.take 32
      = [0x0A, 0x0C] ++ jaapJoosten.Name ++ [0x10, 0x20, 0x1A, 0x0C] ++ jaapJoosten.Email
          ++ [0x22, 0x10] ∧
    jaapJoostenBytes.drop 46 = [0x10, 0x01] ∧
    ∃ r, Person.Unmarshal Person.zero jaapJoostenBytes = .ok r ∧
      Person.Equal (some r) (some jaapJoosten) = true :=
  ⟨by decide, by decide, by decide, by decide, by decide, jaapJoosten, by decide, by decide⟩

/-! ### Claims C14 and C15: the enumeration field -/

theorem PhoneNumber_type_frame (d : List Nat) (m r : PhoneNumber)
    (h : PhoneNumber.Unmarshal m d = .ok r)
    (hno : ∀ o mo, (o, mo) ∈ PhoneNumber.trace m d → fieldNumAt d o ≠ some 2) :
    r.Type_ = m.Type_ := by
  unfold PhoneNumber.Unmarshal at h
  rw [PhoneNumber_unmarshalLoop_eq] at h
  unfold PhoneNumber.trace at hno
  refine loopWith_frame PhoneNumber.unmarshalStep d PhoneNumber.Type_
    (fun i => fieldNumAt d i = some 2) ?_ _ m 0 r h hno
  intro m1 i m2 j hs hsel
  obtain ⟨fn, hfn, hc⟩ := PhoneNumber_unmarshalStep_inv d m1 m2 i j hs
  rcases hc with ⟨_, s, _, e⟩ | ⟨f2, _⟩ | ⟨_, _, s, _, e⟩
  · rw [e]
  · exact absurd (show fieldNumAt d i = some 2 by rw [hfn, f2]) hsel
  · rw [e]

/-- C14 (enumeration boundary).  For every `PhoneNumber` with `Type = 0`
(`MOBILE`), `Marshal` emits no type field: the output is the `Number` field, if
`Number` is non-empty, followed by the unrecognized bytes, and `Size` counts
nothing for `Type`.  For every buffer that decodes successfully into a
zero-valued `PhoneNumber` and in which no field of the top level has field
number 2, the decoded `Type` is `MOBILE`. -/
theorem C14_enum_boundary (p : PhoneNumber) (hlen : p.Number.length < 2 ^ 64)
    (ht : p.Type_ = 0) :
    p.Marshal = .ok ((if p.Number ≠ [] then [0x0A] ++ varint p.Number.length ++ p.Number
        else []) ++ p.XXX_unrecognized) ∧
    p.Size = (if p.Number ≠ [] then 1 + p.Number.length + sovModels p.Number.length else 0)
      + p.XXX_unrecognized.length ∧
    ∀ (d : List Nat) (r : PhoneNumber), PhoneNumber.Unmarshal PhoneNumber.zero d = .ok r →
      (∀ o mo, (o, mo) ∈ PhoneNumber.trace PhoneNumber.zero d → fieldNumAt d o ≠ some 2) →
      r.Type_ = 0 := by
  refine ⟨?_, ?_, ?_⟩
  · rw [PhoneNumber_Marshal_eq]
    unfold PhoneNumber.wire lenDelim
    by_cases hn : p.Number = []
    · simp [hn, ht]
    · have : p.Number.length > 0 := List.length_pos.mpr hn
      simp [hn, ht, this, u64_natCast _ hlen]
  · unfold PhoneNumber.Size
    by_cases hn : p.Number = []
    · by_cases hu : p.XXX_unrecognized = [] <;> simp [hn, ht, hu]
    · have : p.Number.length > 0 := List.length_pos.mpr hn
      by_cases hu : p.XXX_unrecognized = [] <;> simp [hn, ht, hu, this, u64_natCast _ hlen]
  · intro d r h hno
    exact PhoneNumber_type_frame d PhoneNumber.zero r h hno

theorem C14_enum_boundary_witness :
    c14Phone.Marshal = .ok ((if c14Phone.Number ≠ [] then
        [0x0A] ++ varint c14Phone.Number.length ++ c14Phone.Number
        else []) ++ c14Phone.XXX_unrecognized) ∧
    c14Phone.Size = (if c14Phone.Number ≠ [] then
        1 + c14Phone.Number.length + sovModels c14Phone.Number.length else 0)
      + c14Phone.XXX_unrecognized.length ∧
    ∀ (d : List Nat) (r : PhoneNumber), PhoneNumber.Unmarshal PhoneNumber.zero d = .ok r →
      (∀ o mo, (o, mo) ∈ PhoneNumber.trace PhoneNumber.zero d → fieldNumAt d o ≠ some 2) →
      r.Type_ = 0 :=
  C14_enum_boundary c14Phone (by decide) rfl

/-- Decoding a single `Type` field into any record sets `Type` to the `int32`
truncation of the varint and leaves the rest alone. -/
theorem PhoneNumber_Unmarshal_type (p : PhoneNumber) (u : Nat) (hu : u < 2 ^ 64) :
    PhoneNumber.Unmarshal p (0x10 :: varint u) = .ok { p with Type_ := toInt32 u } := by
  have hl := varint_length_le u hu
  have h := PhoneNumber_Unmarshal_fields [NField.type u] p
    (by intro f hf; simp only [List.mem_singleton] at hf; subst hf; exact hu)
    (by simp [NField.encodeAll, NField.encode]; omega)
  simpa [NField.encodeAll, NField.encode, tagByte, PhoneNumber.applyField] using h

theorem toInt32_low32 (v : Int) (h1 : -2 ^ 31 ≤ v) (h2 : v < 2 ^ 31) :
    toInt32 (v % 2 ^ 32).toNat = v := by
  unfold toInt32
  have a := Int.emod_nonneg v (b := 2 ^ 32) (by norm_num)
  have b := Int.emod_lt_of_pos v (b := 2 ^ 32) (by norm_num)
  have e : (v % 2 ^ 32).toNat % 2 ^ 32 = (v % 2 ^ 32).toNat := Nat.mod_eq_of_lt (by omega)
  rw [e]
  by_cases h : 0 ≤ v
  · have : v % 2 ^ 32 = v := Int.emod_eq_of_lt h (by omega)
    rw [this]
    split <;> omega
  · have : v % 2 ^ 32 = 2 ^ 32 + v := by
      rw [← Int.add_mul_emod_self_left v (2 ^ 32) 1]
      rw [Int.emod_eq_of_lt (by omega) (by omega)]
      ring
    rw [this]
    split <;> omega

/-- C15 (open enum).  For every `int32` value `v`, decoding the buffer made of
the tag `0x10` and the varint of `v` into a zero `PhoneNumber` succeeds and gives
`Type = v`, with every other field, the unrecognized bytes included, left at
its zero value: `v` is neither rejected nor diverted to the unrecognized buffer.
This holds for the varint of the 64-bit sign extension of `v`, which is what
`Marshal` writes, and for the varint of its 32-bit pattern. -/
theorem C15_open_enum (v : Int) (h1 : -2 ^ 31 ≤ v) (h2 : v < 2 ^ 31) :
    PhoneNumber.Unmarshal PhoneNumber.zero (0x10 :: varint (signExtend64 v))
      = .ok { PhoneNumber.zero with Type_ := v } ∧
    PhoneNumber.Unmarshal PhoneNumber.zero (0x10 :: varint (v % 2 ^ 32).toNat)
      = .ok { PhoneNumber.zero with Type_ := v } := by
  have a := Int.emod_nonneg v (b := 2 ^ 32) (by norm_num)
  have b := Int.emod_lt_of_pos v (b := 2 ^ 32) (by norm_num)
  constructor
  · rw [← u64_eq_signExtend64 v h1 h2, PhoneNumber_Unmarshal_type _ _ (u64_lt v),
      toInt32_u64 v h1 h2]
  · rw [PhoneNumber_Unmarshal_type _ _ (by omega), toInt32_low32 v h1 h2]

theorem C15_open_enum_witness :
    PhoneNumber.Unmarshal PhoneNumber.zero (0x10 :: varint (signExtend64 (-5)))
      = .ok { PhoneNumber.zero with Type_ := -5 } ∧
    PhoneNumber.Unmarshal PhoneNumber.zero (0x10 :: varint ((-5 : Int) % 2 ^ 32).toNat)
      = .ok { PhoneNumber.zero with Type_ := -5 } :=
  C15_open_enum (-5) (by decide) (by decide)

/-! ### Claim C16: varints that do not end -/

theorem getAt_getD (d : List Nat) (i : Int) (h0 : 0 ≤ i) (h1 : i.toNat < d.length) :
    getAt d i = .ok (d.getD i.toNat 0) := by
  unfold getAt
  rw [if_pos h0, List.getElem?_eq_getElem h1, List.getD_eq_getElem _ _ h1]
  rfl

theorem getD_pos_lt (d : List Nat) (k : Nat) (h : 128 ≤ d.getD k 0) : k < d.length := by
  by_contra hc
  rw [List.getD_eq_default _ _ (by omega)] at h
  omega

theorem varintLoop_overflow (w : Nat) (d : List Nat) : ∀ (n fuel : Nat) (i : Int)
    (shift acc : Nat), 0 ≤ i → n < fuel → 64 ≤ shift + 7 * n →
    (∀ k, k < n → 128 ≤ d.getD (i.toNat + k) 0) →
    varintLoop w fuel d i shift acc = .error Fault.ErrIntOverflowModels := by
  intro n
  induction n with
  | zero =>
    intro fuel i shift acc _ hf hs _
    obtain ⟨f, rfl⟩ : ∃ f, fuel = f + 1 := ⟨fuel - 1, by omega⟩
    rw [varintLoop, if_pos (by omega)]
    rfl
  | succ n ih =>
    intro fuel i shift acc h0 hf hs hb
    obtain ⟨f, rfl⟩ : ∃ f, fuel = f + 1 := ⟨fuel - 1, by omega⟩
    rw [varintLoop]
    by_cases c : shift ≥ 64
    · rw [if_pos c]; rfl
    rw [if_neg c]
    have hb0 := hb 0 (by omega)
    have hlt := getD_pos_lt d _ hb0
    simp only [Nat.add_zero] at hb0 hlt
    rw [if_neg (by omega), getAt_getD d i h0 hlt]
    simp only [ok_bind]
    rw [if_neg (by omega)]
    refine ih f (i + 1) (shift + 7) _ (by omega) (by omega) (by omega) ?_
    intro k hk
    have := hb (k + 1) (by omega)
    have e : (i + 1).toNat + k = i.toNat + (k + 1) := by omega
    rw [e]; exact this

theorem varintLoop_eof (w : Nat) (d : List Nat) : ∀ (n fuel : Nat) (i : Int)
    (shift acc : Nat), 0 ≤ i → n < fuel → shift + 7 * n < 64 → i.toNat + n = d.length →
    (∀ k, k < n → 128 ≤ d.getD (i.toNat + k) 0) →
    varintLoop w fuel d i shift acc = .error Fault.ErrUnexpectedEOF := by
  intro n
  induction n with
  | zero =>
    intro fuel i shift acc _ hf hs hl _
    obtain ⟨f, rfl⟩ : ∃ f, fuel = f + 1 := ⟨fuel - 1, by omega⟩
    rw [varintLoop, if_neg (by omega), if_pos (by omega)]
    rfl
  | succ n ih =>
    intro fuel i shift acc h0 hf hs hl hb
    obtain ⟨f, rfl⟩ : ∃ f, fuel = f + 1 := ⟨fuel - 1, by omega⟩
    rw [varintLoop, if_neg (by omega)]
    have hb0 := hb 0 (by omega)
    simp only [Nat.add_zero] at hb0
    rw [if_neg (by omega), getAt_getD d i h0 (by omega)]
    simp only [ok_bind]
    rw [if_neg (by omega)]
    refine ih f (i + 1) (shift + 7) _ (by omega) (by omega) (by omega) (by omega) ?_
    intro k hk
    have := hb (k + 1) (by omega)
    have e : (i + 1).toNat + k = i.toNat + (k + 1) := by omega
    rw [e]; exact this

/-- A varint read at `p` fails with the overflow error when ten continuation
bytes are available there. -/
theorem varintLoop_overflow_at (w : Nat) (d : List Nat) (p : Int)
    (h : continuationBytes d p 10) :
    varintLoop w 11 d p 0 0 = .error Fault.ErrIntOverflowModels :=
  varintLoop_overflow w d 10 11 p 0 0 h.1 (by omega) (by omega) h.2

/-- A varint read at `p` fails with the end-of-input error when fewer than ten
bytes remain and all of them are continuation bytes. -/
theorem varintLoop_eof_at (w : Nat) (d : List Nat) (p : Int) (h1 : p ≤ d.length)
    (h2 : (d.length : Int) - p < 10) (h : continuationBytes d p ((d.length : Int) - p).toNat) :
    varintLoop w 11 d p 0 0 = .error Fault.ErrUnexpectedEOF :=
  varintLoop_eof w d ((d.length : Int) - p).toNat 11 p 0 0 h.1 (by omega) (by omega)
    (by have := h.1; omega) h.2

/-- A failing iteration makes the whole loop fail with the same error. -/
theorem loopWith_error {α : Type} (step : List Nat → α → Int → Res (α × Int)) (d : List Nat)
    (e : Fault) (fuel : Nat) : ∀ (m : α) (i : Int) (o : Int) (mo : α),
    (o, mo) ∈ traceWith step fuel d m i → step d mo o = .error e →
    loopWith step fuel d m i = .error e := by
  induction fuel with
  | zero => intro m i o mo h; simp [traceWith] at h
  | succ n ih =>
    intro m i o mo h he
    rw [traceWith] at h
    by_cases hlt : i < d.length
    · rw [if_pos hlt] at h
      rw [loopWith, if_pos hlt]
      rcases List.mem_cons.mp h with h | h
      · obtain ⟨eo, em⟩ := Prod.mk.inj h
        rw [← eo, ← em, he]
        rfl
      · cases hs : step d m i with
        | error e2 => rw [hs] at h; simp at h
        | ok r =>
          obtain ⟨m2, j⟩ := r
          rw [hs] at h
          exact ih m2 j o mo h he
    · rw [if_neg hlt] at h
      simp at h

theorem Person_Unmarshal_error (d : List Nat) (m0 mo : Person) (o : Int) (e : Fault)
    (ho : (o, mo) ∈ Person.trace m0 d) (he : Person.unmarshalStep d mo o = .error e) :
    Person.Unmarshal m0 d = .error e := by
  unfold Person.Unmarshal
  rw [Person_unmarshalLoop_eq]
  exact loopWith_error _ d e _ m0 0 o mo ho he

theorem PhoneNumber_Unmarshal_error (d : List Nat) (m0 mo : PhoneNumber) (o : Int) (e : Fault)
    (ho : (o, mo) ∈ PhoneNumber.trace m0 d) (he : PhoneNumber.unmarshalStep d mo o = .error e) :
    PhoneNumber.Unmarshal m0 d = .error e := by
  unfold PhoneNumber.Unmarshal
  rw [PhoneNumber_unmarshalLoop_eq]
  exact loopWith_error _ d e _ m0 0 o mo ho he

/-- The tag accessors all read the same varint. -/
theorem tag_inv (d : List Nat) (o : Int) (fn : Int) (wt : Nat) (h1 : fieldNumAt d o = some fn)
    (h2 : wireTypeAt d o = some wt) :
    ∃ wire i1, varintLoop 64 11 d o 0 0 = .ok (wire, i1) ∧ toInt32 (wire >>> 3) = fn ∧
      wire &&& 0x7 = wt ∧ tagEndAt d o = some i1 := by
  unfold fieldNumAt at h1
  unfold wireTypeAt at h2
  unfold tagEndAt
  cases hr : varintLoop 64 11 d o 0 0 with
  | error e => rw [hr] at h1; cases h1
  | ok r =>
    obtain ⟨wire, i1⟩ := r
    rw [hr] at h1 h2
    exact ⟨wire, i1, rfl, Option.some.inj h1, Option.some.inj h2, rfl⟩

theorem Person_step_varint_error (d : List Nat) (m : Person) (o p : Int) (e : Fault)
    (hs : varintSite Person.declared d o p)
    (he : ∀ w, varintLoop w 11 d p 0 0 = .error e) :
    Person.unmarshalStep d m o = .error e := by
  rcases hs with rfl | ⟨hp, ⟨fn, wt⟩, hmem, hf, hw⟩
  · simp [Person.unmarshalStep, he 64]
  · obtain ⟨wire, i1, hr, hfn, hwt, hend⟩ := tag_inv d o fn wt hf hw
    rw [hend] at hp
    have := Option.some.inj hp
    subst this
    simp only [Person.declared, List.mem_cons, Prod.mk.injEq, List.mem_singleton,
      List.not_mem_nil, or_false] at hmem
    rcases hmem with ⟨rfl, rfl⟩ | ⟨rfl, rfl⟩ | ⟨rfl, rfl⟩ | ⟨rfl, rfl⟩ <;>
      simp [Person.unmarshalStep, hr, hfn, hwt, he 64, he 32]

theorem PhoneNumber_step_varint_error (d : List Nat) (m : PhoneNumber) (o p : Int) (e : Fault)
    (hs : varintSite PhoneNumber.declared d o p)
    (he : ∀ w, varintLoop w 11 d p 0 0 = .error e) :
    PhoneNumber.unmarshalStep d m o = .error e := by
  rcases hs with rfl | ⟨hp, ⟨fn, wt⟩, hmem, hf, hw⟩
  · simp [PhoneNumber.unmarshalStep, he 64]
  · obtain ⟨wire, i1, hr, hfn, hwt, hend⟩ := tag_inv d o fn wt hf hw
    rw [hend] at hp
    have := Option.some.inj hp
    subst this
    simp only [PhoneNumber.declared, List.mem_cons, Prod.mk.injEq, List.mem_singleton,
      List.not_mem_nil, or_false] at hmem
    rcases hmem with ⟨rfl, rfl⟩ | ⟨rfl, rfl⟩ <;>
      simp [PhoneNumber.unmarshalStep, hr, hfn, hwt, he 64, he 32]

/-- A slice `dAtA[i2 : i2 + L]` that can be taken passes the three length checks
of a length-delimited field. -/
theorem slice_ok_checks (d : List Nat) (len : Nat) (i2 : Int) (s : List Nat)
    (h : slice d i2 (addInt i2 (toInt64 len)) = .ok s) :
    ¬ toInt64 len < 0 ∧ ¬ addInt i2 (toInt64 len) < 0 ∧
      ¬ addInt i2 (toInt64 len) > (d.length : Int) := by
  unfold slice at h
  by_cases c : 0 ≤ i2 ∧ i2 ≤ addInt i2 (toInt64 len) ∧ addInt i2 (toInt64 len) ≤ d.length
  · obtain ⟨c1, c2, c3⟩ := c
    refine ⟨?_, by omega, by omega⟩
    intro hneg
    have h1 := toInt64_ge len
    have h2 := addInt_lt i2 (toInt64 len)
    have := addInt_eq i2 (toInt64 len) (by omega) (by omega)
    omega
  · rw [if_neg c] at h
    cases h

/-- An error of the nested `PhoneNumber.Unmarshal` call is returned unchanged
by the iteration of `Person.Unmarshal` that makes the call. -/
theorem Person_step_phone_error (d : List Nat) (m : Person) (o : Int) (payload : List Nat)
    (e : Fault) (hf : fieldNumAt d o = some 4) (hw : wireTypeAt d o = some 2)
    (hb : bytesAt d o = some payload)
    (he : PhoneNumber.Unmarshal m.phoneOrZero payload = .error e) :
    Person.unmarshalStep d m o = .error e := by
  obtain ⟨wire, i1, hr, hfn, hwt, _⟩ := tag_inv d o 4 2 hf hw
  unfold bytesAt at hb
  rw [hr] at hb
  dsimp only at hb
  cases hl : varintLoop 64 11 d i1 0 0 with
  | error e2 => rw [hl] at hb; cases hb
  | ok r =>
    obtain ⟨len, i2⟩ := r
    rw [hl] at hb
    dsimp only at hb
    cases hs : slice d i2 (addInt i2 (toInt64 len)) with
    | error e2 => rw [hs] at hb; cases hb
    | ok s =>
      rw [hs] at hb
      have := Option.some.inj hb
      subst this
      obtain ⟨c1, c2, c3⟩ := slice_ok_checks d len i2 s hs
      unfold Person.phoneOrZero at he
      simp [Person.unmarshalStep, hr, hfn, hwt, hl, c1, c2, c3, hs, he]

/-- C16 (varint decode failures).  Let the decode loop of `Person.Unmarshal` or
`PhoneNumber.Unmarshal` reach the tag at offset `o`, and let `p` be an offset at
which that iteration reads a varint: the tag itself, or the length prefix or the
`Id`/`Type` value that follows the tag of a declared field.  If ten bytes are
available at `p` and all have the continuation bit set, decoding fails with
`ErrIntOverflowModels`; if fewer than ten bytes remain at `p` and all of them
have the continuation bit set, decoding fails with `io.ErrUnexpectedEOF`.  An
error of the nested `PhoneNumber.Unmarshal` call on a `Phone` payload, such as
one of these two, is the error of `Person.Unmarshal`. -/
theorem C16_varint_decode_failures (d : List Nat) (o p : Int) :
    (∀ m0 mo : Person, (o, mo) ∈ Person.trace m0 d → varintSite Person.declared d o p →
      (continuationBytes d p 10 →
        Person.Unmarshal m0 d = .error Fault.ErrIntOverflowModels) ∧
      (p ≤ d.length → (d.length : Int) - p < 10 →
        continuationBytes d p ((d.length : Int) - p).toNat →
        Person.Unmarshal m0 d = .error Fault.ErrUnexpectedEOF)) ∧
    (∀ m0 mo : PhoneNumber, (o, mo) ∈ PhoneNumber.trace m0 d →
      varintSite PhoneNumber.declared d o p →
      (continuationBytes d p 10 →
        PhoneNumber.Unmarshal m0 d = .error Fault.ErrIntOverflowModels) ∧
      (p ≤ d.length → (d.length : Int) - p < 10 →
        continuationBytes d p ((d.length : Int) - p).toNat →
        PhoneNumber.Unmarshal m0 d = .error Fault.ErrUnexpectedEOF)) ∧
    (∀ (m0 mo : Person) (payload : List Nat) (e : Fault), (o, mo) ∈ Person.trace m0 d →
      fieldNumAt d o = some 4 → wireTypeAt d o = some 2 → bytesAt d o = some payload →
      PhoneNumber.Unmarshal mo.phoneOrZero payload = .error e →
      Person.Unmarshal m0 d = .error e) := by
  refine ⟨?_, ?_, ?_⟩
  · intro m0 mo ho hs
    refine ⟨fun h => ?_, fun h1 h2 h => ?_⟩
    · exact Person_Unmarshal_error d m0 mo o _ ho
        (Person_step_varint_error d mo o p _ hs (fun w => varintLoop_overflow_at w d p h))
    · exact Person_Unmarshal_error d m0 mo o _ ho
        (Person_step_varint_error d mo o p _ hs (fun w => varintLoop_eof_at w d p h1 h2 h))
  · intro m0 mo ho hs
    refine ⟨fun h => ?_, fun h1 h2 h => ?_⟩
    · exact PhoneNumber_Unmarshal_error d m0 mo o _ ho
        (PhoneNumber_step_varint_error d mo o p _ hs (fun w => varintLoop_overflow_at w d p h))
    · exact PhoneNumber_Unmarshal_error d m0 mo o _ ho
        (PhoneNumber_step_varint_error d mo o p _ hs
          (fun w => varintLoop_eof_at w d p h1 h2 h))
  · intro m0 mo payload e ho hf hw hb he
    exact Person_Unmarshal_error d m0 mo o e ho (Person_step_phone_error d mo o payload e hf hw hb he)

theorem C16_varint_decode_failures_witness :
    Person.Unmarshal Person.zero c16Overflow = .error Fault.ErrIntOverflowModels ∧
    Person.Unmarshal Person.zero c16Truncated = .error Fault.ErrUnexpectedEOF :=
  ⟨((C16_varint_decode_failures c16Overflow 0 1).1 Person.zero Person.zero (by decide)
      (by decide)).1 (by decide),
    ((C16_varint_decode_failures c16Truncated 0 1).1 Person.zero Person.zero (by decide)
      (by decide)).2 (by decide) (by decide) (by decide)⟩

/-! ### Claim C17: the receiver after a failed call, and tags that fail validation -/

theorem varintLoop_state (w : Nat) (d : List Nat) (fuel : Nat) : ∀ (i : Int) (shift acc : Nat),
    varintLoop w fuel d i shift acc
      = match varintLoopState w fuel d i shift acc with
        | (v, Except.ok j) => Except.ok (v, j)
        | (_, Except.error e) => Except.error e := by
  induction fuel with
  | zero => intro i shift acc; rfl
  | succ n ih =>
    intro i shift acc
    rw [varintLoop, varintLoopState]
    by_cases c1 : shift ≥ 64
    · rw [if_pos c1, if_pos c1]; rfl
    rw [if_neg c1, if_neg c1]
    by_cases c2 : i ≥ (d.length : Int)
    · rw [if_pos c2, if_pos c2]; rfl
    rw [if_neg c2, if_neg c2]
    cases hg : getAt d i with
    | error e => rfl
    | ok b =>
      simp only [ok_bind]
      by_cases c3 : b < 0x80
      · rw [if_pos c3, if_pos c3]; rfl
      · rw [if_neg c3, if_neg c3]
        exact ih _ _ _

theorem stringField_state {σ : Type} (d : List Nat) (m : σ) (i1 : Int)
    (assign : σ → List Nat → σ) :
    forgetStep (stringFieldState d m i1 assign) = (do
      let (stringLen, iNdEx) ← varintLoop 64 11 d i1 0 0
      let intStringLen := toInt64 stringLen
      if intStringLen < 0 then throw Fault.ErrInvalidLengthModels
      else
        let postIndex := addInt iNdEx intStringLen
        if postIndex < 0 then throw Fault.ErrInvalidLengthModels
        else if postIndex > (d.length : Int) then throw Fault.ErrUnexpectedEOF
        else do
          let s ← slice d iNdEx postIndex
          pure (assign m s, postIndex)) := by
  unfold stringFieldState
  dsimp only
  cases hl : varintLoop 64 11 d i1 0 0 with
  | error e => rfl
  | ok r =>
    obtain ⟨len, i2⟩ := r
    simp only [ok_bind]
    by_cases c1 : toInt64 len < 0
    · simp only [if_pos c1]; rfl
    simp only [if_neg c1]
    by_cases c2 : addInt i2 (toInt64 len) < 0
    · simp only [if_pos c2]; rfl
    simp only [if_neg c2]
    by_cases c3 : addInt i2 (toInt64 len) > (d.length : Int)
    · simp only [if_pos c3]; rfl
    simp only [if_neg c3]
    cases hs : slice d i2 (addInt i2 (toInt64 len)) with
    | error e => rfl
    | ok s => rfl

theorem unknownField_state {σ : Type} (d : List Nat) (m : σ) (i : Int)
    (append : σ → List Nat → σ) :
    forgetStep (unknownFieldState d m i append) = (do
      let rest ← sliceFrom d i
      let skippy ← skipModels rest
      if skippy < 0 then throw Fault.ErrInvalidLengthModels
      else if addInt i skippy < 0 then throw Fault.ErrInvalidLengthModels
      else if addInt i skippy > (d.length : Int) then throw Fault.ErrUnexpectedEOF
      else do
        let s ← slice d i (addInt i skippy)
        pure (append m s, addInt i skippy)) := by
  unfold unknownFieldState
  dsimp only
  cases h1 : sliceFrom d i with
  | error e => rfl
  | ok rest =>
    simp only [ok_bind]
    cases h2 : skipModels rest with
    | error e => rfl
    | ok skippy =>
      simp only [ok_bind]
      by_cases c1 : skippy < 0
      · simp only [if_pos c1]; rfl
      simp only [if_neg c1]
      by_cases c2 : addInt i skippy < 0
      · simp only [if_pos c2]; rfl
      simp only [if_neg c2]
      by_cases c3 : addInt i skippy > (d.length : Int)
      · simp only [if_pos c3]; rfl
      simp only [if_neg c3]
      cases hs : slice d i (addInt i skippy) with
      | error e => rfl
      | ok s => rfl

theorem int32Field_state {σ : Type} (d : List Nat) (i1 : Int) (k : Nat → σ) :
    forgetStep (k (varintLoopState 32 11 d i1 0 0).1, (varintLoopState 32 11 d i1 0 0).2)
      = (do
        let (v, iNdEx) ← varintLoop 32 11 d i1 0 0
        pure (k v, iNdEx)) := by
  rw [varintLoop_state]
  rcases h : varintLoopState 32 11 d i1 0 0 with ⟨v, r⟩
  cases r with
  | error e => rfl
  | ok j => rfl

theorem PhoneNumber_unmarshalStep_state (d : List Nat) (m : PhoneNumber) (i : Int) :
    forgetStep (PhoneNumber.unmarshalStepState d m i) = PhoneNumber.unmarshalStep d m i := by
  unfold PhoneNumber.unmarshalStepState PhoneNumber.unmarshalStep
  dsimp only
  cases hr : varintLoop 64 11 d i 0 0 with
  | error e => rfl
  | ok r =>
    obtain ⟨wire, i1⟩ := r
    simp only [ok_bind]
    by_cases c1 : wire &&& 0x7 = 4
    · simp only [if_pos c1]; rfl
    simp only [if_neg c1]
    by_cases c2 : toInt32 (wire >>> 3) ≤ 0
    · simp only [if_pos c2]; rfl
    simp only [if_neg c2]
    by_cases f1 : toInt32 (wire >>> 3) = 1
    · simp only [if_pos f1]
      by_cases w : wire &&& 0x7 ≠ 2
      · simp only [if_pos w]; rfl
      simp only [if_neg w]
      exact stringField_state d m i1 _
    simp only [if_neg f1]
    by_cases f2 : toInt32 (wire >>> 3) = 2
    · simp only [if_pos f2]
      by_cases w : wire &&& 0x7 ≠ 0
      · simp only [if_pos w]; rfl
      simp only [if_neg w]
      exact int32Field_state d i1 (fun v => ({ m with Type_ := toInt32 v } : PhoneNumber))
    simp only [if_neg f2]
    exact unknownField_state d m i _

theorem PhoneNumber_unmarshalLoop_state (d : List Nat) (fuel : Nat) :
    ∀ (m : PhoneNumber) (i : Int),
    forgetCall (PhoneNumber.unmarshalLoopState fuel d m i)
      = PhoneNumber.unmarshalLoop fuel d m i := by
  induction fuel with
  | zero => intro m i; rfl
  | succ n ih =>
    intro m i
    rw [PhoneNumber.unmarshalLoopState, PhoneNumber.unmarshalLoop]
    by_cases hlt : i < (d.length : Int)
    · rw [if_pos hlt, if_pos hlt, ← PhoneNumber_unmarshalStep_state]
      rcases hq : PhoneNumber.unmarshalStepState d m i with ⟨m2, r⟩
      cases r with
      | error e => rfl
      | ok j => exact ih m2 j
    · rw [if_neg hlt, if_neg hlt]
      by_cases hgt : i > (d.length : Int)
      · rw [if_pos hgt, if_pos hgt]; rfl
      · rw [if_neg hgt, if_neg hgt]; rfl

/-- The two models of `PhoneNumber.Unmarshal` agree on the error and on the
receiver after a successful call. -/
theorem PhoneNumber_Unmarshal_state (m : PhoneNumber) (d : List Nat) :
    forgetCall (PhoneNumber.UnmarshalState m d) = PhoneNumber.Unmarshal m d :=
  PhoneNumber_unmarshalLoop_state d _ m 0

theorem phoneField_state (m : Person) (ph0 : PhoneNumber) (sub : List Nat) (post : Int) :
    forgetStep
      (match PhoneNumber.UnmarshalState ph0 sub with
        | (phone, some e) => (({ m with Phone := some phone } : Person), throw e)
        | (phone, none) => ({ m with Phone := some phone }, pure post))
      = (do
        let phone ← PhoneNumber.Unmarshal ph0 sub
        pure ({ m with Phone := some phone }, post)) := by
  rw [← PhoneNumber_Unmarshal_state]
  rcases hq : PhoneNumber.UnmarshalState ph0 sub with ⟨ph, err⟩
  cases err with
  | none => rfl
  | some e => rfl

theorem Person_unmarshalStep_state (d : List Nat) (m : Person) (i : Int) :
    forgetStep (Person.unmarshalStepState d m i) = Person.unmarshalStep d m i := by
  unfold Person.unmarshalStepState Person.unmarshalStep
  dsimp only
  cases hr : varintLoop 64 11 d i 0 0 with
  | error e => rfl
  | ok r =>
    obtain ⟨wire, i1⟩ := r
    simp only [ok_bind]
    by_cases c1 : wire &&& 0x7 = 4
    · simp only [if_pos c1]; rfl
    simp only [if_neg c1]
    by_cases c2 : toInt32 (wire >>> 3) ≤ 0
    · simp only [if_pos c2]; rfl
    simp only [if_neg c2]
    by_cases f1 : toInt32 (wire >>> 3) = 1
    · simp only [if_pos f1]
      by_cases w : wire &&& 0x7 ≠ 2
      · simp only [if_pos w]; rfl
      simp only [if_neg w]
      exact stringField_state d m i1 _
    simp only [if_neg f1]
    by_cases f2 : toInt32 (wire >>> 3) = 2
    · simp only [if_pos f2]
      by_cases w : wire &&& 0x7 ≠ 0
      · simp only [if_pos w]; rfl
      simp only [if_neg w]
      exact int32Field_state d i1 (fun v => ({ m with Id := toInt32 v } : Person))
    simp only [if_neg f2]
    by_cases f3 : toInt32 (wire >>> 3) = 3
    · simp only [if_pos f3]
      by_cases w : wire &&& 0x7 ≠ 2
      · simp only [if_pos w]; rfl
      simp only [if_neg w]
      exact stringField_state d m i1 _
    simp only [if_neg f3]
    by_cases f4 : toInt32 (wire >>> 3) = 4
    · simp only [if_pos f4]
      by_cases w : wire &&& 0x7 ≠ 2
      · simp only [if_pos w]; rfl
      simp only [if_neg w]
      cases hl : varintLoop 64 11 d i1 0 0 with
      | error e => rfl
      | ok r =>
        obtain ⟨len, i2⟩ := r
        simp only [ok_bind]
        by_cases g1 : toInt64 len < 0
        · simp only [if_pos g1]; rfl
        simp only [if_neg g1]
        by_cases g2 : addInt i2 (toInt64 len) < 0
        · simp only [if_pos g2]; rfl
        simp only [if_neg g2]
        by_cases g3 : addInt i2 (toInt64 len) > (d.length : Int)
        · simp only [if_pos g3]; rfl
        simp only [if_neg g3]
        cases hs : slice d i2 (addInt i2 (toInt64 len)) with
        | error e => rfl
        | ok sub =>
          simp only [ok_bind]
          exact phoneField_state m _ sub _
    simp only [if_neg f4]
    exact unknownField_state d m i _

theorem Person_unmarshalLoop_state (d : List Nat) (fuel : Nat) :
    ∀ (m : Person) (i : Int),
    forgetCall (Person.unmarshalLoopState fuel d m i) = Person.unmarshalLoop fuel d m i := by
  induction fuel with
  | zero => intro m i; rfl
  | succ n ih =>
    intro m i
    rw [Person.unmarshalLoopState, Person.unmarshalLoop]
    by_cases hlt : i < (d.length : Int)
    · rw [if_pos hlt, if_pos hlt, ← Person_unmarshalStep_state]
      rcases hq : Person.unmarshalStepState d m i with ⟨m2, r⟩
      cases r with
      | error e => rfl
      | ok j => exact ih m2 j
    · rw [if_neg hlt, if_neg hlt]
      by_cases hgt : i > (d.length : Int)
      · rw [if_pos hgt, if_pos hgt]; rfl
      · rw [if_neg hgt, if_neg hgt]; rfl

/-- The two models of `Person.Unmarshal` agree on the error and on the receiver
after a successful call. -/
theorem Person_Unmarshal_state (m : Person) (d : List Nat) :
    forgetCall (Person.UnmarshalState m d) = Person.Unmarshal m d :=
  Person_unmarshalLoop_state d _ m 0

theorem forgetStep_ok {σ : Type} (x : σ × Res Int) (m : σ) (j : Int)
    (h : forgetStep x = .ok (m, j)) : x = (m, .ok j) := by
  obtain ⟨m2, r⟩ := x
  cases r with
  | error e => cases h
  | ok j2 =>
    have := Except.ok.inj h
    rw [Prod.mk.injEq] at this
    simp only at this
    rw [this.1, this.2]

/-- When an iteration fails, the call returns its error and leaves the receiver
as that iteration left it. -/
theorem Person_loopState_error (d : List Nat) (e : Fault) (m1 : Person) (fuel : Nat) :
    ∀ (m : Person) (i : Int) (o : Int) (mo : Person),
    (o, mo) ∈ traceWith Person.unmarshalStep fuel d m i →
    Person.unmarshalStepState d mo o = (m1, .error e) →
    Person.unmarshalLoopState fuel d m i = (m1, some e) := by
  induction fuel with
  | zero => intro m i o mo h; simp [traceWith] at h
  | succ n ih =>
    intro m i o mo h he
    rw [traceWith] at h
    by_cases hlt : i < d.length
    · rw [if_pos hlt] at h
      rw [Person.unmarshalLoopState, if_pos hlt]
      rcases List.mem_cons.mp h with h | h
      · obtain ⟨eo, em⟩ := Prod.mk.inj h
        rw [← eo, ← em, he]
      · cases hs : Person.unmarshalStep d m i with
        | error e2 => rw [hs] at h; simp at h
        | ok r =>
          obtain ⟨m2, j⟩ := r
          rw [hs] at h
          rw [← Person_unmarshalStep_state] at hs
          rw [forgetStep_ok _ m2 j hs]
          exact ih m2 j o mo h he
    · rw [if_neg hlt] at h
      simp at h

theorem PhoneNumber_loopState_error (d : List Nat) (e : Fault) (m1 : PhoneNumber)
    (fuel : Nat) : ∀ (m : PhoneNumber) (i : Int) (o : Int) (mo : PhoneNumber),
    (o, mo) ∈ traceWith PhoneNumber.unmarshalStep fuel d m i →
    PhoneNumber.unmarshalStepState d mo o = (m1, .error e) →
    PhoneNumber.unmarshalLoopState fuel d m i = (m1, some e) := by
  induction fuel with
  | zero => intro m i o mo h; simp [traceWith] at h
  | succ n ih =>
    intro m i o mo h he
    rw [traceWith] at h
    by_cases hlt : i < d.length
    · rw [if_pos hlt] at h
      rw [PhoneNumber.unmarshalLoopState, if_pos hlt]
      rcases List.mem_cons.mp h with h | h
      · obtain ⟨eo, em⟩ := Prod.mk.inj h
        rw [← eo, ← em, he]
      · cases hs : PhoneNumber.unmarshalStep d m i with
        | error e2 => rw [hs] at h; simp at h
        | ok r =>
          obtain ⟨m2, j⟩ := r
          rw [hs] at h
          rw [← PhoneNumber_unmarshalStep_state] at hs
          rw [forgetStep_ok _ m2 j hs]
          exact ih m2 j o mo h he
    · rw [if_neg hlt] at h
      simp at h

theorem forgetCall_error {σ : Type} (x : σ × Option Fault) (m : σ) (e : Fault)
    (h : x = (m, some e)) : forgetCall x = .error e := by
  rw [h]; rfl

/-- An iteration whose tag fails validation returns the error with the receiver
untouched. -/
theorem Person_stepState_tag (d : List Nat) (m : Person) (o : Int) (fn : Int) (wt : Nat)
    (hf : fieldNumAt d o = some fn) (hw : wireTypeAt d o = some wt) :
    (wt = 4 → Person.unmarshalStepState d m o = (m, .error Fault.errEndGroup)) ∧
    (wt ≠ 4 → fn ≤ 0 → Person.unmarshalStepState d m o = (m, .error Fault.errIllegalTag)) := by
  obtain ⟨wire, i1, hr, hfn, hwt, _⟩ := tag_inv d o fn wt hf hw
  refine ⟨fun c => ?_, fun c1 c2 => ?_⟩
  · simp [Person.unmarshalStepState, hr, hwt, c]
  · simp [Person.unmarshalStepState, hr, hwt, hfn, c1, c2]

theorem PhoneNumber_stepState_tag (d : List Nat) (m : PhoneNumber) (o : Int) (fn : Int)
    (wt : Nat) (hf : fieldNumAt d o = some fn) (hw : wireTypeAt d o = some wt) :
    (wt = 4 → PhoneNumber.unmarshalStepState d m o = (m, .error Fault.errEndGroup)) ∧
    (wt ≠ 4 → fn ≤ 0 →
      PhoneNumber.unmarshalStepState d m o = (m, .error Fault.errIllegalTag)) := by
  obtain ⟨wire, i1, hr, hfn, hwt, _⟩ := tag_inv d o fn wt hf hw
  refine ⟨fun c => ?_, fun c1 c2 => ?_⟩
  · simp [PhoneNumber.unmarshalStepState, hr, hwt, c]
  · simp [PhoneNumber.unmarshalStepState, hr, hwt, hfn, c1, c2]

/-- The tag byte `0x04` has field number 0 and wire type 4; decoding fails with
the end-group error, not with the illegal-tag error. -/
theorem C17_counterexample :
    fieldNumAt c17Tag 0 = some 0 ∧ wireTypeAt c17Tag 0 = some 4 ∧
    Person.Unmarshal Person.zero c17Tag = .error Fault.errEndGroup ∧
    Person.Unmarshal Person.zero c17Tag ≠ .error Fault.errIllegalTag ∧
    PhoneNumber.Unmarshal PhoneNumber.zero c17Tag = .error Fault.errEndGroup := by
  decide

/-- C17 (tag validation), amended.  Let the decode loop of `Person.Unmarshal` or
`PhoneNumber.Unmarshal` reach a tag with field number `fn` (`int32` of
`tag >> 3`) and wire type `wt` (`tag & 7`).  If `wt = 4`, decoding fails with the
end-group error, whatever the field number.  If `wt` is not 4 and `fn <= 0`,
decoding fails with the illegal-tag error.  In both cases the call leaves the
receiver exactly as it was before that tag, so nothing is appended to the
unrecognized-field buffer for it. -/
theorem C17_tag_validation (d : List Nat) (o : Int) (fn : Int) (wt : Nat)
    (hf : fieldNumAt d o = some fn) (hw : wireTypeAt d o = some wt) :
    (∀ m0 mo : Person, (o, mo) ∈ Person.trace m0 d →
      (wt = 4 → Person.Unmarshal m0 d = .error Fault.errEndGroup ∧
        Person.UnmarshalState m0 d = (mo, some Fault.errEndGroup)) ∧
      (wt ≠ 4 → fn ≤ 0 → Person.Unmarshal m0 d = .error Fault.errIllegalTag ∧
        Person.UnmarshalState m0 d = (mo, some Fault.errIllegalTag))) ∧
    (∀ m0 mo : PhoneNumber, (o, mo) ∈ PhoneNumber.trace m0 d →
      (wt = 4 → PhoneNumber.Unmarshal m0 d = .error Fault.errEndGroup ∧
        PhoneNumber.UnmarshalState m0 d = (mo, some Fault.errEndGroup)) ∧
      (wt ≠ 4 → fn ≤ 0 → PhoneNumber.Unmarshal m0 d = .error Fault.errIllegalTag ∧
        PhoneNumber.UnmarshalState m0 d = (mo, some Fault.errIllegalTag))) := by
  refine ⟨?_, ?_⟩
  · intro m0 mo ho
    obtain ⟨t1, t2⟩ := Person_stepState_tag d mo o fn wt hf hw
    refine ⟨fun c => ?_, fun c1 c2 => ?_⟩
    · have h := Person_loopState_error d _ mo _ m0 0 o mo ho (t1 c)
      exact ⟨by rw [← Person_Unmarshal_state]; exact forgetCall_error _ _ _ h, h⟩
    · have h := Person_loopState_error d _ mo _ m0 0 o mo ho (t2 c1 c2)
      exact ⟨by rw [← Person_Unmarshal_state]; exact forgetCall_error _ _ _ h, h⟩
  · intro m0 mo ho
    obtain ⟨t1, t2⟩ := PhoneNumber_stepState_tag d mo o fn wt hf hw
    refine ⟨fun c => ?_, fun c1 c2 => ?_⟩
    · have h := PhoneNumber_loopState_error d _ mo _ m0 0 o mo ho (t1 c)
      exact ⟨by rw [← PhoneNumber_Unmarshal_state]; exact forgetCall_error _ _ _ h, h⟩
    · have h := PhoneNumber_loopState_error d _ mo _ m0 0 o mo ho (t2 c1 c2)
      exact ⟨by rw [← PhoneNumber_Unmarshal_state]; exact forgetCall_error _ _ _ h, h⟩

theorem C17_tag_validation_witness :
    (Person.Unmarshal Person.zero c17EndGroup = .error Fault.errEndGroup ∧
      Person.UnmarshalState Person.zero c17EndGroup
        = ({ Person.zero with Name := [65] }, some Fault.errEndGroup)) ∧
    (Person.Unmarshal Person.zero c17Illegal = .error Fault.errIllegalTag ∧
      Person.UnmarshalState Person.zero c17Illegal
        = ({ Person.zero with XXX_unrecognized := [0x28, 1] }, some Fault.errIllegalTag)) :=
  ⟨((C17_tag_validation c17EndGroup 3 0 4 (by decide) (by decide)).1 Person.zero
      { Person.zero with Name := [65] } (by decide)).1 rfl,
    ((C17_tag_validation c17Illegal 2 0 0 (by decide) (by decide)).1 Person.zero
      { Person.zero with XXX_unrecognized := [0x28, 1] } (by decide)).2
      (by decide) (by decide)⟩

/-! ### Claim C18: length prefixes that do not fit -/

/-- The accessors of a length-delimited field read the tag and then the
length prefix. -/
theorem length_inv (d : List Nat) (o : Int) (fn : Int) (wt : Nat) (L i2 : Int)
    (h1 : fieldNumAt d o = some fn) (h2 : wireTypeAt d o = some wt)
    (h3 : lengthPrefixAt d o = some (L, i2)) :
    ∃ wire i1 len, varintLoop 64 11 d o 0 0 = .ok (wire, i1) ∧ toInt32 (wire >>> 3) = fn ∧
      wire &&& 0x7 = wt ∧ varintLoop 64 11 d i1 0 0 = .ok (len, i2) ∧ toInt64 len = L := by
  obtain ⟨wire, i1, hr, hfn, hwt, _⟩ := tag_inv d o fn wt h1 h2
  unfold lengthPrefixAt at h3
  rw [hr] at h3
  dsimp only at h3
  cases hl : varintLoop 64 11 d i1 0 0 with
  | error e => rw [hl] at h3; cases h3
  | ok r =>
    obtain ⟨len, j⟩ := r
    rw [hl] at h3
    have h4 := Option.some.inj h3
    rw [Prod.mk.injEq] at h4
    obtain ⟨h5, h6⟩ := h4
    subst h6
    exact ⟨wire, i1, len, hr, hfn, hwt, hl, h5⟩

/-- How an iteration of `Person.Unmarshal` at a declared length-delimited field
fails on its length prefix. -/
theorem Person_step_length_error (d : List Nat) (m : Person) (o : Int) (fn L i2 : Int)
    (hf : fieldNumAt d o = some fn) (hw : wireTypeAt d o = some 2)
    (hl : lengthPrefixAt d o = some (L, i2)) (hfn : fn = 1 ∨ fn = 3 ∨ fn = 4) :
    (L < 0 → Person.unmarshalStep d m o = .error Fault.ErrInvalidLengthModels) ∧
    (0 ≤ L → addInt i2 L < 0 →
      Person.unmarshalStep d m o = .error Fault.ErrInvalidLengthModels) ∧
    (0 ≤ L → 0 ≤ addInt i2 L → (d.length : Int) < addInt i2 L →
      Person.unmarshalStep d m o = .error Fault.ErrUnexpectedEOF) := by
  obtain ⟨wire, i1, len, hr, h1, h2, h3, h4⟩ := length_inv d o fn 2 L i2 hf hw hl
  subst h4
  refine ⟨fun c => ?_, fun c1 c2 => ?_, fun c1 c2 c3 => ?_⟩
  · rcases hfn with rfl | rfl | rfl <;> simp [Person.unmarshalStep, hr, h1, h2, h3, c]
  · have n1 : ¬ toInt64 len < 0 := by omega
    rcases hfn with rfl | rfl | rfl <;> simp [Person.unmarshalStep, hr, h1, h2, h3, n1, c2]
  · have n1 : ¬ toInt64 len < 0 := by omega
    have n2 : ¬ addInt i2 (toInt64 len) < 0 := by omega
    rcases hfn with rfl | rfl | rfl <;>
      simp [Person.unmarshalStep, hr, h1, h2, h3, n1, n2, c3]

theorem PhoneNumber_step_length_error (d : List Nat) (m : PhoneNumber) (o : Int) (L i2 : Int)
    (hf : fieldNumAt d o = some 1) (hw : wireTypeAt d o = some 2)
    (hl : lengthPrefixAt d o = some (L, i2)) :
    (L < 0 → PhoneNumber.unmarshalStep d m o = .error Fault.ErrInvalidLengthModels) ∧
    (0 ≤ L → addInt i2 L < 0 →
      PhoneNumber.unmarshalStep d m o = .error Fault.ErrInvalidLengthModels) ∧
    (0 ≤ L → 0 ≤ addInt i2 L → (d.length : Int) < addInt i2 L →
      PhoneNumber.unmarshalStep d m o = .error Fault.ErrUnexpectedEOF) := by
  obtain ⟨wire, i1, len, hr, h1, h2, h3, h4⟩ := length_inv d o 1 2 L i2 hf hw hl
  subst h4
  refine ⟨fun c => ?_, fun c1 c2 => ?_, fun c1 c2 c3 => ?_⟩
  · simp [PhoneNumber.unmarshalStep, hr, h1, h2, h3, c]
  · have n1 : ¬ toInt64 len < 0 := by omega
    simp [PhoneNumber.unmarshalStep, hr, h1, h2, h3, n1, c2]
  · have n1 : ¬ toInt64 len < 0 := by omega
    have n2 : ¬ addInt i2 (toInt64 len) < 0 := by omega
    simp [PhoneNumber.unmarshalStep, hr, h1, h2, h3, n1, n2, c3]

/-- The offset after a length prefix lies inside the buffer. -/
theorem lengthPrefixAt_bounds (d : List Nat) (o : Int) (L i2 : Int) (h0 : 0 ≤ o)
    (hl : lengthPrefixAt d o = some (L, i2)) :
    0 ≤ i2 ∧ i2 ≤ d.length ∧ -2 ^ 63 ≤ L ∧ L < 2 ^ 63 := by
  unfold lengthPrefixAt at hl
  cases hr : varintLoop 64 11 d o 0 0 with
  | error e => rw [hr] at hl; cases hl
  | ok r =>
    obtain ⟨wire, i1⟩ := r
    rw [hr] at hl
    dsimp only at hl
    have s1 := varintLoop_safe 64 d 11 o 0 0 h0 (by omega) (by omega)
    rw [hr] at s1
    cases hq : varintLoop 64 11 d i1 0 0 with
    | error e => rw [hq] at hl; cases hl
    | ok r =>
      obtain ⟨len, j⟩ := r
      rw [hq] at hl
      have s2 := varintLoop_safe 64 d 11 i1 0 0 (by have := s1.1; simp at this; omega)
        (by omega) (by omega)
      rw [hq] at s2
      have h4 := Option.some.inj hl
      rw [Prod.mk.injEq] at h4
      obtain ⟨h5, h6⟩ := h4
      subst h5 h6
      have a := s1.1
      have b := s2.1
      have c := s2.2
      simp only at a b c
      exact ⟨by omega, c, toInt64_ge _, toInt64_lt _⟩

theorem Person_trace_nonneg (d : List Nat) (hd : d.length < 2 ^ 63) (m0 mo : Person) (o : Int)
    (ho : (o, mo) ∈ Person.trace m0 d) : 0 ≤ o :=
  traceWith_ge Person.unmarshalStep d (fun m i m2 j => Person_step_progress d hd m i m2 j)
    _ m0 0 (le_refl _) o mo ho

theorem PhoneNumber_trace_nonneg (d : List Nat) (hd : d.length < 2 ^ 63) (m0 mo : PhoneNumber)
    (o : Int) (ho : (o, mo) ∈ PhoneNumber.trace m0 d) : 0 ≤ o :=
  traceWith_ge PhoneNumber.unmarshalStep d
    (fun m i m2 j => PhoneNumber_step_progress d hd m i m2 j) _ m0 0 (le_refl _) o mo ho

/-- The three outcomes of the length checks, in terms of the exact sum
`i2 + L`. -/
theorem length_checks (d : List Nat) (hd : d.length < 2 ^ 63) (L i2 : Int) (h0 : 0 ≤ i2)
    (h1 : i2 ≤ d.length) (h2 : 0 ≤ L) (h3 : L < 2 ^ 63) :
    (2 ^ 63 ≤ i2 + L → addInt i2 L < 0) ∧
    (i2 + L < 2 ^ 63 → addInt i2 L = i2 + L) := by
  refine ⟨fun h => ?_, fun h => addInt_eq i2 L (by omega) h⟩
  rw [addInt_wrap i2 L h (by omega)]
  omega

/-- A `Name` field that announces five bytes in a buffer holding one fails with
`io.ErrUnexpectedEOF`, not with `ErrInvalidLengthModels`. -/
theorem C18_counterexample :
    fieldNumAt c18Short 0 = some 1 ∧ wireTypeAt c18Short 0 = some 2 ∧
    lengthPrefixAt c18Short 0 = some (5, 2) ∧
    Person.Unmarshal Person.zero c18Short = .error Fault.ErrUnexpectedEOF ∧
    Person.Unmarshal Person.zero c18Short ≠ .error Fault.ErrInvalidLengthModels := by
  decide

/-- C18 (invalid length), amended.  Let the decode loop reach the tag of a
declared length-delimited field (`Person.Name`, `Person.Email`, `Person.Phone`,
`PhoneNumber.Number`) with its wire type 2, and let `L` be the decoded length
prefix as a signed integer and `i2` the offset after the prefix.  If `L` is
negative, or if the end position `i2 + L` does not fit in a signed 64-bit
integer, `Unmarshal` fails with `ErrInvalidLengthModels`.  If `L` is not negative
and the payload would extend past the end of the buffer, with `i2 + L` fitting
in a signed 64-bit integer, `Unmarshal` fails with `io.ErrUnexpectedEOF`. -/
theorem C18_invalid_length (d : List Nat) (hd : d.length < 2 ^ 63) (o L i2 : Int)
    (hw : wireTypeAt d o = some 2) (hl : lengthPrefixAt d o = some (L, i2)) :
    (∀ m0 mo : Person, (o, mo) ∈ Person.trace m0 d →
      (fieldNumAt d o = some 1 ∨ fieldNumAt d o = some 3 ∨ fieldNumAt d o = some 4) →
      (L < 0 → Person.Unmarshal m0 d = .error Fault.ErrInvalidLengthModels) ∧
      (0 ≤ L → 2 ^ 63 ≤ i2 + L →
        Person.Unmarshal m0 d = .error Fault.ErrInvalidLengthModels) ∧
      (0 ≤ L → (d.length : Int) < i2 + L → i2 + L < 2 ^ 63 →
        Person.Unmarshal m0 d = .error Fault.ErrUnexpectedEOF)) ∧
    (∀ m0 mo : PhoneNumber, (o, mo) ∈ PhoneNumber.trace m0 d → fieldNumAt d o = some 1 →
      (L < 0 → PhoneNumber.Unmarshal m0 d = .error Fault.ErrInvalidLengthModels) ∧
      (0 ≤ L → 2 ^ 63 ≤ i2 + L →
        PhoneNumber.Unmarshal m0 d = .error Fault.ErrInvalidLengthModels) ∧
      (0 ≤ L → (d.length : Int) < i2 + L → i2 + L < 2 ^ 63 →
        PhoneNumber.Unmarshal m0 d = .error Fault.ErrUnexpectedEOF)) := by
  refine ⟨?_, ?_⟩
  · intro m0 mo ho hf
    have h0 := Person_trace_nonneg d hd m0 mo o ho
    obtain ⟨b1, b2, b3, b4⟩ := lengthPrefixAt_bounds d o L i2 h0 hl
    obtain ⟨fn, hfn, hc⟩ : ∃ fn, fieldNumAt d o = some fn ∧ (fn = 1 ∨ fn = 3 ∨ fn = 4) := by
      rcases hf with h | h | h
      · exact ⟨1, h, Or.inl rfl⟩
      · exact ⟨3, h, Or.inr (Or.inl rfl)⟩
      · exact ⟨4, h, Or.inr (Or.inr rfl)⟩
    obtain ⟨e1, e2, e3⟩ := Person_step_length_error d mo o fn L i2 hfn hw hl hc
    refine ⟨fun c => ?_, fun c1 c2 => ?_, fun c1 c2 c3 => ?_⟩
    · exact Person_Unmarshal_error d m0 mo o _ ho (e1 c)
    · exact Person_Unmarshal_error d m0 mo o _ ho
        (e2 c1 ((length_checks d hd L i2 b1 b2 c1 b4).1 c2))
    · have := (length_checks d hd L i2 b1 b2 c1 b4).2 c3
      exact Person_Unmarshal_error d m0 mo o _ ho (e3 c1 (by omega) (by omega))
  · intro m0 mo ho hf
    have h0 := PhoneNumber_trace_nonneg d hd m0 mo o ho
    obtain ⟨b1, b2, b3, b4⟩ := lengthPrefixAt_bounds d o L i2 h0 hl
    obtain ⟨e1, e2, e3⟩ := PhoneNumber_step_length_error d mo o L i2 hf hw hl
    refine ⟨fun c => ?_, fun c1 c2 => ?_, fun c1 c2 c3 => ?_⟩
    · exact PhoneNumber_Unmarshal_error d m0 mo o _ ho (e1 c)
    · exact PhoneNumber_Unmarshal_error d m0 mo o _ ho
        (e2 c1 ((length_checks d hd L i2 b1 b2 c1 b4).1 c2))
    · have := (length_checks d hd L i2 b1 b2 c1 b4).2 c3
      exact PhoneNumber_Unmarshal_error d m0 mo o _ ho (e3 c1 (by omega) (by omega))

theorem C18_invalid_length_witness :
    Person.Unmarshal Person.zero c18Negative = .error Fault.ErrInvalidLengthModels ∧
    Person.Unmarshal Person.zero c18Wrap = .error Fault.ErrInvalidLengthModels ∧
    Person.Unmarshal Person.zero c18Short = .error Fault.ErrUnexpectedEOF :=
  ⟨((C18_invalid_length c18Negative (by decide) 0 (-1) 11 (by decide) (by decide)).1
      Person.zero Person.zero (by decide) (Or.inl (by decide))).1 (by decide),
    ((C18_invalid_length c18Wrap (by decide) 0 (2 ^ 63 - 1) 10 (by decide) (by decide)).1
      Person.zero Person.zero (by decide) (Or.inl (by decide))).2.1 (by decide) (by decide),
    ((C18_invalid_length c18Short (by decide) 0 5 2 (by decide) (by decide)).1
      Person.zero Person.zero (by decide) (Or.inl (by decide))).2.2
      (by decide) (by decide) (by decide)⟩

/-! ### Claims C19 and C20: the bytes of a varint and their number -/

theorem varintValue_cons (b : Nat) (bs : List Nat) :
    varintValue (b :: bs) = (b &&& 0x7F) + 128 * varintValue bs := by
  unfold varintValue
  rw [List.length_cons, Finset.sum_range_succ', Finset.mul_sum]
  simp only [List.getD_cons_succ, List.getD_cons_zero, Nat.mul_zero, pow_zero, Nat.mul_one]
  rw [Nat.add_comm]
  congr 1
  apply Finset.sum_congr rfl
  intro i _
  rw [Nat.mul_add, pow_add]
  ring

theorem varintFuel_value (fuel : Nat) : ∀ v : Nat, v < 128 ^ (fuel + 1) →
    varintValue (varintFuel fuel v) = v := by
  induction fuel with
  | zero =>
    intro v hv
    rw [varintFuel, varintValue_cons, and_0x7f]
    simp [varintValue] at hv ⊢
    omega
  | succ n ih =>
    intro v hv
    rw [varintFuel]
    by_cases h : v < 128
    · rw [if_pos h, varintValue_cons, and_0x7f]
      simp [varintValue]
      omega
    · rw [if_neg h, varintValue_cons, and_0x7f, ih (v / 128) (by rw [pow_succ] at hv; omega)]
      omega

theorem varintFuel_init (fuel : Nat) : ∀ (v i : Nat), i + 1 < (varintFuel fuel v).length →
    128 ≤ (varintFuel fuel v).getD i 0 ∧ (varintFuel fuel v).getD i 0 < 256 := by
  induction fuel with
  | zero => intro v i h; simp [varintFuel] at h
  | succ n ih =>
    intro v i h
    rw [varintFuel] at h ⊢
    by_cases c : v < 128
    · rw [if_pos c] at h; simp at h
    · rw [if_neg c] at h ⊢
      cases i with
      | zero => simp; omega
      | succ j =>
        simp only [List.length_cons] at h
        simpa using ih (v / 128) j (by omega)

theorem varintFuel_last (fuel : Nat) : ∀ v : Nat, v < 128 ^ (fuel + 1) →
    (varintFuel fuel v).getD ((varintFuel fuel v).length - 1) 0 < 128 := by
  induction fuel with
  | zero => intro v hv; simpa [varintFuel] using hv
  | succ n ih =>
    intro v hv
    rw [varintFuel]
    by_cases c : v < 128
    · rw [if_pos c]; simpa using c
    · rw [if_neg c]
      have hp := varintFuel_length_pos n (v / 128)
      have e : ((v % 128 + 128) :: varintFuel n (v / 128)).length - 1
          = ((varintFuel n (v / 128)).length - 1) + 1 := by simp; omega
      rw [e, List.getD_cons_succ]
      exact ih (v / 128) (by rw [pow_succ] at hv; omega)

theorem varintFuel_shiftCount (fuel : Nat) : ∀ v : Nat,
    (varintFuel fuel v).length = 1 + shiftCountFuel fuel v := by
  induction fuel with
  | zero => intro v; simp [varintFuel, shiftCountFuel]
  | succ n ih =>
    intro v
    rw [varintFuel, shiftCountFuel]
    by_cases c : v < 128
    · have c2 : ¬ v ≥ 128 := by omega
      rw [if_pos c, if_neg c2]; simp
    · have c2 : v ≥ 128 := by omega
      rw [if_neg c, if_pos c2, List.length_cons, shr7, ih]
      omega

theorem Len64_eq_size (x : Nat) (hx : x < 2 ^ 64) : Len64 x = Nat.size x := by
  have h1 := fun k => lenBits_le 64 x k hx
  have h2 : ∀ k, Nat.size x ≤ k ↔ x < 2 ^ k := fun k => Nat.size_le
  unfold Len64
  have a := (h1 (Nat.size x)).mpr ((h2 _).mp le_rfl)
  have b := (h2 (lenBits 64 x)).mpr ((h1 _).mp le_rfl)
  omega

/-- C19 (varint byte format).  For every unsigned 64-bit `v` and every offset
with `sovModels v <= offset <= len(dAtA)`, `encodeVarintModels` writes
`k = sovModels v` bytes `b_0 .. b_(k-1)` into the positions
`[offset - k, offset)` and leaves every other position as it was, and returns
`offset - k`; every byte but the last has its high bit set, the last byte has
its high bit clear, and `v` is the sum of `(b_i & 0x7F) * 2^(7 i)`. -/
theorem C19_varint_byte_format (buf : List Nat) (offset v : Nat) (hv : v < 2 ^ 64)
    (hk : sovModels v ≤ offset) (ho : offset ≤ buf.length) :
    ∃ bs : List Nat, bs.length = sovModels v ∧
      encodeVarintModels buf offset v
        = .ok (buf.take (offset - sovModels v) ++ bs ++ buf.drop offset,
            (offset : Int) - sovModels v) ∧
      (∀ i, i + 1 < bs.length → 128 ≤ bs.getD i 0 ∧ bs.getD i 0 < 256) ∧
      bs.getD (bs.length - 1) 0 < 128 ∧
      v = ∑ i in Finset.range bs.length, (bs.getD i 0 &&& 0x7F) * 2 ^ (7 * i) := by
  have hv9 : v < 128 ^ (9 + 1) := lt_of_lt_of_le hv (by norm_num)
  refine ⟨varint v, (sovModels_eq_length v hv).symm, ?_, varintFuel_init 9 v,
    varintFuel_last 9 v hv9, (varintFuel_value 9 v hv9).symm⟩
  have h := encodeVarintModels_spec (buf.take offset) (buf.drop offset) v offset
    (by simp; omega) hv (by simp; omega)
  rw [List.take_append_drop] at h
  rw [h]
  simp only [List.length_take, List.take_take, List.append_assoc]
  have e1 : min offset buf.length = offset := by omega
  have e2 : min (offset - sovModels v) offset = offset - sovModels v := by omega
  rw [e1, e2]

theorem C19_varint_byte_format_witness :
    ∃ bs : List Nat, bs.length = sovModels 300 ∧
      encodeVarintModels [7, 7, 7, 7, 7] (4 : Nat) 300
        = .ok ([7, 7, 7, 7, 7].take (4 - sovModels 300) ++ bs ++ [7, 7, 7, 7, 7].drop 4,
            ((4 : Nat) : Int) - sovModels 300) ∧
      (∀ i, i + 1 < bs.length → 128 ≤ bs.getD i 0 ∧ bs.getD i 0 < 256) ∧
      bs.getD (bs.length - 1) 0 < 128 ∧
      300 = ∑ i in Finset.range bs.length, (bs.getD i 0 &&& 0x7F) * 2 ^ (7 * i) :=
  C19_varint_byte_format [7, 7, 7, 7, 7] 4 300 (by decide) (by decide) (by decide)

/-- C20 (varint length helper).  For every unsigned 64-bit `v`, `sovModels v`
is `(bitlen(v | 1) + 6) / 7`, with `bitlen` the bit length; it is one more than
the number of times `v` can be shifted right by seven bits while it is still at
least 128, which is the number of bytes the loop of `encodeVarintModels` writes;
`sovModels 0 = 1`; `sovModels v = 1` exactly when `v < 128`; and
`1 <= sovModels v <= 10`. -/
theorem C20_varint_length_helper (v : Nat) (hv : v < 2 ^ 64) :
    sovModels v = (Nat.size (v ||| 1) + 6) / 7 ∧
    sovModels v = 1 + shiftCount v ∧
    (∀ X W : List Nat, sovModels v ≤ X.length →
      encodeVarintModels (X ++ W) X.length v
        = .ok (X.take (X.length - sovModels v) ++ (varint v ++ W),
            (X.length : Int) - sovModels v) ∧
      (varint v).length = sovModels v) ∧
    sovModels 0 = 1 ∧ (sovModels v = 1 ↔ v < 128) ∧
    1 ≤ sovModels v ∧ sovModels v ≤ 10 := by
  have hlen := sovModels_eq_length v hv
  have h1 : v ||| 1 < 2 ^ 64 := (or_one_lt v 64 (by norm_num)).mpr hv
  have hpos := sovModels_pos v hv
  have hle := sovModels_le v 0 hv
  refine ⟨?_, ?_, ?_, by decide, ?_, hpos, ?_⟩
  · rw [← Len64_eq_size _ h1]; rfl
  · rw [hlen]; exact varintFuel_shiftCount 9 v
  · intro X W hX
    exact ⟨encodeVarintModels_spec X W v X.length rfl hv hX, hlen.symm⟩
  · simp only [zero_add, pow_one] at hle
    rw [← hle]; omega
  · rw [hlen]; exact varint_length_le v hv

theorem C20_varint_length_helper_witness :
    sovModels 300 = (Nat.size (300 ||| 1) + 6) / 7 ∧
    sovModels 300 = 1 + shiftCount 300 ∧
    (∀ X W : List Nat, sovModels 300 ≤ X.length →
      encodeVarintModels (X ++ W) X.length 300
        = .ok (X.take (X.length - sovModels 300) ++ (varint 300 ++ W),
            (X.length : Int) - sovModels 300) ∧
      (varint 300).length = sovModels 300) ∧
    sovModels 0 = 1 ∧ (sovModels 300 = 1 ↔ 300 < 128) ∧
    1 ≤ sovModels 300 ∧ sovModels 300 ≤ 10 :=
  C20_varint_length_helper 300 (by decide)

/-! ### Claim C21: what `skipModels` returns -/

/-- The tag accessors for the wire type and the end of the tag read the same
varint. -/
theorem tagEnd_inv (d : List Nat) (o t : Int) (w : Nat) (ht : tagEndAt d o = some t)
    (hw : wireTypeAt d o = some w) :
    ∃ wire, varintLoop 64 11 d o 0 0 = .ok (wire, t) ∧ wire &&& 0x7 = w := by
  unfold tagEndAt at ht
  unfold wireTypeAt at hw
  cases hr : varintLoop 64 11 d o 0 0 with
  | error e => rw [hr] at ht; cases ht
  | ok r =>
    obtain ⟨wire, i1⟩ := r
    rw [hr] at ht hw
    have e1 := Option.some.inj ht
    have e2 := Option.some.inj hw
    simp only at e1 e2
    subst e1
    exact ⟨wire, rfl, e2⟩

/-- A successful varint read consumes at most ten bytes. -/
theorem varintLoop_le (w : Nat) (d : List Nat) (fuel : Nat) : ∀ (i : Int) (shift acc v : Nat)
    (j : Int), varintLoop w fuel d i shift acc = .ok (v, j) → shift + 7 * (j - i) ≤ 70 := by
  induction fuel with
  | zero => intro i shift acc v j h; cases h
  | succ n ih =>
    intro i shift acc v j h
    rw [varintLoop] at h
    by_cases c1 : shift ≥ 64
    · rw [if_pos c1] at h; cases h
    rw [if_neg c1] at h
    by_cases c2 : i ≥ (d.length : Int)
    · rw [if_pos c2] at h; cases h
    rw [if_neg c2] at h
    obtain ⟨b, _, h2⟩ := bind_ok_inv h
    dsimp only at h2
    by_cases c3 : b < 0x80
    · rw [if_pos c3] at h2
      have e := Except.ok.inj h2
      rw [Prod.mk.injEq] at e
      omega
    · rw [if_neg c3] at h2
      have := ih _ _ _ _ _ h2
      push_cast at this ⊢
      omega

/-- What a successful run of the varint loop of `skipModels` has read: only
continuation bytes, then one byte without the continuation bit. -/
theorem skipVarintLoop_inv (d : List Nat) (fuel : Nat) : ∀ (i : Int) (shift : Nat) (n : Int),
    0 ≤ i → skipVarintLoop fuel d i shift = .ok n →
    i < n ∧ n ≤ d.length ∧ shift + 7 * (n - i) ≤ 70 ∧
    (∀ k : Nat, i.toNat ≤ k → k + 1 < n.toNat → 128 ≤ d.getD k 0) ∧
    d.getD (n.toNat - 1) 0 < 128 := by
  induction fuel with
  | zero => intro i shift n _ h; cases h
  | succ f ih =>
    intro i shift n h0 h
    rw [skipVarintLoop] at h
    by_cases c1 : shift ≥ 64
    · rw [if_pos c1] at h; cases h
    rw [if_neg c1] at h
    by_cases c2 : i ≥ (d.length : Int)
    · rw [if_pos c2] at h; cases h
    rw [if_neg c2] at h
    obtain ⟨b, hb, h2⟩ := bind_ok_inv h
    have hlt : i.toNat < d.length := by omega
    have e0 : i + 1 - 1 = i := by omega
    rw [e0, getAt_getD d i h0 hlt] at hb
    have hb2 := Except.ok.inj hb
    by_cases c3 : b < 0x80
    · rw [if_pos c3] at h2
      have e := Except.ok.inj h2
      subst e
      refine ⟨by omega, by omega, by omega, ?_, ?_⟩
      · intro k h1 h2; omega
      · have : (i + 1).toNat - 1 = i.toNat := by omega
        rw [this, hb2]; exact c3
    · rw [if_neg c3] at h2
      obtain ⟨a1, a2, a3, a4, a5⟩ := ih (i + 1) (shift + 7) n (by omega) h2
      refine ⟨by omega, a2, by push_cast at a3 ⊢; omega, ?_, a5⟩
      intro k h1 hk
      by_cases hk0 : k = i.toNat
      · rw [hk0, hb2]; omega
      · exact a4 k (by omega) hk

/-- A successful skip of a group returns a positive count. -/
theorem skipGroupLoop_pos (skip : List Nat → Res Int) (d : List Nat) (fuel : Nat) :
    ∀ (i n : Int), 0 ≤ i → skipGroupLoop skip fuel d i = .ok n → 1 ≤ n := by
  induction fuel with
  | zero => intro i n _ h; cases h
  | succ f ih =>
    intro i n h0 h
    rw [skipGroupLoop] at h
    obtain ⟨⟨iw, i1⟩, h1, h2⟩ := bind_ok_inv h
    have s := varintLoop_safe 64 d 11 i 0 0 h0 (by omega) (by omega)
    rw [h1] at s
    have s1 : i < i1 := s.1
    dsimp only at h2
    by_cases c : iw &&& 0x7 = 4
    · rw [if_pos c] at h2
      have := Except.ok.inj h2
      omega
    · rw [if_neg c] at h2
      obtain ⟨sub, _, h3⟩ := bind_ok_inv h2
      obtain ⟨next, _, h4⟩ := bind_ok_inv h3
      by_cases cn : addInt i next < 0
      · rw [if_pos cn] at h4; cases h4
      · rw [if_neg cn] at h4
        exact ih _ n (by omega) h4

/-- C21 (skip spans).  Let a non-empty input start with a tag varint that
occupies `t` bytes and has wire type `w`; then `1 <= t <= 10`, and every
successful `skipModels` returns some `n >= 1`.  For `w = 0`, `n` is `t` plus the
number of bytes of the varint that follows: the bytes from `t` up to `n - 2` have
the continuation bit, byte `n - 1` does not, and there are at most ten.  For
`w = 1`, `skipModels` returns `t + 8`.  For `w = 2`, a successful result is the
end `i2` of the length varint plus the decoded length `L`, which is not
negative, and `skipModels` does return `i2 + L` whenever that fits in an `int`.
For `w = 5`, `skipModels` returns `t + 4`.  For `w = 6` and `w = 7` it fails with
the illegal-wireType error. -/
theorem C21_skip_spans (d : List Nat) (hd : d ≠ []) (hlen : d.length < 2 ^ 63) (t : Int)
    (w : Nat) (ht : tagEndAt d 0 = some t) (hw : wireTypeAt d 0 = some w) :
    1 ≤ t ∧ t ≤ 10 ∧
    (∀ n, skipModels d = .ok n → 1 ≤ n) ∧
    (w = 0 → ∀ n, skipModels d = .ok n →
      t < n ∧ n ≤ t + 10 ∧ n ≤ d.length ∧
      (∀ k : Nat, t.toNat ≤ k → k + 1 < n.toNat → 128 ≤ d.getD k 0) ∧
      d.getD (n.toNat - 1) 0 < 128) ∧
    (w = 1 → skipModels d = .ok (t + 8)) ∧
    (w = 2 → ∀ n, skipModels d = .ok n →
      ∃ L i2, lengthPrefixAt d 0 = some (L, i2) ∧ t < i2 ∧ i2 ≤ t + 10 ∧ 0 ≤ L ∧
        n = i2 + L) ∧
    (w = 2 → ∀ L i2, lengthPrefixAt d 0 = some (L, i2) → 0 ≤ L → i2 + L < 2 ^ 63 →
      skipModels d = .ok (i2 + L)) ∧
    (w = 5 → skipModels d = .ok (t + 4)) ∧
    (w = 6 ∨ w = 7 → skipModels d = .error Fault.errIllegalWireType) := by
  obtain ⟨wire, hr, hwt⟩ := tagEnd_inv d 0 t w ht hw
  have hpos : (0 : Int) < d.length := by
    have := List.length_pos.mpr hd
    omega
  have s := varintLoop_safe 64 d 11 0 0 0 (le_refl _) (by omega) (by omega)
  rw [hr] at s
  have t1 : 0 < t := s.1
  have t2 : t ≤ d.length := s.2
  have t3 := varintLoop_le 64 d 11 0 0 0 wire t hr
  have hskip : skipModels d =
      (if w = 0 then skipVarintLoop 11 d t 0
      else if w = 1 then pure (addInt t 8)
      else if w = 2 then do
        let (length, iNdEx) ← varintLoop 64 11 d t 0 0
        let length := toInt64 length
        if length < 0 then throw Fault.ErrInvalidLengthModels
        else
          let iNdEx := addInt iNdEx length
          if iNdEx < 0 then throw Fault.ErrInvalidLengthModels
          else pure iNdEx
      else if w = 3 then
        skipGroupLoop (skipModelsFuel d.length) (d.length + 1) d t
      else if w = 4 then pure t
      else if w = 5 then pure (addInt t 4)
      else throw Fault.errIllegalWireType) := by
    rw [skipModels, skipModelsFuel]
    simp only [hpos, if_true, hr, ok_bind, hwt]
  refine ⟨by omega, by omega, ?_, ?_, ?_, ?_, ?_, ?_, ?_⟩
  · intro n hn
    rw [hskip] at hn
    by_cases c0 : w = 0
    · rw [if_pos c0] at hn
      have := (skipVarintLoop_inv d 11 t 0 n (by omega) hn).1
      omega
    rw [if_neg c0] at hn
    by_cases c1 : w = 1
    · rw [if_pos c1] at hn
      have := Except.ok.inj hn
      rw [addInt_eq t 8 (by omega) (by omega)] at this
      omega
    rw [if_neg c1] at hn
    by_cases c2 : w = 2
    · rw [if_pos c2] at hn
      obtain ⟨⟨len, i2⟩, h1, h2⟩ := bind_ok_inv hn
      dsimp only at h2
      have s2 := varintLoop_safe 64 d 11 t 0 0 (by omega) (by omega) (by omega)
      rw [h1] at s2
      have : t < i2 := s2.1
      by_cases g1 : toInt64 len < 0
      · rw [if_pos g1] at h2; cases h2
      rw [if_neg g1] at h2
      by_cases g2 : addInt i2 (toInt64 len) < 0
      · rw [if_pos g2] at h2; cases h2
      rw [if_neg g2] at h2
      have e := Except.ok.inj h2
      have i2le : i2 ≤ d.length := s2.2
      have := addInt_of_nonneg i2 (toInt64 len) (by omega) (by omega) (by omega)
        (toInt64_lt _) (by omega)
      omega
    rw [if_neg c2] at hn
    by_cases c3 : w = 3
    · rw [if_pos c3] at hn
      exact skipGroupLoop_pos _ d _ t n (by omega) hn
    rw [if_neg c3] at hn
    by_cases c4 : w = 4
    · rw [if_pos c4] at hn
      have := Except.ok.inj hn
      omega
    rw [if_neg c4] at hn
    by_cases c5 : w = 5
    · rw [if_pos c5] at hn
      have := Except.ok.inj hn
      rw [addInt_eq t 4 (by omega) (by omega)] at this
      omega
    rw [if_neg c5] at hn
    cases hn
  · intro c0 n hn
    rw [hskip, if_pos c0] at hn
    obtain ⟨a1, a2, a3, a4, a5⟩ := skipVarintLoop_inv d 11 t 0 n (by omega) hn
    exact ⟨a1, by omega, a2, a4, a5⟩
  · intro c1
    rw [hskip, if_neg (by omega), if_pos c1, addInt_eq t 8 (by omega) (by omega)]
    rfl
  · intro c2 n hn
    rw [hskip, if_neg (by omega), if_neg (by omega), if_pos c2] at hn
    obtain ⟨⟨len, i2⟩, h1, h2⟩ := bind_ok_inv hn
    dsimp only at h2
    have s2 := varintLoop_safe 64 d 11 t 0 0 (by omega) (by omega) (by omega)
    rw [h1] at s2
    have q1 : t < i2 := s2.1
    have q2 : i2 ≤ d.length := s2.2
    have q3 := varintLoop_le 64 d 11 t 0 0 len i2 h1
    by_cases g1 : toInt64 len < 0
    · rw [if_pos g1] at h2; cases h2
    rw [if_neg g1] at h2
    by_cases g2 : addInt i2 (toInt64 len) < 0
    · rw [if_pos g2] at h2; cases h2
    rw [if_neg g2] at h2
    have e := Except.ok.inj h2
    have := addInt_of_nonneg i2 (toInt64 len) (by omega) (by omega) (by omega)
      (toInt64_lt _) (by omega)
    refine ⟨toInt64 len, i2, ?_, q1, by omega, by omega, by omega⟩
    simp [lengthPrefixAt, hr, h1]
  · intro c2 L i2 hl hL hsum
    rw [hskip, if_neg (by omega), if_neg (by omega), if_pos c2]
    unfold lengthPrefixAt at hl
    rw [hr] at hl
    dsimp only at hl
    cases h1 : varintLoop 64 11 d t 0 0 with
    | error e => rw [h1] at hl; cases hl
    | ok r =>
      obtain ⟨len, j⟩ := r
      rw [h1] at hl
      have e := Option.some.inj hl
      rw [Prod.mk.injEq] at e
      obtain ⟨e1, e2⟩ := e
      subst e2
      have s2 := varintLoop_safe 64 d 11 t 0 0 (by omega) (by omega) (by omega)
      rw [h1] at s2
      have q1 : t < j := s2.1
      have hadd := addInt_eq j (toInt64 len) (by omega) (by omega)
      simp only [ok_bind, e1]
      rw [← e1, hadd, if_neg (by omega), if_neg (by omega)]
      rfl
  · intro c5
    rw [hskip, if_neg (by omega), if_neg (by omega), if_neg (by omega), if_neg (by omega),
      if_neg (by omega), if_pos c5, addInt_eq t 4 (by omega) (by omega)]
    rfl
  · intro c
    rw [hskip, if_neg (by omega), if_neg (by omega), if_neg (by omega), if_neg (by omega),
      if_neg (by omega), if_neg (by omega)]
    rfl

theorem C21_skip_spans_witness : skipModels c21Buf = .ok (2 + 2) :=
  (C21_skip_spans c21Buf (by decide) (by decide) 1 2 (by decide) (by decide)).2.2.2.2.2.2.1 rfl
    2 2 (by decide) (by decide) (by decide)

/-! ### Claim C22: declared field numbers with another wire type -/

/-- An iteration at a declared field number with a wrong wire type other than 4
returns the wrong-wireType error with the receiver untouched. -/
theorem Person_stepState_wrongWire (d : List Nat) (m : Person) (o : Int) (fn : Int)
    (wt dw : Nat) (hf : fieldNumAt d o = some fn) (hw : wireTypeAt d o = some wt)
    (hdecl : (fn, dw) ∈ Person.declared) (h1 : wt ≠ dw) (h4 : wt ≠ 4) :
    Person.unmarshalStepState d m o = (m, .error Fault.errWrongWireType) := by
  obtain ⟨wire, i1, hr, hfn, hwt, _⟩ := tag_inv d o fn wt hf hw
  simp only [Person.declared, List.mem_cons, Prod.mk.injEq, List.mem_singleton,
    List.not_mem_nil, or_false] at hdecl
  rcases hdecl with ⟨rfl, rfl⟩ | ⟨rfl, rfl⟩ | ⟨rfl, rfl⟩ | ⟨rfl, rfl⟩ <;>
    simp [Person.unmarshalStepState, hr, hfn, hwt, h1, h4]

theorem PhoneNumber_stepState_wrongWire (d : List Nat) (m : PhoneNumber) (o : Int) (fn : Int)
    (wt dw : Nat) (hf : fieldNumAt d o = some fn) (hw : wireTypeAt d o = some wt)
    (hdecl : (fn, dw) ∈ PhoneNumber.declared) (h1 : wt ≠ dw) (h4 : wt ≠ 4) :
    PhoneNumber.unmarshalStepState d m o = (m, .error Fault.errWrongWireType) := by
  obtain ⟨wire, i1, hr, hfn, hwt, _⟩ := tag_inv d o fn wt hf hw
  simp only [PhoneNumber.declared, List.mem_cons, Prod.mk.injEq, List.mem_singleton,
    List.not_mem_nil, or_false] at hdecl
  rcases hdecl with ⟨rfl, rfl⟩ | ⟨rfl, rfl⟩ <;>
    simp [PhoneNumber.unmarshalStepState, hr, hfn, hwt, h1, h4]

/-- The tag byte `0x0C` has the declared field number 1 with wire type 4, not
the declared wire type 2; decoding fails with the end-group error, not with the
wrong-wireType error. -/
theorem C22_counterexample :
    fieldNumAt c22EndGroup 0 = some 1 ∧ wireTypeAt c22EndGroup 0 = some 4 ∧
    Person.Unmarshal Person.zero c22EndGroup = .error Fault.errEndGroup ∧
    Person.Unmarshal Person.zero c22EndGroup ≠ .error Fault.errWrongWireType ∧
    PhoneNumber.Unmarshal PhoneNumber.zero c22EndGroup = .error Fault.errEndGroup := by
  decide

/-- C22 (wire-type mismatch on a declared field), amended.  Let the decode loop
reach a tag whose field number is declared (`Person`: 1, 2, 3, 4 with wire
types 2, 0, 2, 2; `PhoneNumber`: 1, 2 with wire types 2, 0) and whose wire type
is neither the declared one nor 4 (end group).  Then `Unmarshal` fails with the
wrong-wireType error, and it leaves the receiver exactly as it was before that
tag: the field is neither decoded nor appended to the unrecognized bytes. -/
theorem C22_wire_type_mismatch (d : List Nat) (o : Int) (fn : Int) (wt dw : Nat)
    (hf : fieldNumAt d o = some fn) (hw : wireTypeAt d o = some wt) (h1 : wt ≠ dw)
    (h4 : wt ≠ 4) :
    (∀ m0 mo : Person, (o, mo) ∈ Person.trace m0 d → (fn, dw) ∈ Person.declared →
      Person.Unmarshal m0 d = .error Fault.errWrongWireType ∧
      Person.UnmarshalState m0 d = (mo, some Fault.errWrongWireType)) ∧
    (∀ m0 mo : PhoneNumber, (o, mo) ∈ PhoneNumber.trace m0 d →
      (fn, dw) ∈ PhoneNumber.declared →
      PhoneNumber.Unmarshal m0 d = .error Fault.errWrongWireType ∧
      PhoneNumber.UnmarshalState m0 d = (mo, some Fault.errWrongWireType)) := by
  refine ⟨?_, ?_⟩
  · intro m0 mo ho hdecl
    have h := Person_loopState_error d _ mo _ m0 0 o mo ho
      (Person_stepState_wrongWire d mo o fn wt dw hf hw hdecl h1 h4)
    exact ⟨by rw [← Person_Unmarshal_state]; exact forgetCall_error _ _ _ h, h⟩
  · intro m0 mo ho hdecl
    have h := PhoneNumber_loopState_error d _ mo _ m0 0 o mo ho
      (PhoneNumber_stepState_wrongWire d mo o fn wt dw hf hw hdecl h1 h4)
    exact ⟨by rw [← PhoneNumber_Unmarshal_state]; exact forgetCall_error _ _ _ h, h⟩

theorem C22_wire_type_mismatch_witness :
    Person.Unmarshal Person.zero c22Wrong = .error Fault.errWrongWireType ∧
    Person.UnmarshalState Person.zero c22Wrong
      = ({ Person.zero with Name := [65] }, some Fault.errWrongWireType) :=
  (C22_wire_type_mismatch c22Wrong 3 2 2 0 (by decide) (by decide) (by decide) (by decide)).1
    Person.zero { Person.zero with Name := [65] } (by decide) (by decide)

/-! ### Claim C23: decoding a concatenation -/

theorem getAt_extend (a b : List Nat) (i : Int) (x : Nat) (h : getAt a i = .ok x) :
    getAt (a ++ b) i = .ok x := by
  unfold getAt at h ⊢
  by_cases h0 : 0 ≤ i
  · rw [if_pos h0] at h ⊢
    cases hq : a[i.toNat]? with
    | none => rw [hq] at h; cases h
    | some v =>
      rw [hq] at h
      obtain ⟨hlt, _⟩ := List.getElem?_eq_some.mp hq
      rw [List.getElem?_append_left hlt, hq]
      exact h
  · rw [if_neg h0] at h; cases h

theorem varintLoop_extend (w : Nat) (a b : List Nat) (fuel : Nat) :
    ∀ (i : Int) (shift acc : Nat) (r : Nat × Int),
    varintLoop w fuel a i shift acc = .ok r → varintLoop w fuel (a ++ b) i shift acc = .ok r := by
  induction fuel with
  | zero => intro i shift acc r h; cases h
  | succ n ih =>
    intro i shift acc r h
    rw [varintLoop] at h ⊢
    by_cases c1 : shift ≥ 64
    · rw [if_pos c1] at h; cases h
    rw [if_neg c1] at h ⊢
    by_cases c2 : i ≥ (a.length : Int)
    · rw [if_pos c2] at h; cases h
    rw [if_neg c2] at h
    rw [if_neg (by simp only [List.length_append]; push_cast; omega)]
    obtain ⟨x, hx, h2⟩ := bind_ok_inv h
    rw [getAt_extend a b i x hx]
    simp only [ok_bind]
    by_cases c3 : x < 0x80
    · rw [if_pos c3] at h2 ⊢; exact h2
    · rw [if_neg c3] at h2 ⊢; exact ih _ _ _ _ h2

theorem skipVarintLoop_extend (a b : List Nat) (fuel : Nat) :
    ∀ (i : Int) (shift : Nat) (r : Int),
    skipVarintLoop fuel a i shift = .ok r → skipVarintLoop fuel (a ++ b) i shift = .ok r := by
  induction fuel with
  | zero => intro i shift r h; cases h
  | succ n ih =>
    intro i shift r h
    rw [skipVarintLoop] at h ⊢
    by_cases c1 : shift ≥ 64
    · rw [if_pos c1] at h; cases h
    rw [if_neg c1] at h ⊢
    by_cases c2 : i ≥ (a.length : Int)
    · rw [if_pos c2] at h; cases h
    rw [if_neg c2] at h
    rw [if_neg (by simp only [List.length_append]; push_cast; omega)]
    obtain ⟨x, hx, h2⟩ := bind_ok_inv h
    dsimp only
    rw [getAt_extend a b _ x hx]
    simp only [ok_bind]
    by_cases c3 : x < 0x80
    · rw [if_pos c3] at h2 ⊢; exact h2
    · rw [if_neg c3] at h2 ⊢; exact ih _ _ _ h2

theorem sliceFrom_extend (a b : List Nat) (i : Int) (r : List Nat)
    (h : sliceFrom a i = .ok r) : sliceFrom (a ++ b) i = .ok (r ++ b) := by
  unfold sliceFrom at h ⊢
  by_cases c : 0 ≤ i ∧ i ≤ (a.length : Int)
  · rw [if_pos c] at h
    rw [if_pos (by simp only [List.length_append]; push_cast; omega)]
    have e := Except.ok.inj h
    rw [← e, List.drop_append_of_le_length (by omega)]
    rfl
  · rw [if_neg c] at h; cases h

theorem slice_extend (a b : List Nat) (i j : Int) (s : List Nat)
    (h : slice a i j = .ok s) : slice (a ++ b) i j = .ok s := by
  unfold slice at h ⊢
  by_cases c : 0 ≤ i ∧ i ≤ j ∧ j ≤ (a.length : Int)
  · rw [if_pos c] at h
    rw [if_pos (by simp only [List.length_append]; push_cast; omega)]
    have e := Except.ok.inj h
    rw [← e, List.take_append_of_le_length (by omega)]
    rfl
  · rw [if_neg c] at h; cases h

theorem skipGroupLoop_mono (skip skip2 : List Nat → Res Int) (x y : List Nat)
    (hskip : ∀ sub n, skip sub = .ok n → skip2 (sub ++ y) = .ok n) (g : Nat) :
    ∀ (i n : Int), skipGroupLoop skip g x i = .ok n →
    ∀ g2, g ≤ g2 → skipGroupLoop skip2 g2 (x ++ y) i = .ok n := by
  induction g with
  | zero => intro i n h; cases h
  | succ g ih =>
    intro i n h g2 hg
    obtain ⟨g3, rfl⟩ : ∃ g3, g2 = g3 + 1 := ⟨g2 - 1, by omega⟩
    rw [skipGroupLoop] at h ⊢
    obtain ⟨⟨iw, i1⟩, h1, h2⟩ := bind_ok_inv h
    rw [varintLoop_extend 64 x y 11 i 0 0 _ h1]
    simp only [ok_bind]
    dsimp only at h2
    by_cases c : iw &&& 0x7 = 4
    · rw [if_pos c] at h2 ⊢; exact h2
    rw [if_neg c] at h2 ⊢
    obtain ⟨sub, h3, h4⟩ := bind_ok_inv h2
    obtain ⟨next, h5, h6⟩ := bind_ok_inv h4
    rw [sliceFrom_extend x y i sub h3]
    simp only [ok_bind]
    rw [hskip sub next h5]
    simp only [ok_bind]
    by_cases cn : addInt i next < 0
    · rw [if_pos cn] at h6; cases h6
    rw [if_neg cn] at h6 ⊢
    exact ih _ n h6 g3 (by omega)

/-- More fuel and more input after it do not change a successful skip. -/
theorem skipModelsFuel_mono (f : Nat) : ∀ (x : List Nat) (n : Int),
    skipModelsFuel f x = .ok n →
    ∀ f2, f ≤ f2 → ∀ y, skipModelsFuel f2 (x ++ y) = .ok n := by
  induction f with
  | zero => intro x n h; cases h
  | succ f ih =>
    intro x n h f2 hf y
    obtain ⟨f3, rfl⟩ : ∃ f3, f2 = f3 + 1 := ⟨f2 - 1, by omega⟩
    rw [skipModelsFuel] at h ⊢
    dsimp only at h ⊢
    by_cases hlt : (0 : Int) < (x.length : Int)
    · rw [if_pos hlt] at h
      rw [if_pos (by simp only [List.length_append]; push_cast; omega)]
      obtain ⟨⟨wire, i1⟩, h1, h2⟩ := bind_ok_inv h
      rw [varintLoop_extend 64 x y 11 0 0 0 _ h1]
      simp only [ok_bind]
      dsimp only at h2
      by_cases w0 : wire &&& 0x7 = 0
      · rw [if_pos w0] at h2 ⊢
        exact skipVarintLoop_extend x y 11 i1 0 n h2
      rw [if_neg w0] at h2 ⊢
      by_cases w1 : wire &&& 0x7 = 1
      · rw [if_pos w1] at h2 ⊢; exact h2
      rw [if_neg w1] at h2 ⊢
      by_cases w2 : wire &&& 0x7 = 2
      · rw [if_pos w2] at h2 ⊢
        obtain ⟨⟨len, i2⟩, h3, h4⟩ := bind_ok_inv h2
        rw [varintLoop_extend 64 x y 11 i1 0 0 _ h3]
        exact h4
      rw [if_neg w2] at h2 ⊢
      by_cases w3 : wire &&& 0x7 = 3
      · rw [if_pos w3] at h2 ⊢
        exact skipGroupLoop_mono (skipModelsFuel f) (skipModelsFuel f3) x y
          (fun sub k hk => ih sub k hk f3 (by omega) y) _ i1 n h2 _
          (by simp only [List.length_append]; omega)
      rw [if_neg w3] at h2 ⊢
      exact h2
    · rw [if_neg hlt] at h; cases h

theorem skipModels_extend (x y : List Nat) (n : Int) (h : skipModels x = .ok n) :
    skipModels (x ++ y) = .ok n :=
  skipModelsFuel_mono _ x n h _ (by simp only [List.length_append]; omega) y

/-- The length-delimited branch of a decoding step succeeds in the same way
when more input follows. -/
theorem bytes_branch_extend {α : Type} (a b : List Nat) (i1 : Int) (k : List Nat → α) (x : α)
    (j : Int)
    (h : (do
      let (stringLen, iNdEx) ← varintLoop 64 11 a i1 0 0
      let intStringLen := toInt64 stringLen
      if intStringLen < 0 then throw Fault.ErrInvalidLengthModels
      else
        let postIndex := addInt iNdEx intStringLen
        if postIndex < 0 then throw Fault.ErrInvalidLengthModels
        else if postIndex > (a.length : Int) then throw Fault.ErrUnexpectedEOF
        else do
          let s ← slice a iNdEx postIndex
          pure (k s, postIndex)) = (.ok (x, j) : Res (α × Int))) :
    (do
      let (stringLen, iNdEx) ← varintLoop 64 11 (a ++ b) i1 0 0
      let intStringLen := toInt64 stringLen
      if intStringLen < 0 then throw Fault.ErrInvalidLengthModels
      else
        let postIndex := addInt iNdEx intStringLen
        if postIndex < 0 then throw Fault.ErrInvalidLengthModels
        else if postIndex > ((a ++ b).length : Int) then throw Fault.ErrUnexpectedEOF
        else do
          let s ← slice (a ++ b) iNdEx postIndex
          pure (k s, postIndex)) = (.ok (x, j) : Res (α × Int)) := by
  obtain ⟨⟨len, i2⟩, h1, h2⟩ := bind_ok_inv h
  rw [varintLoop_extend 64 a b 11 i1 0 0 _ h1]
  simp only [ok_bind]
  dsimp only at h2
  by_cases c1 : toInt64 len < 0
  · rw [if_pos c1] at h2; cases h2
  rw [if_neg c1] at h2 ⊢
  by_cases c2 : addInt i2 (toInt64 len) < 0
  · rw [if_pos c2] at h2; cases h2
  rw [if_neg c2] at h2 ⊢
  by_cases c3 : addInt i2 (toInt64 len) > (a.length : Int)
  · rw [if_pos c3] at h2; cases h2
  rw [if_neg c3] at h2
  rw [if_neg (by simp only [List.length_append]; push_cast; omega)]
  obtain ⟨s, hs, h3⟩ := bind_ok_inv h2
  rw [slice_extend a b _ _ s hs]
  exact h3

theorem int32_branch_extend {α : Type} (a b : List Nat) (i1 : Int) (k : Nat → α) (x : α)
    (j : Int)
    (h : (do
      let (v, iNdEx) ← varintLoop 32 11 a i1 0 0
      pure (k v, iNdEx)) = (.ok (x, j) : Res (α × Int))) :
    (do
      let (v, iNdEx) ← varintLoop 32 11 (a ++ b) i1 0 0
      pure (k v, iNdEx)) = (.ok (x, j) : Res (α × Int)) := by
  obtain ⟨⟨v, i2⟩, h1, h2⟩ := bind_ok_inv h
  rw [varintLoop_extend 32 a b 11 i1 0 0 _ h1]
  exact h2

theorem skip_branch_extend {α : Type} (a b : List Nat) (i : Int) (k : List Nat → α) (x : α)
    (j : Int)
    (h : (do
      let rest ← sliceFrom a i
      let skippy ← skipModels rest
      if skippy < 0 then throw Fault.ErrInvalidLengthModels
      else if addInt i skippy < 0 then throw Fault.ErrInvalidLengthModels
      else if addInt i skippy > (a.length : Int) then throw Fault.ErrUnexpectedEOF
      else do
        let s ← slice a i (addInt i skippy)
        pure (k s, addInt i skippy)) = (.ok (x, j) : Res (α × Int))) :
    (do
      let rest ← sliceFrom (a ++ b) i
      let skippy ← skipModels rest
      if skippy < 0 then throw Fault.ErrInvalidLengthModels
      else if addInt i skippy < 0 then throw Fault.ErrInvalidLengthModels
      else if addInt i skippy > ((a ++ b).length : Int) then throw Fault.ErrUnexpectedEOF
      else do
        let s ← slice (a ++ b) i (addInt i skippy)
        pure (k s, addInt i skippy)) = (.ok (x, j) : Res (α × Int)) := by
  obtain ⟨rest, h1, h2⟩ := bind_ok_inv h
  obtain ⟨skippy, h3, h4⟩ := bind_ok_inv h2
  rw [sliceFrom_extend a b i rest h1]
  simp only [ok_bind]
  rw [skipModels_extend rest b skippy h3]
  simp only [ok_bind]
  by_cases c1 : skippy < 0
  · rw [if_pos c1] at h4; cases h4
  rw [if_neg c1] at h4 ⊢
  by_cases c2 : addInt i skippy < 0
  · rw [if_pos c2] at h4; cases h4
  rw [if_neg c2] at h4 ⊢
  by_cases c3 : addInt i skippy > (a.length : Int)
  · rw [if_pos c3] at h4; cases h4
  rw [if_neg c3] at h4
  rw [if_neg (by simp only [List.length_append]; push_cast; omega)]
  obtain ⟨s, hs, h5⟩ := bind_ok_inv h4
  rw [slice_extend a b _ _ s hs]
  exact h5

/-- A successful iteration of `Person.Unmarshal` is the same iteration when
more input follows the buffer. -/
theorem Person_unmarshalStep_extend (a b : List Nat) (m m2 : Person) (i j : Int)
    (h : Person.unmarshalStep a m i = .ok (m2, j)) :
    Person.unmarshalStep (a ++ b) m i = .ok (m2, j) := by
  unfold Person.unmarshalStep at h ⊢
  obtain ⟨⟨wire, i1⟩, hr, h2⟩ := bind_ok_inv h
  rw [varintLoop_extend 64 a b 11 i 0 0 _ hr]
  simp only [ok_bind]
  dsimp only at h2
  by_cases c1 : wire &&& 0x7 = 4
  · rw [if_pos c1] at h2; cases h2
  rw [if_neg c1] at h2 ⊢
  by_cases c2 : toInt32 (wire >>> 3) ≤ 0
  · rw [if_pos c2] at h2; cases h2
  rw [if_neg c2] at h2 ⊢
  by_cases f1 : toInt32 (wire >>> 3) = 1
  · rw [if_pos f1] at h2 ⊢
    by_cases w : wire &&& 0x7 ≠ 2
    · rw [if_pos w] at h2; cases h2
    rw [if_neg w] at h2 ⊢
    exact bytes_branch_extend a b i1 (fun s => ({ m with Name := s } : Person)) m2 j h2
  rw [if_neg f1] at h2 ⊢
  by_cases f2 : toInt32 (wire >>> 3) = 2
  · rw [if_pos f2] at h2 ⊢
    by_cases w : wire &&& 0x7 ≠ 0
    · rw [if_pos w] at h2; cases h2
    rw [if_neg w] at h2 ⊢
    exact int32_branch_extend a b i1 (fun v => ({ m with Id := toInt32 v } : Person)) m2 j h2
  rw [if_neg f2] at h2 ⊢
  by_cases f3 : toInt32 (wire >>> 3) = 3
  · rw [if_pos f3] at h2 ⊢
    by_cases w : wire &&& 0x7 ≠ 2
    · rw [if_pos w] at h2; cases h2
    rw [if_neg w] at h2 ⊢
    exact bytes_branch_extend a b i1 (fun s => ({ m with Email := s } : Person)) m2 j h2
  rw [if_neg f3] at h2 ⊢
  by_cases f4 : toInt32 (wire >>> 3) = 4
  · rw [if_pos f4] at h2 ⊢
    by_cases w : wire &&& 0x7 ≠ 2
    · rw [if_pos w] at h2; cases h2
    rw [if_neg w] at h2 ⊢
    obtain ⟨⟨len, i2⟩, h3, h4⟩ := bind_ok_inv h2
    rw [varintLoop_extend 64 a b 11 i1 0 0 _ h3]
    simp only [ok_bind]
    dsimp only at h4
    by_cases g1 : toInt64 len < 0
    · rw [if_pos g1] at h4; cases h4
    rw [if_neg g1] at h4 ⊢
    by_cases g2 : addInt i2 (toInt64 len) < 0
    · rw [if_pos g2] at h4; cases h4
    rw [if_neg g2] at h4 ⊢
    by_cases g3 : addInt i2 (toInt64 len) > (a.length : Int)
    · rw [if_pos g3] at h4; cases h4
    rw [if_neg g3] at h4
    rw [if_neg (by simp only [List.length_append]; push_cast; omega)]
    obtain ⟨s, h5, h6⟩ := bind_ok_inv h4
    rw [slice_extend a b _ _ s h5]
    exact h6
  rw [if_neg f4] at h2 ⊢
  exact skip_branch_extend a b i
    (fun s => ({ m with XXX_unrecognized := m.XXX_unrecognized ++ s } : Person)) m2 j h2

theorem RelRes_bind {α β γ δ : Type} {R : α → β → Prop} {S : γ → δ → Prop} {x : Res α}
    {y : Res β} {f : α → Res γ} {g : β → Res δ} (hxy : RelRes R x y)
    (hfg : ∀ a b, x = .ok a → y = .ok b → R a b → RelRes S (f a) (g b)) :
    RelRes S (x >>= f) (y >>= g) := by
  cases x with
  | error e =>
    cases y with
    | error e2 => trivial
    | ok b => exact hxy.elim
  | ok a =>
    cases y with
    | error e2 => exact hxy.elim
    | ok b => exact hfg a b rfl rfl hxy

theorem RelRes_ite {α β : Type} {R : α → β → Prop} {c c2 : Prop} [Decidable c] [Decidable c2]
    {x x2 : Res α} {y y2 : Res β} (hc : c ↔ c2) (h1 : c → RelRes R x y)
    (h2 : ¬ c → RelRes R x2 y2) :
    RelRes R (if c then x else x2) (if c2 then y else y2) := by
  by_cases h : c
  · rw [if_pos h, if_pos (hc.mp h)]; exact h1 h
  · rw [if_neg h, if_neg (fun q => h (hc.mpr q))]; exact h2 h

theorem RelRes_throw {α β : Type} {R : α → β → Prop} (e e2 : Fault) :
    RelRes R (throw e : Res α) (throw e2 : Res β) := trivial

theorem RelRes_pure {α β : Type} {R : α → β → Prop} {a : α} {b : β} (h : R a b) :
    RelRes R (pure a : Res α) (pure b : Res β) := h

theorem RelRes_refl {α : Type} (x : Res α) : RelRes Eq x x := by
  cases x with
  | error e => trivial
  | ok a => exact rfl

theorem getAt_shift (a b : List Nat) (i : Int) (h0 : 0 ≤ i) :
    getAt (a ++ b) ((a.length : Int) + i) = getAt b i := by
  unfold getAt
  rw [if_pos h0, if_pos (by omega)]
  have e : ((a.length : Int) + i).toNat = a.length + i.toNat := by omega
  rw [e, List.getElem?_append_right (by omega)]
  simp

theorem varintLoop_shift (w : Nat) (a b : List Nat) (fuel : Nat) :
    ∀ (i : Int) (shift acc : Nat), 0 ≤ i →
    RelRes (fun r r2 => r2 = (r.1, (a.length : Int) + r.2))
      (varintLoop w fuel b i shift acc)
      (varintLoop w fuel (a ++ b) ((a.length : Int) + i) shift acc) := by
  induction fuel with
  | zero => intro i shift acc _; exact RelRes_throw _ _
  | succ n ih =>
    intro i shift acc h0
    rw [varintLoop, varintLoop]
    refine RelRes_ite Iff.rfl (fun _ => RelRes_throw _ _) (fun _ => ?_)
    refine RelRes_ite (by simp only [List.length_append]; push_cast; omega)
      (fun _ => RelRes_throw _ _) (fun _ => ?_)
    rw [getAt_shift a b i h0]
    refine RelRes_bind (RelRes_refl _) (fun x y _ _ hxy => ?_)
    subst hxy
    refine RelRes_ite Iff.rfl (fun _ => RelRes_pure ?_) (fun _ => ?_)
    · simp only [Prod.mk.injEq, true_and]; ring
    · have := ih (i + 1) (shift + 7) (acc ||| ((x &&& 0x7F) <<< shift) % 2 ^ w) (by omega)
      rw [← add_assoc] at this
      exact this

theorem sliceFrom_shift (a b : List Nat) (i : Int) (h0 : 0 ≤ i) :
    sliceFrom (a ++ b) ((a.length : Int) + i) = sliceFrom b i := by
  unfold sliceFrom
  by_cases c : 0 ≤ i ∧ i ≤ (b.length : Int)
  · rw [if_pos c, if_pos (by simp only [List.length_append]; push_cast; omega)]
    have e : ((a.length : Int) + i).toNat = a.length + i.toNat := by omega
    rw [e, List.drop_append]
  · rw [if_neg c, if_neg (by simp only [List.length_append]; push_cast; omega)]

theorem slice_shift (a b : List Nat) (i j : Int) (h0 : 0 ≤ i) :
    slice (a ++ b) ((a.length : Int) + i) ((a.length : Int) + j) = slice b i j := by
  unfold slice
  by_cases c : 0 ≤ i ∧ i ≤ j ∧ j ≤ (b.length : Int)
  · rw [if_pos c, if_pos (by simp only [List.length_append]; push_cast; omega)]
    have e1 : ((a.length : Int) + i).toNat = a.length + i.toNat := by omega
    have e2 : ((a.length : Int) + j).toNat = a.length + j.toNat := by omega
    rw [e1, e2, List.take_append, List.drop_append]
  · rw [if_neg c, if_neg (by simp only [List.length_append]; push_cast; omega)]

/-- How the end position of a payload behaves when the buffer is preceded by
`A` more bytes: a position inside the buffer moves by `A`, and a position that
is rejected stays rejected. -/
theorem addInt_shift (A B : Nat) (hAB : A + B < 2 ^ 63) (i2 L : Int) (h0 : 0 ≤ i2)
    (h1 : i2 ≤ B) (h2 : 0 ≤ L) (h3 : L < 2 ^ 63) :
    (0 ≤ addInt i2 L ∧ addInt i2 L ≤ B → addInt (A + i2) L = A + addInt i2 L) ∧
    (¬ (0 ≤ addInt i2 L ∧ addInt i2 L ≤ B) →
      addInt (A + i2) L < 0 ∨ addInt (A + i2) L > (A : Int) + B) := by
  by_cases hs : i2 + L < 2 ^ 63
  · have e := addInt_eq i2 L (by omega) hs
    by_cases hs2 : (A : Int) + i2 + L < 2 ^ 63
    · have e2 := addInt_eq (A + i2) L (by omega) hs2
      constructor <;> intro h <;> omega
    · have e2 := addInt_wrap (A + i2) L (by omega) (by omega)
      constructor <;> intro h <;> omega
  · have e := addInt_wrap i2 L (by omega) (by omega)
    have e2 := addInt_wrap (A + i2) L (by omega) (by omega)
    constructor <;> intro h <;> omega

/-- The two range checks on an end position, and what follows them, agree
between a buffer and the same buffer preceded by `A` bytes. -/
theorem checks_shift {α β : Type} {R : α → β → Prop} (A B : Nat) (hAB : A + B < 2 ^ 63)
    (i2 L : Int) (h0 : 0 ≤ i2) (h1 : i2 ≤ B) (h2 : 0 ≤ L) (h3 : L < 2 ^ 63)
    (e1 e2 : Fault) (K : Int → Res α) (K2 : Int → Res β)
    (hK : ∀ p : Int, 0 ≤ p → p ≤ B → RelRes R (K p) (K2 (A + p))) :
    RelRes R
      (if addInt i2 L < 0 then throw e1
        else if addInt i2 L > (B : Int) then throw e2 else K (addInt i2 L))
      (if addInt (A + i2) L < 0 then throw e1
        else if addInt (A + i2) L > (A : Int) + B then throw e2
        else K2 (addInt (A + i2) L)) := by
  obtain ⟨s1, s2⟩ := addInt_shift A B hAB i2 L h0 h1 h2 h3
  by_cases c : 0 ≤ addInt i2 L ∧ addInt i2 L ≤ B
  · have e := s1 c
    rw [if_neg (by omega), if_neg (by omega), if_neg (by omega), if_neg (by omega), e]
    exact hK _ c.1 c.2
  · have hbad := s2 c
    have lhs : (if addInt i2 L < 0 then (throw e1 : Res α)
        else if addInt i2 L > (B : Int) then throw e2 else K (addInt i2 L))
        = .error (if addInt i2 L < 0 then e1 else e2) := by
      by_cases q : addInt i2 L < 0
      · rw [if_pos q, if_pos q]; rfl
      · rw [if_neg q, if_pos (by omega), if_neg q]; rfl
    have rhs : (if addInt (A + i2) L < 0 then (throw e1 : Res β)
        else if addInt (A + i2) L > (A : Int) + B then throw e2
        else K2 (addInt (A + i2) L))
        = .error (if addInt (A + i2) L < 0 then e1 else e2) := by
      by_cases q : addInt (A + i2) L < 0
      · rw [if_pos q, if_pos q]; rfl
      · rw [if_neg q, if_pos (by omega), if_neg q]; rfl
    rw [lhs, rhs]
    trivial

/-- The length-delimited branch of a decoding step agrees between a buffer and
the same buffer preceded by more bytes. -/
theorem bytes_branch_shift {α : Type} (a b : List Nat) (hAB : a.length + b.length < 2 ^ 63)
    (i1 : Int) (h0 : 0 ≤ i1) (k : List Nat → α) :
    RelRes (fun (r r2 : α × Int) => r2 = (r.1, (a.length : Int) + r.2))
      (do
        let (stringLen, iNdEx) ← varintLoop 64 11 b i1 0 0
        let intStringLen := toInt64 stringLen
        if intStringLen < 0 then throw Fault.ErrInvalidLengthModels
        else
          let postIndex := addInt iNdEx intStringLen
          if postIndex < 0 then throw Fault.ErrInvalidLengthModels
          else if postIndex > (b.length : Int) then throw Fault.ErrUnexpectedEOF
          else do
            let s ← slice b iNdEx postIndex
            pure (k s, postIndex))
      (do
        let (stringLen, iNdEx) ← varintLoop 64 11 (a ++ b) ((a.length : Int) + i1) 0 0
        let intStringLen := toInt64 stringLen
        if intStringLen < 0 then throw Fault.ErrInvalidLengthModels
        else
          let postIndex := addInt iNdEx intStringLen
          if postIndex < 0 then throw Fault.ErrInvalidLengthModels
          else if postIndex > ((a ++ b).length : Int) then throw Fault.ErrUnexpectedEOF
          else do
            let s ← slice (a ++ b) iNdEx postIndex
            pure (k s, postIndex)) := by
  refine RelRes_bind (varintLoop_shift 64 a b 11 i1 0 0 h0) (fun r r2 hx _ hr => ?_)
  obtain ⟨len, i2⟩ := r
  subst hr
  have s := varintLoop_safe 64 b 11 i1 0 0 h0 (by omega) (by omega)
  rw [hx] at s
  have s1 : i1 < i2 := s.1
  have s2 : i2 ≤ b.length := s.2
  dsimp only
  refine RelRes_ite Iff.rfl (fun _ => RelRes_throw _ _) (fun hL => ?_)
  simp only [List.length_append, Nat.cast_add]
  exact checks_shift a.length b.length hAB i2 (toInt64 len) (by omega) s2 (by omega)
    (toInt64_lt _) _ _
    (fun p => do
      let s ← slice b i2 p
      pure (k s, p))
    (fun p => do
      let s ← slice (a ++ b) ((a.length : Int) + i2) p
      pure (k s, p))
    (fun p _ _ => by
      dsimp only
      rw [slice_shift a b i2 p (by omega)]
      exact RelRes_bind (RelRes_refl _) (fun x y _ _ hxy => by subst hxy; exact RelRes_pure rfl))

theorem int32_branch_shift {α : Type} (a b : List Nat) (i1 : Int) (h0 : 0 ≤ i1) (k : Nat → α) :
    RelRes (fun (r r2 : α × Int) => r2 = (r.1, (a.length : Int) + r.2))
      (do
        let (v, iNdEx) ← varintLoop 32 11 b i1 0 0
        pure (k v, iNdEx))
      (do
        let (v, iNdEx) ← varintLoop 32 11 (a ++ b) ((a.length : Int) + i1) 0 0
        pure (k v, iNdEx)) := by
  refine RelRes_bind (varintLoop_shift 32 a b 11 i1 0 0 h0) (fun r r2 _ _ hr => ?_)
  obtain ⟨v, i2⟩ := r
  subst hr
  exact RelRes_pure rfl

theorem skip_branch_shift {α : Type} (a b : List Nat) (hAB : a.length + b.length < 2 ^ 63)
    (i : Int) (h0 : 0 ≤ i) (h1 : i < b.length) (k : List Nat → α) :
    RelRes (fun (r r2 : α × Int) => r2 = (r.1, (a.length : Int) + r.2))
      (do
        let rest ← sliceFrom b i
        let skippy ← skipModels rest
        if skippy < 0 then throw Fault.ErrInvalidLengthModels
        else if addInt i skippy < 0 then throw Fault.ErrInvalidLengthModels
        else if addInt i skippy > (b.length : Int) then throw Fault.ErrUnexpectedEOF
        else do
          let s ← slice b i (addInt i skippy)
          pure (k s, addInt i skippy))
      (do
        let rest ← sliceFrom (a ++ b) ((a.length : Int) + i)
        let skippy ← skipModels rest
        if skippy < 0 then throw Fault.ErrInvalidLengthModels
        else if addInt ((a.length : Int) + i) skippy < 0 then
          throw Fault.ErrInvalidLengthModels
        else if addInt ((a.length : Int) + i) skippy > ((a ++ b).length : Int) then
          throw Fault.ErrUnexpectedEOF
        else do
          let s ← slice (a ++ b) ((a.length : Int) + i) (addInt ((a.length : Int) + i) skippy)
          pure (k s, addInt ((a.length : Int) + i) skippy)) := by
  rw [sliceFrom_shift a b i h0]
  refine RelRes_bind (RelRes_refl _) (fun rest rest2 hx _ hr => ?_)
  subst hr
  have hs := sliceFrom_safe b i h0 (by omega)
  rw [hx] at hs
  have hrl : rest.length = b.length - i.toNat := by
    have : rest = b.drop i.toNat := hs
    rw [this]; simp
  refine RelRes_bind (RelRes_refl _) (fun skippy skippy2 hy _ hr2 => ?_)
  subst hr2
  have hk := skipModels_safe rest (by omega) (by omega)
  rw [hy] at hk
  obtain ⟨k1, k2, _⟩ := hk
  refine RelRes_ite Iff.rfl (fun _ => RelRes_throw _ _) (fun hL => ?_)
  simp only [List.length_append, Nat.cast_add]
  exact checks_shift a.length b.length hAB i skippy h0 (by omega) (by omega) k2 _ _
    (fun p => do
      let s ← slice b i p
      pure (k s, p))
    (fun p => do
      let s ← slice (a ++ b) ((a.length : Int) + i) p
      pure (k s, p))
    (fun p _ _ => by
      dsimp only
      rw [slice_shift a b i p h0]
      exact RelRes_bind (RelRes_refl _) (fun x y _ _ hxy => by subst hxy; exact RelRes_pure rfl))

/-- An iteration of `Person.Unmarshal` at offset `i` of `b` and the iteration at
offset `|a| + i` of `a ++ b` agree: both fail, or both succeed with the same
record and with positions that differ by `|a|`. -/
theorem Person_unmarshalStep_shift (a b : List Nat) (hAB : a.length + b.length < 2 ^ 63)
    (m : Person) (i : Int) (h0 : 0 ≤ i) (h1 : i < b.length) :
    RelRes (fun (r r2 : Person × Int) => r2 = (r.1, (a.length : Int) + r.2))
      (Person.unmarshalStep b m i) (Person.unmarshalStep (a ++ b) m ((a.length : Int) + i)) := by
  unfold Person.unmarshalStep
  refine RelRes_bind (varintLoop_shift 64 a b 11 i 0 0 h0) (fun r r2 hx _ hr => ?_)
  obtain ⟨wire, i1⟩ := r
  subst hr
  have s := varintLoop_safe 64 b 11 i 0 0 h0 (by omega) (by omega)
  rw [hx] at s
  have s1 : i < i1 := s.1
  have s2 : i1 ≤ b.length := s.2
  dsimp only
  refine RelRes_ite Iff.rfl (fun _ => RelRes_throw _ _) (fun _ => ?_)
  refine RelRes_ite Iff.rfl (fun _ => RelRes_throw _ _) (fun _ => ?_)
  refine RelRes_ite Iff.rfl (fun _ => ?_) (fun _ => ?_)
  · refine RelRes_ite Iff.rfl (fun _ => RelRes_throw _ _) (fun _ => ?_)
    exact bytes_branch_shift a b hAB i1 (by omega) (fun s => ({ m with Name := s } : Person))
  refine RelRes_ite Iff.rfl (fun _ => ?_) (fun _ => ?_)
  · refine RelRes_ite Iff.rfl (fun _ => RelRes_throw _ _) (fun _ => ?_)
    exact int32_branch_shift a b i1 (by omega) (fun v => ({ m with Id := toInt32 v } : Person))
  refine RelRes_ite Iff.rfl (fun _ => ?_) (fun _ => ?_)
  · refine RelRes_ite Iff.rfl (fun _ => RelRes_throw _ _) (fun _ => ?_)
    exact bytes_branch_shift a b hAB i1 (by omega) (fun s => ({ m with Email := s } : Person))
  refine RelRes_ite Iff.rfl (fun _ => ?_) (fun _ => ?_)
  · refine RelRes_ite Iff.rfl (fun _ => RelRes_throw _ _) (fun _ => ?_)
    refine RelRes_bind (varintLoop_shift 64 a b 11 i1 0 0 (by omega)) (fun r r2 hy _ hr => ?_)
    obtain ⟨len, i2⟩ := r
    subst hr
    have t := varintLoop_safe 64 b 11 i1 0 0 (by omega) (by omega) (by omega)
    rw [hy] at t
    have t1 : i1 < i2 := t.1
    have t2 : i2 ≤ b.length := t.2
    dsimp only
    refine RelRes_ite Iff.rfl (fun _ => RelRes_throw _ _) (fun hL => ?_)
    simp only [List.length_append, Nat.cast_add]
    exact checks_shift (R := fun (r r2 : Person × Int) => r2 = (r.1, (a.length : Int) + r.2))
      a.length b.length hAB i2 (toInt64 len) (by omega) t2 (by omega)
      (toInt64_lt _) _ _
      (fun p => do
        let sub ← slice b i2 p
        let phone ← PhoneNumber.Unmarshal
          (match m.Phone with
            | none => PhoneNumber.zero
            | some q => q) sub
        pure ({ m with Phone := some phone }, p))
      (fun p => do
        let sub ← slice (a ++ b) ((a.length : Int) + i2) p
        let phone ← PhoneNumber.Unmarshal
          (match m.Phone with
            | none => PhoneNumber.zero
            | some q => q) sub
        pure ({ m with Phone := some phone }, p))
      (fun p _ _ => by
        dsimp only
        rw [slice_shift a b i2 p (by omega)]
        refine RelRes_bind (RelRes_refl _) (fun x y _ _ hxy => ?_)
        subst hxy
        exact RelRes_bind (RelRes_refl _)
          (fun x y _ _ hxy => by subst hxy; exact RelRes_pure rfl))
  exact skip_branch_shift a b hAB i h0 h1
    (fun s => ({ m with XXX_unrecognized := m.XXX_unrecognized ++ s } : Person))

/-- A run of a decode loop that does not run out of fuel is the same with more
fuel. -/
theorem loopWith_fuel_mono {α : Type} (step : List Nat → α → Int → Res (α × Int))
    (d : List Nat) (f : Nat) : ∀ (m : α) (i : Int) (r : Res α),
    loopWith step f d m i = r → r ≠ .error Fault.outOfFuel →
    ∀ f2, f ≤ f2 → loopWith step f2 d m i = r := by
  induction f with
  | zero =>
    intro m i r h hr
    exact absurd h.symm hr
  | succ f ih =>
    intro m i r h hr f2 hf
    obtain ⟨f3, rfl⟩ : ∃ f3, f2 = f3 + 1 := ⟨f2 - 1, by omega⟩
    rw [loopWith] at h ⊢
    by_cases hlt : i < (d.length : Int)
    · rw [if_pos hlt] at h ⊢
      cases hs : step d m i with
      | error e => rw [hs] at h; exact h
      | ok p =>
        obtain ⟨m2, j⟩ := p
        rw [hs] at h
        exact ih m2 j r h hr f3 (by omega)
    · rw [if_neg hlt] at h ⊢
      exact h

/-- A successful run on `a` is the beginning of the run on `a ++ b`, which goes
on from the end of `a` with the record the run on `a` returned. -/
theorem loopWith_extend {α : Type} (step : List Nat → α → Int → Res (α × Int))
    (a b : List Nat)
    (hstep : ∀ m i m2 j, step a m i = .ok (m2, j) → step (a ++ b) m i = .ok (m2, j))
    (f : Nat) : ∀ (m : α) (i : Int) (r : α), i ≤ a.length → loopWith step f a m i = .ok r →
    ∃ k, 1 ≤ k ∧ ∀ g, loopWith step (f + g) (a ++ b) m i
      = loopWith step (k + g) (a ++ b) r a.length := by
  induction f with
  | zero => intro m i r _ h; cases h
  | succ n ih =>
    intro m i r hi h
    by_cases hlt : i < (a.length : Int)
    · obtain ⟨m2, j, h1, h2, _⟩ := loopWith_succ_inv step n a m i r hlt h
      have hj : j ≤ a.length := by
        by_contra hc
        cases n with
        | zero => cases h2
        | succ n2 =>
          rw [loopWith, if_neg (by omega), if_pos (by omega)] at h2
          cases h2
      obtain ⟨k, hk1, hk⟩ := ih m2 j r hj h2
      refine ⟨k, hk1, fun g => ?_⟩
      have e : n + 1 + g = (n + g) + 1 := by omega
      rw [e, loopWith, if_pos (by simp only [List.length_append]; push_cast; omega),
        hstep m i m2 j h1]
      exact hk g
    · have hi2 : i = a.length := by omega
      rw [loopWith, if_neg hlt, if_neg (by omega)] at h
      have := Except.ok.inj h
      subst this
      subst hi2
      exact ⟨n + 1, by omega, fun g => rfl⟩

/-- The run on `b` and the run on `a ++ b` from the end of `a` agree. -/
theorem loopWith_shift {α : Type} (step : List Nat → α → Int → Res (α × Int))
    (a b : List Nat)
    (hrel : ∀ (m : α) (i : Int), 0 ≤ i → i < b.length →
      RelRes (fun (r r2 : α × Int) => r2 = (r.1, (a.length : Int) + r.2))
        (step b m i) (step (a ++ b) m ((a.length : Int) + i)))
    (hprog : ∀ (m : α) (i : Int) (m2 : α) (j : Int), 0 ≤ i → i < b.length →
      step b m i = .ok (m2, j) → i < j)
    (f : Nat) : ∀ (m : α) (i : Int), 0 ≤ i →
    RelRes Eq (loopWith step f b m i) (loopWith step f (a ++ b) m ((a.length : Int) + i)) := by
  induction f with
  | zero => intro m i _; exact RelRes_throw _ _
  | succ n ih =>
    intro m i h0
    rw [loopWith, loopWith]
    refine RelRes_ite (by simp only [List.length_append]; push_cast; omega) (fun hlt => ?_)
      (fun _ => ?_)
    · refine RelRes_bind (hrel m i h0 hlt) (fun r r2 hx _ hr => ?_)
      obtain ⟨m2, j⟩ := r
      subst hr
      have := hprog m i m2 j h0 hlt hx
      exact ih m2 j (by omega)
    · refine RelRes_ite (by simp only [List.length_append]; push_cast; omega)
        (fun _ => RelRes_throw _ _) (fun _ => RelRes_pure rfl)

theorem RelRes_eq_iff {α : Type} {x y : Res α} (h : RelRes Eq x y) :
    (∀ r, y = .ok r ↔ x = .ok r) ∧ ((∃ e, y = .error e) ↔ ∃ e, x = .error e) := by
  cases x with
  | error e =>
    cases y with
    | error e2 => exact ⟨fun r => by simp, by simp⟩
    | ok b => exact h.elim
  | ok a =>
    cases y with
    | error e2 => exact h.elim
    | ok b =>
      have : a = b := h
      subst this
      exact ⟨fun r => Iff.rfl, by simp⟩

/-- Decoding `a ++ b` after `a` alone decodes successfully agrees with decoding
`b` into the record `a` gave. -/
theorem Person_Unmarshal_append (a b : List Nat) (s s2 : Person)
    (hlen : (a ++ b).length < 2 ^ 63) (ha : Person.Unmarshal s a = .ok s2) :
    RelRes Eq (Person.Unmarshal s2 b) (Person.Unmarshal s (a ++ b)) := by
  have hAB : a.length + b.length < 2 ^ 63 := by simpa using hlen
  unfold Person.Unmarshal at ha ⊢
  rw [Person_unmarshalLoop_eq] at ha ⊢
  rw [Person_unmarshalLoop_eq]
  obtain ⟨k, hk1, hk⟩ := loopWith_extend Person.unmarshalStep a b
    (fun m i m2 j h => Person_unmarshalStep_extend a b m m2 i j h) _ s 0 s2 (by omega) ha
  have e : (a ++ b).length + 1 = a.length + 1 + b.length := by
    simp only [List.length_append]; omega
  rw [e, hk b.length]
  have hsafe := Person_unmarshalLoop_safe b (by omega) (b.length + 1) s2 0 (le_refl _)
    (by omega) (by push_cast; omega)
  rw [Person_unmarshalLoop_eq] at hsafe
  have hne : loopWith Person.unmarshalStep (b.length + 1) b s2 0 ≠ .error Fault.outOfFuel := by
    intro hq
    rw [hq] at hsafe
    have hs2 : Fault.outOfFuel.isError = true := hsafe
    cases hs2
  have hfuel := loopWith_fuel_mono Person.unmarshalStep b (b.length + 1) s2 0 _ rfl hne
    (k + b.length) (by omega)
  rw [← hfuel]
  have hrel := loopWith_shift Person.unmarshalStep a b
    (fun m i h0 h1 => Person_unmarshalStep_shift a b hAB m i h0 h1)
    (fun m i m2 j h0 h1 h => Person_step_progress b (by omega) m i m2 j h0 h1 h)
    (k + b.length) s2 0 (le_refl _)
  simpa using hrel

/-- C23 (concatenation is sequential merge).  For all byte sequences `a` and
`b` and every starting `Person` `s`, if `Unmarshal` of `a` on `s` succeeds with
result `s2`, then `Unmarshal` of `a ++ b` on `s` returns a record `r` exactly
when `Unmarshal` of `b` on `s2` returns `r`, and the one fails exactly when the
other does. -/
theorem C23_concatenation (a b : List Nat) (s s2 : Person)
    (hlen : (a ++ b).length < 2 ^ 63) (ha : Person.Unmarshal s a = .ok s2) :
    (∀ r, Person.Unmarshal s (a ++ b) = .ok r ↔ Person.Unmarshal s2 b = .ok r) ∧
    ((∃ e, Person.Unmarshal s (a ++ b) = .error e) ↔
      ∃ e, Person.Unmarshal s2 b = .error e) :=
  RelRes_eq_iff (Person_Unmarshal_append a b s s2 hlen ha)

theorem C23_concatenation_witness :
    (∀ r, Person.Unmarshal Person.zero (c23First ++ c23Second) = .ok r ↔
      Person.Unmarshal { Person.zero with Name := [65] } c23Second = .ok r) ∧
    ((∃ e, Person.Unmarshal Person.zero (c23First ++ c23Second) = .error e) ↔
      ∃ e, Person.Unmarshal { Person.zero with Name := [65] } c23Second = .error e) :=
  C23_concatenation c23First c23Second Person.zero { Person.zero with Name := [65] }
    (by decide) (by decide)

/-! ### Claim C24: tags with an undeclared field number -/

/-- The `default` case either returns an error with the receiver untouched or
appends the span of the field and moves on. -/
theorem unknownFieldState_cases {σ : Type} (d : List Nat) (m : σ) (i : Int)
    (append : σ → List Nat → σ) :
    (∃ e, unknownFieldState d m i append = (m, .error e)) ∨
    (∃ j s, slice d i j = .ok s ∧ unknownFieldState d m i append = (append m s, .ok j)) := by
  unfold unknownFieldState
  dsimp only
  cases h1 : sliceFrom d i with
  | error e => exact Or.inl ⟨e, rfl⟩
  | ok rest =>
    dsimp only
    cases h2 : skipModels rest with
    | error e => exact Or.inl ⟨e, rfl⟩
    | ok skippy =>
      dsimp only
      by_cases c1 : skippy < 0
      · rw [if_pos c1]; exact Or.inl ⟨_, rfl⟩
      rw [if_neg c1]
      by_cases c2 : addInt i skippy < 0
      · rw [if_pos c2]; exact Or.inl ⟨_, rfl⟩
      rw [if_neg c2]
      by_cases c3 : addInt i skippy > (d.length : Int)
      · rw [if_pos c3]; exact Or.inl ⟨_, rfl⟩
      rw [if_neg c3]
      cases hs : slice d i (addInt i skippy) with
      | error e => exact Or.inl ⟨e, rfl⟩
      | ok s => exact Or.inr ⟨_, s, hs, rfl⟩

/-- An iteration of `Person.Unmarshal` at a tag whose `int32` field number is
not 1, 2, 3 or 4 either fails with the receiver untouched or appends the span
of the field to the unrecognized bytes. -/
theorem Person_stepState_undeclared (d : List Nat) (m : Person) (o : Int) (fn : Int)
    (hf : fieldNumAt d o = some fn) (h1 : fn ≠ 1) (h2 : fn ≠ 2) (h3 : fn ≠ 3) (h4 : fn ≠ 4) :
    (∃ e, Person.unmarshalStepState d m o = (m, .error e)) ∨
    (∃ j s, slice d o j = .ok s ∧ Person.unmarshalStepState d m o
      = ({ m with XXX_unrecognized := m.XXX_unrecognized ++ s }, .ok j)) := by
  unfold fieldNumAt at hf
  cases hr : varintLoop 64 11 d o 0 0 with
  | error e => rw [hr] at hf; cases hf
  | ok r =>
    obtain ⟨wire, i1⟩ := r
    rw [hr] at hf
    have hfn : toInt32 (wire >>> 3) = fn := Option.some.inj hf
    unfold Person.unmarshalStepState
    simp only [hr, hfn]
    by_cases c1 : wire &&& 0x7 = 4
    · rw [if_pos c1]; exact Or.inl ⟨_, rfl⟩
    rw [if_neg c1]
    by_cases c2 : fn ≤ 0
    · rw [if_pos c2]; exact Or.inl ⟨_, rfl⟩
    rw [if_neg c2, if_neg h1, if_neg h2, if_neg h3, if_neg h4]
    exact unknownFieldState_cases d m o _

/-- A tag whose 64-bit value shifted right by 3 is `2^32 + 1`, not in 1..4, is
decoded as field 1 and sets `Name`. -/
theorem C24_counterexample :
    tagNumberAt c24Buf 0 = some (2 ^ 32 + 1) ∧
    Person.Unmarshal Person.zero c24Buf = .ok { Person.zero with Name := [0x41] } ∧
    ({ Person.zero with Name := [0x41] } : Person).Name ≠ Person.zero.Name := by
  decide

/-- C24 (only declared field numbers touch declared fields), amended.  For
every buffer and every tag in it whose field number, the tag value shifted right
by 3 and converted to `int32` as the decoder computes it, is not 1, 2, 3 or 4,
`Person.Unmarshal` does not modify `Name`, `Id`, `Email` or `Phone` when it
processes that tag: the iteration either fails and leaves the receiver as it
was, or appends the bytes of the field to `XXX_unrecognized` and changes
nothing else.  For a tag the decode loop reaches, the call then either fails
with the receiver as it was before the tag, or goes on with the record that
differs only by the appended bytes. -/
theorem C24_undeclared_frame (d : List Nat) (o : Int) (fn : Int)
    (hf : fieldNumAt d o = some fn) (h1 : fn ≠ 1) (h2 : fn ≠ 2) (h3 : fn ≠ 3) (h4 : fn ≠ 4) :
    (∀ m : Person,
      (Person.unmarshalStepState d m o).1.Name = m.Name ∧
      (Person.unmarshalStepState d m o).1.Id = m.Id ∧
      (Person.unmarshalStepState d m o).1.Email = m.Email ∧
      (Person.unmarshalStepState d m o).1.Phone = m.Phone ∧
      ((∃ e, Person.unmarshalStepState d m o = (m, .error e)) ∨
        (∃ j s, slice d o j = .ok s ∧ Person.unmarshalStepState d m o
          = ({ m with XXX_unrecognized := m.XXX_unrecognized ++ s }, .ok j)))) ∧
    (∀ m0 mo : Person, (o, mo) ∈ Person.trace m0 d →
      (∃ e, Person.UnmarshalState m0 d = (mo, some e)) ∨
      (∃ j s, slice d o j = .ok s ∧ Person.unmarshalStep d mo o
        = .ok ({ mo with XXX_unrecognized := mo.XXX_unrecognized ++ s }, j))) := by
  refine ⟨?_, ?_⟩
  · intro m
    have h := Person_stepState_undeclared d m o fn hf h1 h2 h3 h4
    rcases h with ⟨e, he⟩ | ⟨j, s, hs, he⟩
    · rw [he]; exact ⟨rfl, rfl, rfl, rfl, Or.inl ⟨e, rfl⟩⟩
    · rw [he]; exact ⟨rfl, rfl, rfl, rfl, Or.inr ⟨j, s, hs, rfl⟩⟩
  · intro m0 mo ho
    rcases Person_stepState_undeclared d mo o fn hf h1 h2 h3 h4 with ⟨e, he⟩ | ⟨j, s, hs, he⟩
    · exact Or.inl ⟨e, Person_loopState_error d e mo _ m0 0 o mo ho he⟩
    · refine Or.inr ⟨j, s, hs, ?_⟩
      rw [← Person_unmarshalStep_state, he]
      rfl

theorem C24_undeclared_frame_witness :
    (∃ e, Person.UnmarshalState Person.zero c24Unknown
      = ({ Person.zero with XXX_unrecognized := [0x28, 0x01] }, some e)) ∨
    (∃ j s, slice c24Unknown 2 j = .ok s ∧
      Person.unmarshalStep c24Unknown { Person.zero with XXX_unrecognized := [0x28, 0x01] } 2
        = .ok ({ Person.zero with XXX_unrecognized := [0x28, 0x01] ++ s }, j)) :=
  (C24_undeclared_frame c24Unknown 2 0 (by decide) (by decide) (by decide) (by decide)
    (by decide)).2 Person.zero { Person.zero with XXX_unrecognized := [0x28, 0x01] } (by decide)

/-! ### Claim C25: the width of `Id` -/

theorem varintValue_lt (bs : List Nat) : varintValue bs < 128 ^ bs.length := by
  induction bs with
  | nil => simp [varintValue]
  | cons b bs ih =>
    rw [varintValue_cons, and_0x7f, List.length_cons, pow_succ]
    have := Nat.mod_lt b (show 0 < 128 by norm_num)
    omega

/-- The varint loop on any well-formed varint: continuation bytes `cs`, then a
byte `b` without the continuation bit. -/
theorem varintLoop_bytes (w : Nat) : ∀ (cs : List Nat) (b k A fuel : Nat)
    (pre post : List Nat) (i : Int), i = pre.length → cs.length + 1 ≤ fuel →
    k + cs.length ≤ 9 → A < 2 ^ (7 * k) → (∀ c ∈ cs, 128 ≤ c) → b < 128 →
    varintLoop w fuel (pre ++ (cs ++ b :: post)) i (7 * k) (A % 2 ^ w)
      = .ok ((A + varintValue (cs ++ [b]) * 2 ^ (7 * k)) % 2 ^ w, i + cs.length + 1) := by
  intro cs
  induction cs with
  | nil =>
    intro b k A fuel pre post i hi hf hk hA _ hb
    obtain ⟨f, rfl⟩ : ∃ f, fuel = f + 1 := ⟨fuel - 1, by omega⟩
    rw [varintLoop, if_neg (by omega), if_neg (by simp [hi])]
    simp only [List.nil_append]
    rw [getAt_append pre post b i hi]
    simp only [ok_bind]
    rw [if_pos hb, acc_step w (7 * k) A _ hA, and_0x7f]
    have : varintValue [b] = b % 128 := by rw [varintValue_cons]; simp [varintValue, and_0x7f]
    rw [this]
    simp
  | cons c cs ih =>
    intro b k A fuel pre post i hi hf hk hA hcs hb
    obtain ⟨f, rfl⟩ : ∃ f, fuel = f + 1 := ⟨fuel - 1, by simp at hf; omega⟩
    simp only [List.length_cons] at hf hk
    have hc := hcs c (List.mem_cons_self _ _)
    rw [varintLoop, if_neg (by omega), if_neg (by simp [hi]; omega)]
    simp only [List.cons_append]
    rw [getAt_append pre _ c i hi]
    simp only [ok_bind]
    rw [if_neg (by omega), acc_step w (7 * k) A _ hA, and_0x7f]
    have hA2 : A + c % 128 * 2 ^ (7 * k) < 2 ^ (7 * (k + 1)) := by
      have h1 : c % 128 < 128 := Nat.mod_lt _ (by norm_num)
      have h2 : (2 : Nat) ^ (7 * (k + 1)) = 128 * 2 ^ (7 * k) := by
        rw [Nat.mul_add, pow_add]; norm_num; ring
      rw [h2]
      have : (c % 128 + 1) * 2 ^ (7 * k) ≤ 128 * 2 ^ (7 * k) :=
        Nat.mul_le_mul_right _ (by omega)
      rw [Nat.add_mul, Nat.one_mul] at this
      omega
    have h := ih b (k + 1) (A + c % 128 * 2 ^ (7 * k)) f (pre ++ [c]) post (i + 1)
      (by simp [hi]) (by omega) (by omega) hA2
      (fun x hx => hcs x (List.mem_cons_of_mem _ hx)) hb
    have e1 : (7 * k + 7) = 7 * (k + 1) := by ring
    rw [e1]
    simp only [List.append_assoc, List.singleton_append] at h
    rw [h]
    have e2 : varintValue (c :: (cs ++ [b])) = c % 128 + 128 * varintValue (cs ++ [b]) := by
      rw [varintValue_cons, and_0x7f]
    rw [e2]
    have e3 : (2 : Nat) ^ (7 * (k + 1)) = 128 * 2 ^ (7 * k) := by
      rw [Nat.mul_add, pow_add]; norm_num; ring
    rw [e3]
    congr 2
    · congr 1; ring
    · simp only [List.length_cons]; push_cast; ring

/-- One iteration of `Person.Unmarshal` on an `Id` field carrying any
well-formed varint. -/
theorem Person_unmarshalStep_id (cs : List Nat) (b : Nat) (hcs : ∀ c ∈ cs, 128 ≤ c)
    (hb : b < 128) (hlen : cs.length ≤ 9) (pre post : List Nat) (m : Person) :
    Person.unmarshalStep (pre ++ 0x10 :: (cs ++ b :: post)) m pre.length
      = .ok ({ m with Id := toInt32 (varintValue (cs ++ [b])) },
          (pre.length : Int) + 2 + cs.length) := by
  unfold Person.unmarshalStep
  rw [varintLoop_tag 16 (by norm_num) _ pre _ pre.length rfl rfl]
  simp only [ok_bind]
  rw [if_neg (by decide), if_neg (by decide), if_neg (by decide), if_pos (by decide),
    if_neg (by decide)]
  have h := varintLoop_bytes 32 cs b 0 0 11 (pre ++ [16]) post (pre.length + 1) (by simp)
    (by omega) (by omega) (by norm_num) hcs hb
  simp only [List.append_assoc, List.singleton_append, Nat.mul_zero, pow_zero, Nat.mul_one,
    Nat.zero_mod, Nat.zero_add] at h
  rw [h]
  simp only [ok_bind, pure_ok, toInt32_mod]
  congr 2
  ring

theorem toInt32_mod64 (v : Nat) : toInt32 (v % 2 ^ 64) = toInt32 v := by
  unfold toInt32
  have : v % 2 ^ 64 % 2 ^ 32 = v % 2 ^ 32 :=
    Nat.mod_mod_of_dvd v (Nat.pow_dvd_pow 2 (by norm_num))
  rw [this]

theorem toInt32_range (n : Nat) :
    -2 ^ 31 ≤ toInt32 n ∧ toInt32 n < 2 ^ 31 ∧ (toInt32 n - (n : Int)) % 2 ^ 32 = 0 := by
  unfold toInt32
  have h1 := Nat.mod_lt n (show 0 < 2 ^ 32 by norm_num)
  have h2 := Nat.div_add_mod n (2 ^ 32)
  split <;> refine ⟨by omega, by omega, ?_⟩ <;> omega

theorem sovModels_negative (x : Int) (h1 : -2 ^ 31 ≤ x) (h2 : x < 0) :
    sovModels (u64 x) = 10 := by
  have hu := u64_lt x
  have e : u64 x = (2 ^ 64 + x).toNat := by
    rw [u64_eq_signExtend64 x h1 (by omega)]
    unfold signExtend64
    rw [if_neg (by omega)]
  have a := sovModels_le (u64 x) 8 hu
  have b := sovModels_le (u64 x) 9 hu
  have c : ¬ u64 x < 128 ^ (8 + 1) := by rw [e]; norm_num; omega
  have d : u64 x < 128 ^ (9 + 1) := by rw [e]; norm_num; omega
  have := b.mpr d
  have := mt a.mp c
  omega

/-- C25 (32-bit truncation of varint values).  Let a varint of at most ten
bytes (at most nine bytes with the continuation bit, then one without) have the
value `v` as an unsigned 64-bit number.  Carried by `Person` field 2, anywhere in
a buffer, it is decoded without error and `Id` becomes the low 32 bits of `v`
read as a two's-complement `int32`: a value in the `int32` range that differs
from `v` by a multiple of `2^32`.  Consequently a negative `Id`, which `Marshal`
writes as the 10-byte varint of its 64-bit sign extension after the tag, 11
bytes in all as counted by `Size`, decodes back to the same `Id`. -/
theorem C25_int32_truncation (cs : List Nat) (b : Nat) (hcs : ∀ c ∈ cs, 128 ≤ c)
    (hb : b < 128) (hlen : cs.length ≤ 9) :
    (∀ (pre post : List Nat) (m : Person),
      Person.unmarshalStep (pre ++ 0x10 :: (cs ++ b :: post)) m pre.length
        = .ok ({ m with Id := toInt32 (varintValue (cs ++ [b]) % 2 ^ 64) },
            (pre.length : Int) + 2 + cs.length)) ∧
    (∀ m : Person, Person.Unmarshal m (0x10 :: (cs ++ [b]))
      = .ok { m with Id := toInt32 (varintValue (cs ++ [b]) % 2 ^ 64) }) ∧
    (-2 ^ 31 ≤ toInt32 (varintValue (cs ++ [b]) % 2 ^ 64) ∧
      toInt32 (varintValue (cs ++ [b]) % 2 ^ 64) < 2 ^ 31 ∧
      (toInt32 (varintValue (cs ++ [b]) % 2 ^ 64)
        - ((varintValue (cs ++ [b]) % 2 ^ 64 : Nat) : Int)) % 2 ^ 32 = 0) ∧
    (∀ x : Int, -2 ^ 31 ≤ x → x < 0 →
      ({ Person.zero with Id := x } : Person).Marshal = .ok (0x10 :: varint (signExtend64 x)) ∧
      (varint (signExtend64 x)).length = 10 ∧
      ({ Person.zero with Id := x } : Person).Size = 11 ∧
      Person.Unmarshal Person.zero (0x10 :: varint (signExtend64 x))
        = .ok { Person.zero with Id := x }) := by
  have hstep := fun pre post m => Person_unmarshalStep_id cs b hcs hb hlen pre post m
  refine ⟨?_, ?_, toInt32_range _, ?_⟩
  · intro pre post m
    rw [toInt32_mod64]
    exact hstep pre post m
  · intro m
    rw [toInt32_mod64]
    have h := hstep [] [] m
    simp only [List.nil_append, List.length_nil, Nat.cast_zero, zero_add] at h
    unfold Person.Unmarshal
    have hl : (0x10 :: (cs ++ [b])).length + 1 = (cs.length + 1) + 1 + 1 := by simp
    rw [hl, Person.unmarshalLoop, if_pos (by simp; omega), h]
    simp only [ok_bind]
    rw [Person.unmarshalLoop, if_neg (by simp; omega), if_neg (by simp; omega)]
    rfl
  · intro x h1 h2
    have hu := u64_eq_signExtend64 x h1 (by omega)
    have hs := sovModels_negative x h1 h2
    have hl : (varint (u64 x)).length = 10 := by
      rw [← sovModels_eq_length _ (u64_lt x)]; exact hs
    have hx : x ≠ 0 := by omega
    refine ⟨?_, by rw [← hu]; exact hl, ?_, ?_⟩
    · rw [Person_Marshal_eq, ← hu]
      simp [Person.wire, Person.zero, hx, phoneWire]
    · rw [Person_Size_eq]
      simp [Person.wire, Person.zero, hx, phoneWire, hl]
    · rw [← hu]
      have h := Person_Unmarshal_fields [PField.id (u64 x)] Person.zero
        (by intro f hf; simp only [List.mem_singleton] at hf; subst hf; exact u64_lt x)
        (by simp [PField.encodeAll, PField.encode, hl])
      simpa [PField.encodeAll, PField.encode, tagByte, Person.applyField,
        toInt32_u64 x h1 (by omega)] using h

theorem C25_int32_truncation_witness :
    Person.Unmarshal Person.zero (0x10 :: (c25Bytes ++ [0x01]))
      = .ok { Person.zero with Id := toInt32 (varintValue (c25Bytes ++ [0x01]) % 2 ^ 64) } :=
  (C25_int32_truncation c25Bytes 0x01 (by decide) (by decide) (by decide)).2.1 Person.zero

/-! ### Claim C26: `XXX_Marshal` -/

/-- What `XXX_Marshal` returns on its fast path when the capacity suffices: the
first `Size()` bytes of the storage after the encoding has been written into
its last `Size()` bytes. -/
theorem Person_XXX_Marshal_spec (tm : ByteSlice → Person → Bool → Res (List Nat))
    (m : Person) (b : ByteSlice) (hcap : m.Size ≤ b.data.length) :
    Person.XXX_Marshal tm m b false
      = .ok ((b.data.take (b.data.length - m.Size) ++ m.wire).take m.Size) := by
  rw [Person_Size_eq] at hcap ⊢
  unfold Person.XXX_Marshal
  simp only [Bool.false_eq_true, if_false]
  rw [Person_MarshalToSizedBuffer_spec m b.data hcap]
  simp only [ok_bind]
  unfold sliceTo
  rw [if_pos (by simp)]
  simp

/-- With a capacity of exactly `Size()` the fast path of `XXX_Marshal` returns
the bytes of `Marshal`. -/
theorem Person_XXX_Marshal_exact (tm : ByteSlice → Person → Bool → Res (List Nat))
    (m : Person) (b : ByteSlice) (hcap : b.data.length = m.Size) :
    Person.XXX_Marshal tm m b false = m.Marshal := by
  rw [Person_XXX_Marshal_spec tm m b (by omega), Person_Marshal_eq, hcap, Nat.sub_self]
  rw [Person_Size_eq]
  simp

/-- C26 (`XXX_Marshal` agrees with `Marshal`), refuted on the code.  For the
`Person` with `Name` "A", whose `Size()` is 3, and an empty slice of capacity 4
over zeroed storage, `XXX_Marshal(b, false)` returns the bytes `00 0A 01`, the
first three bytes of the storage, while `Marshal` returns `0A 01 41`, which
`MarshalToSizedBuffer` has written into the last three bytes. -/
theorem C26_failing_input :
    c26Person.Size = 3 ∧ c26Person.Size ≤ c26Buf.data.length ∧
    c26Person.Marshal = .ok [0x0A, 0x01, 0x41] ∧
    (∀ tm, Person.XXX_Marshal tm c26Person c26Buf false = .ok [0x00, 0x0A, 0x01]) ∧
    (∀ tm, Person.XXX_Marshal tm c26Person c26Buf false ≠ c26Person.Marshal) := by
  refine ⟨by decide, by decide, by decide, fun tm => ?_, fun tm => ?_⟩
  · rw [Person_XXX_Marshal_spec tm c26Person c26Buf (by decide)]
    decide
  · rw [Person_XXX_Marshal_spec tm c26Person c26Buf (by decide)]
    decide

/-! ### Decoding on a bounded stack -/

theorem StackRel_bind {α β : Type} {q : Prop} {x y : Res α} {f g : α → Res β}
    (hxy : StackRel q x y) (hfg : ∀ a, y = .ok a → StackRel q (f a) (g a)) :
    StackRel q (x >>= f) (y >>= g) := by
  rcases hxy with h | ⟨hq, h⟩
  · subst h
    cases x with
    | error e => exact Or.inl rfl
    | ok a => exact hfg a rfl
  · rw [h]
    exact Or.inr ⟨hq, rfl⟩

theorem StackRel_ite {α : Type} {q c : Prop} [Decidable c] {x x2 y y2 : Res α}
    (h1 : c → StackRel q x y) (h2 : ¬ c → StackRel q x2 y2) :
    StackRel q (if c then x else x2) (if c then y else y2) := by
  by_cases h : c
  · rw [if_pos h, if_pos h]; exact h1 h
  · rw [if_neg h, if_neg h]; exact h2 h

theorem StackRel_mono {α : Type} {q q2 : Prop} {x y : Res α} (h : q → q2)
    (hxy : StackRel q x y) : StackRel q2 x y := by
  rcases hxy with h1 | ⟨hq, h1⟩
  · exact Or.inl h1
  · exact Or.inr ⟨h hq, h1⟩

/-- With room for the whole run the bounded stack makes no difference. -/
theorem StackRel_eq {α : Type} {q : Prop} {x y : Res α} (hxy : StackRel q x y) (hq : ¬ q) :
    x = y := by
  rcases hxy with h1 | ⟨h, _⟩
  · exact h1
  · exact absurd h hq

/-- The group loop of `skipModels` with the recursive call on a bounded stack. -/
theorem skipGroupLoop_stack (skip skip2 : List Nat → Res Int) (q : Prop) (d : List Nat)
    (hlen : d.length < 2 ^ 63)
    (hrel : ∀ sub : List Nat, 1 ≤ sub.length → sub.length < d.length →
      StackRel q (skip sub) (skip2 sub))
    (hsafe : ∀ sub : List Nat, 1 ≤ sub.length → sub.length < d.length →
      Safe (skip2 sub) (SkipResult sub))
    (fuel : Nat) : ∀ (i : Int), 1 ≤ i →
    StackRel q (skipGroupLoop skip fuel d i) (skipGroupLoop skip2 fuel d i) := by
  induction fuel with
  | zero => intro i _; exact Or.inl rfl
  | succ n ih =>
    intro i h1
    rw [skipGroupLoop, skipGroupLoop]
    refine StackRel_bind (Or.inl rfl) (fun r hr => ?_)
    obtain ⟨innerWire, i1⟩ := r
    have hv := varintLoop_safe 64 d 11 i 0 0 (by omega) (by omega) (by omega)
    rw [hr] at hv
    simp only [Safe] at hv
    simp only
    refine StackRel_ite (fun _ => Or.inl rfl) (fun _ => ?_)
    refine StackRel_bind (Or.inl rfl) (fun sub hsub => ?_)
    have hs := sliceFrom_safe d i (by omega) (by omega)
    rw [hsub] at hs
    simp only [Safe] at hs
    have hsl : sub.length = d.length - i.toNat := by rw [hs]; simp
    refine StackRel_bind (hrel sub (by omega) (by omega)) (fun next hnext => ?_)
    have hn := hsafe sub (by omega) (by omega)
    rw [hnext] at hn
    obtain ⟨hn1, hn2, hn3⟩ := hn
    refine StackRel_ite (fun _ => Or.inl rfl) (fun hneg => ?_)
    by_cases hs : i + next < 2 ^ 63
    · have e := addInt_eq i next (by omega) hs
      exact ih _ (by omega)
    · have e := addInt_wrap i next (by omega) (by omega)
      omega

/-- Function `skipModels` on a stack with room for `stack` frames returns what
it returns on a stack that never runs out, or, only when the input has more
bytes than the stack has room for frames, overflows the stack. -/
theorem skipModelsStack_fuel (stack : Nat) : ∀ (d : List Nat) (f : Nat), 1 ≤ d.length →
    d.length < 2 ^ 63 → d.length ≤ f →
    StackRel (stack < d.length) (skipModelsStack stack d) (skipModelsFuel f d) := by
  induction stack with
  | zero => intro d f h1 _ _; exact Or.inr ⟨by omega, rfl⟩
  | succ n ih =>
    intro d f h1 hlen hf
    obtain ⟨f2, rfl⟩ : ∃ f2, f = f2 + 1 := ⟨f - 1, by omega⟩
    rw [skipModelsStack, skipModelsFuel]
    simp only
    refine StackRel_ite (fun _ => ?_) (fun _ => Or.inl rfl)
    refine StackRel_bind (Or.inl rfl) (fun r hr => ?_)
    obtain ⟨wire, i1⟩ := r
    have hv := varintLoop_safe 64 d 11 0 0 0 (by omega) (by omega) (by omega)
    rw [hr] at hv
    simp only [Safe] at hv
    simp only
    refine StackRel_ite (fun _ => Or.inl rfl) (fun _ => ?_)
    refine StackRel_ite (fun _ => Or.inl rfl) (fun _ => ?_)
    refine StackRel_ite (fun _ => Or.inl rfl) (fun _ => ?_)
    refine StackRel_ite (fun _ => ?_) (fun _ => Or.inl rfl)
    exact skipGroupLoop_stack _ _ _ d hlen
      (fun sub hs1 hs2 => StackRel_mono (by omega) (ih sub f2 hs1 (by omega) (by omega)))
      (fun sub hs1 hs2 => skipModelsFuel_safe f2 sub hs1 (by omega) (by omega)) _ i1 (by omega)

theorem skipModelsStack_skipModels (stack : Nat) (d : List Nat) (h1 : 1 ≤ d.length)
    (hlen : d.length < 2 ^ 63) :
    StackRel (stack < d.length) (skipModelsStack stack d) (skipModels d) :=
  skipModelsStack_fuel stack d _ h1 hlen (by omega)

/-- The tail of a decoding step for an unknown field, on a bounded stack. -/
theorem skip_branch_stack {α : Type} (stack : Nat) (d : List Nat) (hlen : d.length < 2 ^ 63)
    (i : Int) (h0 : 0 ≤ i) (h1 : i < d.length) (k : List Nat → Int → α) :
    StackRel (stack < d.length) (do
      let rest ← sliceFrom d i
      let skippy ← skipModelsStack stack rest
      if skippy < 0 then throw Fault.ErrInvalidLengthModels
      else if addInt i skippy < 0 then throw Fault.ErrInvalidLengthModels
      else if addInt i skippy > (d.length : Int) then throw Fault.ErrUnexpectedEOF
      else do
        let s ← slice d i (addInt i skippy)
        pure (k s (addInt i skippy), addInt i skippy))
      (do
      let rest ← sliceFrom d i
      let skippy ← skipModels rest
      if skippy < 0 then throw Fault.ErrInvalidLengthModels
      else if addInt i skippy < 0 then throw Fault.ErrInvalidLengthModels
      else if addInt i skippy > (d.length : Int) then throw Fault.ErrUnexpectedEOF
      else do
        let s ← slice d i (addInt i skippy)
        pure (k s (addInt i skippy), addInt i skippy)) := by
  refine StackRel_bind (Or.inl rfl) (fun rest hrest => ?_)
  have hs := sliceFrom_safe d i h0 (by omega)
  rw [hrest] at hs
  simp only [Safe] at hs
  have hrl : rest.length = d.length - i.toNat := by rw [hs]; simp
  exact StackRel_bind
    (StackRel_mono (by omega) (skipModelsStack_skipModels stack rest (by omega) (by omega)))
    (fun skippy _ => Or.inl rfl)

/-- One iteration of the `PhoneNumber` loop on a bounded stack. -/
theorem PhoneNumber_unmarshalStepStack_rel (stack : Nat) (d : List Nat)
    (hlen : d.length < 2 ^ 63) (m : PhoneNumber) (i : Int) (h0 : 0 ≤ i) :
    StackRel (stack < d.length) (PhoneNumber.unmarshalStepStack stack d m i)
      (PhoneNumber.unmarshalStep d m i) := by
  unfold PhoneNumber.unmarshalStepStack PhoneNumber.unmarshalStep
  refine StackRel_bind (Or.inl rfl) (fun r hr => ?_)
  obtain ⟨wire, i1⟩ := r
  have hv := varintLoop_safe 64 d 11 i 0 0 h0 (by omega) (by omega)
  rw [hr] at hv
  simp only [Safe] at hv
  simp only
  refine StackRel_ite (fun _ => Or.inl rfl) (fun _ => ?_)
  refine StackRel_ite (fun _ => Or.inl rfl) (fun _ => ?_)
  refine StackRel_ite (fun _ => Or.inl rfl) (fun _ => ?_)
  refine StackRel_ite (fun _ => Or.inl rfl) (fun _ => ?_)
  exact skip_branch_stack stack d hlen i h0 (by omega)
    (fun s _ => { m with XXX_unrecognized := m.XXX_unrecognized ++ s })

/-- A decode loop whose step runs on a bounded stack. -/
theorem loopWith_stack {α : Type} (step step2 : List Nat → α → Int → Res (α × Int)) (q : Prop)
    (d : List Nat)
    (hrel : ∀ (m : α) (i : Int), 0 ≤ i → StackRel q (step d m i) (step2 d m i))
    (hprog : ∀ (m : α) (i : Int) (m2 : α) (j : Int), 0 ≤ i → i < d.length →
      step2 d m i = .ok (m2, j) → i < j)
    (fuel : Nat) : ∀ (m : α) (i : Int), 0 ≤ i →
    StackRel q (loopWith step fuel d m i) (loopWith step2 fuel d m i) := by
  induction fuel with
  | zero => intro m i _; exact Or.inl rfl
  | succ n ih =>
    intro m i h0
    rw [loopWith, loopWith]
    refine StackRel_ite (fun hlt => ?_) (fun _ => Or.inl rfl)
    refine StackRel_bind (hrel m i h0) (fun r hr => ?_)
    obtain ⟨m2, j⟩ := r
    have := hprog m i m2 j h0 hlt hr
    exact ih m2 j (by omega)

/-- Method `(*PhoneNumber).Unmarshal` on a bounded stack returns what it returns
on a stack that never runs out, or, only when the input has more bytes than the
stack has room for frames of `skipModels`, overflows the stack. -/
theorem PhoneNumber_UnmarshalStack_rel (stack : Nat) (d : List Nat) (hlen : d.length < 2 ^ 63)
    (m : PhoneNumber) :
    StackRel (stack < d.length) (PhoneNumber.UnmarshalStack stack m d)
      (PhoneNumber.Unmarshal m d) := by
  unfold PhoneNumber.UnmarshalStack PhoneNumber.Unmarshal
  rw [PhoneNumber_unmarshalLoop_eq]
  refine loopWith_stack _ _ _ d
    (fun m i h0 => PhoneNumber_unmarshalStepStack_rel stack d hlen m i h0)
    (fun m i m2 j h0 h1 h => ?_) _ m 0 (le_refl _)
  have := PhoneNumber_unmarshalStep_safe d hlen m i h0 h1
  rw [h] at this
  exact this.1

/-- One iteration of the `Person` loop on a bounded stack. -/
theorem Person_unmarshalStepStack_rel (stack phoneStack : Nat) (d : List Nat)
    (hlen : d.length < 2 ^ 63) (m : Person) (i : Int) (h0 : 0 ≤ i) :
    StackRel (stack < d.length ∨ phoneStack < d.length)
      (Person.unmarshalStepStack stack phoneStack d m i) (Person.unmarshalStep d m i) := by
  unfold Person.unmarshalStepStack Person.unmarshalStep
  refine StackRel_bind (Or.inl rfl) (fun r hr => ?_)
  obtain ⟨wire, i1⟩ := r
  have hv := varintLoop_safe 64 d 11 i 0 0 h0 (by omega) (by omega)
  rw [hr] at hv
  simp only [Safe] at hv
  simp only
  refine StackRel_ite (fun _ => Or.inl rfl) (fun _ => ?_)
  refine StackRel_ite (fun _ => Or.inl rfl) (fun _ => ?_)
  refine StackRel_ite (fun _ => Or.inl rfl) (fun _ => ?_)
  refine StackRel_ite (fun _ => Or.inl rfl) (fun _ => ?_)
  refine StackRel_ite (fun _ => Or.inl rfl) (fun _ => ?_)
  refine StackRel_ite (fun _ => ?_) (fun _ => ?_)
  · refine StackRel_ite (fun _ => Or.inl rfl) (fun _ => ?_)
    refine StackRel_bind (Or.inl rfl) (fun r2 hr2 => ?_)
    obtain ⟨msglen, i2⟩ := r2
    simp only
    refine StackRel_ite (fun _ => Or.inl rfl) (fun _ => ?_)
    refine StackRel_ite (fun _ => Or.inl rfl) (fun _ => ?_)
    refine StackRel_ite (fun _ => Or.inl rfl) (fun _ => ?_)
    refine StackRel_bind (Or.inl rfl) (fun sub hsub => ?_)
    have hsl := slice_length d _ _ sub hsub
    exact StackRel_bind
      (StackRel_mono (fun h => Or.inr (by omega))
        (PhoneNumber_UnmarshalStack_rel phoneStack sub (by omega) _))
      (fun ph _ => Or.inl rfl)
  · exact StackRel_mono Or.inl (skip_branch_stack stack d hlen i h0 (by omega)
      (fun s _ => { m with XXX_unrecognized := m.XXX_unrecognized ++ s }))

/-- Method `(*Person).Unmarshal` on a bounded stack returns what it returns on a
stack that never runs out, or, only when the input has more bytes than the
stack has room for frames of `skipModels`, overflows the stack. -/
theorem Person_UnmarshalStack_rel (stack phoneStack : Nat) (d : List Nat)
    (hlen : d.length < 2 ^ 63) (m : Person) :
    StackRel (stack < d.length ∨ phoneStack < d.length)
      (Person.UnmarshalStack stack phoneStack m d) (Person.Unmarshal m d) := by
  unfold Person.UnmarshalStack Person.Unmarshal
  rw [Person_unmarshalLoop_eq]
  refine loopWith_stack _ _ _ d
    (fun m i h0 => Person_unmarshalStepStack_rel stack phoneStack d hlen m i h0)
    (fun m i m2 j h0 h1 h => ?_) _ m 0 (le_refl _)
  have := Person_unmarshalStep_safe d hlen m i h0 h1
  rw [h] at this
  exact this.1

/-- With room on the stack for as many frames of `skipModels` as the input has
bytes, decoding is total and panic free: both methods return what they return
on a stack that never runs out, a record or an error value of the package. -/
theorem UnmarshalStack_total (stack phoneStack : Nat) (d : List Nat) (hlen : d.length < 2 ^ 63)
    (h1 : d.length ≤ stack) (h2 : d.length ≤ phoneStack) (m : Person) (p : PhoneNumber) :
    Person.UnmarshalStack stack phoneStack m d = Person.Unmarshal m d ∧
    PhoneNumber.UnmarshalStack stack p d = PhoneNumber.Unmarshal p d ∧
    ((∃ r, Person.UnmarshalStack stack phoneStack m d = .ok r) ∨
      (∃ e, Person.UnmarshalStack stack phoneStack m d = .error e ∧ e.isError = true)) ∧
    ((∃ r, PhoneNumber.UnmarshalStack stack p d = .ok r) ∨
      (∃ e, PhoneNumber.UnmarshalStack stack p d = .error e ∧ e.isError = true)) := by
  have e1 := StackRel_eq (Person_UnmarshalStack_rel stack phoneStack d hlen m) (by omega)
  have e2 := StackRel_eq (PhoneNumber_UnmarshalStack_rel stack d hlen p) (by omega)
  refine ⟨e1, e2, ?_, ?_⟩
  · rw [e1]
    rcases (Person_Unmarshal_safe m d hlen).cases with ⟨a, ha, _⟩ | h
    · exact Or.inl ⟨a, ha⟩
    · exact Or.inr h
  · rw [e2]
    rcases (PhoneNumber_Unmarshal_safe p d hlen).cases with ⟨a, ha, _⟩ | h
    · exact Or.inl ⟨a, ha⟩
    · exact Or.inr h

/-- On any stack a call of either method ends in one of three ways: with the
record, with an error value of the package, both as on a stack that never runs
out, or with the stack overflow. -/
theorem UnmarshalStack_outcomes (stack phoneStack : Nat) (d : List Nat)
    (hlen : d.length < 2 ^ 63) (m : Person) (p : PhoneNumber) :
    (Person.UnmarshalStack stack phoneStack m d = Person.Unmarshal m d ∨
      Person.UnmarshalStack stack phoneStack m d = .error Fault.stackOverflow) ∧
    (PhoneNumber.UnmarshalStack stack p d = PhoneNumber.Unmarshal p d ∨
      PhoneNumber.UnmarshalStack stack p d = .error Fault.stackOverflow) := by
  refine ⟨?_, ?_⟩
  · rcases Person_UnmarshalStack_rel stack phoneStack d hlen m with h | ⟨_, h⟩
    · exact Or.inl h
    · exact Or.inr h
  · rcases PhoneNumber_UnmarshalStack_rel stack d hlen p with h | ⟨_, h⟩
    · exact Or.inl h
    · exact Or.inr h

/-! ### Deeply nested groups -/

theorem nestedGroups_length (n : Nat) : (nestedGroups n).length = n := by
  simp [nestedGroups]

theorem getAt_nestedGroups (n : Nat) (i : Int) (h0 : 0 ≤ i) (h1 : i < n) :
    getAt (nestedGroups n) i = .ok 0x2B := by
  unfold getAt nestedGroups
  rw [if_pos h0]
  have h : i.toNat < n := by omega
  rw [List.getElem?_replicate, if_pos h]
  rfl

/-- Every tag of the input is the single byte `0x2B`. -/
theorem varintLoop_nestedGroups (n : Nat) (i : Int) (h0 : 0 ≤ i) (h1 : i < n) :
    varintLoop 64 11 (nestedGroups n) i 0 0 = .ok (0x2B, i + 1) := by
  rw [varintLoop, if_neg (by omega), if_neg (by rw [nestedGroups_length]; omega),
    getAt_nestedGroups n i h0 h1]
  rfl

theorem varintLoop_nestedGroups_end (n : Nat) :
    varintLoop 64 11 (nestedGroups n) n 0 0 = .error Fault.ErrUnexpectedEOF := by
  rw [varintLoop, if_neg (by omega), if_pos (by rw [nestedGroups_length])]
  rfl

theorem sliceFrom_nestedGroups (n : Nat) :
    sliceFrom (nestedGroups (n + 1)) 1 = .ok (nestedGroups n) := by
  unfold sliceFrom
  rw [if_pos ⟨by omega, by rw [nestedGroups_length]; omega⟩]
  simp [nestedGroups, List.replicate_succ]

/-- The group loop at the second tag of the input: one more nested call, whose
outcome it passes on when that is not a count. -/
theorem skipGroupLoop_nestedGroups (skip : List Nat → Res Int) (n fuel : Nat) (e : Fault)
    (h : skip (nestedGroups (n + 1)) = .error e) :
    skipGroupLoop skip (fuel + 1) (nestedGroups (n + 2)) 1 = .error e := by
  rw [skipGroupLoop, varintLoop_nestedGroups (n + 2) 1 (by omega) (by omega)]
  simp only [ok_bind]
  rw [if_neg (by decide), sliceFrom_nestedGroups (n + 1)]
  simp only [ok_bind]
  rw [h]
  rfl

/-- The depth of the recursion: `skipModels` on `n` nested start-group tags
overflows a stack with room for fewer than `n` of its frames. -/
theorem skipModelsStack_nestedGroups (stack : Nat) : ∀ n : Nat, stack < n →
    skipModelsStack stack (nestedGroups n) = .error Fault.stackOverflow := by
  induction stack with
  | zero => intro n _; rfl
  | succ s ih =>
    intro n hn
    obtain ⟨k, rfl⟩ : ∃ k, n = k + 2 := ⟨n - 2, by omega⟩
    rw [skipModelsStack]
    simp only
    rw [if_pos (by rw [nestedGroups_length]; omega),
      varintLoop_nestedGroups (k + 2) 0 (le_refl _) (by omega)]
    simp only [ok_bind]
    rw [if_neg (by decide), if_neg (by decide), if_neg (by decide), if_pos (by decide),
      nestedGroups_length]
    exact skipGroupLoop_nestedGroups _ k _ _ (ih (k + 1) (by omega))

/-- On a stack that never runs out `skipModels` on `n` nested start-group tags
returns `io.ErrUnexpectedEOF`, from the innermost call. -/
theorem skipModelsFuel_nestedGroups (f : Nat) : ∀ n : Nat, 1 ≤ n → n ≤ f →
    skipModelsFuel f (nestedGroups n) = .error Fault.ErrUnexpectedEOF := by
  induction f with
  | zero => intro n h1 h2; omega
  | succ s ih =>
    intro n h1 hn
    obtain ⟨k, rfl⟩ : ∃ k, n = k + 1 := ⟨n - 1, by omega⟩
    rw [skipModelsFuel]
    simp only
    rw [if_pos (by rw [nestedGroups_length]; omega),
      varintLoop_nestedGroups (k + 1) 0 (le_refl _) (by omega)]
    simp only [ok_bind]
    rw [if_neg (by decide), if_neg (by decide), if_neg (by decide), if_pos (by decide),
      nestedGroups_length]
    cases k with
    | zero =>
      rw [skipGroupLoop]
      have := varintLoop_nestedGroups_end 1
      simp only [Nat.cast_one] at this
      simp only [Nat.zero_add, zero_add]
      rw [this]
      rfl
    | succ j => exact skipGroupLoop_nestedGroups _ j _ _ (ih (j + 1) (by omega) (by omega))

/-- With room for the `n` frames `skipModels` returns as on a stack that never
runs out. -/
theorem skipModelsStack_nestedGroups_enough (stack : Nat) : ∀ n : Nat, 1 ≤ n → n ≤ stack →
    skipModelsStack stack (nestedGroups n) = .error Fault.ErrUnexpectedEOF := by
  induction stack with
  | zero => intro n h1 h2; omega
  | succ s ih =>
    intro n h1 hn
    obtain ⟨k, rfl⟩ : ∃ k, n = k + 1 := ⟨n - 1, by omega⟩
    rw [skipModelsStack]
    simp only
    rw [if_pos (by rw [nestedGroups_length]; omega),
      varintLoop_nestedGroups (k + 1) 0 (le_refl _) (by omega)]
    simp only [ok_bind]
    rw [if_neg (by decide), if_neg (by decide), if_neg (by decide), if_pos (by decide),
      nestedGroups_length]
    cases k with
    | zero =>
      rw [skipGroupLoop]
      have := varintLoop_nestedGroups_end 1
      simp only [Nat.cast_one] at this
      simp only [Nat.zero_add, zero_add]
      rw [this]
      rfl
    | succ j => exact skipGroupLoop_nestedGroups _ j _ _ (ih (j + 1) (by omega) (by omega))

/-- The first iteration of the `Person` loop on nested start-group tags hands
the whole input to `skipModels` and passes its outcome on. -/
theorem Person_stepStack_nestedGroups (stack phoneStack n : Nat) (m : Person) (e : Fault)
    (h : skipModelsStack stack (nestedGroups (n + 1)) = .error e) :
    Person.unmarshalStepStack stack phoneStack (nestedGroups (n + 1)) m 0 = .error e := by
  unfold Person.unmarshalStepStack
  rw [varintLoop_nestedGroups (n + 1) 0 (le_refl _) (by omega)]
  simp only [ok_bind]
  have e2 : toInt32 (0x2B >>> 3) = 5 := by decide
  rw [e2, if_neg (by decide), if_neg (by decide), if_neg (by decide), if_neg (by decide),
    if_neg (by decide), if_neg (by decide)]
  have e3 : sliceFrom (nestedGroups (n + 1)) 0 = .ok (nestedGroups (n + 1)) := by
    unfold sliceFrom
    rw [if_pos ⟨le_refl _, by omega⟩]
    rfl
  rw [e3]
  simp only [ok_bind]
  rw [h]
  rfl

theorem PhoneNumber_stepStack_nestedGroups (stack n : Nat) (m : PhoneNumber) (e : Fault)
    (h : skipModelsStack stack (nestedGroups (n + 1)) = .error e) :
    PhoneNumber.unmarshalStepStack stack (nestedGroups (n + 1)) m 0 = .error e := by
  unfold PhoneNumber.unmarshalStepStack
  rw [varintLoop_nestedGroups (n + 1) 0 (le_refl _) (by omega)]
  simp only [ok_bind]
  have e2 : toInt32 (0x2B >>> 3) = 5 := by decide
  rw [e2, if_neg (by decide), if_neg (by decide), if_neg (by decide), if_neg (by decide)]
  have e3 : sliceFrom (nestedGroups (n + 1)) 0 = .ok (nestedGroups (n + 1)) := by
    unfold sliceFrom
    rw [if_pos ⟨le_refl _, by omega⟩]
    rfl
  rw [e3]
  simp only [ok_bind]
  rw [h]
  rfl

theorem Person_step_nestedGroups (n : Nat) (m : Person) (e : Fault)
    (h : skipModels (nestedGroups (n + 1)) = .error e) :
    Person.unmarshalStep (nestedGroups (n + 1)) m 0 = .error e := by
  unfold Person.unmarshalStep
  rw [varintLoop_nestedGroups (n + 1) 0 (le_refl _) (by omega)]
  simp only [ok_bind]
  have e2 : toInt32 (0x2B >>> 3) = 5 := by decide
  rw [e2, if_neg (by decide), if_neg (by decide), if_neg (by decide), if_neg (by decide),
    if_neg (by decide), if_neg (by decide)]
  have e3 : sliceFrom (nestedGroups (n + 1)) 0 = .ok (nestedGroups (n + 1)) := by
    unfold sliceFrom
    rw [if_pos ⟨le_refl _, by omega⟩]
    rfl
  rw [e3]
  simp only [ok_bind]
  rw [h]
  rfl

theorem PhoneNumber_step_nestedGroups (n : Nat) (m : PhoneNumber) (e : Fault)
    (h : skipModels (nestedGroups (n + 1)) = .error e) :
    PhoneNumber.unmarshalStep (nestedGroups (n + 1)) m 0 = .error e := by
  unfold PhoneNumber.unmarshalStep
  rw [varintLoop_nestedGroups (n + 1) 0 (le_refl _) (by omega)]
  simp only [ok_bind]
  have e2 : toInt32 (0x2B >>> 3) = 5 := by decide
  rw [e2, if_neg (by decide), if_neg (by decide), if_neg (by decide), if_neg (by decide)]
  have e3 : sliceFrom (nestedGroups (n + 1)) 0 = .ok (nestedGroups (n + 1)) := by
    unfold sliceFrom
    rw [if_pos ⟨le_refl _, by omega⟩]
    rfl
  rw [e3]
  simp only [ok_bind]
  rw [h]
  rfl

/-- A decode loop whose first iteration fails. -/
theorem loopWith_first_error {α : Type} (step : List Nat → α → Int → Res (α × Int))
    (d : List Nat) (m : α) (e : Fault) (fuel : Nat) (hd : 1 ≤ d.length)
    (h : step d m 0 = .error e) : loopWith step (fuel + 1) d m 0 = .error e := by
  rw [loopWith, if_pos (by omega), h]
  rfl

/-- C7 (total, panic-free decoding), the input on which the code does not
return.  `skipModels` calls itself for every field nested in a group and nothing
bounds the nesting, so on `n` bytes `0x2B` (the start-group tag of the
undeclared field 5, nested `n` deep) it needs `n` frames.  On a goroutine stack
with room for fewer, `skipModels`, `Person.Unmarshal` and
`PhoneNumber.Unmarshal` end in the fatal stack overflow of the runtime, whatever
the receiver: the call does not return success or an error.  With room for the
`n` frames, and on a stack that never runs out, the same calls return
`io.ErrUnexpectedEOF`. -/
theorem C7_failing_input (stack phoneStack n : Nat) (hs : stack < n) (m : Person)
    (p : PhoneNumber) :
    skipModelsStack stack (nestedGroups n) = .error Fault.stackOverflow ∧
    Person.UnmarshalStack stack phoneStack m (nestedGroups n) = .error Fault.stackOverflow ∧
    PhoneNumber.UnmarshalStack stack p (nestedGroups n) = .error Fault.stackOverflow ∧
    Fault.stackOverflow.isError = false ∧
    (∀ s : Nat, n ≤ s →
      Person.UnmarshalStack s phoneStack m (nestedGroups n) = .error Fault.ErrUnexpectedEOF ∧
      PhoneNumber.UnmarshalStack s p (nestedGroups n) = .error Fault.ErrUnexpectedEOF) ∧
    Person.Unmarshal m (nestedGroups n) = .error Fault.ErrUnexpectedEOF ∧
    PhoneNumber.Unmarshal p (nestedGroups n) = .error Fault.ErrUnexpectedEOF := by
  obtain ⟨k, rfl⟩ : ∃ k, n = k + 1 := ⟨n - 1, by omega⟩
  have h1 := skipModelsStack_nestedGroups stack (k + 1) hs
  have h2 : skipModels (nestedGroups (k + 1)) = .error Fault.ErrUnexpectedEOF :=
    skipModelsFuel_nestedGroups _ (k + 1) (by omega) (by rw [nestedGroups_length]; omega)
  have hl : 1 ≤ (nestedGroups (k + 1)).length := by rw [nestedGroups_length]; omega
  refine ⟨h1, ?_, ?_, rfl, ?_, ?_, ?_⟩
  · exact loopWith_first_error _ _ m _ _ hl (Person_stepStack_nestedGroups _ _ k m _ h1)
  · exact loopWith_first_error _ _ p _ _ hl (PhoneNumber_stepStack_nestedGroups _ k p _ h1)
  · intro s hs2
    have h3 := skipModelsStack_nestedGroups_enough s (k + 1) (by omega) hs2
    exact ⟨loopWith_first_error _ _ m _ _ hl (Person_stepStack_nestedGroups _ _ k m _ h3),
      loopWith_first_error _ _ p _ _ hl (PhoneNumber_stepStack_nestedGroups _ k p _ h3)⟩
  · unfold Person.Unmarshal
    rw [Person_unmarshalLoop_eq]
    exact loopWith_first_error _ _ m _ _ hl (Person_step_nestedGroups k m _ h2)
  · unfold PhoneNumber.Unmarshal
    rw [PhoneNumber_unmarshalLoop_eq]
    exact loopWith_first_error _ _ p _ _ hl (PhoneNumber_step_nestedGroups k p _ h2)

theorem C7_failing_input_witness :
    7999999 < 8000000 ∧
    skipModelsStack 7999999 (nestedGroups 8000000) = .error Fault.stackOverflow ∧
    Person.UnmarshalStack 7999999 7999999 Person.zero (nestedGroups 8000000)
      = .error Fault.stackOverflow ∧
    PhoneNumber.UnmarshalStack 7999999 PhoneNumber.zero (nestedGroups 8000000)
      = .error Fault.stackOverflow ∧
    Fault.stackOverflow.isError = false ∧
    (∀ s : Nat, 8000000 ≤ s →
      Person.UnmarshalStack s 7999999 Person.zero (nestedGroups 8000000)
        = .error Fault.ErrUnexpectedEOF ∧
      PhoneNumber.UnmarshalStack s PhoneNumber.zero (nestedGroups 8000000)
        = .error Fault.ErrUnexpectedEOF) ∧
    Person.Unmarshal Person.zero (nestedGroups 8000000) = .error Fault.ErrUnexpectedEOF ∧
    PhoneNumber.Unmarshal PhoneNumber.zero (nestedGroups 8000000)
      = .error Fault.ErrUnexpectedEOF :=
  ⟨by decide, C7_failing_input 7999999 7999999 8000000 (by decide) Person.zero PhoneNumber.zero⟩

end Models
